import Mathlib

/-! # Stones and Rivers agent: a shallow embedding of `student_agent.cpp`

The development follows the source file top to bottom: geometry utilities,
the action enumerator with its river-flow traversal, the state transition and
win test, and the search engine.

Conventions of the embedding.
* `int` coordinates and sizes are `Int`; no value in the program comes
  near the 32-bit range, so no wrap-around is modelled.
* `FastBoard` (`std::vector<std::vector<Piece>>`) is a list of rows.  Reading a
  cell outside the stored grid is undefined in C++; `board_at` returns the
  default (empty) piece there and `board_set` leaves the grid unchanged.
* A coordinate vector `{x, y}` is a pair `(x, y)`; the empty `pushed_to`
  vector is `none`.
* The action tag strings `"move"`, `"push"`, `"flip"`, `"rotate"`, `"none"`
  are the constructors of `ActionKind`.
* The two `while` loops of `explore_river_network` are recursions on a step
  budget; running out of budget is reported as `none`.
-/

namespace StonesRivers

/-! ## Data model -/

inductive Player where
  | NONE
  | SQUARE
  | CIRCLE
deriving DecidableEq

inductive Side where
  | STONE
  | RIVER
deriving DecidableEq

inductive Orientation where
  | NONE
  | HORIZONTAL
  | VERTICAL
deriving DecidableEq

structure Piece where
  player : Player := Player.NONE
  side : Side := Side.STONE
  orientation : Orientation := Orientation.NONE
deriving DecidableEq

def Piece.isEmpty (p : Piece) : Bool := decide (p.player = Player.NONE)

abbrev FastBoard := List (List Piece)

abbrev Cell := Int × Int

/-- Reads `board[y][x]`. -/
def board_at (board : FastBoard) (x y : Int) : Piece :=
  if x < 0 ∨ y < 0 then {} else (board.getD y.toNat []).getD x.toNat {}

/-- Writes `board[y][x] = p`. -/
def board_set (board : FastBoard) (x y : Int) (p : Piece) : FastBoard :=
  if x < 0 ∨ y < 0 then board
  else board.set y.toNat ((board.getD y.toNat []).set x.toNat p)

/-- The grid has `rows` rows of `cols` cells each. -/
def board_shape (board : FastBoard) (rows cols : Int) : Prop :=
  (board.length : Int) = rows ∧ ∀ row ∈ board, (row.length : Int) = cols

/-! ## Geometry utilities -/

def opponent (p : Player) : Player :=
  if p = Player.SQUARE then Player.CIRCLE else Player.SQUARE

def top_score_row : Int := 2

def bottom_score_row (rows : Int) : Int := rows - 3

def get_target_row (player : Player) (rows : Int) : Int :=
  if player = Player.SQUARE then bottom_score_row rows else top_score_row

def get_defense_row (player : Player) (rows : Int) : Int :=
  if player = Player.SQUARE then top_score_row else bottom_score_row rows

def within_board_limits (x y rows cols : Int) : Bool :=
  if x < 0 ∨ y < 0 then false
  else if x ≥ cols ∨ y ≥ rows then false
  else true

def is_player_scoring_slot (x y : Int) (player : Player) (rows _cols : Int)
    (scoring_columns : List Int) : Bool :=
  let scoring_row := get_target_row player rows
  if y ≠ scoring_row then false
  else decide (x ∈ scoring_columns)

def rival_score_area (x y : Int) (player : Player) (rows _cols : Int)
    (score_cols : List Int) : Bool :=
  let target_row := get_defense_row player rows
  decide (y = target_row) && decide (x ∈ score_cols)

def opponent_scoring_areas (player : Player) (rows _cols : Int) (score_cols : List Int) :
    List Cell :=
  let y := get_defense_row player rows
  score_cols.map (fun col => (col, y))

def own_scoring_areas (player : Player) (rows _cols : Int) (score_cols : List Int) :
    List Cell :=
  let y := get_target_row player rows
  score_cols.map (fun col => (col, y))

/-- The value of `*std::max_element`; on the empty list (undefined in C++) it is 0. -/
def max_element : List Int → Int
  | [] => 0
  | c :: cs => cs.foldl (fun best v => if best < v then v else best) c

/-- The value of `*std::min_element`; on the empty list (undefined in C++) it is 0. -/
def min_element : List Int → Int
  | [] => 0
  | c :: cs => cs.foldl (fun best v => if v < best then v else best) c

/-- The function `std::clamp(v, lo, hi)`. -/
def clamp (v lo hi : Int) : Int :=
  if v < lo then lo else if hi < v then hi else v

def distance_to_own_scoring_area (x y : Int) (player : Player) (rows _cols : Int)
    (score_cols : List Int) : Int :=
  let right_bound := max_element score_cols
  let left_bound := min_element score_cols
  let target_x := clamp x left_bound right_bound
  let scoring_y := get_target_row player rows
  |x - target_x| + |y - scoring_y|

/-! ## Actions -/

inductive ActionKind where
  | none
  | move
  | push
  | flip
  | rotate
deriving DecidableEq

structure Move where
  action : ActionKind := ActionKind.none
  from_pos : Cell := (0, 0)
  to_pos : Cell := (0, 0)
  pushed_to : Option Cell := none
  orientation : Option Orientation := none
deriving DecidableEq

/-! ## River-flow traversal -/

/-- Reads `v[i]` of a `std::vector<bool>` (false outside the vector). -/
def vec_get (v : List Bool) (i : Int) : Bool :=
  if i < 0 then false else v.getD i.toNat false

/-- Writes `v[i] = true`. -/
def vec_mark (v : List Bool) (i : Int) : List Bool :=
  if i < 0 then v else v.set i.toNat true

/-- The local variables of `explore_river_network` that the loops update. -/
structure FlowState where
  result : List Cell
  visited_river : List Bool
  visited_dest : List Bool
  to_visit : List Cell

/-- The inner `while (within_board_limits(nx, ny, rows, cols))` loop of
`explore_river_network`, scanning from `(nx, ny)` in direction `(dx, dy)`. -/
def flow_scan (board : FastBoard) (moving_sx moving_sy : Int) (player : Player)
    (rows cols : Int) (score_cols : List Int) (dx dy : Int) :
    Nat → Int → Int → FlowState → Option FlowState
  | 0, _, _, _ => none
  | fuel + 1, nx, ny, st =>
    if within_board_limits nx ny rows cols then
      if rival_score_area nx ny player rows cols score_cols then some st
      else if nx = moving_sx ∧ ny = moving_sy then
        flow_scan board moving_sx moving_sy player rows cols score_cols dx dy fuel
          (nx + dx) (ny + dy) st
      else
        let next_cell := board_at board nx ny
        let flat_idx := ny * cols + nx
        if next_cell.isEmpty then
          if !(vec_get st.visited_dest flat_idx) then
            flow_scan board moving_sx moving_sy player rows cols score_cols dx dy fuel
              (nx + dx) (ny + dy)
              { st with result := st.result ++ [(nx, ny)],
                        visited_dest := vec_mark st.visited_dest flat_idx }
          else
            flow_scan board moving_sx moving_sy player rows cols score_cols dx dy fuel
              (nx + dx) (ny + dy) st
        else if next_cell.side = Side.RIVER then
          if !(vec_get st.visited_river flat_idx) then
            some { st with to_visit := st.to_visit ++ [(nx, ny)],
                           visited_river := vec_mark st.visited_river flat_idx }
          else some st
        else some st
    else some st

/-- The two flow directions of a river cell, in the order the source lists them. -/
def flow_directions (cell : Piece) : Cell × Cell :=
  if cell.orientation = Orientation.HORIZONTAL then ((1, 0), (-1, 0)) else ((0, 1), (0, -1))

/-- The outer `while (!to_visit.empty())` loop of `explore_river_network`. -/
def flow_bfs (board : FastBoard) (start_rx start_ry moving_sx moving_sy : Int)
    (player : Player) (rows cols : Int) (score_cols : List Int) (river_push : Bool)
    (scan_fuel : Nat) : Nat → FlowState → Option (List Cell)
  | 0, _ => none
  | fuel + 1, st =>
    match st.to_visit with
    | [] => some st.result
    | (x, y) :: rest =>
      let st0 : FlowState := { st with to_visit := rest }
      let cell :=
        if river_push = true ∧ x = start_rx ∧ y = start_ry then
          board_at board moving_sx moving_sy
        else board_at board x y
      if cell.isEmpty ∨ cell.side ≠ Side.RIVER then
        flow_bfs board start_rx start_ry moving_sx moving_sy player rows cols score_cols
          river_push scan_fuel fuel st0
      else
        let d := flow_directions cell
        match flow_scan board moving_sx moving_sy player rows cols score_cols d.1.1 d.1.2
            scan_fuel (x + d.1.1) (y + d.1.2) st0 with
        | none => none
        | some st1 =>
          match flow_scan board moving_sx moving_sy player rows cols score_cols d.2.1 d.2.2
              scan_fuel (x + d.2.1) (y + d.2.2) st1 with
          | none => none
          | some st2 =>
            flow_bfs board start_rx start_ry moving_sx moving_sy player rows cols score_cols
              river_push scan_fuel fuel st2

/-- The state of `explore_river_network` before its outer loop. -/
def flow_init (start_rx start_ry rows cols : Int) : FlowState :=
  { result := [],
    visited_river :=
      vec_mark (List.replicate (rows * cols).toNat false) (start_ry * cols + start_rx),
    visited_dest := List.replicate (rows * cols).toNat false,
    to_visit := [(start_rx, start_ry)] }

/-- The traversal with explicit loop budgets. -/
def explore_river_network_steps (board : FastBoard) (start_rx start_ry moving_sx moving_sy : Int)
    (player : Player) (rows cols : Int) (score_cols : List Int) (river_push : Bool)
    (scan_fuel bfs_fuel : Nat) : Option (List Cell) :=
  flow_bfs board start_rx start_ry moving_sx moving_sy player rows cols score_cols river_push
    scan_fuel bfs_fuel (flow_init start_rx start_ry rows cols)

/-- `MoveGenerator::explore_river_network`.  A scan visits at most
`max rows cols` cells before it leaves the grid, and the outer loop pops the
start cell plus at most one entry per grid cell, so the budgets below are never
exhausted on a grid of the given size. -/
def explore_river_network (board : FastBoard) (start_rx start_ry moving_sx moving_sy : Int)
    (player : Player) (rows cols : Int) (score_cols : List Int) (river_push : Bool) :
    List Cell :=
  (explore_river_network_steps board start_rx start_ry moving_sx moving_sy player rows cols
    score_cols river_push ((max rows cols).toNat + 1) ((rows * cols).toNat + 2)).getD []

def calculate_river_push_paths (board : FastBoard) (river_x river_y stone_x stone_y : Int)
    (stone_owner : Player) (rows cols : Int) (score_cols : List Int) : List Cell :=
  explore_river_network board stone_x stone_y river_x river_y stone_owner rows cols score_cols
    true

/-! ## Action enumerator -/

/-- The loop `for (dest : flow) if (rival_score_area(dest)) { safe = false; break; }`. -/
def flow_is_safe (flow : List Cell) (player : Player) (rows cols : Int) (score_cols : List Int) :
    Bool :=
  flow.all (fun dest => !(rival_score_area dest.1 dest.2 player rows cols score_cols))

/-- The first half of `get_actions_for_piece`: flip and rotate. -/
def transformation_actions (board : FastBoard) (x y : Int) (player : Player) (rows cols : Int)
    (score_cols : List Int) : List Move :=
  let piece := board_at board x y
  if piece.side = Side.STONE then
    let temp_board_h :=
      board_set board x y { piece with side := Side.RIVER, orientation := Orientation.HORIZONTAL }
    let flow_h := explore_river_network temp_board_h x y x y player rows cols score_cols false
    let safe_h := flow_is_safe flow_h player rows cols score_cols
    let temp_board_v :=
      board_set board x y { piece with side := Side.RIVER, orientation := Orientation.VERTICAL }
    let flow_v := explore_river_network temp_board_v x y x y player rows cols score_cols false
    let safe_v := flow_is_safe flow_v player rows cols score_cols
    (if safe_h then
      [{ action := ActionKind.flip, from_pos := (x, y), to_pos := (x, y),
         orientation := some Orientation.HORIZONTAL }]
     else []) ++
    (if safe_v then
      [{ action := ActionKind.flip, from_pos := (x, y), to_pos := (x, y),
         orientation := some Orientation.VERTICAL }]
     else [])
  else
    let new_orientation :=
      if piece.orientation = Orientation.HORIZONTAL then Orientation.VERTICAL
      else Orientation.HORIZONTAL
    let temp_board_r := board_set board x y { piece with orientation := new_orientation }
    let flow_r := explore_river_network temp_board_r x y x y player rows cols score_cols false
    let safe_r := flow_is_safe flow_r player rows cols score_cols
    [{ action := ActionKind.flip, from_pos := (x, y), to_pos := (x, y) }] ++
    (if safe_r then [{ action := ActionKind.rotate, from_pos := (x, y), to_pos := (x, y) }]
     else [])

/-- The constant `DIRECTIONS` of `get_actions_for_piece`. -/
def DIRECTIONS : List Cell := [(0, 1), (0, -1), (1, 0), (-1, 0)]

/-- One iteration of the `DIRECTIONS` loop of `get_actions_for_piece`. -/
def displacement_actions (board : FastBoard) (x y : Int) (player : Player) (rows cols : Int)
    (score_cols : List Int) (dir : Cell) : List Move :=
  let piece := board_at board x y
  let next_x := x + dir.1
  let next_y := y + dir.2
  if !(within_board_limits next_x next_y rows cols)
      || rival_score_area next_x next_y player rows cols score_cols then []
  else
    let target_cell := board_at board next_x next_y
    if target_cell.isEmpty then
      [{ action := ActionKind.move, from_pos := (x, y), to_pos := (next_x, next_y) }]
    else if target_cell.side = Side.RIVER then
      let flow_dests :=
        explore_river_network board next_x next_y x y player rows cols score_cols false
      flow_dests.map (fun dest =>
        ({ action := ActionKind.move, from_pos := (x, y), to_pos := dest } : Move))
    else if piece.side = Side.STONE then
      let push_dest_x := next_x + dir.1
      let push_dest_y := next_y + dir.2
      let target_owner := target_cell.player
      if within_board_limits push_dest_x push_dest_y rows cols
          && (board_at board push_dest_x push_dest_y).isEmpty
          && !(rival_score_area push_dest_x push_dest_y target_owner rows cols score_cols) then
        [{ action := ActionKind.push, from_pos := (x, y), to_pos := (next_x, next_y),
           pushed_to := some (push_dest_x, push_dest_y) }]
      else []
    else
      let push_dests :=
        calculate_river_push_paths board x y next_x next_y target_cell.player rows cols
          score_cols
      push_dests.map (fun dest =>
        ({ action := ActionKind.push, from_pos := (x, y), to_pos := (next_x, next_y),
           pushed_to := some dest } : Move))

/-- `MoveGenerator::get_actions_for_piece`: the actions it appends to `moves_list`. -/
def get_actions_for_piece (board : FastBoard) (x y : Int) (player : Player) (rows cols : Int)
    (score_cols : List Int) : List Move :=
  transformation_actions board x y player rows cols score_cols ++
    DIRECTIONS.flatMap (displacement_actions board x y player rows cols score_cols)

/-- The index values of `for (int i = 0; i < n; ++i)`. -/
def int_range (n : Int) : List Int :=
  (List.range n.toNat).map (fun (i : Nat) => (i : Int))

/-- `MoveGenerator::calculate_possible_actions`. -/
def calculate_possible_actions (board : FastBoard) (player : Player) (rows cols : Int)
    (score_cols : List Int) : List Move :=
  (int_range rows).flatMap (fun y =>
    (int_range cols).flatMap (fun x =>
      let piece := board_at board x y
      if !piece.isEmpty && decide (piece.player = player) then
        get_actions_for_piece board x y player rows cols score_cols
      else []))

/-! ## State transition and win test -/

/-- `BoardSimulator::get_next_board_state`. -/
def get_next_board_state (board : FastBoard) (move : Move) : FastBoard :=
  let fx := move.from_pos.1
  let fy := move.from_pos.2
  match move.action with
  | ActionKind.flip =>
    let p := board_at board fx fy
    if p.side = Side.STONE then
      let o :=
        match move.orientation with
        | some s => if s = Orientation.HORIZONTAL then Orientation.HORIZONTAL
                    else Orientation.VERTICAL
        | none => Orientation.HORIZONTAL
      board_set board fx fy { p with side := Side.RIVER, orientation := o }
    else
      board_set board fx fy { p with side := Side.STONE, orientation := Orientation.NONE }
  | ActionKind.rotate =>
    let p := board_at board fx fy
    board_set board fx fy
      { p with orientation :=
          if p.orientation = Orientation.HORIZONTAL then Orientation.VERTICAL
          else Orientation.HORIZONTAL }
  | ActionKind.move =>
    let s1 := board_set board move.to_pos.1 move.to_pos.2 (board_at board fx fy)
    board_set s1 fx fy {}
  | ActionKind.push =>
    let s1 :=
      match move.pushed_to with
      | some pt => board_set board pt.1 pt.2 (board_at board move.to_pos.1 move.to_pos.2)
      | none => board
    let s2 := board_set s1 move.to_pos.1 move.to_pos.2 (board_at s1 fx fy)
    board_set s2 fx fy {}
  | ActionKind.none => board_set board fx fy {}

/-- A Stone of `owner`: the test applied to each goal cell by `is_win_state`. -/
def is_stone_of (owner : Player) (cell : Piece) : Bool :=
  !cell.isEmpty && decide (cell.player = owner) && decide (cell.side = Side.STONE)

/-- The loop of `is_win_state` over the remaining scoring columns, with the two
counters and the constant `score_cols.size()`. -/
def win_scan (board : FastBoard) (rows : Int) (size : Nat) :
    List Int → Nat → Nat → Bool
  | [], _, _ => false
  | x :: rest, circle_score, square_score =>
    let top_cell := board_at board x top_score_row
    let circle_score' :=
      if is_stone_of Player.CIRCLE top_cell then circle_score + 1 else circle_score
    if is_stone_of Player.CIRCLE top_cell ∧ circle_score' ≥ size then true
    else
      let bottom_cell := board_at board x (bottom_score_row rows)
      let square_score' :=
        if is_stone_of Player.SQUARE bottom_cell then square_score + 1 else square_score
      if is_stone_of Player.SQUARE bottom_cell ∧ square_score' ≥ size then true
      else win_scan board rows size rest circle_score' square_score'

/-- `BoardSimulator::is_win_state`. -/
def is_win_state (board : FastBoard) (rows _cols : Int) (score_cols : List Int) : Bool :=
  win_scan board rows score_cols.length score_cols 0 0

/-- What `explore_river_network` guarantees of a destination. -/
def flow_dest_ok (board : FastBoard) (player : Player) (rows cols : Int)
    (score_cols : List Int) (d : Cell) : Prop :=
  within_board_limits d.1 d.2 rows cols = true ∧ (board_at board d.1 d.2).isEmpty = true ∧
    rival_score_area d.1 d.2 player rows cols score_cols = false


/-! ## Double-precision arithmetic of the evaluator

The evaluator multiplies `int` scores by `double` weights, adds the products and converts
the sum back to `int`.  A finite `double` is kept as the exact number `m * 2^e`; product and
sum are rounded to 53 significant bits, ties to even (IEEE-754 binary64 in its normal range;
overflow, subnormals and fused multiply-add are not modelled). -/

/-- The finite `double` with value `m * 2^e`. -/
structure Dbl where
  m : Int
  e : Int
deriving DecidableEq

/-- Number of binary digits of `n`, by repeated halving with budget `fuel`. -/
def bit_length_aux : Nat → Nat → Nat
  | 0, _ => 0
  | fuel + 1, n => if n = 0 then 0 else bit_length_aux fuel (n / 2) + 1

/-- Number of binary digits of `n`. -/
def bit_length (n : Nat) : Nat := bit_length_aux n n

/-- Rounds the exact value `m * 2^e` to the nearest `double`, ties to even. -/
def Dbl.round (m e : Int) : Dbl :=
  let n := m.natAbs
  let bits := bit_length n
  if bits ≤ 53 then { m := m, e := e }
  else
    let k := bits - 53
    let q := n / 2 ^ k
    let r := n % 2 ^ k
    let half := 2 ^ (k - 1)
    let q' := if r > half ∨ (r = half ∧ q % 2 = 1) then q + 1 else q
    { m := if m < 0 then -(q' : Int) else (q' : Int), e := e + (k : Int) }

/-- Conversion `int -> double`. -/
def Dbl.ofInt (n : Int) : Dbl := Dbl.round n 0

/-- The `double` product `a * b`. -/
def Dbl.mul (a b : Dbl) : Dbl := Dbl.round (a.m * b.m) (a.e + b.e)

/-- The `double` sum `a + b`. -/
def Dbl.add (a b : Dbl) : Dbl :=
  let e := min a.e b.e
  Dbl.round (a.m * 2 ^ (a.e - e).toNat + b.m * 2 ^ (b.e - e).toNat) e

/-- Conversion `double -> int` (truncation toward zero).  The result is not reduced to the
range of `int`: a value outside that range, where the conversion of the program is
undefined, is kept as it is. -/
def Dbl.toInt (a : Dbl) : Int :=
  if 0 ≤ a.e then a.m * 2 ^ a.e.toNat else Int.tdiv a.m (2 ^ (-a.e).toNat)

/-- The literal `1.0`. -/
def dbl_1_0 : Dbl := { m := 1, e := 0 }
/-- The literal `2.0`. -/
def dbl_2_0 : Dbl := { m := 2, e := 0 }
/-- The literal `3.0`. -/
def dbl_3_0 : Dbl := { m := 3, e := 0 }
/-- The literal `6.0`. -/
def dbl_6_0 : Dbl := { m := 6, e := 0 }
/-- The literal `10.0`. -/
def dbl_10_0 : Dbl := { m := 10, e := 0 }
/-- The literal `1.2`, the double 5404319552844595 / 2^52. -/
def dbl_1_2 : Dbl := { m := 5404319552844595, e := -52 }
/-- The literal `-2.60`, the double -5854679515581645 / 2^51. -/
def dbl_neg_2_6 : Dbl := { m := -5854679515581645, e := -51 }
/-- The literal `-2.40`, the double -5404319552844595 / 2^51. -/
def dbl_neg_2_4 : Dbl := { m := -5404319552844595, e := -51 }
/-- The literal `-2.3`, the double -2589569785738035 / 2^50. -/
def dbl_neg_2_3 : Dbl := { m := -2589569785738035, e := -50 }
/-- The literal `3.2`, the double 3602879701896397 / 2^50. -/
def dbl_3_2 : Dbl := { m := 3602879701896397, e := -50 }
/-- The literal `0.9`, the double 8106479329266893 / 2^53. -/
def dbl_0_9 : Dbl := { m := 8106479329266893, e := -53 }

/-- The expression `static_cast<int>(friendly_weight * a + opponent_weight * b)` shared by
the attack and river terms. -/
def weighted_sum (friendly_weight opponent_weight : Dbl) (a b : Int) : Int :=
  Dbl.toInt (Dbl.add (Dbl.mul friendly_weight (Dbl.ofInt a))
    (Dbl.mul opponent_weight (Dbl.ofInt b)))

/-! ## Positional evaluator -/

/-- The table `distancePowerMap`. -/
def distancePowerMap : List (Int × Int) :=
  [(0, 1), (1, 3), (2, 8), (3, 20), (4, 50), (5, 250), (6, 500), (7, 1000), (8, 2000),
   (9, 4000), (10, 8000), (11, 10000), (12, 16000)]

/-- The cells of the grid in the order of the loops `for y` / `for x`. -/
def grid_cells (rows cols : Int) : List Cell :=
  (int_range rows).flatMap (fun y => (int_range cols).map (fun x => (x, y)))

/-- The value `score_contribution` that `evaluate_top_pieces_proximity` gives to a piece of
form `side` at distance `dist` from its owner's goal. -/
def proximity_contribution (side : Side) (dist : Int) : Int :=
  if dist = 0 then (if side = Side.STONE then 50000 else 20000)
  else if dist = 1 then 2000
  else if dist = 2 then 1000
  else if dist = 3 then 500
  else if dist < 8 then (10 - dist) * 10
  else 0

/-- The sums `friendly_score` and `opponent_score` of `evaluate_top_pieces_proximity`
(sums of `int` values, exact in `double`). -/
def proximity_scores (board : FastBoard) (player : Player) (rows cols : Int)
    (score_cols : List Int) : Int × Int :=
  (grid_cells rows cols).foldl (fun acc c =>
    let cell := board_at board c.1 c.2
    if cell.isEmpty then acc
    else
      let piece_owner := cell.player
      let dist := distance_to_own_scoring_area c.1 c.2 piece_owner rows cols score_cols
      let score_contribution := proximity_contribution cell.side dist
      if piece_owner = player then (acc.1 + score_contribution, acc.2)
      else (acc.1, acc.2 + score_contribution)) (0, 0)

/-- `AttackManager::evaluate_top_pieces_proximity`. -/
def evaluate_top_pieces_proximity (board : FastBoard) (player : Player) (rows cols : Int)
    (score_cols : List Int) (friendly_weight opponent_weight : Dbl) : Int :=
  let s := proximity_scores board player rows cols score_cols
  weighted_sum friendly_weight opponent_weight s.1 s.2

/-- `DefenseManager::penalty_for_blocked_score_zone`. -/
def penalty_for_blocked_score_zone (board : FastBoard) (player : Player) (rows cols : Int)
    (score_cols : List Int) : Int :=
  (own_scoring_areas player rows cols score_cols).foldl (fun penalty cell_coords =>
    let cell := board_at board cell_coords.1 cell_coords.2
    if !cell.isEmpty && decide (cell.player = player) && decide (cell.side = Side.RIVER) then
      penalty - 10000
    else penalty) 0

/-- The neighbour counters of one river cell in `evaluate_river_system_potential`. -/
structure NearCount where
  friendly_stones_near : Int := 0
  opponent_stones_near : Int := 0
  friendly_stone_pos : Cell := (-1, -1)
  opponent_stone_pos : Cell := (-1, -1)

/-- The neighbour loop of `evaluate_river_system_potential` at the river cell `(x, y)`. -/
def count_near (board : FastBoard) (x y : Int) (player : Player) (rows cols : Int)
    (score_cols : List Int) : NearCount :=
  ([(1, 0), (-1, 0), (0, 1), (0, -1)] : List Cell).foldl (fun acc d =>
    let adj_x := x + d.1
    let adj_y := y + d.2
    if !(within_board_limits adj_x adj_y rows cols) then acc
    else if is_player_scoring_slot x y player rows cols score_cols
        || rival_score_area x y player rows cols score_cols then acc
    else
      let adj_cell := board_at board adj_x adj_y
      if adj_cell.isEmpty || is_player_scoring_slot adj_x adj_y player rows cols score_cols
          || rival_score_area adj_x adj_y player rows cols score_cols then acc
      else if adj_cell.player = player then
        { acc with
          friendly_stones_near := acc.friendly_stones_near + 1,
          friendly_stone_pos :=
            if acc.friendly_stone_pos.1 = -1 then (adj_x, adj_y) else acc.friendly_stone_pos }
      else
        { acc with
          opponent_stones_near := acc.opponent_stones_near + 1,
          opponent_stone_pos :=
            if acc.opponent_stone_pos.1 = -1 then (adj_x, adj_y) else acc.opponent_stone_pos })
    {}

/-- The loop computing `best_potential_score` over the flow destinations. -/
def best_potential (destinations : List Cell) (player : Player) (rows cols : Int)
    (score_cols : List Int) (max_river_distance : Int) : Int :=
  destinations.foldl (fun best dest =>
    let distance :=
      clamp (distance_to_own_scoring_area dest.1 dest.2 player rows cols score_cols) 0
        max_river_distance
    max best (max_river_distance - distance)) 0

/-- The sums `friendly_score_component` and `opponent_score_component` of
`evaluate_river_system_potential`. -/
def river_components (board : FastBoard) (player : Player) (rows cols : Int)
    (score_cols : List Int) : Int × Int :=
  let opponent_player := opponent player
  (grid_cells rows cols).foldl (fun acc c =>
    let x := c.1
    let y := c.2
    let cell := board_at board x y
    if cell.isEmpty || decide (cell.side ≠ Side.RIVER) then acc
    else
      let near := count_near board x y player rows cols score_cols
      let max_river_distance : Int := if rows ≥ 17 then 10 else if rows ≥ 15 then 8 else 4
      let friendly :=
        if near.friendly_stones_near > 0 then
          let destinations :=
            explore_river_network board x y near.friendly_stone_pos.1 near.friendly_stone_pos.2
              player rows cols score_cols false
          acc.1 + best_potential destinations player rows cols score_cols max_river_distance
            * near.friendly_stones_near
        else acc.1
      let opp :=
        if near.opponent_stones_near > 0 then
          let opp_destinations :=
            explore_river_network board x y near.opponent_stone_pos.1 near.opponent_stone_pos.2
              opponent_player rows cols score_cols false
          acc.2 + best_potential opp_destinations opponent_player rows cols score_cols
            max_river_distance * near.opponent_stones_near
        else acc.2
      (friendly, opp)) (0, 0)

/-- `RiverNetworkManager::evaluate_river_system_potential`. -/
def evaluate_river_system_potential (board : FastBoard) (player : Player) (rows cols : Int)
    (score_cols : List Int) (friendly_weight opponent_weight : Dbl) : Int :=
  let s := river_components board player rows cols score_cols
  weighted_sum friendly_weight opponent_weight s.1 s.2

/-- The constant `max_dist` of `evaluate_river_highway_potential`. -/
def highway_max_dist (rows : Int) : Int := if rows ≥ 17 then 10 else if rows ≥ 15 then 8 else 6

/-- `TacticalEvaluator::evaluate_river_highway_potential`. -/
def evaluate_river_highway_potential (board : FastBoard) (player : Player) (rows cols : Int)
    (score_cols : List Int) : Int :=
  let max_dist : Int := highway_max_dist rows
  (grid_cells rows cols).foldl (fun highway_score c =>
    let x := c.1
    let y := c.2
    let cell := board_at board x y
    if cell.isEmpty || decide (cell.player ≠ player) || decide (cell.side ≠ Side.RIVER) then
      highway_score
    else
      let destinations := explore_river_network board x y x y player rows cols score_cols false
      if destinations = [] then highway_score
      else
        let best_dist := destinations.foldl (fun best dest =>
          min best (distance_to_own_scoring_area dest.1 dest.2 player rows cols score_cols)) 99
        if best_dist ≠ 99 then
          let score_contribution := max_dist - best_dist
          match distancePowerMap.lookup score_contribution with
          | some power => highway_score + Int.tdiv power 2
          | none => highway_score
        else highway_score) 0

/-- `TacticalEvaluator::get_adjacent_to_scoring_zone`. -/
def get_adjacent_to_scoring_zone (player : Player) (rows cols : Int) (score_cols : List Int) :
    List Cell :=
  let scoring_row := get_target_row player rows
  let left_col := min_element score_cols
  let right_col := max_element score_cols
  let span := (int_range (right_col - left_col + 1)).map (fun i => left_col + i)
  (if scoring_row - 1 ≥ 0 then span.map (fun x => (x, scoring_row - 1)) else []) ++
  (if scoring_row + 1 < rows then span.map (fun x => (x, scoring_row + 1)) else []) ++
  (if left_col - 1 ≥ 0 then [(left_col - 1, scoring_row)] else []) ++
  (if right_col + 1 < cols then [(right_col + 1, scoring_row)] else [])

/-- `TacticalEvaluator::calculate_near_win_bonus`. -/
def calculate_near_win_bonus (board : FastBoard) (player : Player) (rows cols : Int)
    (score_cols : List Int) : Int :=
  let my_scoring_cells := own_scoring_areas player rows cols score_cols
  let scan : Int × Cell := my_scoring_cells.foldl (fun acc cell_coords =>
    let cell := board_at board cell_coords.1 cell_coords.2
    if cell.isEmpty then (acc.1, cell_coords)
    else if cell.player = player ∧ cell.side = Side.STONE then (acc.1 + 1, acc.2)
    else acc) (0, (-1, -1))
  let pieces_in_goal := scan.1
  let empty_goal_cell := scan.2
  if pieces_in_goal < 3 ∨ empty_goal_cell.1 = -1 then 0
  else
    let adjacent_positions := get_adjacent_to_scoring_zone player rows cols score_cols
    let BASE_VALUE : Int := if rows ≥ 17 then 10000 else if rows ≥ 15 then 7000 else 5000
    let DECAY : Int := if rows ≥ 17 then 1500 else if rows ≥ 15 then 1200 else 1000
    adjacent_positions.foldl (fun best_bonus adj_pos =>
      let cell := board_at board adj_pos.1 adj_pos.2
      if cell.isEmpty || decide (cell.player ≠ player) then best_bonus
      else
        let manhattan_dist := |empty_goal_cell.1 - adj_pos.1| + |empty_goal_cell.2 - adj_pos.2|
        let bonus := max 0 (BASE_VALUE - manhattan_dist * DECAY)
        max best_bonus bonus) 0

/-- The members `friendly_component_weight` and `opponent_component_weight` of
`TacticalEvaluator`. -/
structure TacticalEvaluator where
  friendly_component_weight : Dbl
  opponent_component_weight : Dbl

/-- The multipliers `local_friendly` and `local_opponent` of the method
`"Final_Evaluation"`: the configured ones on large boards, fixed ones otherwise. -/
def local_weights (ev : TacticalEvaluator) (rows : Int) : Dbl × Dbl :=
  if rows ≥ 17 then (ev.friendly_component_weight, ev.opponent_component_weight)
  else if rows ≥ 15 then (dbl_1_0, dbl_neg_2_4)
  else (dbl_1_2, dbl_neg_2_6)

/-- The final expression of the method `"Final_Evaluation"`,
`attack_weight * attack_score + river_weight * river_score + defense_weight *
defense_penalty + highway_potential_score + 0.9 * near_win_bonus`, with the conversion of
this `double` to the `int` result type of the registry. -/
def combine_scores (rows : Int) (attack_score river_score defense_penalty
    highway_potential_score near_win_bonus : Int) : Int :=
  let attack_weight := if rows ≥ 17 then dbl_6_0 else dbl_2_0
  let river_weight := if rows ≥ 17 then dbl_10_0 else if rows ≥ 15 then dbl_3_0 else dbl_2_0
  let defense_weight := if rows ≥ 17 then dbl_2_0 else if rows ≥ 15 then dbl_2_0 else dbl_3_2
  Dbl.toInt
    (Dbl.add
      (Dbl.add
        (Dbl.add
          (Dbl.add (Dbl.mul attack_weight (Dbl.ofInt attack_score))
            (Dbl.mul river_weight (Dbl.ofInt river_score)))
          (Dbl.mul defense_weight (Dbl.ofInt defense_penalty)))
        (Dbl.ofInt highway_potential_score))
      (Dbl.mul dbl_0_9 (Dbl.ofInt near_win_bonus)))

/-- The method registered as `"Final_Evaluation"`. -/
def Final_Evaluation (ev : TacticalEvaluator) (board : FastBoard) (player : Player)
    (rows cols : Int) (score_cols : List Int) : Int :=
  let local_friendly := (local_weights ev rows).1
  let local_opponent := (local_weights ev rows).2
  let attack_score :=
    evaluate_top_pieces_proximity board player rows cols score_cols local_friendly local_opponent
  let river_score :=
    evaluate_river_system_potential board player rows cols score_cols local_friendly
      local_opponent
  let defense_penalty := penalty_for_blocked_score_zone board player rows cols score_cols
  let near_win_bonus := calculate_near_win_bonus board player rows cols score_cols
  let highway_potential_score :=
    evaluate_river_highway_potential board player rows cols score_cols
  combine_scores rows attack_score river_score defense_penalty highway_potential_score
    near_win_bonus

/-! ## Search engine -/

/-- A `double` score of the search: every finite score is the `int` result of the evaluator
(or the constant -500000000.0), next to the two infinities used as window bounds. -/
inductive Score where
  | neg_inf
  | val (v : Int)
  | pos_inf
deriving DecidableEq

/-- The comparison `a < b` on scores. -/
def Score.lt : Score → Score → Bool
  | Score.neg_inf, Score.neg_inf => false
  | Score.neg_inf, _ => true
  | Score.val _, Score.neg_inf => false
  | Score.val a, Score.val b => decide (a < b)
  | Score.val _, Score.pos_inf => true
  | Score.pos_inf, _ => false

/-- The comparison `a >= b` on scores. -/
def Score.ge (a b : Score) : Bool := !(a.lt b)

/-- The comparison `a <= b` on scores. -/
def Score.le (a b : Score) : Bool := !(b.lt a)

/-- The function `std::max(a, b)`. -/
def score_max (a b : Score) : Score := if a.lt b then b else a

/-- The function `std::min(a, b)`. -/
def score_min (a b : Score) : Score := if b.lt a then b else a

inductive TTFlag where
  | EXACT
  | LOWER_BOUND
  | UPPER_BOUND
deriving DecidableEq

structure TTEntry where
  score : Score
  depth : Nat
  flag : TTFlag
deriving DecidableEq

/-- The map `transposition_table` from fingerprints to entries. -/
abbrev TranspositionTable := Nat → Option TTEntry

/-- The table after `transposition_table.clear()`. -/
def tt_empty : TranspositionTable := fun _ => none

/-- The assignment `transposition_table[hash] = entry`. -/
def tt_store (tt : TranspositionTable) (hash : Nat) (entry : TTEntry) : TranspositionTable :=
  fun h => if h = hash then some entry else tt h

/-- The members of the agent and of its `SearchManager` that the search reads: the side
of the engine, the Zobrist keys drawn at construction, and the registered evaluation method
`heuristic_methods["Final_Evaluation"]` (an `int`-valued function object). -/
structure SearchContext where
  side_ : Player
  zobrist_table : Nat → Nat → Nat → Nat
  zobrist_turn_key : Nat
  heuristic : FastBoard → Player → Int → Int → List Int → Int

/-- The member `agent.opp_side_`, set to `opponent(side_)` by the constructor. -/
def SearchContext.opp_side_ (ctx : SearchContext) : Player := opponent ctx.side_

/-- `SearchManager::get_piece_index`. -/
def get_piece_index (piece : Piece) : Nat :=
  if piece.isEmpty then 0
  else if piece.player = Player.SQUARE then
    if piece.side = Side.STONE then 1
    else if piece.orientation = Orientation.HORIZONTAL then 2
    else 3
  else
    if piece.side = Side.STONE then 4
    else if piece.orientation = Orientation.HORIZONTAL then 5
    else 6

/-- `SearchManager::compute_hash`.  The key array of the program has 17 x 16 x 7 entries;
the embedding takes the keys as a function of the three indices, so it also gives a
fingerprint on a grid of more than 17 rows or 16 columns, where the program reads outside
the array. -/
def compute_hash (ctx : SearchContext) (board : FastBoard) (player : Player) (rows cols : Int) :
    Nat :=
  let hash :=
    (int_range rows).foldl (fun h y =>
      (int_range cols).foldl (fun h' x =>
        h' ^^^ ctx.zobrist_table y.toNat x.toNat (get_piece_index (board_at board x y))) h) 0
  if player = ctx.opp_side_ then hash ^^^ ctx.zobrist_turn_key else hash

/-- The call `agent.heuristic_evaluator.evaluate_board_state(board, agent.side_, ...)` with
the default method, converted to `double`. -/
def static_score (ctx : SearchContext) (board : FastBoard) (rows cols : Int)
    (score_cols : List Int) : Score :=
  Score.val (ctx.heuristic board ctx.side_ rows cols score_cols)

structure ScoredMove where
  move : Move
  score : Score
deriving DecidableEq

/-- Outcome of the table lookup at the head of `alpha_beta_search`: an early return, or
the window to go on with. -/
inductive TTProbe where
  | hit (score : Score)
  | window (alpha beta : Score)

/-- The block `TT LOOKUP` of `alpha_beta_search`. -/
def tt_probe (tt : TranspositionTable) (hash : Nat) (depth : Nat) (alpha beta : Score) :
    TTProbe :=
  match tt hash with
  | none => TTProbe.window alpha beta
  | some entry =>
    if entry.depth ≥ depth then
      if entry.flag = TTFlag.EXACT then TTProbe.hit entry.score
      else
        let alpha' := if entry.flag = TTFlag.LOWER_BOUND then score_max alpha entry.score else alpha
        let beta' := if entry.flag = TTFlag.UPPER_BOUND then score_min beta entry.score else beta
        if alpha'.ge beta' then TTProbe.hit entry.score else TTProbe.window alpha' beta'
    else TTProbe.window alpha beta

/-- The maximizing loop of `alpha_beta_search` over the remaining moves; it returns
`max_score`, the final `alpha` and the table. -/
def max_loop (child_search : TranspositionTable → FastBoard → Score → Score → Player →
      Score × TranspositionTable)
    (board : FastBoard) (beta : Score) (next_player : Player) :
    List Move → TranspositionTable → Score → Score → Score × Score × TranspositionTable
  | [], tt, alpha, max_score => (max_score, alpha, tt)
  | move :: rest, tt, alpha, max_score =>
    let next_board := get_next_board_state board move
    let r := child_search tt next_board alpha beta next_player
    let max_score' := score_max max_score r.1
    let alpha' := score_max alpha max_score'
    if alpha'.ge beta then (max_score', alpha', r.2)
    else max_loop child_search board beta next_player rest r.2 alpha' max_score'

/-- The minimizing loop of `alpha_beta_search` over the remaining moves; it returns
`min_score`, the final `beta` and the table. -/
def min_loop (child_search : TranspositionTable → FastBoard → Score → Score → Player →
      Score × TranspositionTable)
    (board : FastBoard) (alpha : Score) (next_player : Player) :
    List Move → TranspositionTable → Score → Score → Score × Score × TranspositionTable
  | [], tt, beta, min_score => (min_score, beta, tt)
  | move :: rest, tt, beta, min_score =>
    let next_board := get_next_board_state board move
    let r := child_search tt next_board alpha beta next_player
    let min_score' := score_min min_score r.1
    let beta' := score_min beta min_score'
    if beta'.le alpha then (min_score', beta', r.2)
    else min_loop child_search board alpha next_player rest r.2 beta' min_score'

/-- The comparator of the move-ordering sort inside `alpha_beta_search`. -/
def quick_order (is_maximizing_player : Bool) (a b : ScoredMove) : Prop :=
  (if is_maximizing_player then b.score.lt a.score else a.score.lt b.score) = true

instance (is_maximizing_player : Bool) : DecidableRel (quick_order is_maximizing_player) :=
  fun _ _ => inferInstanceAs (Decidable (_ = true))

/-- The move-ordering block of `alpha_beta_search`.  `std::sort` leaves the relative order
of equally scored moves open; the embedding keeps such moves in the order they had before,
which is what the insertion sort that `std::sort` of libstdc++ runs on a range of at most 16
elements does. -/
def order_moves (ctx : SearchContext) (board : FastBoard) (rows cols : Int)
    (score_cols : List Int) (is_maximizing_player : Bool) (possible_moves : List Move) :
    List Move :=
  let quickly_scored_moves : List ScoredMove :=
    possible_moves.map (fun move =>
      { move := move,
        score := static_score ctx (get_next_board_state board move) rows cols score_cols })
  (quickly_scored_moves.insertionSort
      (fun a b => ¬ quick_order is_maximizing_player b a)).map
    (fun scored_move => scored_move.move)

/-- The body of `alpha_beta_search` at remaining depth `depth`, with the recursive call on
depth `depth - 1` passed in as `child_search`. -/
def search_node (ctx : SearchContext) (rows cols : Int) (score_cols : List Int)
    (position_history : List Nat)
    (child_search : TranspositionTable → FastBoard → Score → Score → Player →
      Score × TranspositionTable)
    (depth : Nat) (tt : TranspositionTable) (board_state : FastBoard) (alpha beta : Score)
    (current_player : Player) : Score × TranspositionTable :=
  let original_alpha := alpha
  let hash := compute_hash ctx board_state current_player rows cols
  if hash ∈ position_history then (Score.val (-500000000), tt)
  else
    match tt_probe tt hash depth alpha beta with
    | TTProbe.hit score => (score, tt)
    | TTProbe.window alpha beta =>
      if is_win_state board_state rows cols score_cols = true ∨ depth = 0 then
        let score := static_score ctx board_state rows cols score_cols
        (score, tt_store tt hash { score := score, depth := depth, flag := TTFlag.EXACT })
      else
        let possible_moves :=
          calculate_possible_actions board_state current_player rows cols score_cols
        if possible_moves = [] then
          let score := static_score ctx board_state rows cols score_cols
          (score, tt_store tt hash { score := score, depth := depth, flag := TTFlag.EXACT })
        else
          let is_maximizing_player := decide (current_player = ctx.side_)
          let possible_moves :=
            if depth > 1 ∧ possible_moves.length > 1 then
              order_moves ctx board_state rows cols score_cols is_maximizing_player
                possible_moves
            else possible_moves
          let next_player := opponent current_player
          if is_maximizing_player then
            let r := max_loop child_search board_state beta next_player possible_moves tt alpha
              Score.neg_inf
            let score_to_store := r.1
            let flag :=
              if score_to_store.le original_alpha then TTFlag.UPPER_BOUND
              else if score_to_store.ge beta then TTFlag.LOWER_BOUND
              else TTFlag.EXACT
            (score_to_store,
              tt_store r.2.2 hash { score := score_to_store, depth := depth, flag := flag })
          else
            let r := min_loop child_search board_state alpha next_player possible_moves tt beta
              Score.pos_inf
            let score_to_store := r.1
            let beta := r.2.1
            let flag :=
              if score_to_store.le original_alpha then TTFlag.UPPER_BOUND
              else if score_to_store.ge beta then TTFlag.LOWER_BOUND
              else TTFlag.EXACT
            (score_to_store,
              tt_store r.2.2 hash { score := score_to_store, depth := depth, flag := flag })

/-- `SearchManager::alpha_beta_search`; it returns the score and the transposition table
after the call.  Remaining depth is never negative in the program, so it is a `Nat`. -/
def alpha_beta_search (ctx : SearchContext) (rows cols : Int) (score_cols : List Int)
    (position_history : List Nat) :
    Nat → TranspositionTable → FastBoard → Score → Score → Player →
      Score × TranspositionTable
  | 0 =>
    search_node ctx rows cols score_cols position_history
      (fun tt _ _ _ _ => (Score.neg_inf, tt)) 0
  | depth + 1 =>
    search_node ctx rows cols score_cols position_history
      (alpha_beta_search ctx rows cols score_cols position_history depth) (depth + 1)

/-- The lambda `find_score` of `find_best_move`: the score the previous depth gave to the
first evaluated move with the same source, destination and action tag. -/
def find_score (evaluated_moves : List ScoredMove) (m : Move) : Score :=
  match evaluated_moves.find? (fun em =>
      decide (em.move.from_pos = m.from_pos) && decide (em.move.to_pos = m.to_pos)
        && decide (em.move.action = m.action)) with
  | some em => em.score
  | none => Score.neg_inf

/-- The comparator of the root sort of `find_best_move`. -/
def root_order (evaluated_moves : List ScoredMove) (a b : Move) : Prop :=
  (find_score evaluated_moves b).lt (find_score evaluated_moves a) = true

instance (evaluated_moves : List ScoredMove) : DecidableRel (root_order evaluated_moves) :=
  fun _ _ => inferInstanceAs (Decidable (_ = true))

/-- The variables of one depth iteration of `find_best_move`, together with the table and
the number of clock readings compared with the time allowance so far. -/
structure RootLoopState where
  top_score : Score
  current_depth_best_moves : List Move
  evaluated_moves : List ScoredMove
  tt : TranspositionTable
  tick : Nat

/-- The loop `for (const auto& move : legal_moves)` of `find_best_move` at iteration
`depth`.  `clock i` tells whether the i-th comparison `elapsed > time_allowance` of the
call is true.  The Boolean result is `did_depth_complete`. -/
def root_loop (ctx : SearchContext) (rows cols : Int) (score_cols : List Int)
    (position_history : List Nat) (clock : Nat → Bool) (board : FastBoard) (depth : Nat) :
    List Move → RootLoopState → RootLoopState × Bool
  | [], st => (st, true)
  | move :: rest, st =>
    let next_board := get_next_board_state board move
    let r := alpha_beta_search ctx rows cols score_cols position_history (depth - 1) st.tt
      next_board st.top_score Score.pos_inf ctx.opp_side_
    let final_move_score := r.1
    let evaluated_moves := st.evaluated_moves ++ [{ move := move, score := final_move_score }]
    let st1 : RootLoopState :=
      if st.top_score.lt final_move_score then
        { top_score := final_move_score, current_depth_best_moves := [move],
          evaluated_moves := evaluated_moves, tt := r.2, tick := st.tick + 1 }
      else if final_move_score = st.top_score then
        { top_score := st.top_score,
          current_depth_best_moves := st.current_depth_best_moves ++ [move],
          evaluated_moves := evaluated_moves, tt := r.2, tick := st.tick + 1 }
      else
        { top_score := st.top_score, current_depth_best_moves := st.current_depth_best_moves,
          evaluated_moves := evaluated_moves, tt := r.2, tick := st.tick + 1 }
    if clock st.tick then (st1, false)
    else root_loop ctx rows cols score_cols position_history clock board depth rest st1

/-- The variables of `find_best_move` that live across depth iterations. -/
structure SearchState where
  best_action_list : List Move
  evaluated_moves : List ScoredMove
  tt : TranspositionTable
  tick : Nat

/-- How the iterative-deepening loop of `find_best_move` ended. -/
inductive SearchStop where
  | all_depths_done
  | no_time_to_start (depth : Nat)
  | ran_out_during (depth : Nat)
deriving DecidableEq

/-- The root moves in the order iteration `depth` walks through them: sorted by the scores
of the previous iteration when there is one.  `std::sort` leaves the relative order of
equally scored moves open; the embedding keeps such moves in the order they had before,
as the insertion sort does that `std::sort` of libstdc++ runs on a range of at most 16
elements.  On a longer range the library may order equally scored moves differently. -/
def ordered_root_moves (evaluated_moves : List ScoredMove) (depth : Nat)
    (legal_moves : List Move) : List Move :=
  if evaluated_moves ≠ [] ∧ depth > 1 then
    legal_moves.insertionSort (fun a b => ¬ root_order evaluated_moves b a)
  else legal_moves

/-- One iteration of the depth loop of `find_best_move` after its time check: move
generation, ordering and the loop over the root moves. -/
def run_depth (ctx : SearchContext) (rows cols : Int) (score_cols : List Int)
    (position_history : List Nat) (clock : Nat → Bool) (board : FastBoard) (depth : Nat)
    (st : SearchState) : RootLoopState × Bool :=
  let legal_moves := calculate_possible_actions board ctx.side_ rows cols score_cols
  root_loop ctx rows cols score_cols position_history clock board depth
    (ordered_root_moves st.evaluated_moves depth legal_moves)
    { top_score := Score.neg_inf, current_depth_best_moves := [], evaluated_moves := [],
      tt := st.tt, tick := st.tick + 1 }

/-- The body of the loop `for (int depth = 1; depth <= max_search_depth; ++depth)` of
`find_best_move`: the state after the iteration, and the reason of the `break` when the
iteration leaves the loop. -/
def depth_step (ctx : SearchContext) (rows cols : Int) (score_cols : List Int)
    (position_history : List Nat) (clock : Nat → Bool) (board : FastBoard) (depth : Nat)
    (st : SearchState) : SearchState × Option SearchStop :=
  let over_time := clock st.tick
  if over_time = true ∧ depth > 1 then
    ({ st with tick := st.tick + 1 }, some (SearchStop.no_time_to_start depth))
  else
    let r := run_depth ctx rows cols score_cols position_history clock board depth st
    let did_depth_complete := r.2
    if did_depth_complete = true ∧ r.1.current_depth_best_moves ≠ [] then
      ({ best_action_list := r.1.current_depth_best_moves,
         evaluated_moves := r.1.evaluated_moves, tt := r.1.tt, tick := r.1.tick }, none)
    else if did_depth_complete = false then
      ({ best_action_list := st.best_action_list, evaluated_moves := r.1.evaluated_moves,
         tt := r.1.tt, tick := r.1.tick }, some (SearchStop.ran_out_during depth))
    else
      ({ best_action_list := st.best_action_list, evaluated_moves := r.1.evaluated_moves,
         tt := r.1.tt, tick := r.1.tick }, none)

/-- The loop `for (int depth = 1; depth <= max_search_depth; ++depth)` of `find_best_move`
over the remaining depths. -/
def depth_loop (ctx : SearchContext) (rows cols : Int) (score_cols : List Int)
    (position_history : List Nat) (clock : Nat → Bool) (board : FastBoard) :
    List Nat → SearchState → SearchState × SearchStop
  | [], st => (st, SearchStop.all_depths_done)
  | depth :: deeper, st =>
    match depth_step ctx rows cols score_cols position_history clock board depth st with
    | (st', some stop) => (st', stop)
    | (st', none) =>
      depth_loop ctx rows cols score_cols position_history clock board deeper st'

/-- The depths `1 .. max_search_depth` of the iterative-deepening loop. -/
def search_depths (max_search_depth : Nat) : List Nat := List.range' 1 max_search_depth

/-- The iterative-deepening part of `find_best_move` up to `max_search_depth`, from the
cleared table. -/
def iterative_deepening (ctx : SearchContext) (rows cols : Int) (score_cols : List Int)
    (position_history : List Nat) (clock : Nat → Bool) (board : FastBoard)
    (max_search_depth : Nat) : SearchState × SearchStop :=
  depth_loop ctx rows cols score_cols position_history clock board
    (search_depths max_search_depth)
    { best_action_list := [], evaluated_moves := [], tt := tt_empty, tick := 0 }

/-- The final selection of `find_best_move` from `best_action_list`; `draw` is the value of
the random generator, reduced to the index range of the list. -/
def select_action (ctx : SearchContext) (rows cols : Int) (score_cols : List Int)
    (board : FastBoard) (draw : Nat) (best_action_list : List Move) : Move :=
  if best_action_list = [] then
    match calculate_possible_actions board ctx.side_ rows cols score_cols with
    | first :: _ => first
    | [] => {}
  else if best_action_list.length = 1 then best_action_list.getD 0 {}
  else best_action_list.getD (draw % best_action_list.length) {}

/-- The constant `max_search_depth` of `find_best_move`. -/
def max_search_depth : Nat := 3

/-- `SearchManager::find_best_move`.  The remaining time enters only through the outcomes
`clock` of the comparisons of the elapsed time with the time allowance. -/
def find_best_move (ctx : SearchContext) (board : FastBoard) (rows cols : Int)
    (score_cols : List Int) (clock : Nat → Bool) (draw : Nat) (position_history : List Nat) :
    Move :=
  select_action ctx rows cols score_cols board draw
    (iterative_deepening ctx rows cols score_cols position_history clock board
      max_search_depth).1.best_action_list

/-- The evaluator built by the `StudentAgent` constructor: `heuristic_evaluator(1.0, -2.3)`. -/
def default_evaluator : TacticalEvaluator :=
  { friendly_component_weight := dbl_1_0, opponent_component_weight := dbl_neg_2_3 }

/-- The search context of an agent playing `side` with evaluator `ev` and the given
Zobrist keys. -/
def agent_context (side : Player) (ev : TacticalEvaluator)
    (zobrist_table : Nat → Nat → Nat → Nat) (zobrist_turn_key : Nat) : SearchContext :=
  { side_ := side, zobrist_table := zobrist_table, zobrist_turn_key := zobrist_turn_key,
    heuristic := Final_Evaluation ev }

/-! ## Example positions -/

def square_stone : Piece := { player := Player.SQUARE }

def circle_stone : Piece := { player := Player.CIRCLE }

def square_river_h : Piece :=
  { player := Player.SQUARE, side := Side.RIVER, orientation := Orientation.HORIZONTAL }

def square_river_v : Piece :=
  { player := Player.SQUARE, side := Side.RIVER, orientation := Orientation.VERTICAL }

def no_piece : Piece := {}

/-- A 7 x 3 grid: a Square Stone at (0,0) above a vertical Square River at (0,1), which
touches a horizontal Square River at (1,1); a Circle Stone at (1,4). -/
def flow_board : FastBoard :=
  [[square_stone, no_piece, no_piece],
   [square_river_v, square_river_h, no_piece],
   [no_piece, no_piece, no_piece],
   [no_piece, no_piece, no_piece],
   [no_piece, circle_stone, no_piece],
   [no_piece, no_piece, no_piece],
   [no_piece, no_piece, no_piece]]

/-- An 8 x 3 grid with scoring column 1: a Square Stone at (1,0) directly above a Circle
Stone at (1,1); the cell (1,2) below them is the Circle goal cell of the top scoring row. -/
def push_board : FastBoard :=
  [[no_piece, square_stone, no_piece],
   [no_piece, circle_stone, no_piece],
   [no_piece, no_piece, no_piece],
   [no_piece, no_piece, no_piece],
   [no_piece, no_piece, no_piece],
   [no_piece, no_piece, no_piece],
   [no_piece, no_piece, no_piece],
   [no_piece, no_piece, no_piece]]

/-- The Move of the Square Stone of `flow_board` from (0,0) to (1,0). -/
def first_move : Move := { action := ActionKind.move, from_pos := (0, 0), to_pos := (1, 0) }

/-- An 8 x 3 grid with scoring column 1 whose only piece is a Circle Stone in the Circle
goal cell (1,2). -/
def circle_win_board : FastBoard :=
  [[no_piece, no_piece, no_piece],
   [no_piece, no_piece, no_piece],
   [no_piece, circle_stone, no_piece],
   [no_piece, no_piece, no_piece],
   [no_piece, no_piece, no_piece],
   [no_piece, no_piece, no_piece],
   [no_piece, no_piece, no_piece],
   [no_piece, no_piece, no_piece]]

/-- Zobrist keys obtained by multiplying the key index with a 64-bit odd constant. -/
def mixing_keys : Nat → Nat → Nat → Nat :=
  fun y x k => (((y * 16 + x) * 7 + k + 1) * 11400714819323198485) % 18446744073709551616

/-- An agent playing Square with the constructor's evaluator weights. -/
def square_agent : SearchContext :=
  agent_context Player.SQUARE default_evaluator mixing_keys 4096

/-- A row of three empty cells. -/
def empty_row3 : List Piece := [no_piece, no_piece, no_piece]

/-- A 17 x 3 grid with scoring column 1 whose only piece is a Square Stone at (1,12), two
rows above the Square goal cell (1,14). -/
def lone_stone_board : FastBoard :=
  List.replicate 12 empty_row3 ++ [[no_piece, square_stone, no_piece]]
    ++ List.replicate 4 empty_row3

/-- The clock whose only failing time check is the one with index `n`. -/
def clock_fails_at (n : Nat) : Nat → Bool := fun i => decide (i = n)

/-- The six legal actions of Square on `lone_stone_board`, in enumeration order. -/
def lone_stone_actions : List Move :=
  [{ action := ActionKind.flip, from_pos := (1, 12), to_pos := (1, 12),
     orientation := some Orientation.HORIZONTAL },
   { action := ActionKind.flip, from_pos := (1, 12), to_pos := (1, 12),
     orientation := some Orientation.VERTICAL },
   { action := ActionKind.move, from_pos := (1, 12), to_pos := (1, 13) },
   { action := ActionKind.move, from_pos := (1, 12), to_pos := (1, 11) },
   { action := ActionKind.move, from_pos := (1, 12), to_pos := (2, 12) },
   { action := ActionKind.move, from_pos := (1, 12), to_pos := (0, 12) }]


/-- The nodes of the depth-`depth` search tree below a position, each as the pair of its
fingerprint and the remaining depth at which `alpha_beta_search` reaches it. -/
def probe_points (ctx : SearchContext) (rows cols : Int) (score_cols : List Int) :
    Nat → FastBoard → Player → List (Nat × Nat)
  | 0, board_state, current_player =>
    [(compute_hash ctx board_state current_player rows cols, 0)]
  | depth + 1, board_state, current_player =>
    (compute_hash ctx board_state current_player rows cols, depth + 1) ::
      (calculate_possible_actions board_state current_player rows cols score_cols).flatMap
        (fun move => probe_points ctx rows cols score_cols depth
          (get_next_board_state board_state move) (opponent current_player))

/-- The table holds no entry under fingerprint `hash` that a lookup at remaining depth
`depth` would use. -/
def no_usable_entry (tt : TranspositionTable) (hash depth : Nat) : Bool :=
  match tt hash with
  | none => true
  | some entry => decide (entry.depth < depth)

/-- Two tables are alike on a set `S` of (fingerprint, remaining depth) pairs if at each
pair they hold the same entry, or neither holds an entry usable at that depth. -/
def tt_alike (S : Nat → Nat → Prop) (t1 t2 : TranspositionTable) : Prop :=
  ∀ hash depth, S hash depth →
    t1 hash = t2 hash ∨
      (no_usable_entry t1 hash depth = true ∧ no_usable_entry t2 hash depth = true)

/-- The property of a child search used below: on tables that are alike it returns the
same score and tables that are alike again. -/
def child_search_alike (S : Nat → Nat → Prop)
    (child_search : TranspositionTable → FastBoard → Score → Score → Player →
      Score × TranspositionTable) (board : FastBoard) (player : Player) : Prop :=
  ∀ (t1 t2 : TranspositionTable) (alpha beta : Score), tt_alike S t1 t2 →
    (child_search t1 board alpha beta player).1 = (child_search t2 board alpha beta player).1 ∧
      tt_alike S (child_search t1 board alpha beta player).2
        (child_search t2 board alpha beta player).2


/-- The table after a depth-0 search of `lone_stone_board` from the cleared table. -/
def shallow_table : TranspositionTable :=
  (alpha_beta_search square_agent 17 3 [1] [] 0 tt_empty lone_stone_board Score.neg_inf
    Score.pos_inf Player.SQUARE).2

/-- The table after a depth-1 search of `lone_stone_board` from the cleared table. -/
def deeper_table : TranspositionTable :=
  (alpha_beta_search square_agent 17 3 [1] [] 1 tt_empty lone_stone_board Score.neg_inf
    Score.pos_inf Player.SQUARE).2

/-- The successors of the root are leaves of the search: the opponent has no legal action
there, their fingerprints are not in the history, and successors with the same fingerprint
have the same static score. -/
def successors_are_leaves (ctx : SearchContext) (rows cols : Int) (score_cols : List Int)
    (position_history : List Nat) (board : FastBoard) : Prop :=
  ∀ a ∈ calculate_possible_actions board ctx.side_ rows cols score_cols,
    calculate_possible_actions (get_next_board_state board a) ctx.opp_side_ rows cols
        score_cols = [] ∧
      compute_hash ctx (get_next_board_state board a) ctx.opp_side_ rows cols
        ∉ position_history ∧
      ∀ b ∈ calculate_possible_actions board ctx.side_ rows cols score_cols,
        compute_hash ctx (get_next_board_state board a) ctx.opp_side_ rows cols
            = compute_hash ctx (get_next_board_state board b) ctx.opp_side_ rows cols →
          static_score ctx (get_next_board_state board a) rows cols score_cols
            = static_score ctx (get_next_board_state board b) rows cols score_cols

/-- Every entry the table holds under the fingerprint of a root successor is an Exact entry
with the successor's static score. -/
def successor_entries_exact (ctx : SearchContext) (rows cols : Int) (score_cols : List Int)
    (board : FastBoard) (tt : TranspositionTable) : Prop :=
  ∀ a ∈ calculate_possible_actions board ctx.side_ rows cols score_cols,
    ∀ e, tt (compute_hash ctx (get_next_board_state board a) ctx.opp_side_ rows cols) = some e →
      e.flag = TTFlag.EXACT ∧
        e.score = static_score ctx (get_next_board_state board a) rows cols score_cols

/-- The root loop has not yet seen a move of the best score `best`. -/
def best_pending (best : Int) (st : RootLoopState) : Prop :=
  st.top_score.lt (Score.val best) = true

/-- The root loop has seen a move of the best score `best`, and its tie list holds moves
with the property `Good` only. -/
def best_found (Good : Move → Prop) (best : Int) (st : RootLoopState) : Prop :=
  st.top_score = Score.val best ∧ st.current_depth_best_moves ≠ [] ∧
    ∀ m ∈ st.current_depth_best_moves, Good m


/-- The cell `q` of the `rows` x `cols` grid holds the piece `pc` and every other cell is
empty. -/
def lone_piece (board : FastBoard) (rows cols : Int) (q : Cell) (pc : Piece) : Prop :=
  board_shape board rows cols ∧ within_board_limits q.1 q.2 rows cols = true ∧
    board_at board q.1 q.2 = pc ∧ pc.isEmpty = false ∧
    ∀ x y : Int, (x, y) ≠ q → (board_at board x y).isEmpty = true


/-- The value of `Final_Evaluation` with the constructor's weights on a board of size tier
`tier` whose only piece is a piece of the player with the given attack contribution and
highway term, and whose river, defense and near-win terms are 0. -/
def lone_value (tier : Int) (contribution highway : Int) : Int :=
  combine_scores tier
    (weighted_sum (local_weights default_evaluator tier).1
      (local_weights default_evaluator tier).2 contribution 0)
    (weighted_sum (local_weights default_evaluator tier).1
      (local_weights default_evaluator tier).2 0 0)
    0 highway 0

/-- Zobrist keys that are pairwise different but not mixed: the cells are numbered in
table order. -/
def counting_keys : Nat → Nat → Nat → Nat :=
  fun y x k => (y * 16 + x) * 7 + k + 1

/-- A 17 x 3 grid with scoring column 1 whose only piece is a Square Stone at (1,13), one
step above Square's scoring row 14. -/
def near_goal_board : FastBoard :=
  List.replicate 13 empty_row3 ++ [[no_piece, square_stone, no_piece]]
    ++ List.replicate 3 empty_row3

/-- The Push of the Square Stone of `push_board` at (1,0), which moves the Circle Stone from
(1,1) to (1,2). -/
def stone_push : Move :=
  { action := ActionKind.push, from_pos := (1, 0), to_pos := (1, 1), pushed_to := some (1, 2) }

/-- The Flip of the Square Stone of `flow_board` at (0,0) into a vertical River. -/
def flip_to_vertical : Move :=
  { action := ActionKind.flip, from_pos := (0, 0), to_pos := (0, 0),
    orientation := some Orientation.VERTICAL }

/-- A Flip at (0,0) that carries no orientation. -/
def flip_back : Move := { action := ActionKind.flip, from_pos := (0, 0), to_pos := (0, 0) }

/-- The Rotate of the vertical Square River of `flow_board` at (0,1). -/
def rotate_river : Move := { action := ActionKind.rotate, from_pos := (0, 1), to_pos := (0, 1) }

/-- An 8 x 3 grid with scoring column 1: a Square Stone at (1,4) directly above a Circle
Stone at (1,5), with the cell (1,6) below them empty. -/
def low_push_board : FastBoard :=
  [[no_piece, no_piece, no_piece],
   [no_piece, no_piece, no_piece],
   [no_piece, no_piece, no_piece],
   [no_piece, no_piece, no_piece],
   [no_piece, square_stone, no_piece],
   [no_piece, circle_stone, no_piece],
   [no_piece, no_piece, no_piece],
   [no_piece, no_piece, no_piece]]

/-- The number of cells a scan of `explore_river_network` standing on the grid cell
`(nx, ny)` has before it leaves the grid in direction `(dx, dy)`. -/
def scan_distance (dx dy rows cols nx ny : Int) : Int :=
  if dx = 1 then cols - nx
  else if dx = -1 then nx + 1
  else if dy = 1 then rows - ny
  else ny + 1

/-- The four unit steps a scan of `explore_river_network` can take. -/
def is_flow_step (dx dy : Int) : Prop :=
  (dx = 1 ∧ dy = 0) ∨ (dx = -1 ∧ dy = 0) ∨ (dx = 0 ∧ dy = 1) ∨ (dx = 0 ∧ dy = -1)

/-- The quantity that every iteration of the outer loop of `explore_river_network` decreases:
the queue length plus the number of cells not yet marked in `visited_river`. -/
def flow_pending (st : FlowState) : Nat :=
  st.to_visit.length + st.visited_river.count false

/-- The exception `evaluate_board_state` throws, with the text passed to its constructor. -/
inductive EvalError where
  | invalid_argument (what : String)
deriving DecidableEq

/-- The member `heuristic_methods` as the constructor of `TacticalEvaluator` leaves it: one
entry, under the key `"Final_Evaluation"`. -/
def heuristic_methods (ev : TacticalEvaluator) :
    List (String × (FastBoard → Player → Int → Int → List Int → Int)) :=
  [("Final_Evaluation", Final_Evaluation ev)]

/-- `TacticalEvaluator::evaluate_board_state`; the callers that leave out `method` pass the
default `"Final_Evaluation"`. -/
def evaluate_board_state (ev : TacticalEvaluator) (board : FastBoard) (player : Player)
    (rows cols : Int) (score_cols : List Int) (method : String) : Except EvalError Int :=
  match (heuristic_methods ev).lookup method with
  | some f => Except.ok (f board player rows cols score_cols)
  | none => Except.error (EvalError.invalid_argument ("Unknown evaluation method: " ++ method))

/-- The test of `penalty_for_blocked_score_zone` on one scoring cell: the cell holds a River
of `player`. -/
def holds_own_river (board : FastBoard) (player : Player) (c : Cell) : Bool :=
  !(board_at board c.1 c.2).isEmpty && decide ((board_at board c.1 c.2).player = player)
    && decide ((board_at board c.1 c.2).side = Side.RIVER)

/-- The value `score_contribution` of the piece on the grid cell `c` in
`evaluate_top_pieces_proximity`, counted when the piece is (`friendly = true`) or is not
(`friendly = false`) owned by `player`; 0 for an empty cell. -/
def cell_contribution (board : FastBoard) (player : Player) (rows cols : Int)
    (score_cols : List Int) (friendly : Bool) (c : Cell) : Int :=
  if (board_at board c.1 c.2).isEmpty then 0
  else if decide ((board_at board c.1 c.2).player = player) = friendly then
    proximity_contribution (board_at board c.1 c.2).side
      (distance_to_own_scoring_area c.1 c.2 (board_at board c.1 c.2).player rows cols
        score_cols)
  else 0

/-- The test of `calculate_near_win_bonus` on one scoring cell: the cell holds a Stone of
`player`. -/
def holds_own_stone (board : FastBoard) (player : Player) (c : Cell) : Bool :=
  !(board_at board c.1 c.2).isEmpty && decide ((board_at board c.1 c.2).player = player)
    && decide ((board_at board c.1 c.2).side = Side.STONE)

/-- A 7 x 5 grid with the scoring columns 0..4: Square Stones in the goal cells (0,4), (1,4)
and (2,4), the goal cells (3,4) and (4,4) empty, and a Square Stone at (4,5) below the goal
row. -/
def two_gaps_board : FastBoard :=
  [[no_piece, no_piece, no_piece, no_piece, no_piece],
   [no_piece, no_piece, no_piece, no_piece, no_piece],
   [no_piece, no_piece, no_piece, no_piece, no_piece],
   [no_piece, no_piece, no_piece, no_piece, no_piece],
   [square_stone, square_stone, square_stone, no_piece, no_piece],
   [no_piece, no_piece, no_piece, no_piece, square_stone],
   [no_piece, no_piece, no_piece, no_piece, no_piece]]

/-- A 7 x 3 grid with scoring column 1 whose only pieces are two Square Rivers side by side
below the Square goal row: a horizontal one at (0,5) and a vertical one at (1,5). -/
def river_pair_board : FastBoard :=
  [[no_piece, no_piece, no_piece],
   [no_piece, no_piece, no_piece],
   [no_piece, no_piece, no_piece],
   [no_piece, no_piece, no_piece],
   [no_piece, no_piece, no_piece],
   [square_river_h, square_river_v, no_piece],
   [no_piece, no_piece, no_piece]]

/-- The test of the neighbour loop of `evaluate_river_system_potential` that lets the cell
next to the river cell `(x, y)` in direction `d` count: the neighbour is on the grid, the
river cell and the neighbour are outside both scoring zones, and the neighbour is not empty.
The form of the neighbour is not looked at. -/
def counts_as_near (board : FastBoard) (x y : Int) (player : Player) (rows cols : Int)
    (score_cols : List Int) (d : Cell) : Bool :=
  within_board_limits (x + d.1) (y + d.2) rows cols
    && !(is_player_scoring_slot x y player rows cols score_cols
        || rival_score_area x y player rows cols score_cols)
    && !((board_at board (x + d.1) (y + d.2)).isEmpty
        || is_player_scoring_slot (x + d.1) (y + d.2) player rows cols score_cols
        || rival_score_area (x + d.1) (y + d.2) player rows cols score_cols)

/-- The seven piece states a cell can be in, in the order of their Zobrist index 0..6. -/
def piece_states : List Piece :=
  [no_piece, square_stone, square_river_h, square_river_v, circle_stone,
   { player := Player.CIRCLE, side := Side.RIVER, orientation := Orientation.HORIZONTAL },
   { player := Player.CIRCLE, side := Side.RIVER, orientation := Orientation.VERTICAL }]

/-- Two pieces agree on what the fingerprint reads: the owner, the form if the cell is not
empty, and the orientation if the piece is a River. -/
def same_layout (p q : Piece) : Prop :=
  p.player = q.player ∧ (p.isEmpty = false → p.side = q.side) ∧
    (p.isEmpty = false → p.side = Side.RIVER → p.orientation = q.orientation)

/-- The board `flow_board` with the empty cell (2,0) written as an empty vertical River and
the Square Stone at (0,0) given the orientation Horizontal. -/
def flow_board_variant : FastBoard :=
  [[{ player := Player.SQUARE, orientation := Orientation.HORIZONTAL }, no_piece,
    { side := Side.RIVER, orientation := Orientation.VERTICAL }],
   [square_river_v, square_river_h, no_piece],
   [no_piece, no_piece, no_piece],
   [no_piece, no_piece, no_piece],
   [no_piece, circle_stone, no_piece],
   [no_piece, no_piece, no_piece],
   [no_piece, no_piece, no_piece]]

/-- The board `flow_board` with a Square Stone put on the empty cell (2,0). -/
def flow_board_extra_stone : FastBoard :=
  [[square_stone, no_piece, square_stone],
   [square_river_v, square_river_h, no_piece],
   [no_piece, no_piece, no_piece],
   [no_piece, no_piece, no_piece],
   [no_piece, circle_stone, no_piece],
   [no_piece, no_piece, no_piece],
   [no_piece, no_piece, no_piece]]

/-- The depth-limited minimax value of a position, without table and without pruning: the
reference value of the search.  A position whose fingerprint is in the history is worth
-500000000; a won position, a position at remaining depth 0 and a position without legal
action are worth their static score; otherwise the value is the maximum (engine to move)
or the minimum (opponent to move) of the values of the successors at depth - 1. -/
def minimax_value (ctx : SearchContext) (rows cols : Int) (score_cols : List Int)
    (position_history : List Nat) : Nat → FastBoard → Player → Score
  | 0, board, player =>
    if compute_hash ctx board player rows cols ∈ position_history then
      Score.val (-500000000)
    else static_score ctx board rows cols score_cols
  | depth + 1, board, player =>
    if compute_hash ctx board player rows cols ∈ position_history then
      Score.val (-500000000)
    else if is_win_state board rows cols score_cols = true then
      static_score ctx board rows cols score_cols
    else if calculate_possible_actions board player rows cols score_cols = [] then
      static_score ctx board rows cols score_cols
    else if player = ctx.side_ then
      ((calculate_possible_actions board player rows cols score_cols).map (fun m =>
        minimax_value ctx rows cols score_cols position_history depth
          (get_next_board_state board m) (opponent player))).foldl score_max Score.neg_inf
    else
      ((calculate_possible_actions board player rows cols score_cols).map (fun m =>
        minimax_value ctx rows cols score_cols position_history depth
          (get_next_board_state board m) (opponent player))).foldl score_min Score.pos_inf

/-- A 7 x 3 grid with scoring column 1: a Circle Stone at (0,6) and a Square Stone at (2,6),
both on the bottom row. -/
def stone_duel_board : FastBoard :=
  [[no_piece, no_piece, no_piece],
   [no_piece, no_piece, no_piece],
   [no_piece, no_piece, no_piece],
   [no_piece, no_piece, no_piece],
   [no_piece, no_piece, no_piece],
   [no_piece, no_piece, no_piece],
   [circle_stone, no_piece, square_stone]]

/-- The Move of the Square Stone of `stone_duel_board` from (2,6) up to (2,5). -/
def duel_step_up : Move := { action := ActionKind.move, from_pos := (2, 6), to_pos := (2, 5) }

/-- The Move of the Square Stone of `stone_duel_board` from (2,6) sideways to (1,6), next to
the Circle Stone. -/
def duel_step_aside : Move :=
  { action := ActionKind.move, from_pos := (2, 6), to_pos := (1, 6) }

/-- The state of the root loop after the moves `seen`, when the search gives move `m` the
score `value m`: `top_score` is the largest value seen and the tie list holds exactly the
seen moves of that value. -/
def ties_are_best (value : Move → Score) (seen : List Move) (st : RootLoopState) : Prop :=
  (seen = [] → st.top_score = Score.neg_inf) ∧
    (seen ≠ [] → ∃ g ∈ seen, value g = st.top_score) ∧
    (∀ m ∈ seen, (value m).le st.top_score = true) ∧
    ∀ m, m ∈ st.current_depth_best_moves ↔ m ∈ seen ∧ value m = st.top_score

/-- The cells marked in `visited_dest` are recorded destinations. -/
def marked_are_recorded (rows cols : Int) (st : FlowState) : Prop :=
  ∀ c : Cell, within_board_limits c.1 c.2 rows cols = true →
    vec_get st.visited_dest (c.2 * cols + c.1) = true → c ∈ st.result

/-- A 7 x 3 grid with scoring column 1: a Square Stone at (1,3) with a horizontal Square
River at (2,3) on its right and the empty cell (0,3) on its left. -/
def bypass_board : FastBoard :=
  [[no_piece, no_piece, no_piece],
   [no_piece, no_piece, no_piece],
   [no_piece, no_piece, no_piece],
   [no_piece, square_stone, square_river_h],
   [no_piece, no_piece, no_piece],
   [no_piece, no_piece, no_piece],
   [no_piece, no_piece, no_piece]]

/-- A 7 x 3 grid with scoring column 1: a horizontal Square River at (0,2) and, on its
right, a Square Stone at (1,2), which is the Circle goal cell; the cell (2,2) is empty. -/
def rival_origin_board : FastBoard :=
  [[no_piece, no_piece, no_piece],
   [no_piece, no_piece, no_piece],
   [square_river_h, square_stone, no_piece],
   [no_piece, no_piece, no_piece],
   [no_piece, no_piece, no_piece],
   [no_piece, no_piece, no_piece],
   [no_piece, no_piece, no_piece]]

/-- The Move of the Square Stone of `bypass_board` from (1,3) to the empty cell (0,3) on its
left. -/
def bypass_move : Move := { action := ActionKind.move, from_pos := (1, 3), to_pos := (0, 3) }

/-- The number of cells of the `rows` x `cols` grid that hold a piece of `owner`. -/
def count_pieces (board : FastBoard) (rows cols : Int) (owner : Player) : Nat :=
  (grid_cells rows cols).countP (fun c => decide ((board_at board c.1 c.2).player = owner))

/-- `TacticalEvaluator::update_evaluation_weights`, reached from the host through
`StudentAgent::set_heuristic_weights`: it overwrites the two members. -/
def update_evaluation_weights (ev : TacticalEvaluator) (friendly_weight opponent_weight : Dbl) :
    TacticalEvaluator :=
  { ev with friendly_component_weight := friendly_weight,
            opponent_component_weight := opponent_weight }

/-- The members of `StudentAgent` that `choose` reads and writes: the side, the evaluator and
the set `position_history` of fingerprints (kept as a list without repetition). -/
structure StudentAgent where
  side_ : Player
  heuristic_evaluator : TacticalEvaluator
  position_history : List Nat

/-- The constructor `SearchManager(agent)`, which calls `init_zobrist()`: the table and the
turn key are filled from a generator seeded by `std::random_device`, so the values drawn in
this construction are inputs of the embedding. -/
def new_search_manager (agent : StudentAgent) (zobrist_table : Nat → Nat → Nat → Nat)
    (zobrist_turn_key : Nat) : SearchContext :=
  agent_context agent.side_ agent.heuristic_evaluator zobrist_table zobrist_turn_key

/-- `StudentAgent::choose` on the converted board: it builds a `SearchManager`, inserts the
fingerprint of the current position into `position_history` and runs `find_best_move`.
`zobrist_table` and `zobrist_turn_key` are the keys drawn while this call builds its
`SearchManager`. -/
def choose (agent : StudentAgent) (zobrist_table : Nat → Nat → Nat → Nat)
    (zobrist_turn_key : Nat) (board : FastBoard) (rows cols : Int) (score_cols : List Int)
    (clock : Nat → Bool) (draw : Nat) : Move × StudentAgent :=
  let search_manager := new_search_manager agent zobrist_table zobrist_turn_key
  let current_hash := compute_hash search_manager board agent.side_ rows cols
  let position_history := agent.position_history.insert current_hash
  let best_action :=
    find_best_move search_manager board rows cols score_cols clock draw position_history
  (best_action, { agent with position_history := position_history })

/-- The agent after `StudentAgent("square")`. -/
def fresh_square_agent : StudentAgent :=
  { side_ := Player.SQUARE, heuristic_evaluator := default_evaluator, position_history := [] }

/-- The keys `mixing_keys` with one entry redrawn: the key of the cell (0,0) for a Square
Stone. -/
def redrawn_keys : Nat → Nat → Nat → Nat :=
  fun y x k => if y = 0 ∧ x = 0 ∧ k = 1 then mixing_keys y x k + 1 else mixing_keys y x k

/-! ## Soundness conditions of the transposition table -/

/-- The place of a score in the order of the scores: 0 for -infinity, 1 for a finite score,
2 for +infinity. -/
def Score.tag : Score → Int
  | Score.neg_inf => 0
  | Score.val _ => 1
  | Score.pos_inf => 2

/-- The number of a finite score (0 for the two infinities). -/
def Score.num : Score → Int
  | Score.val v => v
  | _ => 0

/-- What a fail-soft alpha-beta search may return for a node of value `v` searched with the
window `(alpha, beta)`: a score at or below `alpha` is an upper bound of `v`, a score at or
above `beta` is a lower bound of `v`, and a score strictly inside the window is `v`. -/
def score_fits (r v alpha beta : Score) : Prop :=
  (r.le alpha = true → v.le r = true) ∧ (beta.le r = true → r.le v = true) ∧
    (alpha.lt r = true → r.lt beta = true → r = v)

/-- A table entry is sound for a node of value `v`: an Exact score is `v`, a Lower score is
at most `v`, an Upper score is at least `v`. -/
def entry_sound (e : TTEntry) (v : Score) : Prop :=
  match e.flag with
  | TTFlag.EXACT => e.score = v
  | TTFlag.LOWER_BOUND => e.score.le v = true
  | TTFlag.UPPER_BOUND => v.le e.score = true

/-- The nodes of the depth-`depth` tree below a position: the board, the side to move and
the remaining depth at which `alpha_beta_search` reaches the node. -/
def tree_nodes (rows cols : Int) (score_cols : List Int) :
    Nat → FastBoard → Player → List (FastBoard × Player × Nat)
  | 0, board_state, current_player => [(board_state, current_player, 0)]
  | depth + 1, board_state, current_player =>
    (board_state, current_player, depth + 1) ::
      (calculate_possible_actions board_state current_player rows cols score_cols).flatMap
        (fun move => tree_nodes rows cols score_cols depth
          (get_next_board_state board_state move) (opponent current_player))

/-- Fingerprints tell the nodes of the depth-`depth` tree below a position apart: two nodes
with the same fingerprint are reached at the same remaining depth and have the same
depth-limited minimax value (as the same position reached twice at one depth has). -/
def fingerprints_separate (ctx : SearchContext) (rows cols : Int) (score_cols : List Int)
    (position_history : List Nat) (depth : Nat) (board_state : FastBoard)
    (current_player : Player) : Prop :=
  ∀ a ∈ tree_nodes rows cols score_cols depth board_state current_player,
    ∀ b ∈ tree_nodes rows cols score_cols depth board_state current_player,
      compute_hash ctx a.1 a.2.1 rows cols = compute_hash ctx b.1 b.2.1 rows cols →
        a.2.2 = b.2.2 ∧
          minimax_value ctx rows cols score_cols position_history a.2.2 a.1 a.2.1
            = minimax_value ctx rows cols score_cols position_history b.2.2 b.1 b.2.1

/-- The table fits the depth-`depth` tree below a position: an entry stored under the
fingerprint of a node has at most the remaining depth at which the node is reached, and an
entry of exactly that depth is sound for the depth-limited minimax value of the node. -/
def table_fits (ctx : SearchContext) (rows cols : Int) (score_cols : List Int)
    (position_history : List Nat) (depth : Nat) (board_state : FastBoard)
    (current_player : Player) (tt : TranspositionTable) : Prop :=
  ∀ a ∈ tree_nodes rows cols score_cols depth board_state current_player,
    ∀ e, tt (compute_hash ctx a.1 a.2.1 rows cols) = some e →
      e.depth ≤ a.2.2 ∧
        (e.depth = a.2.2 →
          entry_sound e
            (minimax_value ctx rows cols score_cols position_history a.2.2 a.1 a.2.1))

/-- The condition `table_fits` for an arbitrary set `N` of nodes (board, side to move,
remaining depth). -/
def nodes_fit (ctx : SearchContext) (rows cols : Int) (score_cols : List Int)
    (position_history : List Nat) (N : FastBoard → Player → Nat → Prop)
    (tt : TranspositionTable) : Prop :=
  ∀ b p n, N b p n → ∀ e, tt (compute_hash ctx b p rows cols) = some e →
    e.depth ≤ n ∧
      (e.depth = n →
        entry_sound e (minimax_value ctx rows cols score_cols position_history n b p))

/-- The condition `fingerprints_separate` for an arbitrary set `N` of nodes. -/
def nodes_separate (ctx : SearchContext) (rows cols : Int) (score_cols : List Int)
    (position_history : List Nat) (N : FastBoard → Player → Nat → Prop) : Prop :=
  ∀ b p n b' p' n', N b p n → N b' p' n' →
    compute_hash ctx b p rows cols = compute_hash ctx b' p' rows cols →
      n = n' ∧
        minimax_value ctx rows cols score_cols position_history n b p
          = minimax_value ctx rows cols score_cols position_history n' b' p'

/-- The set `N` of nodes contains the successors of its nodes, one level further down. -/
def nodes_closed (rows cols : Int) (score_cols : List Int)
    (N : FastBoard → Player → Nat → Prop) : Prop :=
  ∀ b p n, N b p (n + 1) →
    ∀ m ∈ calculate_possible_actions b p rows cols score_cols,
      N (get_next_board_state b m) (opponent p) n

/-- One call of `alpha_beta_search`: its arguments apart from the grid and the history. -/
structure SearchCall where
  board_state : FastBoard
  depth : Nat
  alpha : Score
  beta : Score
  current_player : Player

/-- The member `transposition_table` after a sequence of calls of `alpha_beta_search` made
one after the other on the table `tt`, none of them clearing it. -/
def table_after_calls (ctx : SearchContext) (rows cols : Int) (score_cols : List Int)
    (position_history : List Nat) : List SearchCall → TranspositionTable → TranspositionTable
  | [], tt => tt
  | call :: rest, tt =>
    table_after_calls ctx rows cols score_cols position_history rest
      (alpha_beta_search ctx rows cols score_cols position_history call.depth tt
        call.board_state call.alpha call.beta call.current_player).2

/-! # Properties -/

/-! ## River-flow traversal -/

/-- Invariant rule for the scan loop: a property of the loop state that survives
recording a destination and enqueueing a river survives the whole scan. -/
theorem flow_scan_invariant (board : FastBoard) (moving_sx moving_sy : Int) (player : Player)
    (rows cols : Int) (score_cols : List Int) (dx dy : Int) (I : FlowState → Prop)
    (hdest : ∀ (st : FlowState) (nx ny : Int), I st →
      within_board_limits nx ny rows cols = true →
      rival_score_area nx ny player rows cols score_cols = false →
      ¬ (nx = moving_sx ∧ ny = moving_sy) →
      (board_at board nx ny).isEmpty = true →
      vec_get st.visited_dest (ny * cols + nx) = false →
      I { st with result := st.result ++ [(nx, ny)],
                  visited_dest := vec_mark st.visited_dest (ny * cols + nx) })
    (hriver : ∀ (st : FlowState) (nx ny : Int), I st →
      within_board_limits nx ny rows cols = true →
      rival_score_area nx ny player rows cols score_cols = false →
      ¬ (nx = moving_sx ∧ ny = moving_sy) →
      (board_at board nx ny).isEmpty = false →
      (board_at board nx ny).side = Side.RIVER →
      vec_get st.visited_river (ny * cols + nx) = false →
      I { st with to_visit := st.to_visit ++ [(nx, ny)],
                  visited_river := vec_mark st.visited_river (ny * cols + nx) })
    (fuel : Nat) :
    ∀ (nx ny : Int) (st st' : FlowState), I st →
      flow_scan board moving_sx moving_sy player rows cols score_cols dx dy fuel nx ny st
        = some st' → I st' := by
  induction fuel with
  | zero => intro nx ny st st' _ h; simp [flow_scan] at h
  | succ n ih =>
    intro nx ny st st' hst h
    simp only [flow_scan] at h
    by_cases h1 : within_board_limits nx ny rows cols = true
    · rw [if_pos h1] at h
      cases h2 : rival_score_area nx ny player rows cols score_cols with
      | true => rw [h2] at h; simp only [if_true] at h; cases h; exact hst
      | false =>
        rw [h2] at h
        simp only [Bool.false_eq_true, if_false] at h
        by_cases h3 : nx = moving_sx ∧ ny = moving_sy
        · rw [if_pos h3] at h; exact ih _ _ _ _ hst h
        · rw [if_neg h3] at h
          cases h4 : (board_at board nx ny).isEmpty with
          | true =>
            rw [h4] at h
            simp only [if_true] at h
            cases h5 : vec_get st.visited_dest (ny * cols + nx) with
            | true =>
              rw [h5] at h
              simp only [Bool.not_true, Bool.false_eq_true, if_false] at h
              exact ih _ _ _ _ hst h
            | false =>
              rw [h5] at h
              simp only [Bool.not_false, if_true] at h
              exact ih _ _ _ _ (hdest st nx ny hst h1 h2 h3 h4 h5) h
          | false =>
            rw [h4] at h
            simp only [Bool.false_eq_true, if_false] at h
            by_cases h6 : (board_at board nx ny).side = Side.RIVER
            · rw [if_pos h6] at h
              cases h7 : vec_get st.visited_river (ny * cols + nx) with
              | true =>
                rw [h7] at h
                simp only [Bool.not_true, Bool.false_eq_true, if_false] at h
                cases h; exact hst
              | false =>
                rw [h7] at h
                simp only [Bool.not_false, if_true] at h
                cases h
                exact hriver st nx ny hst h1 h2 h3 h4 h6 h7
            · rw [if_neg h6] at h; cases h; exact hst
    · rw [if_neg h1] at h; cases h; exact hst

/-- Invariant rule for the queue loop of `explore_river_network`. -/
theorem flow_bfs_invariant (board : FastBoard) (start_rx start_ry moving_sx moving_sy : Int)
    (player : Player) (rows cols : Int) (score_cols : List Int) (river_push : Bool)
    (scan_fuel : Nat) (I : FlowState → Prop)
    (hpop : ∀ (st : FlowState) (c : Cell) (rest : List Cell), I st → st.to_visit = c :: rest →
      I { st with to_visit := rest })
    (hscan : ∀ (dx dy nx ny : Int) (st st' : FlowState), I st →
      flow_scan board moving_sx moving_sy player rows cols score_cols dx dy scan_fuel nx ny st
        = some st' → I st')
    (fuel : Nat) :
    ∀ (st : FlowState) (res : List Cell), I st →
      flow_bfs board start_rx start_ry moving_sx moving_sy player rows cols score_cols
        river_push scan_fuel fuel st = some res →
      ∃ st', I st' ∧ st'.to_visit = [] ∧ st'.result = res := by
  induction fuel with
  | zero => intro st res _ h; simp [flow_bfs] at h
  | succ n ih =>
    intro st res hst h
    unfold flow_bfs at h
    split at h
    · rename_i hq
      cases h; exact ⟨st, hst, hq, rfl⟩
    · rename_i x y rest hq
      have hst0 := hpop st (x, y) rest hst hq
      simp only at h
      generalize (if river_push = true ∧ x = start_rx ∧ y = start_ry then
          board_at board moving_sx moving_sy else board_at board x y) = cell at h
      by_cases hE : cell.isEmpty = true ∨ cell.side ≠ Side.RIVER
      · rw [if_pos hE] at h; exact ih _ _ hst0 h
      · rw [if_neg hE] at h
        split at h
        · cases h
        · rename_i st1 hs1
          split at h
          · cases h
          · rename_i st2 hs2
            exact ih _ _ (hscan _ _ _ _ _ _ (hscan _ _ _ _ _ _ hst0 hs1) hs2) h

theorem explore_river_network_dest_ok (board : FastBoard)
    (start_rx start_ry moving_sx moving_sy : Int) (player : Player) (rows cols : Int)
    (score_cols : List Int) (river_push : Bool) :
    ∀ d ∈ explore_river_network board start_rx start_ry moving_sx moving_sy player rows cols
        score_cols river_push, flow_dest_ok board player rows cols score_cols d := by
  intro d hd
  unfold explore_river_network explore_river_network_steps at hd
  cases hres : flow_bfs board start_rx start_ry moving_sx moving_sy player rows cols score_cols
      river_push ((max rows cols).toNat + 1) ((rows * cols).toNat + 2)
      (flow_init start_rx start_ry rows cols) with
  | none => rw [hres] at hd; simp at hd
  | some res =>
    rw [hres] at hd
    simp only [Option.getD_some] at hd
    obtain ⟨st', hI, -, hr⟩ := flow_bfs_invariant board start_rx start_ry moving_sx moving_sy
      player rows cols score_cols river_push ((max rows cols).toNat + 1)
      (fun st => ∀ d ∈ st.result, flow_dest_ok board player rows cols score_cols d)
      (fun st c rest h _ => h)
      (fun dx dy nx ny st st' hst hs =>
        flow_scan_invariant board moving_sx moving_sy player rows cols score_cols dx dy
          (fun st => ∀ d ∈ st.result, flow_dest_ok board player rows cols score_cols d)
          (fun st nx ny hI h1 h2 _ h4 _ d hd => by
            simp only [List.mem_append, List.mem_singleton] at hd
            rcases hd with hd | hd
            · exact hI d hd
            · subst hd; exact ⟨h1, h4, h2⟩)
          (fun st nx ny hI _ _ _ _ _ _ => hI)
          _ nx ny st st' hst hs)
      _ _ res (by simp [flow_init]) hres
    exact hI d (hr ▸ hd)

/-! ## Action enumerator -/

theorem transformation_actions_kind (board : FastBoard) (x y : Int) (player : Player)
    (rows cols : Int) (score_cols : List Int) :
    ∀ a ∈ transformation_actions board x y player rows cols score_cols,
      (a.action = ActionKind.flip ∨ a.action = ActionKind.rotate) ∧ a.from_pos = (x, y) ∧
        a.to_pos = (x, y) ∧ a.pushed_to = none := by
  intro a ha
  unfold transformation_actions at ha
  simp only at ha
  split_ifs at ha <;>
    simp only [List.mem_append, List.mem_singleton, List.not_mem_nil, or_false, false_or,
      List.append_nil, List.nil_append, List.singleton_append, List.mem_cons] at ha <;>
    rcases ha with rfl | rfl <;> simp

/-- What the direction loop guarantees of the actions it emits. -/
theorem displacement_actions_spec (board : FastBoard) (x y : Int) (player : Player)
    (rows cols : Int) (score_cols : List Int) (dir : Cell) :
    ∀ a ∈ displacement_actions board x y player rows cols score_cols dir,
      a.from_pos = (x, y) ∧
      ((a.action = ActionKind.move ∧ a.pushed_to = none ∧
          flow_dest_ok board player rows cols score_cols a.to_pos) ∨
       (a.action = ActionKind.push ∧ a.to_pos = (x + dir.1, y + dir.2) ∧
          within_board_limits a.to_pos.1 a.to_pos.2 rows cols = true ∧
          rival_score_area a.to_pos.1 a.to_pos.2 player rows cols score_cols = false ∧
          (board_at board a.to_pos.1 a.to_pos.2).isEmpty = false ∧
          (board_at board a.to_pos.1 a.to_pos.2).side = Side.STONE ∧
          ∃ pt, a.pushed_to = some pt ∧
            flow_dest_ok board (board_at board a.to_pos.1 a.to_pos.2).player rows cols
              score_cols pt)) := by
  intro a ha
  unfold displacement_actions at ha
  simp only at ha
  by_cases h0 : (!(within_board_limits (x + dir.1) (y + dir.2) rows cols)
      || rival_score_area (x + dir.1) (y + dir.2) player rows cols score_cols) = true
  · rw [if_pos h0] at ha; simp at ha
  · rw [if_neg h0] at ha
    simp only [Bool.or_eq_true, Bool.not_eq_true', not_or, Bool.not_eq_false,
      Bool.not_eq_true] at h0
    obtain ⟨hin, hriv⟩ := h0
    cases hE : (board_at board (x + dir.1) (y + dir.2)).isEmpty with
    | true =>
      rw [hE] at ha
      simp only [if_true, List.mem_singleton] at ha
      subst ha
      exact ⟨rfl, Or.inl ⟨rfl, rfl, hin, hE, hriv⟩⟩
    | false =>
      rw [hE] at ha
      simp only [Bool.false_eq_true, if_false] at ha
      by_cases hR : (board_at board (x + dir.1) (y + dir.2)).side = Side.RIVER
      · rw [if_pos hR] at ha
        simp only [List.mem_map] at ha
        obtain ⟨d, hd, rfl⟩ := ha
        exact ⟨rfl, Or.inl ⟨rfl, rfl, explore_river_network_dest_ok _ _ _ _ _ _ _ _ _ _ d hd⟩⟩
      · rw [if_neg hR] at ha
        have hS : (board_at board (x + dir.1) (y + dir.2)).side = Side.STONE := by
          cases hs : (board_at board (x + dir.1) (y + dir.2)).side with
          | STONE => rfl
          | RIVER => exact absurd hs hR
        by_cases hP : (board_at board x y).side = Side.STONE
        · rw [if_pos hP] at ha
          split_ifs at ha with hc
          · simp only [List.mem_singleton] at ha
            subst ha
            simp only [Bool.and_eq_true, Bool.not_eq_true'] at hc
            exact ⟨rfl, Or.inr ⟨rfl, rfl, hin, hriv, hE, hS, _, rfl, hc.1.1, hc.1.2, hc.2⟩⟩
          · simp at ha
        · rw [if_neg hP] at ha
          simp only [List.mem_map] at ha
          obtain ⟨d, hd, rfl⟩ := ha
          exact ⟨rfl, Or.inr ⟨rfl, rfl, hin, hriv, hE, hS, d, rfl,
            explore_river_network_dest_ok _ _ _ _ _ _ _ _ _ _ d hd⟩⟩

/-- Every action of `calculate_possible_actions` comes from one owned cell of the grid
scan. -/
theorem mem_calculate_possible_actions (board : FastBoard) (player : Player) (rows cols : Int)
    (score_cols : List Int) (a : Move) :
    a ∈ calculate_possible_actions board player rows cols score_cols ↔
      ∃ y ∈ int_range rows, ∃ x ∈ int_range cols,
        (board_at board x y).isEmpty = false ∧ (board_at board x y).player = player ∧
        a ∈ get_actions_for_piece board x y player rows cols score_cols := by
  unfold calculate_possible_actions
  simp only [List.mem_flatMap]
  constructor
  · rintro ⟨y, hy, x, hx, h⟩
    split_ifs at h with hc
    · simp only [Bool.and_eq_true, Bool.not_eq_true', decide_eq_true_eq] at hc
      exact ⟨y, hy, x, hx, hc.1, hc.2, h⟩
    · simp at h
  · rintro ⟨y, hy, x, hx, h1, h2, h⟩
    refine ⟨y, hy, x, hx, ?_⟩
    rw [if_pos (by simp [h1, h2])]
    exact h

theorem mem_get_actions_for_piece (board : FastBoard) (x y : Int) (player : Player)
    (rows cols : Int) (score_cols : List Int) (a : Move) :
    a ∈ get_actions_for_piece board x y player rows cols score_cols ↔
      a ∈ transformation_actions board x y player rows cols score_cols ∨
      ∃ dir ∈ DIRECTIONS, a ∈ displacement_actions board x y player rows cols score_cols dir := by
  unfold get_actions_for_piece
  simp only [List.mem_append, List.mem_flatMap]

/-- C1: every destination returned by `explore_river_network` is in bounds, is an empty
cell of the input board, and is not a rival scoring cell for the given player. -/
theorem explore_river_network_destinations (board : FastBoard)
    (start_rx start_ry moving_sx moving_sy : Int) (player : Player) (rows cols : Int)
    (score_cols : List Int) (river_push : Bool) (d : Cell)
    (hd : d ∈ explore_river_network board start_rx start_ry moving_sx moving_sy player rows
      cols score_cols river_push) :
    within_board_limits d.1 d.2 rows cols = true ∧
      (board_at board d.1 d.2).isEmpty = true ∧
      rival_score_area d.1 d.2 player rows cols score_cols = false :=
  explore_river_network_dest_ok board start_rx start_ry moving_sx moving_sy player rows cols
    score_cols river_push d hd

theorem explore_river_network_destinations_witness :
    ((0, 3) : Cell) ∈ explore_river_network flow_board 0 1 0 0 Player.SQUARE 7 3 [1] false ∧
      (within_board_limits 0 3 7 3 = true ∧ (board_at flow_board 0 3).isEmpty = true ∧
        rival_score_area 0 3 Player.SQUARE 7 3 [1] = false) :=
  ⟨by decide,
   explore_river_network_destinations flow_board 0 1 0 0 Player.SQUARE 7 3 [1] false (0, 3)
     (by decide)⟩

/-- C2 as stated fails: on `push_board` the Square player may push the Circle Stone from
(1,1) to (1,2), a rival scoring cell of the acting (Square) player. -/
theorem push_into_rival_cell_counterexample :
    ({ action := ActionKind.push, from_pos := (1, 0), to_pos := (1, 1),
       pushed_to := some (1, 2) } : Move)
        ∈ calculate_possible_actions push_board Player.SQUARE 8 3 [1] ∧
      rival_score_area 1 2 Player.SQUARE 8 3 [1] = true := by
  decide

/-- C2 amended: no Move or Push returned by `calculate_possible_actions` has a destination
`to` that is a rival scoring cell of the acting player, and the `pushed_to` of every Push is
not a rival scoring cell of the owner of the pushed piece (the piece at `to`). -/
theorem generated_actions_avoid_rival_cells (board : FastBoard) (player : Player)
    (rows cols : Int) (score_cols : List Int) (a : Move)
    (ha : a ∈ calculate_possible_actions board player rows cols score_cols) :
    ((a.action = ActionKind.move ∨ a.action = ActionKind.push) →
        rival_score_area a.to_pos.1 a.to_pos.2 player rows cols score_cols = false) ∧
      (a.action = ActionKind.push →
        ∃ pt, a.pushed_to = some pt ∧
          rival_score_area pt.1 pt.2 (board_at board a.to_pos.1 a.to_pos.2).player rows cols
            score_cols = false) := by
  obtain ⟨y, -, x, -, -, -, h⟩ :=
    (mem_calculate_possible_actions board player rows cols score_cols a).1 ha
  rcases (mem_get_actions_for_piece board x y player rows cols score_cols a).1 h with h | h
  · obtain ⟨hk, -⟩ := transformation_actions_kind board x y player rows cols score_cols a h
    constructor
    · intro hm; rcases hk with hk | hk <;> rcases hm with hm | hm <;> rw [hk] at hm <;> cases hm
    · intro hm; rcases hk with hk | hk <;> rw [hk] at hm <;> cases hm
  · obtain ⟨dir, -, h⟩ := h
    obtain ⟨-, hs⟩ := displacement_actions_spec board x y player rows cols score_cols dir a h
    rcases hs with ⟨hk, -, hok⟩ | ⟨hk, -, -, hriv, -, -, pt, hpt, hok⟩
    · exact ⟨fun _ => hok.2.2, fun hm => by rw [hk] at hm; cases hm⟩
    · exact ⟨fun _ => hriv, fun _ => ⟨pt, hpt, hok.2.2⟩⟩

theorem generated_actions_avoid_rival_cells_witness :
    ({ action := ActionKind.push, from_pos := (1, 0), to_pos := (1, 1),
       pushed_to := some (1, 2) } : Move)
        ∈ calculate_possible_actions push_board Player.SQUARE 8 3 [1] ∧
      (((ActionKind.push = ActionKind.move ∨ ActionKind.push = ActionKind.push) →
          rival_score_area 1 1 Player.SQUARE 8 3 [1] = false) ∧
        (ActionKind.push = ActionKind.push →
          ∃ pt, some ((1, 2) : Cell) = some pt ∧
            rival_score_area pt.1 pt.2 (board_at push_board 1 1).player 8 3 [1] = false)) :=
  ⟨by decide,
   generated_actions_avoid_rival_cells push_board Player.SQUARE 8 3 [1]
     { action := ActionKind.push, from_pos := (1, 0), to_pos := (1, 1),
       pushed_to := some (1, 2) } (by decide)⟩

/-! ## State transition and win test -/

theorem is_stone_of_iff (owner : Player) (cell : Piece) (ho : owner ≠ Player.NONE) :
    is_stone_of owner cell = true ↔ cell.player = owner ∧ cell.side = Side.STONE := by
  unfold is_stone_of Piece.isEmpty
  simp only [Bool.and_eq_true, Bool.not_eq_true', decide_eq_false_iff_not, decide_eq_true_eq]
  constructor
  · rintro ⟨⟨-, h2⟩, h3⟩; exact ⟨h2, h3⟩
  · rintro ⟨h2, h3⟩; exact ⟨⟨by rw [h2]; exact ho, h2⟩, h3⟩

/-- The counting loop of `is_win_state`: with `circle_score` and `square_score` still short
of `size` and not more columns left than needed, it answers true exactly if all remaining
columns hold the right Stone for a player whose counter can still reach `size`. -/
theorem win_scan_iff (board : FastBoard) (rows : Int) (size : Nat) :
    ∀ (cols_left : List Int) (circle_score square_score : Nat),
      circle_score < size → square_score < size →
      circle_score + cols_left.length ≤ size → square_score + cols_left.length ≤ size →
      (win_scan board rows size cols_left circle_score square_score = true ↔
        (circle_score + cols_left.length = size ∧
          ∀ x ∈ cols_left, is_stone_of Player.CIRCLE (board_at board x top_score_row) = true) ∨
        (square_score + cols_left.length = size ∧
          ∀ x ∈ cols_left,
            is_stone_of Player.SQUARE (board_at board x (bottom_score_row rows)) = true)) := by
  intro cols_left
  induction cols_left with
  | nil =>
    intro c s hc hs _ _
    simp only [win_scan, List.length_nil, Nat.add_zero, List.not_mem_nil, false_implies,
      implies_true, and_true, Bool.false_eq_true, false_iff, not_or]
    exact ⟨by omega, by omega⟩
  | cons x rest ih =>
    intro c s hc hs hcl hsl
    simp only [List.length_cons] at hcl hsl
    simp only [win_scan, List.length_cons, List.forall_mem_cons]
    cases hC : is_stone_of Player.CIRCLE (board_at board x top_score_row) <;>
      cases hS : is_stone_of Player.SQUARE (board_at board x (bottom_score_row rows))
    · simp only [Bool.false_eq_true, false_and, if_false, and_false, or_self, iff_false]
      rw [ih c s hc hs (by omega) (by omega)]
      simp only [not_or, not_and]
      exact ⟨fun h => absurd h (by omega), fun h => absurd h (by omega)⟩
    · simp only [Bool.false_eq_true, false_and, if_false, true_and, if_true, and_false,
        false_or]
      by_cases hge : s + 1 ≥ size
      · simp only [hge, if_true, true_iff]
        have hr : rest = [] := by
          cases rest with
          | nil => rfl
          | cons _ _ => simp only [List.length_cons] at hsl; omega
        subst hr
        simp only [List.length_nil, List.not_mem_nil, false_implies, implies_true, and_true]
        omega
      · simp only [hge, if_false]
        rw [ih c (s + 1) hc (by omega) (by omega) (by omega)]
        constructor
        · rintro (⟨h, -⟩ | ⟨h, h'⟩)
          · omega
          · exact ⟨by omega, h'⟩
        · rintro ⟨h, h'⟩
          exact Or.inr ⟨by omega, h'⟩
    · simp only [true_and, if_true, Bool.false_eq_true, false_and, if_false, and_false,
        or_false]
      by_cases hge : c + 1 ≥ size
      · simp only [hge, if_true, true_iff]
        have hr : rest = [] := by
          cases rest with
          | nil => rfl
          | cons _ _ => simp only [List.length_cons] at hcl; omega
        subst hr
        simp only [List.length_nil, List.not_mem_nil, false_implies, implies_true, and_true]
        omega
      · simp only [hge, if_false]
        rw [ih (c + 1) s (by omega) hs (by omega) (by omega)]
        constructor
        · rintro (⟨h, h'⟩ | ⟨h, -⟩)
          · exact ⟨by omega, h'⟩
          · omega
        · rintro ⟨h, h'⟩
          exact Or.inl ⟨by omega, h'⟩
    · simp only [true_and, if_true]
      by_cases hge : c + 1 ≥ size
      · simp only [hge, if_true, true_iff]
        have hr : rest = [] := by
          cases rest with
          | nil => rfl
          | cons _ _ => simp only [List.length_cons] at hcl; omega
        subst hr
        simp only [List.length_nil, List.not_mem_nil, false_implies, implies_true, and_true]
        omega
      · simp only [hge, if_false]
        by_cases hge2 : s + 1 ≥ size
        · simp only [hge2, if_true, true_iff]
          have hr : rest = [] := by
            cases rest with
            | nil => rfl
            | cons _ _ => simp only [List.length_cons] at hsl; omega
          subst hr
          simp only [List.length_nil, List.not_mem_nil, false_implies, implies_true, and_true]
          omega
        · simp only [hge2, if_false]
          rw [ih (c + 1) (s + 1) (by omega) (by omega) (by omega) (by omega)]
          constructor
          · rintro (⟨h, h'⟩ | ⟨h, h'⟩)
            · exact Or.inl ⟨by omega, h'⟩
            · exact Or.inr ⟨by omega, h'⟩
          · rintro (⟨h, h'⟩ | ⟨h, h'⟩)
            · exact Or.inl ⟨by omega, h'⟩
            · exact Or.inr ⟨by omega, h'⟩

/-- C3: for a non-empty list of scoring columns, `is_win_state` is true exactly if every
scoring column of row 2 holds a Circle Stone or every scoring column of row `rows - 3` holds
a Square Stone; one goal slot that is empty, holds a River or holds the other player's piece
makes that player's condition false. -/
theorem is_win_state_iff_goal_row_full (board : FastBoard) (rows cols : Int)
    (score_cols : List Int) (hne : score_cols ≠ []) :
    (is_win_state board rows cols score_cols = true ↔
      (∀ x ∈ score_cols, (board_at board x 2).player = Player.CIRCLE ∧
          (board_at board x 2).side = Side.STONE) ∨
      (∀ x ∈ score_cols, (board_at board x (rows - 3)).player = Player.SQUARE ∧
          (board_at board x (rows - 3)).side = Side.STONE)) ∧
    (∀ x ∈ score_cols,
      ((board_at board x 2).isEmpty = true ∨ (board_at board x 2).side = Side.RIVER ∨
          (board_at board x 2).player = Player.SQUARE) →
      ¬ ∀ x' ∈ score_cols, (board_at board x' 2).player = Player.CIRCLE ∧
          (board_at board x' 2).side = Side.STONE) ∧
    (∀ x ∈ score_cols,
      ((board_at board x (rows - 3)).isEmpty = true ∨
          (board_at board x (rows - 3)).side = Side.RIVER ∨
          (board_at board x (rows - 3)).player = Player.CIRCLE) →
      ¬ ∀ x' ∈ score_cols, (board_at board x' (rows - 3)).player = Player.SQUARE ∧
          (board_at board x' (rows - 3)).side = Side.STONE) := by
  refine ⟨?_, ?_, ?_⟩
  · have hlen : 0 < score_cols.length := List.length_pos.mpr hne
    unfold is_win_state
    rw [win_scan_iff board rows score_cols.length score_cols 0 0 hlen hlen (by omega) (by omega)]
    simp only [Nat.zero_add, true_and]
    have e1 : ∀ x, is_stone_of Player.CIRCLE (board_at board x top_score_row) = true ↔
        (board_at board x 2).player = Player.CIRCLE ∧ (board_at board x 2).side = Side.STONE :=
      fun x => is_stone_of_iff _ _ (by decide)
    have e2 : ∀ x, is_stone_of Player.SQUARE (board_at board x (bottom_score_row rows)) = true ↔
        (board_at board x (rows - 3)).player = Player.SQUARE ∧
          (board_at board x (rows - 3)).side = Side.STONE :=
      fun x => is_stone_of_iff _ _ (by decide)
    simp only [e1, e2]
  · intro x hx hbad hall
    obtain ⟨hp, hs⟩ := hall x hx
    rcases hbad with h | h | h
    · simp [Piece.isEmpty, hp] at h
    · rw [hs] at h; cases h
    · rw [hp] at h; cases h
  · intro x hx hbad hall
    obtain ⟨hp, hs⟩ := hall x hx
    rcases hbad with h | h | h
    · simp [Piece.isEmpty, hp] at h
    · rw [hs] at h; cases h
    · rw [hp] at h; cases h

theorem is_win_state_iff_goal_row_full_witness :
    ([1] : List Int) ≠ [] ∧ is_win_state circle_win_board 8 3 [1] = true :=
  ⟨by decide,
   (is_win_state_iff_goal_row_full circle_win_board 8 3 [1] (by decide)).1.2
     (Or.inl (by decide))⟩

theorem board_at_set_other (board : FastBoard) (x y x' y' : Int) (p : Piece)
    (hne : ¬ (x' = x ∧ y' = y)) :
    board_at (board_set board x y p) x' y' = board_at board x' y' := by
  unfold board_at board_set
  by_cases h0 : x < 0 ∨ y < 0
  · rw [if_pos h0]
  · rw [if_neg h0]
    by_cases h1 : x' < 0 ∨ y' < 0
    · rw [if_pos h1, if_pos h1]
    · rw [if_neg h1, if_neg h1]
      simp only [not_or, not_lt] at h0 h1
      simp only [List.getD_eq_getElem?_getD]
      by_cases hy : y'.toNat = y.toNat
      · have hx : x'.toNat ≠ x.toNat := by
          intro hx; apply hne; constructor <;> omega
        rw [hy]
        by_cases hlen : y.toNat < board.length
        · simp [List.getElem?_set, hlen, hx, Ne.symm hx]
        · have hnone : board[y.toNat]? = none := List.getElem?_eq_none (by omega)
          simp [List.getElem?_set, hlen, hnone]
      · simp [List.getElem?_set, hy, Ne.symm hy]

theorem board_at_set_same (board : FastBoard) (rows cols : Int) (x y : Int) (p : Piece)
    (hshape : board_shape board rows cols) (hin : within_board_limits x y rows cols = true) :
    board_at (board_set board x y p) x y = p := by
  unfold within_board_limits at hin
  split_ifs at hin with h0 h1
  simp only [not_or, not_lt, ge_iff_le, not_le] at h0 h1
  obtain ⟨hlen, hrow⟩ := hshape
  have hy : y.toNat < board.length := by omega
  have hx : x.toNat < (board[y.toNat]).length := by
    have := hrow (board[y.toNat]) (List.getElem_mem _)
    omega
  unfold board_at board_set
  rw [if_neg (by omega), if_neg (by omega)]
  simp [List.getD_eq_getElem?_getD, List.getElem?_set, hy, hx]

theorem board_set_shape (board : FastBoard) (rows cols : Int) (x y : Int) (p : Piece)
    (hshape : board_shape board rows cols) :
    board_shape (board_set board x y p) rows cols := by
  unfold board_set
  split_ifs with h0
  · exact hshape
  · by_cases hy : y.toNat < board.length
    · obtain ⟨hlen, hrow⟩ := hshape
      refine ⟨by simpa using hlen, ?_⟩
      intro row hrowmem
      rcases List.mem_or_eq_of_mem_set hrowmem with h | h
      · exact hrow row h
      · subst h
        have := hrow (board[y.toNat]) (List.getElem_mem _)
        simpa [List.getD_eq_getElem?_getD, hy] using this
    · rw [List.set_eq_of_length_le (by omega)]
      exact hshape

/-- C10: for a Move action with in-bounds source and destination, source different from
destination, `get_next_board_state` returns a board whose destination holds the piece that
was at the source, whose source is the empty piece, and whose other cells are unchanged. -/
theorem get_next_board_state_move (board : FastBoard) (rows cols : Int) (m : Move)
    (hshape : board_shape board rows cols) (hk : m.action = ActionKind.move)
    (hsrc : within_board_limits m.from_pos.1 m.from_pos.2 rows cols = true)
    (hdst : within_board_limits m.to_pos.1 m.to_pos.2 rows cols = true)
    (hne : m.from_pos ≠ m.to_pos) :
    board_at (get_next_board_state board m) m.to_pos.1 m.to_pos.2
        = board_at board m.from_pos.1 m.from_pos.2 ∧
      board_at (get_next_board_state board m) m.from_pos.1 m.from_pos.2 = {} ∧
      ∀ x y : Int, (x, y) ≠ m.from_pos → (x, y) ≠ m.to_pos →
        board_at (get_next_board_state board m) x y = board_at board x y := by
  have hnext : get_next_board_state board m
      = board_set (board_set board m.to_pos.1 m.to_pos.2
          (board_at board m.from_pos.1 m.from_pos.2)) m.from_pos.1 m.from_pos.2 {} := by
    unfold get_next_board_state
    rw [hk]
  have hne' : ¬ (m.to_pos.1 = m.from_pos.1 ∧ m.to_pos.2 = m.from_pos.2) := by
    rintro ⟨h1, h2⟩
    exact hne (Prod.ext h1.symm h2.symm)
  rw [hnext]
  refine ⟨?_, ?_, ?_⟩
  · rw [board_at_set_other _ _ _ _ _ _ hne']
    exact board_at_set_same board rows cols _ _ _ hshape hdst
  · exact board_at_set_same _ rows cols _ _ _ (board_set_shape board rows cols _ _ _ hshape) hsrc
  · intro x y h1 h2
    rw [board_at_set_other _ _ _ _ _ _ (fun h => h1 (Prod.ext h.1 h.2)),
      board_at_set_other _ _ _ _ _ _ (fun h => h2 (Prod.ext h.1 h.2))]

theorem flow_board_shape : board_shape flow_board 7 3 := by
  unfold board_shape flow_board
  decide

theorem get_next_board_state_move_witness :
    (board_shape flow_board 7 3 ∧ first_move.action = ActionKind.move ∧
      within_board_limits first_move.from_pos.1 first_move.from_pos.2 7 3 = true ∧
      within_board_limits first_move.to_pos.1 first_move.to_pos.2 7 3 = true ∧
      first_move.from_pos ≠ first_move.to_pos) ∧
    (board_at (get_next_board_state flow_board first_move) first_move.to_pos.1
          first_move.to_pos.2
        = board_at flow_board first_move.from_pos.1 first_move.from_pos.2 ∧
      board_at (get_next_board_state flow_board first_move) first_move.from_pos.1
          first_move.from_pos.2 = {} ∧
      ∀ x y : Int, (x, y) ≠ first_move.from_pos → (x, y) ≠ first_move.to_pos →
        board_at (get_next_board_state flow_board first_move) x y = board_at flow_board x y) :=
  ⟨⟨flow_board_shape, rfl, by decide, by decide, by decide⟩,
   get_next_board_state_move flow_board 7 3 first_move flow_board_shape rfl (by decide)
     (by decide) (by decide)⟩

/-! ## Search engine -/

/-- C8: at a node whose fingerprint is in the position history, `alpha_beta_search` returns
-500000000 for every remaining depth, window and table content, and returns the table
unchanged. -/
theorem alpha_beta_search_repetition (ctx : SearchContext) (rows cols : Int)
    (score_cols : List Int) (position_history : List Nat) (depth : Nat)
    (tt : TranspositionTable) (board_state : FastBoard) (alpha beta : Score)
    (current_player : Player)
    (hrep : compute_hash ctx board_state current_player rows cols ∈ position_history) :
    alpha_beta_search ctx rows cols score_cols position_history depth tt board_state alpha
        beta current_player
      = (Score.val (-500000000), tt) := by
  cases depth with
  | zero =>
    unfold alpha_beta_search search_node
    simp only [hrep, if_true]
  | succ d =>
    unfold alpha_beta_search search_node
    simp only [hrep, if_true]

theorem alpha_beta_search_repetition_witness :
    compute_hash square_agent lone_stone_board Player.CIRCLE 17 3
        ∈ [compute_hash square_agent lone_stone_board Player.CIRCLE 17 3] ∧
      alpha_beta_search square_agent 17 3 [1]
          [compute_hash square_agent lone_stone_board Player.CIRCLE 17 3] 2 tt_empty
          lone_stone_board (Score.val 0) Score.pos_inf Player.CIRCLE
        = (Score.val (-500000000), tt_empty) :=
  ⟨List.mem_singleton.2 rfl,
   alpha_beta_search_repetition square_agent 17 3 [1]
     [compute_hash square_agent lone_stone_board Player.CIRCLE 17 3] 2 tt_empty
     lone_stone_board (Score.val 0) Score.pos_inf Player.CIRCLE (List.mem_singleton.2 rfl)⟩

/-- Every generated action carries one of the four action tags. -/
theorem generated_action_kind (board : FastBoard) (player : Player) (rows cols : Int)
    (score_cols : List Int) (a : Move)
    (ha : a ∈ calculate_possible_actions board player rows cols score_cols) :
    a.action ≠ ActionKind.none := by
  obtain ⟨y, -, x, -, -, -, h⟩ :=
    (mem_calculate_possible_actions board player rows cols score_cols a).1 ha
  rcases (mem_get_actions_for_piece board x y player rows cols score_cols a).1 h with h | h
  · obtain ⟨hk, -⟩ := transformation_actions_kind board x y player rows cols score_cols a h
    rcases hk with hk | hk <;> rw [hk] <;> decide
  · obtain ⟨dir, -, h⟩ := h
    obtain ⟨-, hs⟩ := displacement_actions_spec board x y player rows cols score_cols dir a h
    rcases hs with ⟨hk, -⟩ | ⟨hk, -⟩ <;> rw [hk] <;> decide

/-- The root loop only ever puts moves of its input list into the tie list. -/
theorem root_loop_best_mem (ctx : SearchContext) (rows cols : Int) (score_cols : List Int)
    (position_history : List Nat) (clock : Nat → Bool) (board : FastBoard) (depth : Nat)
    (P : Move → Prop) :
    ∀ (moves : List Move) (st : RootLoopState),
      (∀ m ∈ st.current_depth_best_moves, P m) → (∀ m ∈ moves, P m) →
      ∀ m ∈ (root_loop ctx rows cols score_cols position_history clock board depth moves
          st).1.current_depth_best_moves, P m := by
  intro moves
  induction moves with
  | nil => intro st hst _; simpa [root_loop] using hst
  | cons mv rest ih =>
    intro st hst hmoves
    have hmv : P mv := hmoves mv (List.mem_cons_self _ _)
    have hrest : ∀ m ∈ rest, P m := fun m hm => hmoves m (List.mem_cons_of_mem _ hm)
    unfold root_loop
    simp only
    split_ifs with hclock h1 h2 h1 h2
    · intro m hm
      simp only [List.mem_singleton] at hm
      rw [hm]; exact hmv
    · intro m hm
      simp only [List.mem_append, List.mem_singleton] at hm
      rcases hm with hm | hm
      · exact hst m hm
      · rw [hm]; exact hmv
    · exact hst
    · refine ih _ ?_ hrest
      intro m hm
      simp only [List.mem_singleton] at hm
      rw [hm]; exact hmv
    · refine ih _ ?_ hrest
      intro m hm
      simp only [List.mem_append, List.mem_singleton] at hm
      rcases hm with hm | hm
      · exact hst m hm
      · rw [hm]; exact hmv
    · exact ih _ hst hrest

/-- The moves a depth iteration of `find_best_move` walks through are the legal moves. -/
theorem mem_ordered_root_moves (evaluated_moves : List ScoredMove) (depth : Nat)
    (legal : List Move) (m : Move) :
    m ∈ ordered_root_moves evaluated_moves depth legal ↔ m ∈ legal := by
  unfold ordered_root_moves
  split_ifs
  · exact (List.perm_insertionSort _ _).mem_iff
  · exact Iff.rfl

/-- The tie list of one depth iteration holds legal root moves only. -/
theorem run_depth_best_mem (ctx : SearchContext) (rows cols : Int) (score_cols : List Int)
    (position_history : List Nat) (clock : Nat → Bool) (board : FastBoard) (depth : Nat)
    (st : SearchState) :
    ∀ m ∈ (run_depth ctx rows cols score_cols position_history clock board depth
        st).1.current_depth_best_moves,
      m ∈ calculate_possible_actions board ctx.side_ rows cols score_cols := by
  unfold run_depth
  exact root_loop_best_mem ctx rows cols score_cols position_history clock board depth _ _ _
    (by simp) (fun m hm => (mem_ordered_root_moves _ _ _ m).1 hm)

/-- One depth iteration keeps `best_action_list` within the legal root moves. -/
theorem depth_step_best_mem (ctx : SearchContext) (rows cols : Int) (score_cols : List Int)
    (position_history : List Nat) (clock : Nat → Bool) (board : FastBoard) (depth : Nat)
    (st : SearchState)
    (hst : ∀ m ∈ st.best_action_list,
      m ∈ calculate_possible_actions board ctx.side_ rows cols score_cols) :
    ∀ m ∈ (depth_step ctx rows cols score_cols position_history clock board depth
        st).1.best_action_list,
      m ∈ calculate_possible_actions board ctx.side_ rows cols score_cols := by
  unfold depth_step
  simp only
  split_ifs with h0 h1 h2
  · exact hst
  · exact run_depth_best_mem ctx rows cols score_cols position_history clock board depth st
  · exact hst
  · exact hst

/-- The list `best_action_list` only ever holds legal root moves. -/
theorem depth_loop_best_mem (ctx : SearchContext) (rows cols : Int) (score_cols : List Int)
    (position_history : List Nat) (clock : Nat → Bool) (board : FastBoard) :
    ∀ (depths : List Nat) (st : SearchState),
      (∀ m ∈ st.best_action_list,
        m ∈ calculate_possible_actions board ctx.side_ rows cols score_cols) →
      ∀ m ∈ (depth_loop ctx rows cols score_cols position_history clock board depths
          st).1.best_action_list,
        m ∈ calculate_possible_actions board ctx.side_ rows cols score_cols := by
  intro depths
  induction depths with
  | nil => intro st hst; simpa [depth_loop] using hst
  | cons d deeper ih =>
    intro st hst
    have hstep := depth_step_best_mem ctx rows cols score_cols position_history clock board d
      st hst
    unfold depth_loop
    rcases hs : depth_step ctx rows cols score_cols position_history clock board d st with
      ⟨st', _ | stop⟩
    · rw [hs] at hstep; exact ih st' hstep
    · rw [hs] at hstep; exact hstep

/-- C5: if the engine's side has a legal action on the root board, the action returned by
`find_best_move` is one of the actions of `calculate_possible_actions`, whatever the clock
readings and the random draw; it is never the placeholder action. -/
theorem find_best_move_is_legal (ctx : SearchContext) (board : FastBoard) (rows cols : Int)
    (score_cols : List Int) (clock : Nat → Bool) (draw : Nat) (position_history : List Nat)
    (hlegal : calculate_possible_actions board ctx.side_ rows cols score_cols ≠ []) :
    find_best_move ctx board rows cols score_cols clock draw position_history
        ∈ calculate_possible_actions board ctx.side_ rows cols score_cols ∧
      (find_best_move ctx board rows cols score_cols clock draw position_history).action
        ≠ ActionKind.none := by
  have hmem : find_best_move ctx board rows cols score_cols clock draw position_history
      ∈ calculate_possible_actions board ctx.side_ rows cols score_cols := by
    have hbest := depth_loop_best_mem ctx rows cols score_cols position_history clock board
      (search_depths max_search_depth)
      { best_action_list := [], evaluated_moves := [], tt := tt_empty, tick := 0 } (by simp)
    unfold find_best_move select_action iterative_deepening
    generalize (depth_loop ctx rows cols score_cols position_history clock board
      (search_depths max_search_depth)
      { best_action_list := [], evaluated_moves := [], tt := tt_empty,
        tick := 0 }).1.best_action_list = best at hbest
    split_ifs with h1 h2
    · cases hl : calculate_possible_actions board ctx.side_ rows cols score_cols with
      | nil => exact absurd hl hlegal
      | cons first rest => simp
    · apply hbest
      rw [List.getD_eq_getElem _ _ (by omega)]
      exact List.getElem_mem _
    · apply hbest
      have hpos : 0 < best.length := List.length_pos.mpr h1
      rw [List.getD_eq_getElem _ _ (Nat.mod_lt _ hpos)]
      exact List.getElem_mem _
  exact ⟨hmem, generated_action_kind _ _ _ _ _ _ hmem⟩

theorem find_best_move_is_legal_witness :
    calculate_possible_actions lone_stone_board square_agent.side_ 17 3 [1] ≠ [] ∧
      (find_best_move square_agent lone_stone_board 17 3 [1] (fun _ => false) 0 []
          ∈ calculate_possible_actions lone_stone_board square_agent.side_ 17 3 [1] ∧
        (find_best_move square_agent lone_stone_board 17 3 [1] (fun _ => false) 0 []).action
          ≠ ActionKind.none) :=
  ⟨by decide,
   find_best_move_is_legal square_agent lone_stone_board 17 3 [1] (fun _ => false) 0 []
     (by decide)⟩

/-- The root loop reports an incomplete depth as soon as one of its time checks fails. -/
theorem root_loop_times_out (ctx : SearchContext) (rows cols : Int) (score_cols : List Int)
    (position_history : List Nat) (clock : Nat → Bool) (board : FastBoard) (depth : Nat) :
    ∀ (moves : List Move) (st : RootLoopState),
      (∃ j, j < moves.length ∧ clock (st.tick + j) = true) →
      (root_loop ctx rows cols score_cols position_history clock board depth moves st).2
        = false := by
  intro moves
  induction moves with
  | nil => rintro st ⟨j, hj, -⟩; simp at hj
  | cons mv rest ih =>
    rintro st ⟨j, hj, hc⟩
    unfold root_loop
    simp only
    by_cases hclock : clock st.tick = true
    · rw [if_pos hclock]
    · rw [if_neg hclock]
      have hj0 : j ≠ 0 := by
        intro h0; subst h0; exact hclock (by simpa using hc)
      obtain ⟨j', rfl⟩ := Nat.exists_eq_succ_of_ne_zero hj0
      apply ih
      refine ⟨j', by simpa using hj, ?_⟩
      have ht : ∀ s : RootLoopState, s.tick = st.tick + 1 → clock (s.tick + j') = true := by
        intro s hs; rw [hs]
        have : st.tick + 1 + j' = st.tick + (j' + 1) := by omega
        rw [this]; exact hc
      split_ifs <;> exact ht _ rfl

/-- A depth whose root loop stopped early had at least one root move. -/
theorem root_loop_incomplete (ctx : SearchContext) (rows cols : Int) (score_cols : List Int)
    (position_history : List Nat) (clock : Nat → Bool) (board : FastBoard) (depth : Nat)
    (moves : List Move) (st : RootLoopState)
    (h : (root_loop ctx rows cols score_cols position_history clock board depth moves st).2
      = false) : moves ≠ [] := by
  intro hm
  subst hm
  simp [root_loop] at h

theorem Score.eq_neg_inf_of_not_lt (s : Score) (h : ¬ Score.neg_inf.lt s = true) :
    s = Score.neg_inf := by
  cases s <;> simp [Score.lt] at h ⊢

/-- Started with `top_score = -infinity`, the root loop over a non-empty move list ends
with a non-empty tie list. -/
theorem root_loop_best_nonempty (ctx : SearchContext) (rows cols : Int)
    (score_cols : List Int) (position_history : List Nat) (clock : Nat → Bool)
    (board : FastBoard) (depth : Nat) :
    ∀ (moves : List Move) (st : RootLoopState),
      (st.current_depth_best_moves ≠ [] ∨ (st.top_score = Score.neg_inf ∧ moves ≠ [])) →
      (root_loop ctx rows cols score_cols position_history clock board depth moves
        st).1.current_depth_best_moves ≠ [] := by
  intro moves
  induction moves with
  | nil =>
    intro st h
    rcases h with h | ⟨-, h⟩
    · simpa [root_loop] using h
    · exact absurd rfl h
  | cons mv rest ih =>
    intro st h
    unfold root_loop
    simp only
    split_ifs with hclock h1 h2 h1 h2
    · simp
    · simp
    · rcases h with h | ⟨h, -⟩
      · exact h
      · rw [h] at h1 h2
        exact absurd (Score.eq_neg_inf_of_not_lt _ h1) h2
    · exact ih _ (Or.inl (by simp))
    · exact ih _ (Or.inl (by simp))
    · rcases h with h | ⟨h, -⟩
      · exact ih _ (Or.inl h)
      · rw [h] at h1 h2
        exact absurd (Score.eq_neg_inf_of_not_lt _ h1) h2

theorem ordered_root_moves_eq_nil (evaluated_moves : List ScoredMove) (depth : Nat)
    (legal : List Move) : ordered_root_moves evaluated_moves depth legal = [] ↔ legal = [] := by
  constructor
  · intro h
    cases legal with
    | nil => rfl
    | cons a l =>
      have := (mem_ordered_root_moves evaluated_moves depth (a :: l) a).2
        (List.mem_cons_self _ _)
      rw [h] at this
      simp at this
  · intro h
    subst h
    unfold ordered_root_moves
    split_ifs <;> simp

theorem run_depth_best_nonempty (ctx : SearchContext) (rows cols : Int) (score_cols : List Int)
    (position_history : List Nat) (clock : Nat → Bool) (board : FastBoard) (depth : Nat)
    (st : SearchState)
    (hlegal : calculate_possible_actions board ctx.side_ rows cols score_cols ≠ []) :
    (run_depth ctx rows cols score_cols position_history clock board depth
      st).1.current_depth_best_moves ≠ [] := by
  unfold run_depth
  apply root_loop_best_nonempty
  exact Or.inr ⟨rfl, fun h => hlegal ((ordered_root_moves_eq_nil _ _ _).1 h)⟩

theorem run_depth_incomplete (ctx : SearchContext) (rows cols : Int) (score_cols : List Int)
    (position_history : List Nat) (clock : Nat → Bool) (board : FastBoard) (depth : Nat)
    (st : SearchState)
    (h : (run_depth ctx rows cols score_cols position_history clock board depth st).2 = false) :
    calculate_possible_actions board ctx.side_ rows cols score_cols ≠ [] := by
  unfold run_depth at h
  intro hl
  exact root_loop_incomplete _ _ _ _ _ _ _ _ _ _ h ((ordered_root_moves_eq_nil _ _ _).2 hl)

/-- An iteration leaves the depth loop either before it starts or during its root loop; in
the second case the root loop was cut short and `best_action_list` is left as it was. -/
theorem depth_step_stop (ctx : SearchContext) (rows cols : Int) (score_cols : List Int)
    (position_history : List Nat) (clock : Nat → Bool) (board : FastBoard) (depth : Nat)
    (st st' : SearchState) (stop : SearchStop)
    (h : depth_step ctx rows cols score_cols position_history clock board depth st
      = (st', some stop)) :
    stop = SearchStop.no_time_to_start depth ∨
      (stop = SearchStop.ran_out_during depth ∧
        (run_depth ctx rows cols score_cols position_history clock board depth st).2 = false ∧
        st'.best_action_list = st.best_action_list) := by
  unfold depth_step at h
  simp only at h
  split_ifs at h with h0 h1 h2
  · simp only [Prod.mk.injEq, Option.some.injEq] at h
    exact Or.inl h.2.symm
  · simp at h
  · simp only [Prod.mk.injEq, Option.some.injEq] at h
    exact Or.inr ⟨h.2.symm, h2, by rw [← h.1]⟩
  · simp at h

/-- An iteration that stays in the depth loop completed its root loop; with legal root
moves it replaces `best_action_list` by its tie list. -/
theorem depth_step_continue (ctx : SearchContext) (rows cols : Int) (score_cols : List Int)
    (position_history : List Nat) (clock : Nat → Bool) (board : FastBoard) (depth : Nat)
    (st st' : SearchState)
    (hlegal : calculate_possible_actions board ctx.side_ rows cols score_cols ≠ [])
    (h : depth_step ctx rows cols score_cols position_history clock board depth st
      = (st', none)) :
    st'.best_action_list
      = (run_depth ctx rows cols score_cols position_history clock board depth
          st).1.current_depth_best_moves := by
  have hne := run_depth_best_nonempty ctx rows cols score_cols position_history clock board
    depth st hlegal
  unfold depth_step at h
  simp only at h
  split_ifs at h with h0 h1 h2
  · simp at h
  · simp only [Prod.mk.injEq, and_true] at h
    rw [← h]
  · simp at h
  · exfalso
    apply h1
    refine ⟨?_, hne⟩
    cases hr : (run_depth ctx rows cols score_cols position_history clock board depth st).2 with
    | true => rfl
    | false => exact absurd hr h2

/-- A depth loop that went through all of a first list of depths goes on with the rest. -/
theorem depth_loop_append_done (ctx : SearchContext) (rows cols : Int) (score_cols : List Int)
    (position_history : List Nat) (clock : Nat → Bool) (board : FastBoard)
    (later : List Nat) :
    ∀ (depths : List Nat) (st : SearchState),
      (depth_loop ctx rows cols score_cols position_history clock board depths st).2
        = SearchStop.all_depths_done →
      depth_loop ctx rows cols score_cols position_history clock board (depths ++ later) st
        = depth_loop ctx rows cols score_cols position_history clock board later
            (depth_loop ctx rows cols score_cols position_history clock board depths st).1 := by
  intro depths
  induction depths with
  | nil => intro st _; simp [depth_loop]
  | cons d deeper ih =>
    intro st h
    rw [List.cons_append]
    rw [depth_loop] at h ⊢
    rw [depth_loop]
    rcases hs : depth_step ctx rows cols score_cols position_history clock board d st with
      ⟨st', _ | stop⟩
    · rw [hs] at h; exact ih st' h
    · rw [hs] at h
      simp only at h
      rcases depth_step_stop _ _ _ _ _ _ _ _ _ _ _ hs with h' | ⟨h', -⟩ <;>
        rw [h'] at h <;> cases h

/-- A depth loop that stopped early inside a first list of depths ignores later depths. -/
theorem depth_loop_append_stopped (ctx : SearchContext) (rows cols : Int)
    (score_cols : List Int) (position_history : List Nat) (clock : Nat → Bool)
    (board : FastBoard) (later : List Nat) :
    ∀ (depths : List Nat) (st : SearchState),
      (depth_loop ctx rows cols score_cols position_history clock board depths st).2
        ≠ SearchStop.all_depths_done →
      depth_loop ctx rows cols score_cols position_history clock board (depths ++ later) st
        = depth_loop ctx rows cols score_cols position_history clock board depths st := by
  intro depths
  induction depths with
  | nil => intro st h; simp [depth_loop] at h
  | cons d deeper ih =>
    intro st h
    rw [List.cons_append]
    rw [depth_loop] at h ⊢
    rw [depth_loop]
    rcases hs : depth_step ctx rows cols score_cols position_history clock board d st with
      ⟨st', _ | stop⟩
    · rw [hs] at h; exact ih st' h
    · rfl

/-- The depth named by an early stop is one of the depths of the loop. -/
theorem depth_loop_ran_out_mem (ctx : SearchContext) (rows cols : Int) (score_cols : List Int)
    (position_history : List Nat) (clock : Nat → Bool) (board : FastBoard) (k : Nat) :
    ∀ (depths : List Nat) (st : SearchState),
      (depth_loop ctx rows cols score_cols position_history clock board depths st).2
        = SearchStop.ran_out_during k → k ∈ depths := by
  intro depths
  induction depths with
  | nil => intro st h; simp [depth_loop] at h
  | cons d deeper ih =>
    intro st h
    rw [depth_loop] at h
    rcases hs : depth_step ctx rows cols score_cols position_history clock board d st with
      ⟨st', _ | stop⟩
    · rw [hs] at h; exact List.mem_cons_of_mem _ (ih st' h)
    · rw [hs] at h
      simp only at h
      rcases depth_step_stop _ _ _ _ _ _ _ _ _ _ _ hs with h' | ⟨h', -⟩
      · rw [h'] at h; cases h
      · rw [h'] at h; cases h; exact List.mem_cons_self _ _

/-- When the loop runs out of time during its first depth, that depth's root loop was cut
short and `best_action_list` is left as it was. -/
theorem depth_loop_head_ran_out (ctx : SearchContext) (rows cols : Int) (score_cols : List Int)
    (position_history : List Nat) (clock : Nat → Bool) (board : FastBoard) (d : Nat)
    (deeper : List Nat) (st : SearchState) (hd : d ∉ deeper)
    (h : (depth_loop ctx rows cols score_cols position_history clock board (d :: deeper) st).2
      = SearchStop.ran_out_during d) :
    (run_depth ctx rows cols score_cols position_history clock board d st).2 = false ∧
      (depth_loop ctx rows cols score_cols position_history clock board (d :: deeper)
        st).1.best_action_list = st.best_action_list := by
  rw [depth_loop] at h ⊢
  rcases hs : depth_step ctx rows cols score_cols position_history clock board d st with
    ⟨st', _ | stop⟩
  · rw [hs] at h
    exact absurd (depth_loop_ran_out_mem _ _ _ _ _ _ _ _ _ _ h) hd
  · rw [hs] at h
    simp only at h ⊢
    rcases depth_step_stop _ _ _ _ _ _ _ _ _ _ _ hs with h' | ⟨-, h1, h2⟩
    · rw [h'] at h; cases h
    · exact ⟨h1, h2⟩

/-- A loop that completed its last depth with legal root moves holds that depth's tie
list. -/
theorem depth_loop_last_done (ctx : SearchContext) (rows cols : Int) (score_cols : List Int)
    (position_history : List Nat) (clock : Nat → Bool) (board : FastBoard) (d : Nat)
    (st : SearchState)
    (hlegal : calculate_possible_actions board ctx.side_ rows cols score_cols ≠ [])
    (h : (depth_loop ctx rows cols score_cols position_history clock board [d] st).2
      = SearchStop.all_depths_done) :
    (depth_loop ctx rows cols score_cols position_history clock board [d] st).1.best_action_list
      = (run_depth ctx rows cols score_cols position_history clock board d
          st).1.current_depth_best_moves := by
  rw [depth_loop] at h ⊢
  rcases hs : depth_step ctx rows cols score_cols position_history clock board d st with
    ⟨st', _ | stop⟩
  · simp only [depth_loop]
    exact depth_step_continue _ _ _ _ _ _ _ _ _ _ hlegal hs
  · rw [hs] at h
    simp only at h
    rcases depth_step_stop _ _ _ _ _ _ _ _ _ _ _ hs with h' | ⟨h', -⟩ <;>
      rw [h'] at h <;> cases h

theorem search_depths_max : search_depths max_search_depth = [1, 2, 3] := rfl

/-- C6: if a time check fails during depth 1 (after the i-th root move, 1 <= i <= number of
legal moves) and the engine's side has a legal action, the iterative deepening stops during
depth 1 and `find_best_move` returns the first action of `calculate_possible_actions`. -/
theorem find_best_move_timeout_at_depth_one (ctx : SearchContext) (board : FastBoard)
    (rows cols : Int) (score_cols : List Int) (clock : Nat → Bool) (draw : Nat)
    (position_history : List Nat) (first : Move) (others : List Move)
    (hlegal : calculate_possible_actions board ctx.side_ rows cols score_cols = first :: others)
    (hout : ∃ i, 1 ≤ i ∧ i ≤ others.length + 1 ∧ clock i = true) :
    (iterative_deepening ctx rows cols score_cols position_history clock board
        max_search_depth).2 = SearchStop.ran_out_during 1 ∧
      find_best_move ctx board rows cols score_cols clock draw position_history = first := by
  obtain ⟨i, hi1, hi2, hci⟩ := hout
  have hrun : (run_depth ctx rows cols score_cols position_history clock board 1
      { best_action_list := [], evaluated_moves := [], tt := tt_empty, tick := 0 }).2
      = false := by
    unfold run_depth
    apply root_loop_times_out
    refine ⟨i - 1, ?_, ?_⟩
    · rw [hlegal]
      simp only [ordered_root_moves, ne_eq, not_true_eq_false, false_and, if_false,
        List.length_cons]
      omega
    · have : 0 + 1 + (i - 1) = i := by omega
      simp only [this]
      exact hci
  have hstep : depth_step ctx rows cols score_cols position_history clock board 1
      { best_action_list := [], evaluated_moves := [], tt := tt_empty, tick := 0 }
      = ({ best_action_list := [],
           evaluated_moves := (run_depth ctx rows cols score_cols position_history clock board 1
             { best_action_list := [], evaluated_moves := [], tt := tt_empty,
               tick := 0 }).1.evaluated_moves,
           tt := (run_depth ctx rows cols score_cols position_history clock board 1
             { best_action_list := [], evaluated_moves := [], tt := tt_empty, tick := 0 }).1.tt,
           tick := (run_depth ctx rows cols score_cols position_history clock board 1
             { best_action_list := [], evaluated_moves := [], tt := tt_empty,
               tick := 0 }).1.tick },
         some (SearchStop.ran_out_during 1)) := by
    unfold depth_step
    simp [hrun]
  have hloop : iterative_deepening ctx rows cols score_cols position_history clock board
      max_search_depth
      = ({ best_action_list := [],
           evaluated_moves := (run_depth ctx rows cols score_cols position_history clock board 1
             { best_action_list := [], evaluated_moves := [], tt := tt_empty,
               tick := 0 }).1.evaluated_moves,
           tt := (run_depth ctx rows cols score_cols position_history clock board 1
             { best_action_list := [], evaluated_moves := [], tt := tt_empty, tick := 0 }).1.tt,
           tick := (run_depth ctx rows cols score_cols position_history clock board 1
             { best_action_list := [], evaluated_moves := [], tt := tt_empty,
               tick := 0 }).1.tick },
         SearchStop.ran_out_during 1) := by
    unfold iterative_deepening
    rw [search_depths_max, depth_loop, hstep]
  refine ⟨by rw [hloop], ?_⟩
  unfold find_best_move
  rw [hloop]
  simp [select_action, hlegal]

/-- The final selection takes its action from a non-empty `best_action_list`. -/
theorem select_action_mem (ctx : SearchContext) (rows cols : Int) (score_cols : List Int)
    (board : FastBoard) (draw : Nat) (best : List Move) (hne : best ≠ []) :
    select_action ctx rows cols score_cols board draw best ∈ best := by
  unfold select_action
  rw [if_neg hne]
  have hpos : 0 < best.length := List.length_pos.mpr hne
  split_ifs with h2
  · rw [List.getD_eq_getElem _ _ (by omega)]
    exact List.getElem_mem _
  · rw [List.getD_eq_getElem _ _ (Nat.mod_lt _ hpos)]
    exact List.getElem_mem _

/-- The depth loop over `earlier ++ [last] ++ k :: later`, when it runs out of time during
depth `k`: the loop over `earlier ++ [last]` completes, holds the tie list of depth `last`,
and the longer loop ends with that same list, which is not empty. -/
theorem depth_loop_ran_out_previous (ctx : SearchContext) (rows cols : Int)
    (score_cols : List Int) (position_history : List Nat) (clock : Nat → Bool)
    (board : FastBoard) (earlier : List Nat) (last k : Nat) (later : List Nat)
    (st : SearchState) (hk1 : k ∉ earlier) (hk2 : k ≠ last) (hk3 : k ∉ later)
    (hout : (depth_loop ctx rows cols score_cols position_history clock board
      ((earlier ++ [last]) ++ k :: later) st).2 = SearchStop.ran_out_during k) :
    (depth_loop ctx rows cols score_cols position_history clock board (earlier ++ [last])
        st).2 = SearchStop.all_depths_done ∧
      (depth_loop ctx rows cols score_cols position_history clock board (earlier ++ [last])
          st).1.best_action_list
        = (run_depth ctx rows cols score_cols position_history clock board last
            (depth_loop ctx rows cols score_cols position_history clock board earlier
              st).1).1.current_depth_best_moves ∧
      (depth_loop ctx rows cols score_cols position_history clock board
          ((earlier ++ [last]) ++ k :: later) st).1.best_action_list
        = (depth_loop ctx rows cols score_cols position_history clock board (earlier ++ [last])
            st).1.best_action_list ∧
      (depth_loop ctx rows cols score_cols position_history clock board (earlier ++ [last])
          st).1.best_action_list ≠ [] := by
  have hP : (depth_loop ctx rows cols score_cols position_history clock board
      (earlier ++ [last]) st).2 = SearchStop.all_depths_done := by
    by_contra hne
    rw [depth_loop_append_stopped _ _ _ _ _ _ _ _ _ _ hne] at hout
    have := depth_loop_ran_out_mem _ _ _ _ _ _ _ _ _ _ hout
    simp only [List.mem_append, List.mem_singleton] at this
    rcases this with h | h
    · exact hk1 h
    · exact hk2 h
  have hQ : (depth_loop ctx rows cols score_cols position_history clock board earlier st).2
      = SearchStop.all_depths_done := by
    by_contra hne
    rw [depth_loop_append_stopped _ _ _ _ _ _ _ _ _ _ hne] at hP
    exact hne hP
  rw [depth_loop_append_done _ _ _ _ _ _ _ _ _ _ hP] at hout
  obtain ⟨hinc, hbest⟩ := depth_loop_head_ran_out _ _ _ _ _ _ _ _ _ _ hk3 hout
  have hlegal := run_depth_incomplete _ _ _ _ _ _ _ _ _ hinc
  have hlast : (depth_loop ctx rows cols score_cols position_history clock board
      (earlier ++ [last]) st).1.best_action_list
      = (run_depth ctx rows cols score_cols position_history clock board last
          (depth_loop ctx rows cols score_cols position_history clock board earlier
            st).1).1.current_depth_best_moves := by
    rw [depth_loop_append_done _ _ _ _ _ _ _ _ _ _ hQ] at hP ⊢
    exact depth_loop_last_done _ _ _ _ _ _ _ _ _ hlegal hP
  refine ⟨hP, hlast, ?_, ?_⟩
  · rw [depth_loop_append_done _ _ _ _ _ _ _ _ _ _ hP]
    exact hbest
  · rw [hlast]
    exact run_depth_best_nonempty _ _ _ _ _ _ _ _ _ hlegal

/-- C7: if the iterative deepening runs out of time during depth k >= 2, the search that
stops after depth k-1 completes all its depths, its `best_action_list` is the tie list of
depth k-1, and `find_best_move` selects from exactly that list: the returned action is the
one the search stopped after depth k-1 returns, and it is a member of that tie list. -/
theorem find_best_move_timeout_keeps_previous_depth (ctx : SearchContext) (board : FastBoard)
    (rows cols : Int) (score_cols : List Int) (clock : Nat → Bool) (draw : Nat)
    (position_history : List Nat) (k : Nat) (hk : 2 ≤ k)
    (hout : (iterative_deepening ctx rows cols score_cols position_history clock board
      max_search_depth).2 = SearchStop.ran_out_during k) :
    (iterative_deepening ctx rows cols score_cols position_history clock board (k - 1)).2
        = SearchStop.all_depths_done ∧
      (iterative_deepening ctx rows cols score_cols position_history clock board
          (k - 1)).1.best_action_list
        = (run_depth ctx rows cols score_cols position_history clock board (k - 1)
            (iterative_deepening ctx rows cols score_cols position_history clock board
              (k - 2)).1).1.current_depth_best_moves ∧
      find_best_move ctx board rows cols score_cols clock draw position_history
        = select_action ctx rows cols score_cols board draw
            (iterative_deepening ctx rows cols score_cols position_history clock board
              (k - 1)).1.best_action_list ∧
      find_best_move ctx board rows cols score_cols clock draw position_history
        ∈ (iterative_deepening ctx rows cols score_cols position_history clock board
            (k - 1)).1.best_action_list := by
  have hmem := depth_loop_ran_out_mem _ _ _ _ _ _ _ _ _ _ hout
  rw [search_depths_max] at hmem
  have hk' : k = 2 ∨ k = 3 := by
    simp only [List.mem_cons, List.mem_singleton, List.not_mem_nil, or_false] at hmem
    omega
  have hsel : ∀ best : List Move,
      (iterative_deepening ctx rows cols score_cols position_history clock board
        max_search_depth).1.best_action_list = best → best ≠ [] →
      find_best_move ctx board rows cols score_cols clock draw position_history
          = select_action ctx rows cols score_cols board draw best ∧
        find_best_move ctx board rows cols score_cols clock draw position_history ∈ best := by
    intro best hb hne
    have : find_best_move ctx board rows cols score_cols clock draw position_history
        = select_action ctx rows cols score_cols board draw best := by
      unfold find_best_move; rw [hb]
    exact ⟨this, this ▸ select_action_mem _ _ _ _ _ _ _ hne⟩
  rcases hk' with rfl | rfl
  · have h := depth_loop_ran_out_previous ctx rows cols score_cols position_history clock board
      [] 1 2 [3] { best_action_list := [], evaluated_moves := [], tt := tt_empty, tick := 0 }
      (by simp) (by decide) (by simp) hout
    obtain ⟨h1, h2, h3, h4⟩ := h
    exact ⟨h1, h2, hsel _ h3 h4⟩
  · have h := depth_loop_ran_out_previous ctx rows cols score_cols position_history clock board
      [1] 2 3 [] { best_action_list := [], evaluated_moves := [], tt := tt_empty, tick := 0 }
      (by simp) (by decide) (by simp) hout
    obtain ⟨h1, h2, h3, h4⟩ := h
    exact ⟨h1, h2, hsel _ h3 h4⟩

theorem lone_stone_legal :
    calculate_possible_actions lone_stone_board square_agent.side_ 17 3 [1]
      = lone_stone_actions := by
  decide

theorem find_best_move_timeout_at_depth_one_witness :
    (calculate_possible_actions lone_stone_board square_agent.side_ 17 3 [1]
        = lone_stone_actions ∧
      ∃ i, 1 ≤ i ∧ i ≤ lone_stone_actions.tail.length + 1 ∧ clock_fails_at 2 i = true) ∧
    ((iterative_deepening square_agent 17 3 [1] [] (clock_fails_at 2) lone_stone_board
        max_search_depth).2 = SearchStop.ran_out_during 1 ∧
      find_best_move square_agent lone_stone_board 17 3 [1] (clock_fails_at 2) 0 []
        = { action := ActionKind.flip, from_pos := (1, 12), to_pos := (1, 12),
            orientation := some Orientation.HORIZONTAL }) :=
  ⟨⟨lone_stone_legal, 2, by decide, by decide, by decide⟩,
   find_best_move_timeout_at_depth_one square_agent lone_stone_board 17 3 [1]
     (clock_fails_at 2) 0 [] _ lone_stone_actions.tail lone_stone_legal
     ⟨2, by decide, by decide, by decide⟩⟩

set_option maxRecDepth 200000 in
theorem find_best_move_timeout_keeps_previous_depth_witness :
    (2 ≤ 2 ∧
      (iterative_deepening square_agent 17 3 [1] [] (clock_fails_at 8) lone_stone_board
        max_search_depth).2 = SearchStop.ran_out_during 2) ∧
    ((iterative_deepening square_agent 17 3 [1] [] (clock_fails_at 8) lone_stone_board
          (2 - 1)).2 = SearchStop.all_depths_done ∧
      (iterative_deepening square_agent 17 3 [1] [] (clock_fails_at 8) lone_stone_board
          (2 - 1)).1.best_action_list
        = (run_depth square_agent 17 3 [1] [] (clock_fails_at 8) lone_stone_board (2 - 1)
            (iterative_deepening square_agent 17 3 [1] [] (clock_fails_at 8) lone_stone_board
              (2 - 2)).1).1.current_depth_best_moves ∧
      find_best_move square_agent lone_stone_board 17 3 [1] (clock_fails_at 8) 0 []
        = select_action square_agent 17 3 [1] lone_stone_board 0
            (iterative_deepening square_agent 17 3 [1] [] (clock_fails_at 8) lone_stone_board
              (2 - 1)).1.best_action_list ∧
      find_best_move square_agent lone_stone_board 17 3 [1] (clock_fails_at 8) 0 []
        ∈ (iterative_deepening square_agent 17 3 [1] [] (clock_fails_at 8) lone_stone_board
            (2 - 1)).1.best_action_list) :=
  ⟨⟨by decide, by decide!⟩,
   find_best_move_timeout_keeps_previous_depth square_agent lone_stone_board 17 3 [1]
     (clock_fails_at 8) 0 [] 2 (by decide) (by decide!)⟩


/-! ## Transposition table -/

theorem tt_probe_alike (S : Nat → Nat → Prop) (t1 t2 : TranspositionTable) (hash depth : Nat)
    (alpha beta : Score) (hS : S hash depth) (h : tt_alike S t1 t2) :
    tt_probe t1 hash depth alpha beta = tt_probe t2 hash depth alpha beta := by
  rcases h hash depth hS with heq | ⟨h1, h2⟩
  · unfold tt_probe; rw [heq]
  · have hp : ∀ t : TranspositionTable, no_usable_entry t hash depth = true →
        tt_probe t hash depth alpha beta = TTProbe.window alpha beta := by
      intro t ht
      unfold no_usable_entry at ht
      unfold tt_probe
      cases he : t hash with
      | none => rfl
      | some entry =>
        rw [he] at ht
        simp only [decide_eq_true_eq] at ht
        simp only
        rw [if_neg (by omega)]
    rw [hp t1 h1, hp t2 h2]

theorem tt_store_alike (S : Nat → Nat → Prop) (t1 t2 : TranspositionTable) (hash : Nat)
    (entry : TTEntry) (h : tt_alike S t1 t2) :
    tt_alike S (tt_store t1 hash entry) (tt_store t2 hash entry) := by
  intro h' d hS
  unfold tt_store no_usable_entry
  by_cases hh : h' = hash
  · left; simp [hh]
  · simp only [hh, if_false]
    exact h h' d hS

theorem max_loop_alike (S : Nat → Nat → Prop)
    (child_search : TranspositionTable → FastBoard → Score → Score → Player →
      Score × TranspositionTable) (board : FastBoard) (beta : Score) (next_player : Player) :
    ∀ (moves : List Move) (t1 t2 : TranspositionTable) (alpha max_score : Score),
      (∀ m ∈ moves,
        child_search_alike S child_search (get_next_board_state board m) next_player) →
      tt_alike S t1 t2 →
      (max_loop child_search board beta next_player moves t1 alpha max_score).1
          = (max_loop child_search board beta next_player moves t2 alpha max_score).1 ∧
        tt_alike S (max_loop child_search board beta next_player moves t1 alpha max_score).2.2
          (max_loop child_search board beta next_player moves t2 alpha max_score).2.2 := by
  intro moves
  induction moves with
  | nil => intro t1 t2 alpha ms _ h; exact ⟨rfl, h⟩
  | cons mv rest ih =>
    intro t1 t2 alpha ms hch h
    obtain ⟨hs, ht⟩ := hch mv (List.mem_cons_self _ _) t1 t2 alpha beta h
    unfold max_loop
    simp only
    rw [hs]
    split_ifs with hc
    · exact ⟨rfl, ht⟩
    · exact ih _ _ _ _ (fun m hm => hch m (List.mem_cons_of_mem _ hm)) ht

theorem min_loop_alike (S : Nat → Nat → Prop)
    (child_search : TranspositionTable → FastBoard → Score → Score → Player →
      Score × TranspositionTable) (board : FastBoard) (alpha : Score) (next_player : Player) :
    ∀ (moves : List Move) (t1 t2 : TranspositionTable) (beta min_score : Score),
      (∀ m ∈ moves,
        child_search_alike S child_search (get_next_board_state board m) next_player) →
      tt_alike S t1 t2 →
      (min_loop child_search board alpha next_player moves t1 beta min_score).1
          = (min_loop child_search board alpha next_player moves t2 beta min_score).1 ∧
        (min_loop child_search board alpha next_player moves t1 beta min_score).2.1
          = (min_loop child_search board alpha next_player moves t2 beta min_score).2.1 ∧
        tt_alike S (min_loop child_search board alpha next_player moves t1 beta min_score).2.2
          (min_loop child_search board alpha next_player moves t2 beta min_score).2.2 := by
  intro moves
  induction moves with
  | nil => intro t1 t2 beta ms _ h; exact ⟨rfl, rfl, h⟩
  | cons mv rest ih =>
    intro t1 t2 beta ms hch h
    obtain ⟨hs, ht⟩ := hch mv (List.mem_cons_self _ _) t1 t2 alpha beta h
    unfold min_loop
    simp only
    rw [hs]
    split_ifs with hc
    · exact ⟨rfl, rfl, ht⟩
    · exact ih _ _ _ _ (fun m hm => hch m (List.mem_cons_of_mem _ hm)) ht

/-- Move ordering permutes the moves. -/
theorem mem_order_moves (ctx : SearchContext) (board : FastBoard) (rows cols : Int)
    (score_cols : List Int) (is_maximizing_player : Bool) (possible_moves : List Move)
    (m : Move) :
    m ∈ order_moves ctx board rows cols score_cols is_maximizing_player possible_moves ↔
      m ∈ possible_moves := by
  unfold order_moves
  simp only
  rw [((List.perm_insertionSort _ _).map _).mem_iff]
  simp [List.map_map, Function.comp_def]

/-- One node of the search: on tables that are alike at the node and below, the body of
`alpha_beta_search` returns the same score and leaves tables that are alike. -/
theorem search_node_alike (ctx : SearchContext) (rows cols : Int) (score_cols : List Int)
    (position_history : List Nat) (S : Nat → Nat → Prop)
    (child_search : TranspositionTable → FastBoard → Score → Score → Player →
      Score × TranspositionTable)
    (depth : Nat) (board_state : FastBoard) (current_player : Player)
    (hS : S (compute_hash ctx board_state current_player rows cols) depth)
    (hch : ∀ m ∈ calculate_possible_actions board_state current_player rows cols score_cols,
      child_search_alike S child_search (get_next_board_state board_state m)
        (opponent current_player)) :
    child_search_alike S
      (search_node ctx rows cols score_cols position_history child_search depth)
      board_state current_player := by
  intro t1 t2 alpha beta h
  have hmoves : ∀ m ∈ (if depth > 1 ∧
        (calculate_possible_actions board_state current_player rows cols
          score_cols).length > 1 then
        order_moves ctx board_state rows cols score_cols
          (decide (current_player = ctx.side_))
          (calculate_possible_actions board_state current_player rows cols score_cols)
      else calculate_possible_actions board_state current_player rows cols score_cols),
      child_search_alike S child_search (get_next_board_state board_state m)
        (opponent current_player) := by
    intro m hm
    split_ifs at hm
    · exact hch m ((mem_order_moves _ _ _ _ _ _ _ m).1 hm)
    · exact hch m hm
  unfold search_node
  simp only
  by_cases hrep : compute_hash ctx board_state current_player rows cols ∈ position_history
  · simp only [if_pos hrep]
    exact ⟨trivial, h⟩
  · simp only [if_neg hrep]
    rw [tt_probe_alike S t1 t2 _ depth alpha beta hS h]
    cases tt_probe t2 (compute_hash ctx board_state current_player rows cols) depth alpha
        beta with
    | hit score => exact ⟨rfl, h⟩
    | window alpha' beta' =>
      simp only
      by_cases hleaf : is_win_state board_state rows cols score_cols = true ∨ depth = 0
      · simp only [if_pos hleaf]
        exact ⟨trivial, tt_store_alike S _ _ _ _ h⟩
      · simp only [if_neg hleaf]
        by_cases hnone :
            calculate_possible_actions board_state current_player rows cols score_cols = []
        · simp only [if_pos hnone]
          exact ⟨trivial, tt_store_alike S _ _ _ _ h⟩
        · simp only [if_neg hnone]
          by_cases hmax : decide (current_player = ctx.side_) = true
          · simp only [if_pos hmax]
            obtain ⟨h1, h2⟩ := max_loop_alike S child_search board_state beta'
              (opponent current_player) _ t1 t2 alpha' Score.neg_inf hmoves h
            rw [h1]
            exact ⟨rfl, tt_store_alike S _ _ _ _ h2⟩
          · simp only [if_neg hmax]
            obtain ⟨h1, h2, h3⟩ := min_loop_alike S child_search board_state alpha'
              (opponent current_player) _ t1 t2 beta' Score.pos_inf hmoves h
            rw [h1, h2]
            exact ⟨rfl, tt_store_alike S _ _ _ _ h3⟩

/-- The search beneath a node reads and writes the table only at the node's probe points:
on tables that are alike there it returns the same score and tables that are alike. -/
theorem alpha_beta_search_alike (ctx : SearchContext) (rows cols : Int)
    (score_cols : List Int) (position_history : List Nat) (S : Nat → Nat → Prop) :
    ∀ (depth : Nat) (board_state : FastBoard) (current_player : Player),
      (∀ p ∈ probe_points ctx rows cols score_cols depth board_state current_player,
        S p.1 p.2) →
      child_search_alike S
        (alpha_beta_search ctx rows cols score_cols position_history depth)
        board_state current_player := by
  intro depth
  induction depth with
  | zero =>
    intro board_state current_player hS
    unfold alpha_beta_search
    apply search_node_alike
    · exact hS (compute_hash ctx board_state current_player rows cols, 0)
        (by simp [probe_points])
    · intro m _ t1 t2 alpha beta h
      exact ⟨rfl, h⟩
  | succ d ih =>
    intro board_state current_player hS
    unfold alpha_beta_search
    apply search_node_alike
    · exact hS (compute_hash ctx board_state current_player rows cols, d + 1)
        (by simp [probe_points])
    · intro m hm
      apply ih
      intro p hp
      apply hS
      simp only [probe_points, List.mem_cons, List.mem_flatMap]
      exact Or.inr ⟨m, hm, hp⟩

/-- C4 as stated fails: a depth-1 search of `lone_stone_board` (Square to move, full window,
cleared table) stores the Exact entry (12000, depth 1) for the position; a later full-window
call on the same position with remaining depth 0 returns that 12000, while a fresh depth-0
search returns the static score 6000. -/
theorem deeper_entry_changes_result_counterexample :
    deeper_table (compute_hash square_agent lone_stone_board Player.SQUARE 17 3)
        = some { score := Score.val 12000, depth := 1, flag := TTFlag.EXACT } ∧
      (alpha_beta_search square_agent 17 3 [1] [] 0 deeper_table lone_stone_board
        Score.neg_inf Score.pos_inf Player.SQUARE).1 = Score.val 12000 ∧
      (alpha_beta_search square_agent 17 3 [1] [] 0 tt_empty lone_stone_board
        Score.neg_inf Score.pos_inf Player.SQUARE).1 = Score.val 6000 := by
  decide!

/-- Entries that are too shallow do not interfere: `alpha_beta_search` returns the same
value as a fresh search of the same depth started with an empty table whenever the table
holds, for no node of the depth-d search tree below the position, an entry whose stored
depth is at least the remaining depth at which the search reaches that node.  This holds
for every window and whatever the fingerprints are; entries of exactly the remaining depth
are the subject of `alpha_beta_search_table_sound`. -/
theorem alpha_beta_search_without_usable_entries (ctx : SearchContext) (rows cols : Int)
    (score_cols : List Int) (position_history : List Nat) (depth : Nat)
    (tt : TranspositionTable) (board_state : FastBoard) (alpha beta : Score)
    (current_player : Player)
    (hfree : ∀ p ∈ probe_points ctx rows cols score_cols depth board_state current_player,
      no_usable_entry tt p.1 p.2 = true) :
    (alpha_beta_search ctx rows cols score_cols position_history depth tt board_state alpha
        beta current_player).1
      = (alpha_beta_search ctx rows cols score_cols position_history depth tt_empty board_state
          alpha beta current_player).1 := by
  have halike : tt_alike
      (fun h d => (h, d) ∈ probe_points ctx rows cols score_cols depth board_state
        current_player) tt tt_empty := by
    intro h d hS
    exact Or.inr ⟨hfree (h, d) hS, rfl⟩
  exact (alpha_beta_search_alike ctx rows cols score_cols position_history _ depth board_state
    current_player (fun p hp => hp) tt tt_empty alpha beta halike).1

set_option maxRecDepth 1000000 in
/-- An instance of `alpha_beta_search_without_usable_entries`: the table left by a depth-0
search of `lone_stone_board` holds only entries of depth 0, so a depth-1 search of that
position started from it returns what a fresh one returns. -/
theorem alpha_beta_search_without_usable_entries_witness :
    (shallow_table (compute_hash square_agent lone_stone_board Player.SQUARE 17 3)
        = some { score := Score.val 6000, depth := 0, flag := TTFlag.EXACT } ∧
      ∀ p ∈ probe_points square_agent 17 3 [1] 1 lone_stone_board Player.SQUARE,
        no_usable_entry shallow_table p.1 p.2 = true) ∧
    (alpha_beta_search square_agent 17 3 [1] [] 1 shallow_table lone_stone_board
        Score.neg_inf Score.pos_inf Player.SQUARE).1
      = (alpha_beta_search square_agent 17 3 [1] [] 1 tt_empty lone_stone_board
          Score.neg_inf Score.pos_inf Player.SQUARE).1 :=
  ⟨⟨by decide!, by decide!⟩,
   alpha_beta_search_without_usable_entries square_agent 17 3 [1] [] 1 shallow_table
     lone_stone_board Score.neg_inf Score.pos_inf Player.SQUARE (by decide!)⟩

/-! ## Root moves whose successors are leaves -/

theorem Score.lt_val (a b : Int) : (Score.val a).lt (Score.val b) = decide (a < b) := rfl

theorem Score.neg_inf_lt_val (a : Int) : Score.neg_inf.lt (Score.val a) = true := rfl

/-- A node without legal action for the side to move whose fingerprint is not in the
history, searched with a table that holds under its fingerprint nothing or an Exact entry
with the node's static score: the search returns the static score, and the table afterwards
is the old one or the old one with such an Exact entry stored. -/
theorem alpha_beta_search_leaf (ctx : SearchContext) (rows cols : Int) (score_cols : List Int)
    (position_history : List Nat) (depth : Nat) (tt : TranspositionTable)
    (board_state : FastBoard) (alpha beta : Score) (current_player : Player)
    (hfresh : compute_hash ctx board_state current_player rows cols ∉ position_history)
    (hnone : calculate_possible_actions board_state current_player rows cols score_cols = [])
    (htt : ∀ e, tt (compute_hash ctx board_state current_player rows cols) = some e →
      e.flag = TTFlag.EXACT ∧ e.score = static_score ctx board_state rows cols score_cols) :
    (alpha_beta_search ctx rows cols score_cols position_history depth tt board_state alpha
        beta current_player).1 = static_score ctx board_state rows cols score_cols ∧
      ((alpha_beta_search ctx rows cols score_cols position_history depth tt board_state alpha
          beta current_player).2 = tt ∨
        (alpha_beta_search ctx rows cols score_cols position_history depth tt board_state alpha
          beta current_player).2
          = tt_store tt (compute_hash ctx board_state current_player rows cols)
              { score := static_score ctx board_state rows cols score_cols, depth := depth,
                flag := TTFlag.EXACT }) := by
  have key : ∀ child_search, (search_node ctx rows cols score_cols position_history child_search
        depth tt board_state alpha beta current_player).1
        = static_score ctx board_state rows cols score_cols ∧
      ((search_node ctx rows cols score_cols position_history child_search depth tt board_state
          alpha beta current_player).2 = tt ∨
        (search_node ctx rows cols score_cols position_history child_search depth tt board_state
          alpha beta current_player).2
          = tt_store tt (compute_hash ctx board_state current_player rows cols)
              { score := static_score ctx board_state rows cols score_cols, depth := depth,
                flag := TTFlag.EXACT }) := by
    intro child_search
    unfold search_node
    simp only [if_neg hfresh]
    have hprobe : (∃ s, tt_probe tt (compute_hash ctx board_state current_player rows cols)
          depth alpha beta = TTProbe.hit s ∧
          s = static_score ctx board_state rows cols score_cols) ∨
        tt_probe tt (compute_hash ctx board_state current_player rows cols) depth alpha beta
          = TTProbe.window alpha beta := by
      unfold tt_probe
      cases he : tt (compute_hash ctx board_state current_player rows cols) with
      | none => exact Or.inr rfl
      | some e =>
        obtain ⟨hf, hs⟩ := htt e he
        simp only [hf, if_true]
        by_cases hd : e.depth ≥ depth
        · rw [if_pos hd]; exact Or.inl ⟨_, rfl, hs⟩
        · rw [if_neg hd]; exact Or.inr rfl
    rcases hprobe with ⟨s, hp, hs⟩ | hp
    · rw [hp]; exact ⟨hs, Or.inl rfl⟩
    · rw [hp]
      simp only
      by_cases hleaf : is_win_state board_state rows cols score_cols = true ∨ depth = 0
      · simp only [if_pos hleaf]
        exact ⟨trivial, Or.inr trivial⟩
      · simp only [if_neg hleaf, if_pos hnone]
        exact ⟨trivial, Or.inr trivial⟩
  cases depth with
  | zero => unfold alpha_beta_search; exact key _
  | succ d => unfold alpha_beta_search; exact key _

/-- Searching a root successor that is a leaf returns its static score and keeps the
successors' table entries exact. -/
theorem successor_search (ctx : SearchContext) (rows cols : Int) (score_cols : List Int)
    (position_history : List Nat) (board : FastBoard)
    (hleaves : successors_are_leaves ctx rows cols score_cols position_history board)
    (depth : Nat) (tt : TranspositionTable) (alpha beta : Score) (a : Move)
    (ha : a ∈ calculate_possible_actions board ctx.side_ rows cols score_cols)
    (htt : successor_entries_exact ctx rows cols score_cols board tt) :
    (alpha_beta_search ctx rows cols score_cols position_history depth tt
        (get_next_board_state board a) alpha beta ctx.opp_side_).1
        = static_score ctx (get_next_board_state board a) rows cols score_cols ∧
      successor_entries_exact ctx rows cols score_cols board
        (alpha_beta_search ctx rows cols score_cols position_history depth tt
          (get_next_board_state board a) alpha beta ctx.opp_side_).2 := by
  obtain ⟨hnone, hfresh, hsame⟩ := hleaves a ha
  obtain ⟨h1, h2⟩ := alpha_beta_search_leaf ctx rows cols score_cols position_history depth tt
    (get_next_board_state board a) alpha beta ctx.opp_side_ hfresh hnone (htt a ha)
  refine ⟨h1, ?_⟩
  rcases h2 with h2 | h2
  · rw [h2]; exact htt
  · rw [h2]
    intro b hb e he
    unfold tt_store at he
    by_cases hh : compute_hash ctx (get_next_board_state board b) ctx.opp_side_ rows cols
        = compute_hash ctx (get_next_board_state board a) ctx.opp_side_ rows cols
    · rw [if_pos hh] at he
      cases he
      exact ⟨rfl, hsame b hb hh.symm⟩
    · rw [if_neg hh] at he
      exact htt b hb e he

/-- The root loop over successors that are leaves, when `Good` moves score `best` and all
other moves score less: the tie list is either still waiting for the first `Good` move or
holds `Good` moves only; after a completed loop over a list with a `Good` move it holds
`Good` moves only. -/
theorem root_loop_good (ctx : SearchContext) (rows cols : Int) (score_cols : List Int)
    (position_history : List Nat) (clock : Nat → Bool) (board : FastBoard) (depth : Nat)
    (hleaves : successors_are_leaves ctx rows cols score_cols position_history board)
    (Good : Move → Prop) (best : Int)
    (hgood : ∀ a ∈ calculate_possible_actions board ctx.side_ rows cols score_cols, Good a →
      ctx.heuristic (get_next_board_state board a) ctx.side_ rows cols score_cols = best)
    (hbad : ∀ a ∈ calculate_possible_actions board ctx.side_ rows cols score_cols, ¬ Good a →
      ctx.heuristic (get_next_board_state board a) ctx.side_ rows cols score_cols < best) :
    ∀ (moves : List Move) (st : RootLoopState),
      (∀ m ∈ moves, m ∈ calculate_possible_actions board ctx.side_ rows cols score_cols) →
      successor_entries_exact ctx rows cols score_cols board st.tt →
      (best_pending best st ∨ best_found Good best st) →
      successor_entries_exact ctx rows cols score_cols board
          (root_loop ctx rows cols score_cols position_history clock board depth moves
            st).1.tt ∧
        (best_pending best
            (root_loop ctx rows cols score_cols position_history clock board depth moves st).1 ∨
          best_found Good best
            (root_loop ctx rows cols score_cols position_history clock board depth moves
              st).1) ∧
        ((root_loop ctx rows cols score_cols position_history clock board depth moves st).2
            = true →
          ((∃ g ∈ moves, Good g) ∨ best_found Good best st) →
          best_found Good best
            (root_loop ctx rows cols score_cols position_history clock board depth moves
              st).1) := by
  intro moves
  induction moves with
  | nil =>
    intro st _ htt hst
    refine ⟨htt, hst, ?_⟩
    intro _ h
    rcases h with ⟨g, hg, -⟩ | h
    · simp at hg
    · exact h
  | cons mv rest ih =>
    intro st hmem htt hst
    have hmv := hmem mv (List.mem_cons_self _ _)
    have hrest : ∀ m ∈ rest, m ∈ calculate_possible_actions board ctx.side_ rows cols
        score_cols := fun m hm => hmem m (List.mem_cons_of_mem _ hm)
    obtain ⟨hscore, htt'⟩ := successor_search ctx rows cols score_cols position_history board
      hleaves (depth - 1) st.tt st.top_score Score.pos_inf mv hmv htt
    unfold static_score at hscore
    -- the state after this move
    have hstep : ∃ st1 : RootLoopState,
        root_loop ctx rows cols score_cols position_history clock board depth (mv :: rest) st
          = (if clock st.tick then (st1, false)
             else root_loop ctx rows cols score_cols position_history clock board depth rest
               st1) ∧
        successor_entries_exact ctx rows cols score_cols board st1.tt ∧
        (best_pending best st1 ∨ best_found Good best st1) ∧
        ((Good mv ∨ best_found Good best st) → best_found Good best st1) := by
      refine ⟨_, by rw [root_loop], ?_, ?_, ?_⟩
      · split_ifs <;> exact htt'
      · rw [hscore]
        by_cases hG : Good mv
        · have hb := hgood mv hmv hG
          rw [hb]
          rcases hst with hp | ⟨ht, hne, hall⟩
          · unfold best_pending at hp
            rw [if_pos hp]
            exact Or.inr ⟨rfl, by simp, by simpa using hG⟩
          · rw [ht, if_neg (by simp [Score.lt]), if_pos rfl]
            refine Or.inr ⟨rfl, by simp, ?_⟩
            intro m hm
            simp only [List.mem_append, List.mem_singleton] at hm
            rcases hm with hm | hm
            · exact hall m hm
            · rw [hm]; exact hG
        · have hb := hbad mv hmv hG
          rcases hst with hp | ⟨ht, hne, hall⟩
          · unfold best_pending at hp
            left
            unfold best_pending
            split_ifs with h1 h2
            · simp only [Score.lt_val, decide_eq_true_eq]; exact hb
            · exact hp
            · exact hp
          · right
            rw [ht, if_neg (by simp [Score.lt]; omega), if_neg (by
              intro h; cases h; omega)]
            exact ⟨rfl, hne, hall⟩
      · intro hor
        rw [hscore]
        rcases hor with hG | ⟨ht, hne, hall⟩
        · have hb := hgood mv hmv hG
          rw [hb]
          rcases hst with hp | ⟨ht, hne, hall⟩
          · unfold best_pending at hp
            rw [if_pos hp]
            exact ⟨rfl, by simp, by simpa using hG⟩
          · rw [ht, if_neg (by simp [Score.lt]), if_pos rfl]
            refine ⟨rfl, by simp, ?_⟩
            intro m hm
            simp only [List.mem_append, List.mem_singleton] at hm
            rcases hm with hm | hm
            · exact hall m hm
            · rw [hm]; exact hG
        · by_cases hG : Good mv
          · have hb := hgood mv hmv hG
            rw [hb, ht, if_neg (by simp [Score.lt]), if_pos rfl]
            refine ⟨rfl, by simp, ?_⟩
            intro m hm
            simp only [List.mem_append, List.mem_singleton] at hm
            rcases hm with hm | hm
            · exact hall m hm
            · rw [hm]; exact hG
          · have hb := hbad mv hmv hG
            rw [ht, if_neg (by simp [Score.lt]; omega), if_neg (by
              intro h; cases h; omega)]
            exact ⟨rfl, hne, hall⟩
    obtain ⟨st1, heq, h1, h2, h3⟩ := hstep
    rw [heq]
    by_cases hclock : clock st.tick = true
    · rw [if_pos hclock]
      exact ⟨h1, h2, fun h => by cases h⟩
    · rw [if_neg hclock]
      obtain ⟨i1, i2, i3⟩ := ih st1 hrest h1 h2
      refine ⟨i1, i2, ?_⟩
      intro hdone hor
      rcases hor with ⟨g, hg, hG⟩ | hf
      · rcases List.mem_cons.1 hg with rfl | hg'
        · exact i3 hdone (Or.inr (h3 (Or.inl hG)))
        · exact i3 hdone (Or.inl ⟨g, hg', hG⟩)
      · exact i3 hdone (Or.inr (h3 (Or.inr hf)))

/-- Without a failing time check the root loop completes. -/
theorem root_loop_completes (ctx : SearchContext) (rows cols : Int) (score_cols : List Int)
    (position_history : List Nat) (clock : Nat → Bool) (board : FastBoard) (depth : Nat) :
    ∀ (moves : List Move) (st : RootLoopState),
      (∀ j, j < moves.length → clock (st.tick + j) = false) →
      (root_loop ctx rows cols score_cols position_history clock board depth moves st).2
        = true := by
  intro moves
  induction moves with
  | nil => intro st _; simp [root_loop]
  | cons mv rest ih =>
    intro st h
    have h0 : clock st.tick = false := by simpa using h 0 (by simp)
    rw [root_loop]
    simp only [h0, Bool.false_eq_true, if_false]
    apply ih
    intro j hj
    have hj' := h (j + 1) (by simpa using hj)
    have ht : ∀ s : RootLoopState, s.tick = st.tick + 1 → clock (s.tick + j) = false := by
      intro s hs; rw [hs]
      have : st.tick + 1 + j = st.tick + (j + 1) := by omega
      rw [this]; exact hj'
    split_ifs <;> exact ht _ rfl

/-- One depth iteration over successors that are leaves. -/
theorem run_depth_good (ctx : SearchContext) (rows cols : Int) (score_cols : List Int)
    (position_history : List Nat) (clock : Nat → Bool) (board : FastBoard) (depth : Nat)
    (hleaves : successors_are_leaves ctx rows cols score_cols position_history board)
    (Good : Move → Prop) (best : Int)
    (hgood : ∀ a ∈ calculate_possible_actions board ctx.side_ rows cols score_cols, Good a →
      ctx.heuristic (get_next_board_state board a) ctx.side_ rows cols score_cols = best)
    (hbad : ∀ a ∈ calculate_possible_actions board ctx.side_ rows cols score_cols, ¬ Good a →
      ctx.heuristic (get_next_board_state board a) ctx.side_ rows cols score_cols < best)
    (hex : ∃ g ∈ calculate_possible_actions board ctx.side_ rows cols score_cols, Good g)
    (st : SearchState) (htt : successor_entries_exact ctx rows cols score_cols board st.tt) :
    successor_entries_exact ctx rows cols score_cols board
        (run_depth ctx rows cols score_cols position_history clock board depth st).1.tt ∧
      ((run_depth ctx rows cols score_cols position_history clock board depth st).2 = true →
        (run_depth ctx rows cols score_cols position_history clock board depth
            st).1.current_depth_best_moves ≠ [] ∧
          ∀ m ∈ (run_depth ctx rows cols score_cols position_history clock board depth
            st).1.current_depth_best_moves, Good m) := by
  unfold run_depth
  obtain ⟨h1, -, h3⟩ := root_loop_good ctx rows cols score_cols position_history clock board
    depth hleaves Good best hgood hbad
    (ordered_root_moves st.evaluated_moves depth
      (calculate_possible_actions board ctx.side_ rows cols score_cols))
    { top_score := Score.neg_inf, current_depth_best_moves := [], evaluated_moves := [],
      tt := st.tt, tick := st.tick + 1 }
    (fun m hm => (mem_ordered_root_moves _ _ _ m).1 hm) htt (Or.inl rfl)
  refine ⟨h1, ?_⟩
  intro hdone
  obtain ⟨g, hg, hG⟩ := hex
  have := h3 hdone (Or.inl ⟨g, (mem_ordered_root_moves _ _ _ g).2 hg, hG⟩)
  exact this.2

/-- One step of the depth loop over successors that are leaves keeps the successors' table
entries exact and `best_action_list` within the `Good` moves; a step that stays in the loop
leaves a non-empty `best_action_list`. -/
theorem depth_step_good (ctx : SearchContext) (rows cols : Int) (score_cols : List Int)
    (position_history : List Nat) (clock : Nat → Bool) (board : FastBoard) (depth : Nat)
    (hleaves : successors_are_leaves ctx rows cols score_cols position_history board)
    (Good : Move → Prop) (best : Int)
    (hgood : ∀ a ∈ calculate_possible_actions board ctx.side_ rows cols score_cols, Good a →
      ctx.heuristic (get_next_board_state board a) ctx.side_ rows cols score_cols = best)
    (hbad : ∀ a ∈ calculate_possible_actions board ctx.side_ rows cols score_cols, ¬ Good a →
      ctx.heuristic (get_next_board_state board a) ctx.side_ rows cols score_cols < best)
    (hex : ∃ g ∈ calculate_possible_actions board ctx.side_ rows cols score_cols, Good g)
    (st : SearchState) (htt : successor_entries_exact ctx rows cols score_cols board st.tt)
    (hbest : ∀ m ∈ st.best_action_list, Good m) :
    successor_entries_exact ctx rows cols score_cols board
        (depth_step ctx rows cols score_cols position_history clock board depth st).1.tt ∧
      (∀ m ∈ (depth_step ctx rows cols score_cols position_history clock board depth
          st).1.best_action_list, Good m) ∧
      (st.best_action_list ≠ [] →
        (depth_step ctx rows cols score_cols position_history clock board depth
          st).1.best_action_list ≠ []) ∧
      ((depth_step ctx rows cols score_cols position_history clock board depth st).2 = none →
        (depth_step ctx rows cols score_cols position_history clock board depth
          st).1.best_action_list ≠ []) := by
  obtain ⟨h1, h2⟩ := run_depth_good ctx rows cols score_cols position_history clock board depth
    hleaves Good best hgood hbad hex st htt
  unfold depth_step
  simp only
  split_ifs with h0 hc hd
  · exact ⟨htt, hbest, fun h => h, fun h => by cases h⟩
  · exact ⟨h1, (h2 hc.1).2, fun _ => hc.2, fun _ => hc.2⟩
  · exact ⟨h1, hbest, fun h => h, fun h => by cases h⟩
  · exfalso
    have hdone : (run_depth ctx rows cols score_cols position_history clock board depth st).2
        = true := by
      cases hr : (run_depth ctx rows cols score_cols position_history clock board depth st).2
      · exact absurd hr hd
      · rfl
    exact hc ⟨hdone, (h2 hdone).1⟩

/-- The depth loop over successors that are leaves: `best_action_list` stays within the
`Good` moves and, once non-empty, stays non-empty. -/
theorem depth_loop_good (ctx : SearchContext) (rows cols : Int) (score_cols : List Int)
    (position_history : List Nat) (clock : Nat → Bool) (board : FastBoard)
    (hleaves : successors_are_leaves ctx rows cols score_cols position_history board)
    (Good : Move → Prop) (best : Int)
    (hgood : ∀ a ∈ calculate_possible_actions board ctx.side_ rows cols score_cols, Good a →
      ctx.heuristic (get_next_board_state board a) ctx.side_ rows cols score_cols = best)
    (hbad : ∀ a ∈ calculate_possible_actions board ctx.side_ rows cols score_cols, ¬ Good a →
      ctx.heuristic (get_next_board_state board a) ctx.side_ rows cols score_cols < best)
    (hex : ∃ g ∈ calculate_possible_actions board ctx.side_ rows cols score_cols, Good g) :
    ∀ (depths : List Nat) (st : SearchState),
      successor_entries_exact ctx rows cols score_cols board st.tt →
      (∀ m ∈ st.best_action_list, Good m) →
      (∀ m ∈ (depth_loop ctx rows cols score_cols position_history clock board depths
          st).1.best_action_list, Good m) ∧
        (st.best_action_list ≠ [] →
          (depth_loop ctx rows cols score_cols position_history clock board depths
            st).1.best_action_list ≠ []) := by
  intro depths
  induction depths with
  | nil => intro st _ hb; exact ⟨by simpa [depth_loop] using hb, by simp [depth_loop]⟩
  | cons d deeper ih =>
    intro st htt hb
    obtain ⟨s1, s2, s3, -⟩ := depth_step_good ctx rows cols score_cols position_history clock
      board d hleaves Good best hgood hbad hex st htt hb
    rw [depth_loop]
    rcases hs : depth_step ctx rows cols score_cols position_history clock board d st with
      ⟨st', _ | stop⟩
    · rw [hs] at s1 s2 s3
      obtain ⟨i1, i2⟩ := ih st' s1 s2
      exact ⟨i1, fun h => i2 (s3 h)⟩
    · rw [hs] at s2 s3
      exact ⟨s2, s3⟩

/-- The engine picks a best root move: if every successor of the root is a leaf of the
search, the `Good` legal moves all have the static score `best` after the move, every other
legal move has a smaller one, a `Good` legal move exists and depth 1 completes in time, then
`find_best_move` returns a `Good` legal move. -/
theorem find_best_move_good (ctx : SearchContext) (board : FastBoard) (rows cols : Int)
    (score_cols : List Int) (clock : Nat → Bool) (draw : Nat) (position_history : List Nat)
    (hleaves : successors_are_leaves ctx rows cols score_cols position_history board)
    (Good : Move → Prop) (best : Int)
    (hgood : ∀ a ∈ calculate_possible_actions board ctx.side_ rows cols score_cols, Good a →
      ctx.heuristic (get_next_board_state board a) ctx.side_ rows cols score_cols = best)
    (hbad : ∀ a ∈ calculate_possible_actions board ctx.side_ rows cols score_cols, ¬ Good a →
      ctx.heuristic (get_next_board_state board a) ctx.side_ rows cols score_cols < best)
    (hex : ∃ g ∈ calculate_possible_actions board ctx.side_ rows cols score_cols, Good g)
    (hclock : ∀ i, 1 ≤ i →
      i ≤ (calculate_possible_actions board ctx.side_ rows cols score_cols).length →
      clock i = false) :
    Good (find_best_move ctx board rows cols score_cols clock draw position_history) := by
  have hinit : successor_entries_exact ctx rows cols score_cols board tt_empty := by
    intro a _ e he
    simp [tt_empty] at he
  -- depth 1 completes and leaves a non-empty list of `Good` moves
  have hdone : (run_depth ctx rows cols score_cols position_history clock board 1
      { best_action_list := [], evaluated_moves := [], tt := tt_empty, tick := 0 }).2
      = true := by
    unfold run_depth
    apply root_loop_completes
    intro j hj
    simp only [ordered_root_moves, ne_eq, not_true_eq_false, false_and, if_false] at hj
    have := hclock (j + 1) (by omega) (by omega)
    have e : 0 + 1 + j = j + 1 := by omega
    simp only [e]
    exact this
  obtain ⟨s1, s2, -, s4⟩ := depth_step_good ctx rows cols score_cols position_history clock
    board 1 hleaves Good best hgood hbad hex
    { best_action_list := [], evaluated_moves := [], tt := tt_empty, tick := 0 } hinit
    (by simp)
  have hstep : (depth_step ctx rows cols score_cols position_history clock board 1
      { best_action_list := [], evaluated_moves := [], tt := tt_empty, tick := 0 }).2
      = none := by
    obtain ⟨-, h2⟩ := run_depth_good ctx rows cols score_cols position_history clock board 1
      hleaves Good best hgood hbad hex
      { best_action_list := [], evaluated_moves := [], tt := tt_empty, tick := 0 } hinit
    unfold depth_step
    simp only
    rw [if_neg (by omega), if_pos ⟨hdone, (h2 hdone).1⟩]
  have hloop : find_best_move ctx board rows cols score_cols clock draw position_history
      = select_action ctx rows cols score_cols board draw
          (depth_loop ctx rows cols score_cols position_history clock board [2, 3]
            (depth_step ctx rows cols score_cols position_history clock board 1
              { best_action_list := [], evaluated_moves := [], tt := tt_empty,
                tick := 0 }).1).1.best_action_list := by
    unfold find_best_move iterative_deepening
    rw [search_depths_max, depth_loop]
    rcases hs : depth_step ctx rows cols score_cols position_history clock board 1
        { best_action_list := [], evaluated_moves := [], tt := tt_empty, tick := 0 } with
      ⟨st', _ | stop⟩
    · rfl
    · rw [hs] at hstep; cases hstep
  obtain ⟨l1, l2⟩ := depth_loop_good ctx rows cols score_cols position_history clock board
    hleaves Good best hgood hbad hex [2, 3] _ s1 s2
  rw [hloop]
  exact l1 _ (select_action_mem _ _ _ _ _ _ _ (l2 (s4 hstep)))


/-! ## Boards with a single piece -/

theorem mem_int_range (n x : Int) : x ∈ int_range n ↔ 0 ≤ x ∧ x < n := by
  unfold int_range
  simp only [List.mem_map, List.mem_range]
  constructor
  · rintro ⟨i, hi, rfl⟩
    omega
  · rintro ⟨h0, h1⟩
    exact ⟨x.toNat, by omega, by omega⟩

theorem nodup_int_range (n : Int) : (int_range n).Nodup := by
  unfold int_range
  exact (List.nodup_map_iff (fun a b h => by simpa using h)).2 (List.nodup_range _)

theorem within_board_limits_iff (x y rows cols : Int) :
    within_board_limits x y rows cols = true ↔ (0 ≤ x ∧ x < cols) ∧ (0 ≤ y ∧ y < rows) := by
  unfold within_board_limits
  split_ifs with h0 h1 <;> simp <;> omega

theorem mem_grid_cells (rows cols : Int) (c : Cell) :
    c ∈ grid_cells rows cols ↔ within_board_limits c.1 c.2 rows cols = true := by
  unfold grid_cells
  rw [within_board_limits_iff]
  simp only [List.mem_flatMap, List.mem_map, mem_int_range]
  constructor
  · rintro ⟨y, hy, x, hx, rfl⟩
    exact ⟨hx, hy⟩
  · rintro ⟨hx, hy⟩
    exact ⟨c.2, hy, c.1, hx, rfl⟩

theorem nodup_grid_cells (rows cols : Int) : (grid_cells rows cols).Nodup := by
  unfold grid_cells
  rw [List.nodup_flatMap]
  constructor
  · intro y _
    exact (List.nodup_map_iff (fun a b h => by simpa using h)).2 (nodup_int_range cols)
  · apply (nodup_int_range rows).pairwise_of_forall_ne
    intro y _ y' _ hne
    simp only [Function.onFun, List.disjoint_left, List.mem_map]
    rintro c ⟨x, -, rfl⟩ ⟨x', -, h⟩
    exact hne (by simpa using (congrArg Prod.snd h).symm)

/-- A fold whose step does nothing on every element of the list returns its start value. -/
theorem foldl_of_idle {α β : Type} (f : β → α → β) :
    ∀ (l : List α) (acc : β), (∀ c ∈ l, ∀ b, f b c = b) → l.foldl f acc = acc := by
  intro l
  induction l with
  | nil => intro acc _; rfl
  | cons c rest ih =>
    intro acc h
    rw [List.foldl_cons, h c (List.mem_cons_self _ _)]
    exact ih acc (fun c' hc' => h c' (List.mem_cons_of_mem _ hc'))

/-- A fold whose step does nothing except on one element `q`, which occurs exactly once,
returns the step at `q`. -/
theorem foldl_single {α β : Type} (f : β → α → β) (q : α) :
    ∀ (l : List α) (acc : β), l.Nodup → q ∈ l → (∀ c ∈ l, c ≠ q → ∀ b, f b c = b) →
      l.foldl f acc = f acc q := by
  intro l
  induction l with
  | nil => intro acc _ hq; simp at hq
  | cons c rest ih =>
    intro acc hnd hq h
    rw [List.nodup_cons] at hnd
    rw [List.foldl_cons]
    by_cases hc : c = q
    · subst hc
      apply foldl_of_idle
      intro c' hc' b
      exact h c' (List.mem_cons_of_mem _ hc') (fun e => hnd.1 (e ▸ hc')) b
    · rw [h c (List.mem_cons_self _ _) hc]
      have hq' : q ∈ rest := by
        rcases List.mem_cons.1 hq with e | e
        · exact absurd e.symm hc
        · exact e
      exact ih acc hnd.2 hq' (fun c' hc' => h c' (List.mem_cons_of_mem _ hc'))

theorem lone_piece_other (board : FastBoard) (rows cols : Int) (q : Cell) (pc : Piece)
    (h : lone_piece board rows cols q pc) (c : Cell) (hc : c ≠ q) :
    (board_at board c.1 c.2).isEmpty = true :=
  h.2.2.2.2 c.1 c.2 hc

theorem lone_piece_mem_grid (board : FastBoard) (rows cols : Int) (q : Cell) (pc : Piece)
    (h : lone_piece board rows cols q pc) : q ∈ grid_cells rows cols :=
  (mem_grid_cells rows cols q).2 h.2.1

/-- The attack sums of a board whose only piece belongs to `player`. -/
theorem proximity_scores_lone (board : FastBoard) (rows cols : Int) (score_cols : List Int)
    (q : Cell) (pc : Piece) (player : Player) (h : lone_piece board rows cols q pc)
    (hp : pc.player = player) :
    proximity_scores board player rows cols score_cols
      = (proximity_contribution pc.side
          (distance_to_own_scoring_area q.1 q.2 player rows cols score_cols), 0) := by
  unfold proximity_scores
  rw [foldl_single _ q (grid_cells rows cols) (0, 0) (nodup_grid_cells rows cols)
    (lone_piece_mem_grid board rows cols q pc h)]
  · simp only [h.2.2.1, h.2.2.2.1, Bool.false_eq_true, if_false, hp, if_true, zero_add]
  · intro c _ hc b
    simp only [lone_piece_other board rows cols q pc h c hc, if_true]

theorem neighbour_ne (x y : Int) (d : Cell)
    (hd : d ∈ ([(1, 0), (-1, 0), (0, 1), (0, -1)] : List Cell)) :
    (x + d.1, y + d.2) ≠ (x, y) := by
  simp only [List.mem_cons, List.mem_singleton, List.not_mem_nil, or_false] at hd
  intro e
  have e1 := congrArg Prod.fst e
  have e2 := congrArg Prod.snd e
  simp only at e1 e2
  rcases hd with rfl | rfl | rfl | rfl <;> simp at e1 e2

/-- On a board with a single piece no river cell has an occupied neighbour. -/
theorem count_near_lone (board : FastBoard) (rows cols : Int) (score_cols : List Int)
    (q : Cell) (pc : Piece) (player : Player) (h : lone_piece board rows cols q pc) :
    count_near board q.1 q.2 player rows cols score_cols = {} := by
  unfold count_near
  apply foldl_of_idle
  intro d hd b
  have hne := neighbour_ne q.1 q.2 d hd
  have hemp : (board_at board (q.1 + d.1) (q.2 + d.2)).isEmpty = true :=
    h.2.2.2.2 _ _ hne
  simp only [hemp, Bool.true_or, if_true]
  split_ifs <;> rfl

/-- The river sums of a board with a single piece are both 0. -/
theorem river_components_lone (board : FastBoard) (rows cols : Int) (score_cols : List Int)
    (q : Cell) (pc : Piece) (player : Player) (h : lone_piece board rows cols q pc) :
    river_components board player rows cols score_cols = (0, 0) := by
  unfold river_components
  apply foldl_of_idle
  intro c _ b
  by_cases hc : c = q
  · subst hc
    simp only [count_near_lone board rows cols score_cols c pc player h]
    simp
  · simp only [lone_piece_other board rows cols q pc h c hc, Bool.true_or, if_true]

/-- The defense penalty of a board with a single piece is 0 unless that piece is a River
of the player on one of the player's scoring cells. -/
theorem penalty_lone (board : FastBoard) (rows cols : Int) (score_cols : List Int)
    (q : Cell) (pc : Piece) (player : Player) (h : lone_piece board rows cols q pc)
    (hsafe : pc.side = Side.STONE ∨ q ∉ own_scoring_areas player rows cols score_cols) :
    penalty_for_blocked_score_zone board player rows cols score_cols = 0 := by
  unfold penalty_for_blocked_score_zone
  apply foldl_of_idle
  intro c hcmem b
  by_cases hc : c = q
  · subst hc
    rcases hsafe with hs | hs
    · simp [h.2.2.1, hs]
    · exact absurd hcmem hs
  · simp [lone_piece_other board rows cols q pc h c hc]

/-- Invariant rule for a fold. -/
theorem foldl_invariant {α β : Type} (f : β → α → β) (P : β → Prop) :
    ∀ (l : List α) (acc : β), P acc → (∀ c ∈ l, ∀ b, P b → P (f b c)) → P (l.foldl f acc) := by
  intro l
  induction l with
  | nil => intro acc h _; exact h
  | cons c rest ih =>
    intro acc h hstep
    rw [List.foldl_cons]
    exact ih _ (hstep c (List.mem_cons_self _ _) acc h)
      (fun c' hc' => hstep c' (List.mem_cons_of_mem _ hc'))

/-- The near-win bonus is 0 when none of the player's scoring cells holds a Stone of the
player. -/
theorem near_win_bonus_no_goal_stone (board : FastBoard) (player : Player) (rows cols : Int)
    (score_cols : List Int)
    (h : ∀ c ∈ own_scoring_areas player rows cols score_cols,
      ¬ ((board_at board c.1 c.2).isEmpty = false ∧ (board_at board c.1 c.2).player = player ∧
        (board_at board c.1 c.2).side = Side.STONE)) :
    calculate_near_win_bonus board player rows cols score_cols = 0 := by
  unfold calculate_near_win_bonus
  simp only
  have hscan : ((own_scoring_areas player rows cols score_cols).foldl (fun acc cell_coords =>
      if (board_at board cell_coords.1 cell_coords.2).isEmpty = true then
        (acc.1, cell_coords)
      else if (board_at board cell_coords.1 cell_coords.2).player = player ∧
          (board_at board cell_coords.1 cell_coords.2).side = Side.STONE then
        (acc.1 + 1, acc.2)
      else acc) ((0 : Int), ((-1, -1) : Cell))).1 = 0 := by
    refine foldl_invariant _ (fun acc : Int × Cell => acc.1 = 0) _ _ rfl ?_
    · intro c hc b hb
      by_cases he : (board_at board c.1 c.2).isEmpty = true
      · rw [if_pos he]; exact hb
      · rw [if_neg he]
        have he' : (board_at board c.1 c.2).isEmpty = false := by
          cases hx : (board_at board c.1 c.2).isEmpty
          · rfl
          · exact absurd hx he
        rw [if_neg (fun hps => h c hc ⟨he', hps.1, hps.2⟩)]
        exact hb
  rw [if_pos (Or.inl (by rw [hscan]; decide))]

/-- The near-win bonus is 0 when no cell next to the scoring zone holds a piece of the
player. -/
theorem near_win_bonus_no_neighbour (board : FastBoard) (player : Player) (rows cols : Int)
    (score_cols : List Int)
    (h : ∀ c ∈ get_adjacent_to_scoring_zone player rows cols score_cols,
      (board_at board c.1 c.2).isEmpty = true ∨ (board_at board c.1 c.2).player ≠ player) :
    calculate_near_win_bonus board player rows cols score_cols = 0 := by
  unfold calculate_near_win_bonus
  simp only
  rw [ite_eq_left_iff]
  intro _
  apply foldl_of_idle
  intro c hcm b
  rcases h c hcm with he | hp
  · simp [he]
  · simp [hp]

/-- The highway term is 0 on a board without a River of the player. -/
theorem highway_no_river (board : FastBoard) (player : Player) (rows cols : Int)
    (score_cols : List Int)
    (h : ∀ c ∈ grid_cells rows cols,
      (board_at board c.1 c.2).isEmpty = true ∨ (board_at board c.1 c.2).player ≠ player ∨
        (board_at board c.1 c.2).side ≠ Side.RIVER) :
    evaluate_river_highway_potential board player rows cols score_cols = 0 := by
  unfold evaluate_river_highway_potential
  simp only
  apply foldl_of_idle
  intro c hc b
  rcases h c hc with h1 | h1 | h1 <;> simp [h1]

theorem distance_nonneg (x y : Int) (player : Player) (rows cols : Int)
    (score_cols : List Int) :
    0 ≤ distance_to_own_scoring_area x y player rows cols score_cols := by
  unfold distance_to_own_scoring_area
  positivity

/-- The highway term of a board whose only piece is a River: 0, or half the table value of
a key that is at most `max_dist`. -/
theorem highway_lone (board : FastBoard) (rows cols : Int) (score_cols : List Int)
    (q : Cell) (pc : Piece) (player : Player) (h : lone_piece board rows cols q pc) :
    evaluate_river_highway_potential board player rows cols score_cols = 0 ∨
      ∃ key power, key ≤ highway_max_dist rows ∧
        distancePowerMap.lookup key = some power ∧
        evaluate_river_highway_potential board player rows cols score_cols
          = Int.tdiv power 2 := by
  unfold evaluate_river_highway_potential
  simp only
  rw [foldl_single _ q (grid_cells rows cols) 0 (nodup_grid_cells rows cols)
    (lone_piece_mem_grid board rows cols q pc h)]
  · by_cases h1 : ((board_at board q.1 q.2).isEmpty
        || decide ((board_at board q.1 q.2).player ≠ player)
        || decide ((board_at board q.1 q.2).side ≠ Side.RIVER)) = true
    · rw [if_pos h1]; exact Or.inl rfl
    · rw [if_neg h1]
      by_cases h2 : explore_river_network board q.1 q.2 q.1 q.2 player rows cols score_cols
          false = []
      · rw [if_pos h2]; exact Or.inl rfl
      · rw [if_neg h2]
        have hbest : 0 ≤ (explore_river_network board q.1 q.2 q.1 q.2 player rows cols
            score_cols false).foldl (fun best dest =>
              min best (distance_to_own_scoring_area dest.1 dest.2 player rows cols score_cols))
            99 := by
          refine foldl_invariant _ (fun b : Int => 0 ≤ b) _ _ (by decide) ?_
          intro c _ b hb
          exact le_min hb (distance_nonneg _ _ _ _ _ _)
        by_cases h3 : (explore_river_network board q.1 q.2 q.1 q.2 player rows cols
            score_cols false).foldl (fun best dest =>
              min best (distance_to_own_scoring_area dest.1 dest.2 player rows cols score_cols))
            99 ≠ 99
        · rw [if_pos h3]
          split
          · rename_i power hl
            exact Or.inr ⟨_, power, by omega, hl, by simp⟩
          · exact Or.inl rfl
        · rw [if_neg h3]; exact Or.inl rfl
  · intro c _ hc b
    simp [lone_piece_other board rows cols q pc h c hc]

/-- The evaluator depends on the row count only through the size tier. -/
theorem tier_cases (rows : Int) :
    ∃ tier ∈ ([17, 15, 0] : List Int),
      (∀ c h, lone_value rows c h = lone_value tier c h) ∧
        highway_max_dist rows = highway_max_dist tier := by
  by_cases h17 : rows ≥ 17
  · refine ⟨17, by simp, ?_, ?_⟩
    · intro c h
      simp only [lone_value, combine_scores, local_weights, if_pos h17]
      rfl
    · simp only [highway_max_dist, if_pos h17]; rfl
  · by_cases h15 : rows ≥ 15
    · refine ⟨15, by simp, ?_, ?_⟩
      · intro c h
        simp only [lone_value, combine_scores, local_weights, if_neg h17, if_pos h15]
        rfl
      · simp only [highway_max_dist, if_neg h17, if_pos h15]; rfl
    · refine ⟨0, by simp, ?_, ?_⟩
      · intro c h
        simp only [lone_value, combine_scores, local_weights, if_neg h17, if_neg h15]
        rfl
      · simp only [highway_max_dist, if_neg h17, if_neg h15]; rfl

set_option maxRecDepth 100000 in
/-- A Stone outside the goal is worth less than a Stone in the goal, in every tier. -/
theorem lone_value_stone_lt :
    ∀ tier ∈ ([17, 15, 0] : List Int), ∀ c ∈ ([2000, 1000, 500, 60, 50, 40, 30, 0] : List Int),
      lone_value tier c 0 < lone_value tier 50000 0 := by
  decide!

set_option maxRecDepth 100000 in
/-- A River one step from the goal is worth less than a Stone in the goal, whatever its
highway term, in every tier. -/
theorem lone_value_river_lt :
    ∀ tier ∈ ([17, 15, 0] : List Int),
      lone_value tier 2000 0 < lone_value tier 50000 0 ∧
      ∀ kp ∈ distancePowerMap, kp.1 ≤ highway_max_dist tier →
        lone_value tier 2000 (Int.tdiv kp.2 2) < lone_value tier 50000 0 := by
  decide!

theorem proximity_contribution_stone_cases (d : Int) (hd : 1 ≤ d) :
    proximity_contribution Side.STONE d ∈ ([2000, 1000, 500, 60, 50, 40, 30, 0] : List Int) := by
  unfold proximity_contribution
  by_cases h8 : d < 8
  · interval_cases d <;> decide
  · rw [if_neg (by omega), if_neg (by omega), if_neg (by omega), if_neg (by omega), if_neg h8]
    decide

/-! ## Geometry of the scoring zone -/

theorem foldl_max_ge (l : List Int) :
    ∀ (c : Int), c ≤ l.foldl (fun best v => if best < v then v else best) c ∧
      (∀ v ∈ l, v ≤ l.foldl (fun best v => if best < v then v else best) c) ∧
      (l.foldl (fun best v => if best < v then v else best) c = c ∨
        l.foldl (fun best v => if best < v then v else best) c ∈ l) := by
  induction l with
  | nil => intro c; simp
  | cons a rest ih =>
    intro c
    rw [List.foldl_cons]
    by_cases hc : c < a
    · rw [if_pos hc]
      obtain ⟨h1, h2, h3⟩ := ih a
      refine ⟨by omega, ?_, ?_⟩
      · intro v hv
        rcases List.mem_cons.1 hv with rfl | hv
        · exact h1
        · exact h2 v hv
      · rcases h3 with h3 | h3
        · exact Or.inr (by rw [h3]; exact List.mem_cons_self _ _)
        · exact Or.inr (List.mem_cons_of_mem _ h3)
    · rw [if_neg hc]
      obtain ⟨h1, h2, h3⟩ := ih c
      refine ⟨h1, ?_, ?_⟩
      · intro v hv
        rcases List.mem_cons.1 hv with rfl | hv
        · omega
        · exact h2 v hv
      · rcases h3 with h3 | h3
        · exact Or.inl h3
        · exact Or.inr (List.mem_cons_of_mem _ h3)

theorem foldl_min_le (l : List Int) :
    ∀ (c : Int), l.foldl (fun best v => if v < best then v else best) c ≤ c ∧
      (∀ v ∈ l, l.foldl (fun best v => if v < best then v else best) c ≤ v) ∧
      (l.foldl (fun best v => if v < best then v else best) c = c ∨
        l.foldl (fun best v => if v < best then v else best) c ∈ l) := by
  induction l with
  | nil => intro c; simp
  | cons a rest ih =>
    intro c
    rw [List.foldl_cons]
    by_cases hc : a < c
    · rw [if_pos hc]
      obtain ⟨h1, h2, h3⟩ := ih a
      refine ⟨by omega, ?_, ?_⟩
      · intro v hv
        rcases List.mem_cons.1 hv with rfl | hv
        · exact h1
        · exact h2 v hv
      · rcases h3 with h3 | h3
        · exact Or.inr (by rw [h3]; exact List.mem_cons_self _ _)
        · exact Or.inr (List.mem_cons_of_mem _ h3)
    · rw [if_neg hc]
      obtain ⟨h1, h2, h3⟩ := ih c
      refine ⟨h1, ?_, ?_⟩
      · intro v hv
        rcases List.mem_cons.1 hv with rfl | hv
        · omega
        · exact h2 v hv
      · rcases h3 with h3 | h3
        · exact Or.inl h3
        · exact Or.inr (List.mem_cons_of_mem _ h3)

/-- The value `max_element` is a member of a non-empty list and bounds it from above. -/
theorem max_element_spec (l : List Int) (hne : l ≠ []) :
    max_element l ∈ l ∧ ∀ v ∈ l, v ≤ max_element l := by
  cases l with
  | nil => exact absurd rfl hne
  | cons c cs =>
    simp only [max_element]
    obtain ⟨h1, h2, h3⟩ := foldl_max_ge cs c
    refine ⟨?_, ?_⟩
    · rcases h3 with h3 | h3
      · rw [h3]; exact List.mem_cons_self _ _
      · exact List.mem_cons_of_mem _ h3
    · intro v hv
      rcases List.mem_cons.1 hv with rfl | hv
      · exact h1
      · exact h2 v hv

/-- The value `min_element` is a member of a non-empty list and bounds it from below. -/
theorem min_element_spec (l : List Int) (hne : l ≠ []) :
    min_element l ∈ l ∧ ∀ v ∈ l, min_element l ≤ v := by
  cases l with
  | nil => exact absurd rfl hne
  | cons c cs =>
    simp only [min_element]
    obtain ⟨h1, h2, h3⟩ := foldl_min_le cs c
    refine ⟨?_, ?_⟩
    · rcases h3 with h3 | h3
      · rw [h3]; exact List.mem_cons_self _ _
      · exact List.mem_cons_of_mem _ h3
    · intro v hv
      rcases List.mem_cons.1 hv with rfl | hv
      · exact h1
      · exact h2 v hv

/-- The distance to the own scoring area is 0 exactly on the target row between the
leftmost and the rightmost scoring column. -/
theorem distance_eq_zero_iff (x y : Int) (player : Player) (rows cols : Int)
    (score_cols : List Int) (hne : score_cols ≠ []) :
    distance_to_own_scoring_area x y player rows cols score_cols = 0 ↔
      y = get_target_row player rows ∧ min_element score_cols ≤ x ∧
        x ≤ max_element score_cols := by
  have hle : min_element score_cols ≤ max_element score_cols :=
    (min_element_spec score_cols hne).2 _ (max_element_spec score_cols hne).1
  unfold distance_to_own_scoring_area clamp
  simp only
  constructor
  · intro h
    have h1 := abs_nonneg (x - if x < min_element score_cols then min_element score_cols
      else if max_element score_cols < x then max_element score_cols else x)
    have h2 := abs_nonneg (y - get_target_row player rows)
    have h3 : |y - get_target_row player rows| = 0 := by omega
    have h4 : |x - if x < min_element score_cols then min_element score_cols
      else if max_element score_cols < x then max_element score_cols else x| = 0 := by omega
    rw [abs_eq_zero] at h3 h4
    refine ⟨by omega, ?_⟩
    split_ifs at h4 <;> omega
  · rintro ⟨hy, hlo, hhi⟩
    rw [if_neg (by omega), if_neg (by omega), hy]
    simp

theorem own_scoring_area_distance (c : Cell) (player : Player) (rows cols : Int)
    (score_cols : List Int) (hne : score_cols ≠ [])
    (hc : c ∈ own_scoring_areas player rows cols score_cols) :
    distance_to_own_scoring_area c.1 c.2 player rows cols score_cols = 0 := by
  unfold own_scoring_areas at hc
  simp only [List.mem_map] at hc
  obtain ⟨col, hcol, rfl⟩ := hc
  rw [distance_eq_zero_iff _ _ _ _ _ _ hne]
  exact ⟨rfl, (min_element_spec score_cols hne).2 col hcol,
    (max_element_spec score_cols hne).2 col hcol⟩

/-- No cell next to the scoring zone lies at distance 0. -/
theorem adjacent_distance_ne_zero (c : Cell) (player : Player) (rows cols : Int)
    (score_cols : List Int) (hne : score_cols ≠ [])
    (hc : c ∈ get_adjacent_to_scoring_zone player rows cols score_cols) :
    distance_to_own_scoring_area c.1 c.2 player rows cols score_cols ≠ 0 := by
  rw [Ne, distance_eq_zero_iff _ _ _ _ _ _ hne]
  unfold get_adjacent_to_scoring_zone at hc
  simp only [List.mem_append, List.mem_map] at hc
  rintro ⟨hy, hlo, hhi⟩
  rcases hc with ((hc | hc) | hc) | hc
  · split_ifs at hc
    · rw [List.mem_map] at hc
      obtain ⟨x, -, rfl⟩ := hc
      simp at hy
    · simp at hc
  · split_ifs at hc
    · rw [List.mem_map] at hc
      obtain ⟨x, -, rfl⟩ := hc
      simp at hy
    · simp at hc
  · split_ifs at hc
    · simp only [List.mem_singleton] at hc
      subst hc
      simp at hlo
    · simp at hc
  · split_ifs at hc
    · simp only [List.mem_singleton] at hc
      subst hc
      simp at hhi
    · simp at hc

/-! ## Successors of a board with a single Stone -/

theorem step_ne (x y : Int) (d : Cell) (hd : d ≠ (0, 0)) : (x + d.1, y + d.2) ≠ (x, y) := by
  intro e
  have e1 := congrArg Prod.fst e
  have e2 := congrArg Prod.snd e
  simp only at e1 e2
  apply hd
  exact Prod.ext (by simpa using e1) (by simpa using e2)

theorem directions_ne_zero (d : Cell) (hd : d ∈ DIRECTIONS) : d ≠ (0, 0) := by
  unfold DIRECTIONS at hd
  simp only [List.mem_cons, List.mem_singleton, List.not_mem_nil, or_false] at hd
  rcases hd with rfl | rfl | rfl | rfl <;> decide

/-- Replacing the single piece of a board in place. -/
theorem lone_piece_replace (board : FastBoard) (rows cols : Int) (q : Cell) (pc pc' : Piece)
    (h : lone_piece board rows cols q pc) (hne : pc'.isEmpty = false) :
    lone_piece (board_set board q.1 q.2 pc') rows cols q pc' := by
  obtain ⟨hshape, hin, -, -, hothers⟩ := h
  refine ⟨board_set_shape board rows cols _ _ _ hshape, hin,
    board_at_set_same board rows cols _ _ _ hshape hin, hne, ?_⟩
  intro x y hxy
  rw [board_at_set_other board q.1 q.2 x y pc' (fun e => hxy (Prod.ext e.1 e.2))]
  exact hothers x y hxy

/-- Moving the single piece of a board to another cell of the grid. -/
theorem lone_piece_move (board : FastBoard) (rows cols : Int) (q t : Cell) (pc : Piece)
    (h : lone_piece board rows cols q pc) (ht : within_board_limits t.1 t.2 rows cols = true)
    (hne : t ≠ q) :
    lone_piece (board_set (board_set board t.1 t.2 pc) q.1 q.2 {}) rows cols t pc := by
  obtain ⟨hshape, hin, hq, hpc, hothers⟩ := h
  have hshape1 := board_set_shape board rows cols t.1 t.2 pc hshape
  refine ⟨board_set_shape _ rows cols _ _ _ hshape1, ht, ?_, hpc, ?_⟩
  · rw [board_at_set_other _ q.1 q.2 t.1 t.2 {} (fun e => hne (Prod.ext e.1 e.2))]
    exact board_at_set_same board rows cols _ _ _ hshape ht
  · intro x y hxy
    by_cases hxq : (x, y) = q
    · have : board_at (board_set (board_set board t.1 t.2 pc) q.1 q.2 {}) x y = {} := by
        rw [← hxq]
        exact board_at_set_same _ rows cols _ _ _ hshape1 (by rw [hxq]; exact hin)
      rw [this]; rfl
    · rw [board_at_set_other _ q.1 q.2 x y {} (fun e => hxq (Prod.ext e.1 e.2)),
        board_at_set_other _ t.1 t.2 x y pc (fun e => hxy (Prod.ext e.1 e.2))]
      exact hothers x y hxq

/-- A Stone only flips. -/
theorem transformation_actions_stone (board : FastBoard) (x y : Int) (player : Player)
    (rows cols : Int) (score_cols : List Int) (hs : (board_at board x y).side = Side.STONE) :
    ∀ a ∈ transformation_actions board x y player rows cols score_cols,
      a.action = ActionKind.flip ∧ a.from_pos = (x, y) := by
  intro a ha
  unfold transformation_actions at ha
  simp only [hs, if_true] at ha
  split_ifs at ha <;>
    simp only [List.mem_append, List.mem_singleton, List.not_mem_nil, or_false, false_or,
      List.append_nil, List.nil_append, List.singleton_append, List.mem_cons] at ha <;>
    rcases ha with rfl | rfl <;> simp

/-- The legal actions on a board whose only piece is a Stone of the player, and the boards
they lead to: a Flip leaves a single River of the player on the same cell, a Move leaves the
Stone alone on the destination. -/
theorem lone_stone_successor (board : FastBoard) (rows cols : Int) (score_cols : List Int)
    (q : Cell) (stone : Piece) (player : Player) (h : lone_piece board rows cols q stone)
    (hs : stone.side = Side.STONE) (hp : stone.player = player) :
    ∀ a ∈ calculate_possible_actions board player rows cols score_cols,
      a.from_pos = q ∧
        ((a.action = ActionKind.flip ∧ ∃ river : Piece, river.side = Side.RIVER ∧
            river.player = player ∧
            lone_piece (get_next_board_state board a) rows cols q river) ∨
          (a.action = ActionKind.move ∧ a.to_pos ≠ q ∧
            lone_piece (get_next_board_state board a) rows cols a.to_pos stone)) := by
  intro a ha
  obtain ⟨y, -, x, -, hne, -, hmem⟩ :=
    (mem_calculate_possible_actions board player rows cols score_cols a).1 ha
  have hq : (x, y) = q := by
    by_contra hc
    have := h.2.2.2.2 x y hc
    rw [this] at hne
    cases hne
  subst hq
  have hstone : board_at board x y = stone := h.2.2.1
  rcases (mem_get_actions_for_piece board x y player rows cols score_cols a).1 hmem with
    hmem | ⟨dir, hdir, hmem⟩
  · obtain ⟨hk, hf⟩ := transformation_actions_stone board x y player rows cols score_cols
      (by rw [hstone]; exact hs) a hmem
    refine ⟨hf, Or.inl ⟨hk, ?_⟩⟩
    have hnext : ∃ o, get_next_board_state board a
        = board_set board x y { stone with side := Side.RIVER, orientation := o } := by
      unfold get_next_board_state
      simp only [hk, hf, hstone, hs, if_true]
      exact ⟨_, rfl⟩
    obtain ⟨o, ho⟩ := hnext
    refine ⟨{ stone with side := Side.RIVER, orientation := o }, rfl, hp, ?_⟩
    rw [ho]
    exact lone_piece_replace board rows cols (x, y) stone _ h h.2.2.2.1
  · obtain ⟨hf, hcase⟩ :=
      displacement_actions_spec board x y player rows cols score_cols dir a hmem
    refine ⟨hf, ?_⟩
    rcases hcase with ⟨hk, -, hin, hemp, -⟩ | ⟨-, hto, -, -, hnon, -⟩
    · have hto : a.to_pos ≠ (x, y) := by
        intro e
        rw [e] at hemp
        simp only at hemp
        rw [hstone, h.2.2.2.1] at hemp
        cases hemp
      refine Or.inr ⟨hk, hto, ?_⟩
      have hnext : get_next_board_state board a
          = board_set (board_set board a.to_pos.1 a.to_pos.2 stone) x y {} := by
        unfold get_next_board_state
        simp only [hk, hf, hstone]
      rw [hnext]
      exact lone_piece_move board rows cols (x, y) a.to_pos stone h hin hto
    · exfalso
      have hemp := h.2.2.2.2 a.to_pos.1 a.to_pos.2 (by
        rw [hto]; exact step_ne x y dir (directions_ne_zero dir hdir))
      rw [hemp] at hnon
      cases hnon

/-- A plain step onto an empty neighbour cell that is on the board and not a rival scoring
cell is generated. -/
theorem plain_move_mem (board : FastBoard) (player : Player) (rows cols : Int)
    (score_cols : List Int) (x y : Int) (dir : Cell)
    (hin : within_board_limits x y rows cols = true)
    (hne : (board_at board x y).isEmpty = false) (hown : (board_at board x y).player = player)
    (hdir : dir ∈ DIRECTIONS)
    (htin : within_board_limits (x + dir.1) (y + dir.2) rows cols = true)
    (hriv : rival_score_area (x + dir.1) (y + dir.2) player rows cols score_cols = false)
    (hemp : (board_at board (x + dir.1) (y + dir.2)).isEmpty = true) :
    ({ action := ActionKind.move, from_pos := (x, y), to_pos := (x + dir.1, y + dir.2) } : Move)
      ∈ calculate_possible_actions board player rows cols score_cols := by
  rw [mem_calculate_possible_actions]
  rw [within_board_limits_iff] at hin
  refine ⟨y, (mem_int_range rows y).2 hin.2, x, (mem_int_range cols x).2 hin.1, hne, hown, ?_⟩
  rw [mem_get_actions_for_piece]
  refine Or.inr ⟨dir, hdir, ?_⟩
  unfold displacement_actions
  simp [htin, hriv, hemp]

/-! ## Static scores of the successors of a single Stone -/

theorem lookup_mem (l : List (Int × Int)) (k v : Int) (h : l.lookup k = some v) :
    (k, v) ∈ l := by
  induction l with
  | nil => simp at h
  | cons kv l ih =>
    obtain ⟨k', v'⟩ := kv
    by_cases hk : k = k'
    · subst hk
      simp only [List.lookup_cons, beq_self_eq_true] at h
      cases h
      exact List.mem_cons_self _ _
    · have hb : (k == k') = false := by simpa using hk
      simp only [List.lookup_cons, hb] at h
      exact List.mem_cons_of_mem _ (ih h)

/-- The board evaluation of a board whose only piece belongs to the evaluated player. -/
theorem final_evaluation_lone (board : FastBoard) (rows cols : Int) (score_cols : List Int)
    (q : Cell) (pc : Piece) (player : Player) (h : lone_piece board rows cols q pc)
    (hp : pc.player = player)
    (hsafe : pc.side = Side.STONE ∨ q ∉ own_scoring_areas player rows cols score_cols)
    (hnw : calculate_near_win_bonus board player rows cols score_cols = 0) :
    Final_Evaluation default_evaluator board player rows cols score_cols
      = lone_value rows
          (proximity_contribution pc.side
            (distance_to_own_scoring_area q.1 q.2 player rows cols score_cols))
          (evaluate_river_highway_potential board player rows cols score_cols) := by
  unfold Final_Evaluation lone_value evaluate_top_pieces_proximity
    evaluate_river_system_potential
  simp only [proximity_scores_lone board rows cols score_cols q pc player h hp,
    river_components_lone board rows cols score_cols q pc player h,
    penalty_lone board rows cols score_cols q pc player h hsafe, hnw]

/-- A player without a piece on the board has no legal action. -/
theorem no_actions_of_lone (board : FastBoard) (rows cols : Int) (score_cols : List Int)
    (q : Cell) (pc : Piece) (p : Player) (h : lone_piece board rows cols q pc)
    (hp : pc.player ≠ p) : calculate_possible_actions board p rows cols score_cols = [] := by
  rw [List.eq_nil_iff_forall_not_mem]
  intro a ha
  obtain ⟨y, -, x, -, hne, hown, -⟩ :=
    (mem_calculate_possible_actions board p rows cols score_cols a).1 ha
  by_cases hq : (x, y) = q
  · subst hq
    rw [h.2.2.1] at hown
    exact hp hown
  · rw [h.2.2.2.2 x y hq] at hne
    cases hne

/-- The evaluation of a single Stone standing in its goal. -/
theorem final_evaluation_goal_stone (board : FastBoard) (rows cols : Int)
    (score_cols : List Int) (t : Cell) (stone : Piece) (player : Player)
    (hne : score_cols ≠ []) (h : lone_piece board rows cols t stone)
    (hs : stone.side = Side.STONE) (hp : stone.player = player)
    (hd : distance_to_own_scoring_area t.1 t.2 player rows cols score_cols = 0) :
    Final_Evaluation default_evaluator board player rows cols score_cols
      = lone_value rows 50000 0 := by
  have hnw : calculate_near_win_bonus board player rows cols score_cols = 0 := by
    apply near_win_bonus_no_neighbour
    intro c hc
    left
    apply h.2.2.2.2
    intro e
    have := adjacent_distance_ne_zero c player rows cols score_cols hne hc
    rw [show c = t from e] at this
    exact this hd
  have hhw : evaluate_river_highway_potential board player rows cols score_cols = 0 := by
    apply highway_no_river
    intro c _
    by_cases hc : c = t
    · right; right
      rw [hc, h.2.2.1, hs]
      decide
    · left
      exact lone_piece_other board rows cols t stone h c hc
  rw [final_evaluation_lone board rows cols score_cols t stone player h hp (Or.inl hs) hnw,
    hhw, hd, hs]
  rfl

/-- The evaluation of a single Stone standing outside its goal is smaller than that of a
Stone in the goal. -/
theorem final_evaluation_far_stone (board : FastBoard) (rows cols : Int)
    (score_cols : List Int) (t : Cell) (stone : Piece) (player : Player)
    (hne : score_cols ≠ []) (h : lone_piece board rows cols t stone)
    (hs : stone.side = Side.STONE) (hp : stone.player = player)
    (hd : distance_to_own_scoring_area t.1 t.2 player rows cols score_cols ≠ 0) :
    Final_Evaluation default_evaluator board player rows cols score_cols
      < lone_value rows 50000 0 := by
  have hnw : calculate_near_win_bonus board player rows cols score_cols = 0 := by
    apply near_win_bonus_no_goal_stone
    intro c hc
    have hct : c ≠ t := by
      intro e
      rw [e] at hc
      exact hd (own_scoring_area_distance t player rows cols score_cols hne hc)
    have := lone_piece_other board rows cols t stone h c hct
    rintro ⟨h1, -⟩
    rw [this] at h1
    cases h1
  have hhw : evaluate_river_highway_potential board player rows cols score_cols = 0 := by
    apply highway_no_river
    intro c _
    by_cases hc : c = t
    · right; right
      rw [hc, h.2.2.1, hs]
      decide
    · left
      exact lone_piece_other board rows cols t stone h c hc
  rw [final_evaluation_lone board rows cols score_cols t stone player h hp (Or.inl hs) hnw,
    hhw, hs]
  have hpos : 1 ≤ distance_to_own_scoring_area t.1 t.2 player rows cols score_cols := by
    have := distance_nonneg t.1 t.2 player rows cols score_cols
    omega
  obtain ⟨tier, htier, hval, -⟩ := tier_cases rows
  rw [hval, hval]
  exact lone_value_stone_lt tier htier _ (proximity_contribution_stone_cases _ hpos)

/-- The evaluation of a single River one step from the goal is smaller than that of a Stone
in the goal. -/
theorem final_evaluation_near_river (board : FastBoard) (rows cols : Int)
    (score_cols : List Int) (q : Cell) (river : Piece) (player : Player)
    (hne : score_cols ≠ []) (h : lone_piece board rows cols q river)
    (hs : river.side = Side.RIVER) (hp : river.player = player)
    (hd : distance_to_own_scoring_area q.1 q.2 player rows cols score_cols = 1) :
    Final_Evaluation default_evaluator board player rows cols score_cols
      < lone_value rows 50000 0 := by
  have hq : q ∉ own_scoring_areas player rows cols score_cols := by
    intro hc
    have := own_scoring_area_distance q player rows cols score_cols hne hc
    omega
  have hnw : calculate_near_win_bonus board player rows cols score_cols = 0 := by
    apply near_win_bonus_no_goal_stone
    intro c hc
    have hct : c ≠ q := by
      intro e
      rw [e] at hc
      exact hq hc
    have := lone_piece_other board rows cols q river h c hct
    rintro ⟨h1, -⟩
    rw [this] at h1
    cases h1
  rw [final_evaluation_lone board rows cols score_cols q river player h hp (Or.inr hq) hnw,
    hd, hs]
  obtain ⟨tier, htier, hval, hmax⟩ := tier_cases rows
  rw [hval, hval]
  have hc : proximity_contribution Side.RIVER 1 = 2000 := by decide
  rw [hc]
  rcases highway_lone board rows cols score_cols q river player h with h0 | ⟨key, power, hk, hl, hv⟩
  · rw [h0]
    exact (lone_value_river_lt tier htier).1
  · rw [hv]
    exact (lone_value_river_lt tier htier).2 (key, power) (lookup_mem _ _ _ hl)
      (by rw [← hmax]; exact hk)

/-! ## The step into the goal -/

/-- From a cell of the board at distance 1 a neighbour cell of the board has distance 0. -/
theorem goal_step_exists (q : Cell) (player : Player) (rows cols : Int)
    (score_cols : List Int) (hrows : 3 ≤ rows) (hne : score_cols ≠ [])
    (hcols : ∀ c ∈ score_cols, 0 ≤ c ∧ c < cols)
    (hin : within_board_limits q.1 q.2 rows cols = true)
    (hd : distance_to_own_scoring_area q.1 q.2 player rows cols score_cols = 1) :
    ∃ dir ∈ DIRECTIONS, within_board_limits (q.1 + dir.1) (q.2 + dir.2) rows cols = true ∧
      distance_to_own_scoring_area (q.1 + dir.1) (q.2 + dir.2) player rows cols score_cols
        = 0 := by
  have hmin := hcols _ (min_element_spec score_cols hne).1
  have hmax := hcols _ (max_element_spec score_cols hne).1
  have hle : min_element score_cols ≤ max_element score_cols :=
    (min_element_spec score_cols hne).2 _ (max_element_spec score_cols hne).1
  have htarget : 0 ≤ get_target_row player rows ∧ get_target_row player rows < rows := by
    unfold get_target_row bottom_score_row top_score_row
    split_ifs <;> omega
  rw [within_board_limits_iff] at hin
  simp only [distance_eq_zero_iff _ _ player rows cols score_cols hne, within_board_limits_iff]
  unfold distance_to_own_scoring_area clamp at hd
  simp only at hd
  generalize get_target_row player rows = T at hd htarget ⊢
  generalize min_element score_cols = L at hd hmin hle ⊢
  generalize max_element score_cols = R at hd hmax hle ⊢
  obtain ⟨x, y⟩ := q
  simp only at hd hin ⊢
  by_cases h1 : x < L
  · rw [if_pos h1] at hd
    refine ⟨(1, 0), by decide, ?_⟩
    rcases abs_cases (x - L) with ⟨e1, _⟩ | ⟨e1, _⟩ <;>
      rcases abs_cases (y - T) with ⟨e2, _⟩ | ⟨e2, _⟩ <;>
      simp only <;> omega
  · rw [if_neg h1] at hd
    by_cases h2 : R < x
    · rw [if_pos h2] at hd
      refine ⟨(-1, 0), by decide, ?_⟩
      rcases abs_cases (x - R) with ⟨e1, _⟩ | ⟨e1, _⟩ <;>
        rcases abs_cases (y - T) with ⟨e2, _⟩ | ⟨e2, _⟩ <;>
        simp only <;> omega
    · rw [if_neg h2] at hd
      simp only [sub_self, abs_zero, zero_add] at hd
      rcases abs_cases (y - T) with ⟨e2, _⟩ | ⟨e2, _⟩
      · refine ⟨(0, -1), by decide, ?_⟩
        simp only
        omega
      · refine ⟨(0, 1), by decide, ?_⟩
        simp only
        omega

/-- A cell at distance 0 from a player's goal is not a scoring cell of the rival when the two
scoring rows differ. -/
theorem goal_cell_not_rival (x y : Int) (player : Player) (rows cols : Int)
    (score_cols : List Int) (hgeo : top_score_row ≠ bottom_score_row rows)
    (hne : score_cols ≠ [])
    (hd : distance_to_own_scoring_area x y player rows cols score_cols = 0) :
    rival_score_area x y player rows cols score_cols = false := by
  rw [distance_eq_zero_iff _ _ player rows cols score_cols hne] at hd
  unfold rival_score_area get_defense_row
  have hy := hd.1
  unfold get_target_row at hy
  have : y ≠ (if player = Player.SQUARE then top_score_row else bottom_score_row rows) := by
    split_ifs at hy ⊢
    · rw [hy]; exact fun e => hgeo e.symm
    · rw [hy]; exact hgeo
  simp [this]

theorem opponent_ne (side : Player) : opponent side ≠ side := by
  unfold opponent
  cases side <;> decide

theorem agent_context_heuristic (side : Player) (ev : TacticalEvaluator)
    (zobrist_table : Nat → Nat → Nat → Nat) (zobrist_turn_key : Nat) :
    (agent_context side ev zobrist_table zobrist_turn_key).heuristic = Final_Evaluation ev :=
  rfl

theorem agent_context_side (side : Player) (ev : TacticalEvaluator)
    (zobrist_table : Nat → Nat → Nat → Nat) (zobrist_turn_key : Nat) :
    (agent_context side ev zobrist_table zobrist_turn_key).side_ = side :=
  rfl

/-- The step into the goal, for every table of Zobrist keys that gives different successor
boards of the root different fingerprints: on a grid whose two scoring rows differ and lie
on the board, with non-empty scoring columns on the board, for a board whose only piece is
a Stone of the engine's side at distance 1 from its goal, with the constructor's evaluator
weights and an empty position history, if depth 1 completes in time, `find_best_move`
returns a Move of that Stone whose destination is at distance 0.  Whether the keys that
`init_zobrist` draws always meet the condition on the fingerprints is not settled here. -/
theorem find_best_move_steps_into_goal (side : Player)
    (zobrist_table : Nat → Nat → Nat → Nat) (zobrist_turn_key : Nat) (board : FastBoard)
    (rows cols : Int) (score_cols : List Int) (q : Cell) (stone : Piece) (clock : Nat → Bool)
    (draw : Nat) (hrows : 3 ≤ rows) (hgeo : top_score_row ≠ bottom_score_row rows)
    (hne : score_cols ≠ []) (hcols : ∀ c ∈ score_cols, 0 ≤ c ∧ c < cols)
    (hlone : lone_piece board rows cols q stone) (hs : stone.side = Side.STONE)
    (hp : stone.player = side)
    (hd : distance_to_own_scoring_area q.1 q.2 side rows cols score_cols = 1)
    (hkeys : ∀ a ∈ calculate_possible_actions board side rows cols score_cols,
      ∀ b ∈ calculate_possible_actions board side rows cols score_cols,
        compute_hash (agent_context side default_evaluator zobrist_table zobrist_turn_key)
            (get_next_board_state board a) (opponent side) rows cols
          = compute_hash (agent_context side default_evaluator zobrist_table zobrist_turn_key)
            (get_next_board_state board b) (opponent side) rows cols →
        get_next_board_state board a = get_next_board_state board b)
    (hclock : ∀ i, 1 ≤ i →
      i ≤ (calculate_possible_actions board side rows cols score_cols).length →
      clock i = false) :
    (find_best_move (agent_context side default_evaluator zobrist_table zobrist_turn_key)
        board rows cols score_cols clock draw []).action = ActionKind.move ∧
      (find_best_move (agent_context side default_evaluator zobrist_table zobrist_turn_key)
        board rows cols score_cols clock draw []).from_pos = q ∧
      distance_to_own_scoring_area
        (find_best_move (agent_context side default_evaluator zobrist_table zobrist_turn_key)
          board rows cols score_cols clock draw []).to_pos.1
        (find_best_move (agent_context side default_evaluator zobrist_table zobrist_turn_key)
          board rows cols score_cols clock draw []).to_pos.2 side rows cols score_cols
        = 0 := by
  have hsucc := lone_stone_successor board rows cols score_cols q stone side hlone hs hp
  refine find_best_move_good
    (agent_context side default_evaluator zobrist_table zobrist_turn_key) board rows cols
    score_cols clock draw [] ?_
    (fun a => a.action = ActionKind.move ∧ a.from_pos = q ∧
      distance_to_own_scoring_area a.to_pos.1 a.to_pos.2 side rows cols score_cols = 0)
    (lone_value rows 50000 0) ?_ ?_ ?_ hclock
  · -- the successors are leaves of the search
    intro a ha
    refine ⟨?_, List.not_mem_nil _, ?_⟩
    · rcases (hsucc a ha).2 with ⟨-, river, -, hrp, hl⟩ | ⟨-, -, hl⟩
      · exact no_actions_of_lone _ rows cols score_cols q river _ hl
          (by rw [hrp]; exact (opponent_ne side).symm)
      · exact no_actions_of_lone _ rows cols score_cols a.to_pos stone _ hl
          (by rw [hp]; exact (opponent_ne side).symm)
    · intro b hb he
      unfold static_score
      rw [hkeys a ha b hb he]
  · -- a step into the goal
    rintro a ha ⟨hk, -, hd0⟩
    rcases (hsucc a ha).2 with ⟨hflip, -⟩ | ⟨-, -, hl⟩
    · rw [hk] at hflip
      cases hflip
    · rw [agent_context_heuristic, agent_context_side]
      exact final_evaluation_goal_stone _ rows cols score_cols a.to_pos stone side hne hl hs
        hp hd0
  · -- every other action
    intro a ha hbad
    rw [agent_context_heuristic, agent_context_side]
    obtain ⟨hf, hcase⟩ := hsucc a ha
    rcases hcase with ⟨-, river, hrs, hrp, hl⟩ | ⟨hk, -, hl⟩
    · exact final_evaluation_near_river _ rows cols score_cols q river side hne hl hrs hrp hd
    · exact final_evaluation_far_stone _ rows cols score_cols a.to_pos stone side hne hl hs
        hp (fun e => hbad ⟨hk, hf, e⟩)
  · -- the step into the goal is legal
    obtain ⟨dir, hdir, hin, hd0⟩ :=
      goal_step_exists q side rows cols score_cols hrows hne hcols hlone.2.1 hd
    refine ⟨⟨ActionKind.move, (q.1, q.2), (q.1 + dir.1, q.2 + dir.2), none, none⟩, ?_, rfl, rfl,
      hd0⟩
    apply plain_move_mem board side rows cols score_cols q.1 q.2 dir hlone.2.1
    · rw [hlone.2.2.1]; exact hlone.2.2.2.1
    · rw [hlone.2.2.1]; exact hp
    · exact hdir
    · exact hin
    · exact goal_cell_not_rival _ _ side rows cols score_cols hgeo hne hd0
    · exact hlone.2.2.2.2 _ _ (step_ne q.1 q.2 dir (directions_ne_zero dir hdir))

/-- Outside the grid a board holds no piece. -/
theorem board_at_outside (board : FastBoard) (rows cols : Int)
    (hshape : board_shape board rows cols) (x y : Int)
    (h : within_board_limits x y rows cols = false) : board_at board x y = {} := by
  unfold board_at
  by_cases h0 : x < 0 ∨ y < 0
  · rw [if_pos h0]
  · rw [if_neg h0]
    have hout : ¬ ((0 ≤ x ∧ x < cols) ∧ (0 ≤ y ∧ y < rows)) := by
      rw [← within_board_limits_iff, h]
      exact Bool.false_ne_true
    simp only [List.getD_eq_getElem?_getD]
    by_cases hy : y.toNat < board.length
    · have hrow : ((board[y.toNat]).length : Int) = cols :=
        hshape.2 _ (List.getElem_mem hy)
      have hlen := hshape.1
      have hx : board[y.toNat][x.toNat]? = none := List.getElem?_eq_none (by omega)
      simp [hy, hx]
    · have hnone : board[y.toNat]? = none := List.getElem?_eq_none (by omega)
      simp [hnone]

theorem near_goal_board_lone : lone_piece near_goal_board 17 3 (1, 13) square_stone := by
  have hshape : board_shape near_goal_board 17 3 := ⟨by decide, by decide⟩
  refine ⟨hshape, by decide, by decide, by decide, ?_⟩
  intro x y hxy
  by_cases hin : within_board_limits x y 17 3 = true
  · rw [within_board_limits_iff] at hin
    obtain ⟨⟨hx0, hx1⟩, hy0, hy1⟩ := hin
    interval_cases x <;> interval_cases y <;> first | exact absurd rfl hxy | decide
  · rw [board_at_outside near_goal_board 17 3 hshape x y (by simpa using hin)]
    rfl

set_option maxRecDepth 1000000 in
/-- The condition on the fingerprints in `find_best_move_steps_into_goal` cannot be dropped
for an arbitrary table of keys: keys that are pairwise different can give two successor
boards one fingerprint.  On the 17 x 3 grid with scoring column 1, Square's only piece being
a Stone at (1,13), one step from its goal cell (1,14), the keys `counting_keys` give the
boards after the steps to (1,14) and to (1,12) the same fingerprint; the second step reads
the table entry of the first, ties with it, and index 1 of the random pick returns the step
to (1,12), at distance 2 from the goal.  This happens when all three depths complete and
when the time runs out right after depth 1.  The keys `counting_keys` are chosen by
hand; `init_zobrist` is not known to draw such a table. -/
theorem find_best_move_with_colliding_keys :
    lone_piece near_goal_board 17 3 (1, 13) square_stone ∧
    distance_to_own_scoring_area 1 13 Player.SQUARE 17 3 [1] = 1 ∧
    find_best_move (agent_context Player.SQUARE default_evaluator counting_keys 4096)
        near_goal_board 17 3 [1] (fun _ => false) 1 []
      = { action := ActionKind.move, from_pos := (1, 13), to_pos := (1, 12) } ∧
    find_best_move (agent_context Player.SQUARE default_evaluator counting_keys 4096)
        near_goal_board 17 3 [1] (clock_fails_at 7) 1 []
      = { action := ActionKind.move, from_pos := (1, 13), to_pos := (1, 12) } ∧
    distance_to_own_scoring_area 1 12 Player.SQUARE 17 3 [1] = 2 :=
  ⟨near_goal_board_lone, by decide, by decide!, by decide!, by decide⟩

set_option maxRecDepth 1000000 in
/-- An instance of `find_best_move_steps_into_goal`: Square with the keys `mixing_keys` on
`near_goal_board`, where the successor boards of the root have different fingerprints. -/
theorem find_best_move_steps_into_goal_witness :
    (lone_piece near_goal_board 17 3 (1, 13) square_stone ∧
      distance_to_own_scoring_area 1 13 Player.SQUARE 17 3 [1] = 1 ∧
      ∀ a ∈ calculate_possible_actions near_goal_board Player.SQUARE 17 3 [1],
        ∀ b ∈ calculate_possible_actions near_goal_board Player.SQUARE 17 3 [1],
          compute_hash (agent_context Player.SQUARE default_evaluator mixing_keys 4096)
              (get_next_board_state near_goal_board a) (opponent Player.SQUARE) 17 3
            = compute_hash (agent_context Player.SQUARE default_evaluator mixing_keys 4096)
              (get_next_board_state near_goal_board b) (opponent Player.SQUARE) 17 3 →
          get_next_board_state near_goal_board a = get_next_board_state near_goal_board b) ∧
    ((find_best_move (agent_context Player.SQUARE default_evaluator mixing_keys 4096)
        near_goal_board 17 3 [1] (fun _ => false) 1 []).action = ActionKind.move ∧
      (find_best_move (agent_context Player.SQUARE default_evaluator mixing_keys 4096)
        near_goal_board 17 3 [1] (fun _ => false) 1 []).from_pos = (1, 13) ∧
      distance_to_own_scoring_area
        (find_best_move (agent_context Player.SQUARE default_evaluator mixing_keys 4096)
          near_goal_board 17 3 [1] (fun _ => false) 1 []).to_pos.1
        (find_best_move (agent_context Player.SQUARE default_evaluator mixing_keys 4096)
          near_goal_board 17 3 [1] (fun _ => false) 1 []).to_pos.2 Player.SQUARE 17 3 [1]
        = 0) :=
  ⟨⟨near_goal_board_lone, by decide, by decide!⟩,
   find_best_move_steps_into_goal Player.SQUARE mixing_keys 4096 near_goal_board 17 3 [1]
     (1, 13) square_stone (fun _ => false) 1 (by decide) (by decide) (by decide) (by decide)
     near_goal_board_lone rfl rfl (by decide) (by decide!) (fun _ _ _ => rfl)⟩

/-! ## State transition: Push, Flip and Rotate -/

theorem push_board_shape : board_shape push_board 8 3 := by
  unfold board_shape push_board
  decide

/-- Writing a cell twice keeps the second value. -/
theorem board_set_set (board : FastBoard) (x y : Int) (p p' : Piece) :
    board_set (board_set board x y p) x y p' = board_set board x y p' := by
  unfold board_set
  by_cases h0 : x < 0 ∨ y < 0
  · simp only [if_pos h0]
  · simp only [if_neg h0]
    by_cases hy : y.toNat < board.length
    · simp [List.getD_eq_getElem?_getD, List.getElem?_set, hy, List.set_set]
    · have e : ∀ r : List Piece, board.set y.toNat r = board :=
        fun r => List.set_eq_of_length_le (by omega)
      simp only [e]

theorem list_set_getElem_self {α : Type} (l : List α) :
    ∀ (i : Nat) (h : i < l.length), l.set i (l.get ⟨i, h⟩) = l := by
  induction l with
  | nil => intro i h; simp at h
  | cons a l ih =>
    intro i h
    cases i with
    | zero => rfl
    | succ n =>
      simp only [List.set_cons_succ, List.get_cons_succ]
      rw [ih n (by simpa using h)]

/-- Writing to a cell the piece it holds changes nothing. -/
theorem board_set_self (board : FastBoard) (x y : Int) :
    board_set board x y (board_at board x y) = board := by
  unfold board_set board_at
  by_cases h0 : x < 0 ∨ y < 0
  · simp only [if_pos h0]
  · simp only [if_neg h0]
    by_cases hy : y.toNat < board.length
    · by_cases hx : x.toNat < (board[y.toNat]).length
      · have h1 := list_set_getElem_self (board[y.toNat]) x.toNat hx
        have h2 := list_set_getElem_self board y.toNat hy
        simp only [List.get_eq_getElem] at h1 h2
        simp [List.getD_eq_getElem?_getD, hy, hx, h1, h2]
      · have e : ∀ q : Piece, (board[y.toNat]).set x.toNat q = board[y.toNat] :=
          fun q => List.set_eq_of_length_le (by omega)
        have h2 := list_set_getElem_self board y.toNat hy
        simp only [List.get_eq_getElem] at h2
        simp [List.getD_eq_getElem?_getD, hy, e, h2]
    · exact List.set_eq_of_length_le (by omega)

/-- C11: for a Push action whose source, intermediate cell `to` and final cell `pushed_to`
are in bounds and pairwise distinct, `get_next_board_state` returns a board in which
`pushed_to` holds the piece that was at `to`, `to` holds the piece that was at the source,
the source is empty, and every other cell is unchanged. -/
theorem get_next_board_state_push (board : FastBoard) (rows cols : Int) (m : Move) (pt : Cell)
    (hshape : board_shape board rows cols) (hk : m.action = ActionKind.push)
    (hpt : m.pushed_to = some pt)
    (hsrc : within_board_limits m.from_pos.1 m.from_pos.2 rows cols = true)
    (hto : within_board_limits m.to_pos.1 m.to_pos.2 rows cols = true)
    (hfin : within_board_limits pt.1 pt.2 rows cols = true)
    (h1 : m.from_pos ≠ m.to_pos) (h2 : m.from_pos ≠ pt) (h3 : m.to_pos ≠ pt) :
    board_at (get_next_board_state board m) pt.1 pt.2
        = board_at board m.to_pos.1 m.to_pos.2 ∧
      board_at (get_next_board_state board m) m.to_pos.1 m.to_pos.2
        = board_at board m.from_pos.1 m.from_pos.2 ∧
      board_at (get_next_board_state board m) m.from_pos.1 m.from_pos.2 = {} ∧
      ∀ x y : Int, (x, y) ≠ m.from_pos → (x, y) ≠ m.to_pos → (x, y) ≠ pt →
        board_at (get_next_board_state board m) x y = board_at board x y := by
  have hsrc_pt : ¬ (m.from_pos.1 = pt.1 ∧ m.from_pos.2 = pt.2) :=
    fun h => h2 (Prod.ext h.1 h.2)
  have hto_pt : ¬ (m.to_pos.1 = pt.1 ∧ m.to_pos.2 = pt.2) :=
    fun h => h3 (Prod.ext h.1 h.2)
  have hpt_to : ¬ (pt.1 = m.to_pos.1 ∧ pt.2 = m.to_pos.2) :=
    fun h => h3 (Prod.ext h.1.symm h.2.symm)
  have hpt_src : ¬ (pt.1 = m.from_pos.1 ∧ pt.2 = m.from_pos.2) :=
    fun h => h2 (Prod.ext h.1.symm h.2.symm)
  have hto_src : ¬ (m.to_pos.1 = m.from_pos.1 ∧ m.to_pos.2 = m.from_pos.2) :=
    fun h => h1 (Prod.ext h.1.symm h.2.symm)
  have hnext : get_next_board_state board m
      = board_set
          (board_set (board_set board pt.1 pt.2 (board_at board m.to_pos.1 m.to_pos.2))
            m.to_pos.1 m.to_pos.2 (board_at board m.from_pos.1 m.from_pos.2))
          m.from_pos.1 m.from_pos.2 {} := by
    unfold get_next_board_state
    simp only [hk, hpt]
    rw [board_at_set_other _ _ _ _ _ _ hsrc_pt]
  have hshape1 := board_set_shape board rows cols pt.1 pt.2
    (board_at board m.to_pos.1 m.to_pos.2) hshape
  have hshape2 := board_set_shape _ rows cols m.to_pos.1 m.to_pos.2
    (board_at board m.from_pos.1 m.from_pos.2) hshape1
  rw [hnext]
  refine ⟨?_, ?_, ?_, ?_⟩
  · rw [board_at_set_other _ _ _ _ _ _ hpt_src, board_at_set_other _ _ _ _ _ _ hpt_to]
    exact board_at_set_same board rows cols _ _ _ hshape hfin
  · rw [board_at_set_other _ _ _ _ _ _ hto_src]
    exact board_at_set_same _ rows cols _ _ _ hshape1 hto
  · exact board_at_set_same _ rows cols _ _ _ hshape2 hsrc
  · intro x y e1 e2 e3
    rw [board_at_set_other _ _ _ _ _ _ (fun h => e1 (Prod.ext h.1 h.2)),
      board_at_set_other _ _ _ _ _ _ (fun h => e2 (Prod.ext h.1 h.2)),
      board_at_set_other _ _ _ _ _ _ (fun h => e3 (Prod.ext h.1 h.2))]

theorem get_next_board_state_push_witness :
    (board_shape push_board 8 3 ∧ stone_push.action = ActionKind.push ∧
      stone_push.pushed_to = some (1, 2) ∧
      within_board_limits stone_push.from_pos.1 stone_push.from_pos.2 8 3 = true ∧
      within_board_limits stone_push.to_pos.1 stone_push.to_pos.2 8 3 = true ∧
      within_board_limits 1 2 8 3 = true ∧ stone_push.from_pos ≠ stone_push.to_pos ∧
      stone_push.from_pos ≠ (1, 2) ∧ stone_push.to_pos ≠ (1, 2)) ∧
    (board_at (get_next_board_state push_board stone_push) 1 2
        = board_at push_board stone_push.to_pos.1 stone_push.to_pos.2 ∧
      board_at (get_next_board_state push_board stone_push) stone_push.to_pos.1
          stone_push.to_pos.2
        = board_at push_board stone_push.from_pos.1 stone_push.from_pos.2 ∧
      board_at (get_next_board_state push_board stone_push) stone_push.from_pos.1
          stone_push.from_pos.2 = {} ∧
      ∀ x y : Int, (x, y) ≠ stone_push.from_pos → (x, y) ≠ stone_push.to_pos →
        (x, y) ≠ ((1, 2) : Cell) →
        board_at (get_next_board_state push_board stone_push) x y = board_at push_board x y) :=
  ⟨⟨push_board_shape, rfl, rfl, by decide, by decide, by decide, by decide, by decide,
      by decide⟩,
   get_next_board_state_push push_board 8 3 stone_push (1, 2) push_board_shape rfl rfl
     (by decide) (by decide) (by decide) (by decide) (by decide) (by decide)⟩

/-- C12: for a Flip action with in-bounds source, `get_next_board_state` changes only the
source cell and keeps its owner; a Stone becomes a River whose orientation is the one the
action carries (Horizontal when it carries none), and a River becomes a Stone with
orientation None. -/
theorem get_next_board_state_flip (board : FastBoard) (rows cols : Int) (m : Move)
    (hshape : board_shape board rows cols) (hk : m.action = ActionKind.flip)
    (hsrc : within_board_limits m.from_pos.1 m.from_pos.2 rows cols = true) :
    (∀ x y : Int, (x, y) ≠ m.from_pos →
        board_at (get_next_board_state board m) x y = board_at board x y) ∧
      (board_at (get_next_board_state board m) m.from_pos.1 m.from_pos.2).player
        = (board_at board m.from_pos.1 m.from_pos.2).player ∧
      ((board_at board m.from_pos.1 m.from_pos.2).side = Side.STONE →
        (board_at (get_next_board_state board m) m.from_pos.1 m.from_pos.2).side
            = Side.RIVER ∧
          (m.orientation = some Orientation.HORIZONTAL →
            (board_at (get_next_board_state board m) m.from_pos.1 m.from_pos.2).orientation
              = Orientation.HORIZONTAL) ∧
          (m.orientation = some Orientation.VERTICAL →
            (board_at (get_next_board_state board m) m.from_pos.1 m.from_pos.2).orientation
              = Orientation.VERTICAL) ∧
          (m.orientation = none →
            (board_at (get_next_board_state board m) m.from_pos.1 m.from_pos.2).orientation
              = Orientation.HORIZONTAL)) ∧
      ((board_at board m.from_pos.1 m.from_pos.2).side = Side.RIVER →
        (board_at (get_next_board_state board m) m.from_pos.1 m.from_pos.2).side
            = Side.STONE ∧
          (board_at (get_next_board_state board m) m.from_pos.1 m.from_pos.2).orientation
            = Orientation.NONE) := by
  by_cases hs : (board_at board m.from_pos.1 m.from_pos.2).side = Side.STONE
  · have hnext : ∃ o, get_next_board_state board m
        = board_set board m.from_pos.1 m.from_pos.2
            { board_at board m.from_pos.1 m.from_pos.2 with
              side := Side.RIVER, orientation := o } ∧
        (m.orientation = some Orientation.HORIZONTAL → o = Orientation.HORIZONTAL) ∧
        (m.orientation = some Orientation.VERTICAL → o = Orientation.VERTICAL) ∧
        (m.orientation = none → o = Orientation.HORIZONTAL) := by
      unfold get_next_board_state
      simp only [hk, hs, if_true]
      refine ⟨_, rfl, ?_, ?_, ?_⟩
      · intro ho; rw [ho]; rfl
      · intro ho; rw [ho]; rfl
      · intro ho; rw [ho]
    obtain ⟨o, ho, hh, hv, hn⟩ := hnext
    rw [ho]
    refine ⟨?_, ?_, ?_, ?_⟩
    · intro x y e
      exact board_at_set_other _ _ _ _ _ _ (fun h => e (Prod.ext h.1 h.2))
    · rw [board_at_set_same board rows cols _ _ _ hshape hsrc]
    · intro _
      rw [board_at_set_same board rows cols _ _ _ hshape hsrc]
      exact ⟨rfl, hh, hv, hn⟩
    · intro hr
      rw [hs] at hr
      cases hr
  · have hnext : get_next_board_state board m
        = board_set board m.from_pos.1 m.from_pos.2
            { board_at board m.from_pos.1 m.from_pos.2 with
              side := Side.STONE, orientation := Orientation.NONE } := by
      unfold get_next_board_state
      simp only [hk, hs, if_false]
    rw [hnext]
    refine ⟨?_, ?_, ?_, ?_⟩
    · intro x y e
      exact board_at_set_other _ _ _ _ _ _ (fun h => e (Prod.ext h.1 h.2))
    · rw [board_at_set_same board rows cols _ _ _ hshape hsrc]
    · intro h
      exact absurd h hs
    · intro _
      rw [board_at_set_same board rows cols _ _ _ hshape hsrc]
      exact ⟨rfl, rfl⟩

theorem get_next_board_state_flip_witness :
    (board_shape flow_board 7 3 ∧ flip_to_vertical.action = ActionKind.flip ∧
      within_board_limits flip_to_vertical.from_pos.1 flip_to_vertical.from_pos.2 7 3
        = true) ∧
    ((∀ x y : Int, (x, y) ≠ flip_to_vertical.from_pos →
        board_at (get_next_board_state flow_board flip_to_vertical) x y
          = board_at flow_board x y) ∧
      (board_at (get_next_board_state flow_board flip_to_vertical)
          flip_to_vertical.from_pos.1 flip_to_vertical.from_pos.2).player
        = (board_at flow_board flip_to_vertical.from_pos.1
            flip_to_vertical.from_pos.2).player ∧
      ((board_at flow_board flip_to_vertical.from_pos.1 flip_to_vertical.from_pos.2).side
          = Side.STONE →
        (board_at (get_next_board_state flow_board flip_to_vertical)
            flip_to_vertical.from_pos.1 flip_to_vertical.from_pos.2).side = Side.RIVER ∧
          (flip_to_vertical.orientation = some Orientation.HORIZONTAL →
            (board_at (get_next_board_state flow_board flip_to_vertical)
              flip_to_vertical.from_pos.1 flip_to_vertical.from_pos.2).orientation
              = Orientation.HORIZONTAL) ∧
          (flip_to_vertical.orientation = some Orientation.VERTICAL →
            (board_at (get_next_board_state flow_board flip_to_vertical)
              flip_to_vertical.from_pos.1 flip_to_vertical.from_pos.2).orientation
              = Orientation.VERTICAL) ∧
          (flip_to_vertical.orientation = none →
            (board_at (get_next_board_state flow_board flip_to_vertical)
              flip_to_vertical.from_pos.1 flip_to_vertical.from_pos.2).orientation
              = Orientation.HORIZONTAL)) ∧
      ((board_at flow_board flip_to_vertical.from_pos.1 flip_to_vertical.from_pos.2).side
          = Side.RIVER →
        (board_at (get_next_board_state flow_board flip_to_vertical)
            flip_to_vertical.from_pos.1 flip_to_vertical.from_pos.2).side = Side.STONE ∧
          (board_at (get_next_board_state flow_board flip_to_vertical)
            flip_to_vertical.from_pos.1 flip_to_vertical.from_pos.2).orientation
            = Orientation.NONE)) :=
  ⟨⟨flow_board_shape, rfl, by decide⟩,
   get_next_board_state_flip flow_board 7 3 flip_to_vertical flow_board_shape rfl
     (by decide)⟩

/-- C13: for a Rotate action with in-bounds source, `get_next_board_state` changes only the
orientation of the source cell, Horizontal to Vertical and Vertical to Horizontal; the
owner and the form of that cell and every other cell are unchanged. -/
theorem get_next_board_state_rotate (board : FastBoard) (rows cols : Int) (m : Move)
    (hshape : board_shape board rows cols) (hk : m.action = ActionKind.rotate)
    (hsrc : within_board_limits m.from_pos.1 m.from_pos.2 rows cols = true) :
    (∀ x y : Int, (x, y) ≠ m.from_pos →
        board_at (get_next_board_state board m) x y = board_at board x y) ∧
      (board_at (get_next_board_state board m) m.from_pos.1 m.from_pos.2).player
        = (board_at board m.from_pos.1 m.from_pos.2).player ∧
      (board_at (get_next_board_state board m) m.from_pos.1 m.from_pos.2).side
        = (board_at board m.from_pos.1 m.from_pos.2).side ∧
      ((board_at board m.from_pos.1 m.from_pos.2).orientation = Orientation.HORIZONTAL →
        (board_at (get_next_board_state board m) m.from_pos.1 m.from_pos.2).orientation
          = Orientation.VERTICAL) ∧
      ((board_at board m.from_pos.1 m.from_pos.2).orientation = Orientation.VERTICAL →
        (board_at (get_next_board_state board m) m.from_pos.1 m.from_pos.2).orientation
          = Orientation.HORIZONTAL) := by
  have hnext : get_next_board_state board m
      = board_set board m.from_pos.1 m.from_pos.2
          { board_at board m.from_pos.1 m.from_pos.2 with
            orientation :=
              if (board_at board m.from_pos.1 m.from_pos.2).orientation
                  = Orientation.HORIZONTAL then Orientation.VERTICAL
              else Orientation.HORIZONTAL } := by
    unfold get_next_board_state
    simp only [hk]
  rw [hnext]
  refine ⟨?_, ?_, ?_, ?_, ?_⟩
  · intro x y e
    exact board_at_set_other _ _ _ _ _ _ (fun h => e (Prod.ext h.1 h.2))
  · rw [board_at_set_same board rows cols _ _ _ hshape hsrc]
  · rw [board_at_set_same board rows cols _ _ _ hshape hsrc]
  · intro ho
    rw [board_at_set_same board rows cols _ _ _ hshape hsrc]
    simp only [ho, if_true]
  · intro ho
    rw [board_at_set_same board rows cols _ _ _ hshape hsrc]
    simp only [ho]
    rfl

theorem get_next_board_state_rotate_witness :
    (board_shape flow_board 7 3 ∧ rotate_river.action = ActionKind.rotate ∧
      within_board_limits rotate_river.from_pos.1 rotate_river.from_pos.2 7 3 = true) ∧
    ((∀ x y : Int, (x, y) ≠ rotate_river.from_pos →
        board_at (get_next_board_state flow_board rotate_river) x y
          = board_at flow_board x y) ∧
      (board_at (get_next_board_state flow_board rotate_river) rotate_river.from_pos.1
          rotate_river.from_pos.2).player
        = (board_at flow_board rotate_river.from_pos.1 rotate_river.from_pos.2).player ∧
      (board_at (get_next_board_state flow_board rotate_river) rotate_river.from_pos.1
          rotate_river.from_pos.2).side
        = (board_at flow_board rotate_river.from_pos.1 rotate_river.from_pos.2).side ∧
      ((board_at flow_board rotate_river.from_pos.1 rotate_river.from_pos.2).orientation
          = Orientation.HORIZONTAL →
        (board_at (get_next_board_state flow_board rotate_river) rotate_river.from_pos.1
            rotate_river.from_pos.2).orientation = Orientation.VERTICAL) ∧
      ((board_at flow_board rotate_river.from_pos.1 rotate_river.from_pos.2).orientation
          = Orientation.VERTICAL →
        (board_at (get_next_board_state flow_board rotate_river) rotate_river.from_pos.1
            rotate_river.from_pos.2).orientation = Orientation.HORIZONTAL)) :=
  ⟨⟨flow_board_shape, rfl, by decide⟩,
   get_next_board_state_rotate flow_board 7 3 rotate_river flow_board_shape rfl
     (by decide)⟩

/-- The Flip case of `get_next_board_state`. -/
theorem get_next_board_state_flip_eq (board : FastBoard) (m : Move)
    (hk : m.action = ActionKind.flip) :
    get_next_board_state board m
      = if (board_at board m.from_pos.1 m.from_pos.2).side = Side.STONE then
          board_set board m.from_pos.1 m.from_pos.2
            { player := (board_at board m.from_pos.1 m.from_pos.2).player,
              side := Side.RIVER,
              orientation :=
                match m.orientation with
                | some s => if s = Orientation.HORIZONTAL then Orientation.HORIZONTAL
                            else Orientation.VERTICAL
                | none => Orientation.HORIZONTAL }
        else
          board_set board m.from_pos.1 m.from_pos.2
            { player := (board_at board m.from_pos.1 m.from_pos.2).player,
              side := Side.STONE, orientation := Orientation.NONE } := by
  unfold get_next_board_state
  simp only [hk]

/-- The Rotate case of `get_next_board_state`. -/
theorem get_next_board_state_rotate_eq (board : FastBoard) (m : Move)
    (hk : m.action = ActionKind.rotate) :
    get_next_board_state board m
      = board_set board m.from_pos.1 m.from_pos.2
          { player := (board_at board m.from_pos.1 m.from_pos.2).player,
            side := (board_at board m.from_pos.1 m.from_pos.2).side,
            orientation :=
              if (board_at board m.from_pos.1 m.from_pos.2).orientation
                  = Orientation.HORIZONTAL then Orientation.VERTICAL
              else Orientation.HORIZONTAL } := by
  unfold get_next_board_state
  simp only [hk]

/-- C14: on a cell of the board that holds a Stone, a Flip (with any carried orientation)
followed by a second Flip of the same cell leaves a Stone of the same owner with orientation
None in the cell; the board is the original one when the original Stone had orientation
None. -/
theorem flip_stone_twice (board : FastBoard) (rows cols : Int) (m1 m2 : Move)
    (hshape : board_shape board rows cols) (hk1 : m1.action = ActionKind.flip)
    (hk2 : m2.action = ActionKind.flip) (hsame : m2.from_pos = m1.from_pos)
    (hsrc : within_board_limits m1.from_pos.1 m1.from_pos.2 rows cols = true)
    (hs : (board_at board m1.from_pos.1 m1.from_pos.2).side = Side.STONE) :
    board_at (get_next_board_state (get_next_board_state board m1) m2) m1.from_pos.1
          m1.from_pos.2
        = { player := (board_at board m1.from_pos.1 m1.from_pos.2).player,
            side := Side.STONE, orientation := Orientation.NONE } ∧
      ((board_at board m1.from_pos.1 m1.from_pos.2).orientation = Orientation.NONE →
        get_next_board_state (get_next_board_state board m1) m2 = board) := by
  have h2 : get_next_board_state (get_next_board_state board m1) m2
      = board_set board m1.from_pos.1 m1.from_pos.2
          ⟨(board_at board m1.from_pos.1 m1.from_pos.2).player, Side.STONE,
            Orientation.NONE⟩ := by
    rw [get_next_board_state_flip_eq _ m2 hk2, hsame,
      get_next_board_state_flip_eq board m1 hk1, if_pos hs,
      board_at_set_same board rows cols _ _ _ hshape hsrc, if_neg (by simp),
      board_set_set]
  rw [h2]
  refine ⟨board_at_set_same board rows cols _ _ _ hshape hsrc, ?_⟩
  intro hn
  have hp : (⟨(board_at board m1.from_pos.1 m1.from_pos.2).player, Side.STONE,
      Orientation.NONE⟩ : Piece) = board_at board m1.from_pos.1 m1.from_pos.2 := by
    cases hb : board_at board m1.from_pos.1 m1.from_pos.2 with
    | mk pl sd ori =>
      rw [hb] at hs hn
      simp only at hs hn
      rw [hs, hn]
  rw [hp]
  exact board_set_self board _ _

theorem flip_stone_twice_witness :
    (board_shape flow_board 7 3 ∧ flip_to_vertical.action = ActionKind.flip ∧
      flip_back.action = ActionKind.flip ∧ flip_back.from_pos = flip_to_vertical.from_pos ∧
      within_board_limits flip_to_vertical.from_pos.1 flip_to_vertical.from_pos.2 7 3
        = true ∧
      (board_at flow_board flip_to_vertical.from_pos.1 flip_to_vertical.from_pos.2).side
        = Side.STONE) ∧
    (board_at (get_next_board_state (get_next_board_state flow_board flip_to_vertical)
          flip_back) flip_to_vertical.from_pos.1 flip_to_vertical.from_pos.2
        = { player := (board_at flow_board flip_to_vertical.from_pos.1
              flip_to_vertical.from_pos.2).player,
            side := Side.STONE, orientation := Orientation.NONE } ∧
      ((board_at flow_board flip_to_vertical.from_pos.1
          flip_to_vertical.from_pos.2).orientation = Orientation.NONE →
        get_next_board_state (get_next_board_state flow_board flip_to_vertical) flip_back
          = flow_board)) :=
  ⟨⟨flow_board_shape, rfl, rfl, rfl, by decide, by decide⟩,
   flip_stone_twice flow_board 7 3 flip_to_vertical flip_back flow_board_shape rfl rfl rfl
     (by decide) (by decide)⟩

/-- C15: on a cell of the board that holds a River oriented Horizontal or Vertical, two
Rotate actions on that cell return the original board. -/
theorem rotate_twice (board : FastBoard) (rows cols : Int) (m1 m2 : Move)
    (hshape : board_shape board rows cols) (hk1 : m1.action = ActionKind.rotate)
    (hk2 : m2.action = ActionKind.rotate) (hsame : m2.from_pos = m1.from_pos)
    (hsrc : within_board_limits m1.from_pos.1 m1.from_pos.2 rows cols = true)
    (hr : (board_at board m1.from_pos.1 m1.from_pos.2).side = Side.RIVER)
    (ho : (board_at board m1.from_pos.1 m1.from_pos.2).orientation = Orientation.HORIZONTAL ∨
      (board_at board m1.from_pos.1 m1.from_pos.2).orientation = Orientation.VERTICAL) :
    get_next_board_state (get_next_board_state board m1) m2 = board := by
  rw [get_next_board_state_rotate_eq _ m2 hk2, hsame,
    get_next_board_state_rotate_eq board m1 hk1,
    board_at_set_same board rows cols _ _ _ hshape hsrc, board_set_set]
  have hp : ∀ p : Piece, p.side = Side.RIVER →
      (p.orientation = Orientation.HORIZONTAL ∨ p.orientation = Orientation.VERTICAL) →
      (⟨p.player, p.side,
        if (if p.orientation = Orientation.HORIZONTAL then Orientation.VERTICAL
            else Orientation.HORIZONTAL) = Orientation.HORIZONTAL
        then Orientation.VERTICAL else Orientation.HORIZONTAL⟩ : Piece) = p := by
    rintro ⟨pl, sd, ori⟩ - h
    simp only at h
    rcases h with h | h <;> rw [h] <;> rfl
  simp only
  rw [hp _ hr ho]
  exact board_set_self board _ _

theorem rotate_twice_witness :
    (board_shape flow_board 7 3 ∧ rotate_river.action = ActionKind.rotate ∧
      rotate_river.from_pos = rotate_river.from_pos ∧
      within_board_limits rotate_river.from_pos.1 rotate_river.from_pos.2 7 3 = true ∧
      (board_at flow_board rotate_river.from_pos.1 rotate_river.from_pos.2).side
        = Side.RIVER ∧
      ((board_at flow_board rotate_river.from_pos.1 rotate_river.from_pos.2).orientation
          = Orientation.HORIZONTAL ∨
        (board_at flow_board rotate_river.from_pos.1 rotate_river.from_pos.2).orientation
          = Orientation.VERTICAL)) ∧
    get_next_board_state (get_next_board_state flow_board rotate_river) rotate_river
      = flow_board :=
  ⟨⟨flow_board_shape, rfl, rfl, by decide, by decide, by decide⟩,
   rotate_twice flow_board 7 3 rotate_river rotate_river flow_board_shape rfl rfl rfl
     (by decide) (by decide) (by decide)⟩

/-! ## Action enumerator: Moves and Pushes -/

theorem directions_adjacent (d : Cell) (hd : d ∈ DIRECTIONS) : |d.1| + |d.2| = 1 := by
  unfold DIRECTIONS at hd
  simp only [List.mem_cons, List.mem_singleton, List.not_mem_nil, or_false] at hd
  rcases hd with rfl | rfl | rfl | rfl <;> decide

theorem mem_directions_of_adjacent (d : Cell) (hd : |d.1| + |d.2| = 1) : d ∈ DIRECTIONS := by
  obtain ⟨a, b⟩ := d
  simp only at hd
  unfold DIRECTIONS
  simp only [List.mem_cons, List.mem_singleton, List.not_mem_nil, or_false, Prod.mk.injEq]
  rcases abs_cases a with ⟨ha, _⟩ | ⟨ha, _⟩ <;> rcases abs_cases b with ⟨hb, _⟩ | ⟨hb, _⟩ <;>
    omega

/-- C17: every Move action returned by `calculate_possible_actions` has a source cell owned
by the acting player and a destination that is in bounds, empty on the input board, and not
a rival scoring cell of the acting player. -/
theorem generated_move_spec (board : FastBoard) (player : Player) (rows cols : Int)
    (score_cols : List Int) (a : Move)
    (ha : a ∈ calculate_possible_actions board player rows cols score_cols)
    (hk : a.action = ActionKind.move) :
    ((board_at board a.from_pos.1 a.from_pos.2).isEmpty = false ∧
        (board_at board a.from_pos.1 a.from_pos.2).player = player) ∧
      within_board_limits a.to_pos.1 a.to_pos.2 rows cols = true ∧
      (board_at board a.to_pos.1 a.to_pos.2).isEmpty = true ∧
      rival_score_area a.to_pos.1 a.to_pos.2 player rows cols score_cols = false := by
  obtain ⟨y, -, x, -, hne, hown, h⟩ :=
    (mem_calculate_possible_actions board player rows cols score_cols a).1 ha
  rcases (mem_get_actions_for_piece board x y player rows cols score_cols a).1 h with h | h
  · obtain ⟨hkind, -⟩ := transformation_actions_kind board x y player rows cols score_cols a h
    rcases hkind with hkind | hkind <;> rw [hkind] at hk <;> cases hk
  · obtain ⟨dir, -, h⟩ := h
    obtain ⟨hfrom, hcase⟩ :=
      displacement_actions_spec board x y player rows cols score_cols dir a h
    rcases hcase with ⟨-, -, hin, hemp, hriv⟩ | ⟨hpush, -⟩
    · rw [hfrom]
      exact ⟨⟨hne, hown⟩, hin, hemp, hriv⟩
    · rw [hpush] at hk
      cases hk

theorem generated_move_spec_witness :
    (first_move ∈ calculate_possible_actions flow_board Player.SQUARE 7 3 [1] ∧
      first_move.action = ActionKind.move) ∧
    (((board_at flow_board first_move.from_pos.1 first_move.from_pos.2).isEmpty = false ∧
        (board_at flow_board first_move.from_pos.1 first_move.from_pos.2).player
          = Player.SQUARE) ∧
      within_board_limits first_move.to_pos.1 first_move.to_pos.2 7 3 = true ∧
      (board_at flow_board first_move.to_pos.1 first_move.to_pos.2).isEmpty = true ∧
      rival_score_area first_move.to_pos.1 first_move.to_pos.2 Player.SQUARE 7 3 [1]
        = false) :=
  ⟨⟨by decide, rfl⟩,
   generated_move_spec flow_board Player.SQUARE 7 3 [1] first_move (by decide) rfl⟩

/-- C18: every Push action returned by `calculate_possible_actions` has `to` orthogonally
adjacent to the source and holding a Stone, and carries a `pushed_to` that is in bounds,
empty on the input board, different from the source, and not a rival scoring cell of the
owner of the pushed Stone. -/
theorem generated_push_spec (board : FastBoard) (player : Player) (rows cols : Int)
    (score_cols : List Int) (a : Move)
    (ha : a ∈ calculate_possible_actions board player rows cols score_cols)
    (hk : a.action = ActionKind.push) :
    |a.to_pos.1 - a.from_pos.1| + |a.to_pos.2 - a.from_pos.2| = 1 ∧
      ((board_at board a.to_pos.1 a.to_pos.2).isEmpty = false ∧
        (board_at board a.to_pos.1 a.to_pos.2).side = Side.STONE) ∧
      ∃ pt, a.pushed_to = some pt ∧
        within_board_limits pt.1 pt.2 rows cols = true ∧
        (board_at board pt.1 pt.2).isEmpty = true ∧
        pt ≠ a.from_pos ∧
        rival_score_area pt.1 pt.2 (board_at board a.to_pos.1 a.to_pos.2).player rows cols
          score_cols = false := by
  obtain ⟨y, -, x, -, hne, -, h⟩ :=
    (mem_calculate_possible_actions board player rows cols score_cols a).1 ha
  rcases (mem_get_actions_for_piece board x y player rows cols score_cols a).1 h with h | h
  · obtain ⟨hkind, -⟩ := transformation_actions_kind board x y player rows cols score_cols a h
    rcases hkind with hkind | hkind <;> rw [hkind] at hk <;> cases hk
  · obtain ⟨dir, hdir, h⟩ := h
    obtain ⟨hfrom, hcase⟩ :=
      displacement_actions_spec board x y player rows cols score_cols dir a h
    rcases hcase with ⟨hmove, -⟩ | ⟨-, hto, -, -, htne, htstone, pt, hpt, hin, hemp, hriv⟩
    · rw [hmove] at hk
      cases hk
    · refine ⟨?_, ⟨htne, htstone⟩, pt, hpt, hin, hemp, ?_, hriv⟩
      · rw [hto, hfrom]
        have := directions_adjacent dir hdir
        simpa using this
      · intro e
        rw [e, hfrom] at hemp
        simp only at hemp
        rw [hemp] at hne
        cases hne

theorem generated_push_spec_witness :
    (stone_push ∈ calculate_possible_actions push_board Player.SQUARE 8 3 [1] ∧
      stone_push.action = ActionKind.push) ∧
    (|stone_push.to_pos.1 - stone_push.from_pos.1|
        + |stone_push.to_pos.2 - stone_push.from_pos.2| = 1 ∧
      ((board_at push_board stone_push.to_pos.1 stone_push.to_pos.2).isEmpty = false ∧
        (board_at push_board stone_push.to_pos.1 stone_push.to_pos.2).side = Side.STONE) ∧
      ∃ pt, stone_push.pushed_to = some pt ∧
        within_board_limits pt.1 pt.2 8 3 = true ∧
        (board_at push_board pt.1 pt.2).isEmpty = true ∧
        pt ≠ stone_push.from_pos ∧
        rival_score_area pt.1 pt.2
          (board_at push_board stone_push.to_pos.1 stone_push.to_pos.2).player 8 3 [1]
          = false) :=
  ⟨⟨by decide, rfl⟩,
   generated_push_spec push_board Player.SQUARE 8 3 [1] stone_push (by decide) rfl⟩

/-- C20: for every cell `s` of the grid owned by the acting player and every orthogonally
adjacent cell `t` that is in bounds, empty and not a rival scoring cell of the acting
player, `calculate_possible_actions` contains the action Move(s, t). -/
theorem plain_move_generated (board : FastBoard) (player : Player) (rows cols : Int)
    (score_cols : List Int) (s t : Cell)
    (hin : within_board_limits s.1 s.2 rows cols = true)
    (hne : (board_at board s.1 s.2).isEmpty = false)
    (hown : (board_at board s.1 s.2).player = player)
    (hadj : |t.1 - s.1| + |t.2 - s.2| = 1)
    (htin : within_board_limits t.1 t.2 rows cols = true)
    (hemp : (board_at board t.1 t.2).isEmpty = true)
    (hriv : rival_score_area t.1 t.2 player rows cols score_cols = false) :
    ({ action := ActionKind.move, from_pos := s, to_pos := t } : Move)
      ∈ calculate_possible_actions board player rows cols score_cols := by
  have hdir : (t.1 - s.1, t.2 - s.2) ∈ DIRECTIONS := mem_directions_of_adjacent _ hadj
  have e1 : s.1 + (t.1 - s.1) = t.1 := by omega
  have e2 : s.2 + (t.2 - s.2) = t.2 := by omega
  rw [mem_calculate_possible_actions]
  rw [within_board_limits_iff] at hin
  refine ⟨s.2, (mem_int_range rows s.2).2 hin.2, s.1, (mem_int_range cols s.1).2 hin.1, hne,
    hown, ?_⟩
  rw [mem_get_actions_for_piece]
  refine Or.inr ⟨(t.1 - s.1, t.2 - s.2), hdir, ?_⟩
  unfold displacement_actions
  simp only [e1, e2, htin, hriv, hemp, Bool.not_true, Bool.or_self, Bool.false_eq_true,
    if_false, if_true, List.mem_singleton]

theorem plain_move_generated_witness :
    (within_board_limits 0 0 7 3 = true ∧ (board_at flow_board 0 0).isEmpty = false ∧
      (board_at flow_board 0 0).player = Player.SQUARE ∧
      |(1 : Int) - 0| + |(0 : Int) - 0| = 1 ∧ within_board_limits 1 0 7 3 = true ∧
      (board_at flow_board 1 0).isEmpty = true ∧
      rival_score_area 1 0 Player.SQUARE 7 3 [1] = false) ∧
    ({ action := ActionKind.move, from_pos := (0, 0), to_pos := (1, 0) } : Move)
      ∈ calculate_possible_actions flow_board Player.SQUARE 7 3 [1] :=
  ⟨⟨by decide, by decide, by decide, by decide, by decide, by decide, by decide⟩,
   plain_move_generated flow_board Player.SQUARE 7 3 [1] (0, 0) (1, 0) (by decide)
     (by decide) (by decide) (by decide) (by decide) (by decide) (by decide)⟩

/-! ## Stone-on-Stone pushes -/

theorem filter_flatMap_eq {α β : Type} (p : β → Bool) (f : α → List β) (l : List α) :
    (l.flatMap f).filter p = l.flatMap (fun a => (f a).filter p) := by
  induction l with
  | nil => rfl
  | cons a l ih => simp only [List.flatMap_cons, List.filter_append, ih]

theorem flatMap_single {α β : Type} (g : α → List β) (q : α) :
    ∀ l : List α, l.Nodup → q ∈ l → (∀ c ∈ l, c ≠ q → g c = []) → l.flatMap g = g q := by
  intro l
  induction l with
  | nil => intro _ hq; cases hq
  | cons a l ih =>
    intro hnd hq hidle
    rw [List.nodup_cons] at hnd
    rw [List.flatMap_cons]
    by_cases ha : a = q
    · subst ha
      have : l.flatMap g = [] := by
        rw [List.flatMap_eq_nil_iff]
        intro c hc
        exact hidle c (List.mem_cons_of_mem _ hc) (fun e => hnd.1 (e ▸ hc))
      rw [this, List.append_nil]
    · rw [hidle a (List.mem_cons_self _ _) ha, List.nil_append]
      rcases List.mem_cons.1 hq with e | hq'
      · exact absurd e.symm ha
      · exact ih hnd.2 hq' (fun c hc => hidle c (List.mem_cons_of_mem _ hc))

/-- The test "is a Push with source `s` and intermediate cell `t`". -/
theorem push_test_iff (s t : Cell) (a : Move) :
    decide (a.action = ActionKind.push ∧ a.from_pos = s ∧ a.to_pos = t) = true ↔
      a.action = ActionKind.push ∧ a.from_pos = s ∧ a.to_pos = t := by
  simp

/-- The Pushes with source `s` and intermediate cell `t` among the generated actions are those
among the actions the direction loop emits at `s` for the direction from `s` to `t`. -/
theorem filter_push_eq (board : FastBoard) (player : Player) (rows cols : Int)
    (score_cols : List Int) (x y : Int) (d : Cell)
    (hin : within_board_limits x y rows cols = true)
    (hne : (board_at board x y).isEmpty = false) (hown : (board_at board x y).player = player)
    (hd : d ∈ DIRECTIONS) :
    (calculate_possible_actions board player rows cols score_cols).filter
        (fun a => decide (a.action = ActionKind.push ∧ a.from_pos = (x, y) ∧
          a.to_pos = (x + d.1, y + d.2)))
      = (displacement_actions board x y player rows cols score_cols d).filter
          (fun a => decide (a.action = ActionKind.push ∧ a.from_pos = (x, y) ∧
            a.to_pos = (x + d.1, y + d.2))) := by
  rw [within_board_limits_iff] at hin
  have hpiece : ∀ x' y', (x', y') ≠ (x, y) →
      (get_actions_for_piece board x' y' player rows cols score_cols).filter
        (fun a => decide (a.action = ActionKind.push ∧ a.from_pos = (x, y) ∧
          a.to_pos = (x + d.1, y + d.2))) = [] := by
    intro x' y' hxy
    rw [List.filter_eq_nil_iff]
    intro a ha hP
    rw [push_test_iff] at hP
    rcases (mem_get_actions_for_piece board x' y' player rows cols score_cols a).1 ha with
      h | ⟨dir, -, h⟩
    · exact hxy ((transformation_actions_kind board x' y' player rows cols score_cols a
        h).2.1.symm.trans hP.2.1)
    · exact hxy ((displacement_actions_spec board x' y' player rows cols score_cols dir a
        h).1.symm.trans hP.2.1)
  unfold calculate_possible_actions
  rw [filter_flatMap_eq,
    flatMap_single _ y (int_range rows) (nodup_int_range rows) ((mem_int_range rows y).2 hin.2)]
  · rw [filter_flatMap_eq,
      flatMap_single _ x (int_range cols) (nodup_int_range cols)
        ((mem_int_range cols x).2 hin.1)]
    · simp only [hne, hown, Bool.not_false, decide_True, Bool.and_self, if_true]
      unfold get_actions_for_piece
      rw [List.filter_append, filter_flatMap_eq,
        flatMap_single _ d DIRECTIONS (by decide) hd]
      · have : (transformation_actions board x y player rows cols score_cols).filter
            (fun a => decide (a.action = ActionKind.push ∧ a.from_pos = (x, y) ∧
              a.to_pos = (x + d.1, y + d.2))) = [] := by
          rw [List.filter_eq_nil_iff]
          intro a ha hP
          rw [push_test_iff] at hP
          rcases (transformation_actions_kind board x y player rows cols score_cols a ha).1
            with hk | hk <;> rw [hk] at hP <;> exact absurd hP.1 (by decide)
        rw [this, List.nil_append]
      · intro dir _ hdir
        rw [List.filter_eq_nil_iff]
        intro a ha hP
        rw [push_test_iff] at hP
        rcases (displacement_actions_spec board x y player rows cols score_cols dir a ha).2
          with ⟨hk, -⟩ | ⟨-, hto, -⟩
        · rw [hk] at hP
          exact absurd hP.1 (by decide)
        · have e := hto.symm.trans hP.2.2
          have e1 := congrArg Prod.fst e
          have e2 := congrArg Prod.snd e
          simp only at e1 e2
          exact hdir (Prod.ext (by omega) (by omega))
    · intro x' _ hx'
      simp only
      split_ifs
      · exact hpiece x' y (fun e => hx' (congrArg Prod.fst e))
      · rfl
  · intro y' _ hy'
    rw [filter_flatMap_eq, List.flatMap_eq_nil_iff]
    intro x' _
    simp only
    split_ifs
    · exact hpiece x' y' (fun e => hy' (congrArg Prod.snd e))
    · rfl

/-- The Pushes of an owned Stone at `(x, y)` against a Stone on the neighbour cell in
direction `d`, when that cell is in bounds and not a rival scoring cell of the mover. -/
theorem stone_push_filter (board : FastBoard) (player : Player) (rows cols : Int)
    (score_cols : List Int) (x y : Int) (d : Cell)
    (hin : within_board_limits x y rows cols = true)
    (hne : (board_at board x y).isEmpty = false) (hown : (board_at board x y).player = player)
    (hstone : (board_at board x y).side = Side.STONE) (hd : d ∈ DIRECTIONS)
    (htin : within_board_limits (x + d.1) (y + d.2) rows cols = true)
    (htriv : rival_score_area (x + d.1) (y + d.2) player rows cols score_cols = false)
    (htne : (board_at board (x + d.1) (y + d.2)).isEmpty = false)
    (htstone : (board_at board (x + d.1) (y + d.2)).side = Side.STONE) :
    (calculate_possible_actions board player rows cols score_cols).filter
        (fun a => decide (a.action = ActionKind.push ∧ a.from_pos = (x, y) ∧
          a.to_pos = (x + d.1, y + d.2)))
      = if within_board_limits (x + d.1 + d.1) (y + d.2 + d.2) rows cols = true ∧
            (board_at board (x + d.1 + d.1) (y + d.2 + d.2)).isEmpty = true ∧
            rival_score_area (x + d.1 + d.1) (y + d.2 + d.2)
              (board_at board (x + d.1) (y + d.2)).player rows cols score_cols = false
        then [{ action := ActionKind.push, from_pos := (x, y), to_pos := (x + d.1, y + d.2),
                pushed_to := some (x + d.1 + d.1, y + d.2 + d.2) }]
        else [] := by
  rw [filter_push_eq board player rows cols score_cols x y d hin hne hown hd]
  have hnr : ¬ ((board_at board (x + d.1) (y + d.2)).side = Side.RIVER) := by
    rw [htstone]; decide
  unfold displacement_actions
  simp only [htin, htriv, htne, hnr, hstone, Bool.not_true, Bool.or_self, Bool.false_eq_true,
    if_false, if_true]
  by_cases hc : within_board_limits (x + d.1 + d.1) (y + d.2 + d.2) rows cols = true ∧
      (board_at board (x + d.1 + d.1) (y + d.2 + d.2)).isEmpty = true ∧
      rival_score_area (x + d.1 + d.1) (y + d.2 + d.2)
        (board_at board (x + d.1) (y + d.2)).player rows cols score_cols = false
  · rw [if_pos hc]
    obtain ⟨c1, c2, c3⟩ := hc
    simp [c1, c2, c3]
  · rw [if_neg hc]
    have : (within_board_limits (x + d.1 + d.1) (y + d.2 + d.2) rows cols
        && (board_at board (x + d.1 + d.1) (y + d.2 + d.2)).isEmpty
        && !(rival_score_area (x + d.1 + d.1) (y + d.2 + d.2)
          (board_at board (x + d.1) (y + d.2)).player rows cols score_cols)) = false := by
      by_contra hcon
      apply hc
      simpa [Bool.and_eq_true, and_assoc] using hcon
    rw [this]
    simp

/-- C19: for an owned Stone at `s = (x, y)` and a direction `d` whose neighbour cell
`t = s + d` is in bounds, is not a rival scoring cell of the mover and holds a Stone,
`calculate_possible_actions` contains a Push with source `s` and intermediate cell `t` if and
only if `t + d` is in bounds, empty, and not a rival scoring cell of the owner of the Stone
at `t`; when it does, the Pushes with source `s` and intermediate cell `t` in the list are
exactly one action, and its `pushed_to` is `t + d`. -/
theorem stone_push_iff (board : FastBoard) (player : Player) (rows cols : Int)
    (score_cols : List Int) (x y : Int) (d : Cell)
    (hin : within_board_limits x y rows cols = true)
    (hne : (board_at board x y).isEmpty = false) (hown : (board_at board x y).player = player)
    (hstone : (board_at board x y).side = Side.STONE) (hd : d ∈ DIRECTIONS)
    (htin : within_board_limits (x + d.1) (y + d.2) rows cols = true)
    (htriv : rival_score_area (x + d.1) (y + d.2) player rows cols score_cols = false)
    (htne : (board_at board (x + d.1) (y + d.2)).isEmpty = false)
    (htstone : (board_at board (x + d.1) (y + d.2)).side = Side.STONE) :
    ((∃ a ∈ calculate_possible_actions board player rows cols score_cols,
        a.action = ActionKind.push ∧ a.from_pos = (x, y) ∧ a.to_pos = (x + d.1, y + d.2)) ↔
      (within_board_limits (x + d.1 + d.1) (y + d.2 + d.2) rows cols = true ∧
        (board_at board (x + d.1 + d.1) (y + d.2 + d.2)).isEmpty = true ∧
        rival_score_area (x + d.1 + d.1) (y + d.2 + d.2)
          (board_at board (x + d.1) (y + d.2)).player rows cols score_cols = false)) ∧
    ((∃ a ∈ calculate_possible_actions board player rows cols score_cols,
        a.action = ActionKind.push ∧ a.from_pos = (x, y) ∧ a.to_pos = (x + d.1, y + d.2)) →
      (calculate_possible_actions board player rows cols score_cols).filter
          (fun a => decide (a.action = ActionKind.push ∧ a.from_pos = (x, y) ∧
            a.to_pos = (x + d.1, y + d.2)))
        = [{ action := ActionKind.push, from_pos := (x, y), to_pos := (x + d.1, y + d.2),
             pushed_to := some (x + d.1 + d.1, y + d.2 + d.2) }]) := by
  have hfilter := stone_push_filter board player rows cols score_cols x y d hin hne hown
    hstone hd htin htriv htne htstone
  have hiff : (∃ a ∈ calculate_possible_actions board player rows cols score_cols,
        a.action = ActionKind.push ∧ a.from_pos = (x, y) ∧ a.to_pos = (x + d.1, y + d.2)) ↔
      (within_board_limits (x + d.1 + d.1) (y + d.2 + d.2) rows cols = true ∧
        (board_at board (x + d.1 + d.1) (y + d.2 + d.2)).isEmpty = true ∧
        rival_score_area (x + d.1 + d.1) (y + d.2 + d.2)
          (board_at board (x + d.1) (y + d.2)).player rows cols score_cols = false) := by
    constructor
    · rintro ⟨a, ha, hP⟩
      by_contra hc
      rw [if_neg hc, List.filter_eq_nil_iff] at hfilter
      exact hfilter a ha ((push_test_iff _ _ a).2 hP)
    · intro hc
      rw [if_pos hc] at hfilter
      have hmem : (⟨ActionKind.push, (x, y), (x + d.1, y + d.2),
          some (x + d.1 + d.1, y + d.2 + d.2), none⟩ : Move)
          ∈ (calculate_possible_actions board player rows cols score_cols).filter
            (fun a => decide (a.action = ActionKind.push ∧ a.from_pos = (x, y) ∧
              a.to_pos = (x + d.1, y + d.2))) := by
        rw [hfilter]
        exact List.mem_singleton.2 rfl
      exact ⟨_, (List.mem_filter.1 hmem).1, rfl, rfl, rfl⟩
  refine ⟨hiff, ?_⟩
  intro hex
  rw [hfilter, if_pos (hiff.1 hex)]

theorem stone_push_iff_witness :
    (within_board_limits 1 4 8 3 = true ∧ (board_at low_push_board 1 4).isEmpty = false ∧
      (board_at low_push_board 1 4).player = Player.SQUARE ∧
      (board_at low_push_board 1 4).side = Side.STONE ∧ ((0, 1) : Cell) ∈ DIRECTIONS ∧
      within_board_limits (1 + 0) (4 + 1) 8 3 = true ∧
      rival_score_area (1 + 0) (4 + 1) Player.SQUARE 8 3 [1] = false ∧
      (board_at low_push_board (1 + 0) (4 + 1)).isEmpty = false ∧
      (board_at low_push_board (1 + 0) (4 + 1)).side = Side.STONE) ∧
    (((∃ a ∈ calculate_possible_actions low_push_board Player.SQUARE 8 3 [1],
        a.action = ActionKind.push ∧ a.from_pos = (1, 4) ∧ a.to_pos = (1 + 0, 4 + 1)) ↔
      (within_board_limits (1 + 0 + 0) (4 + 1 + 1) 8 3 = true ∧
        (board_at low_push_board (1 + 0 + 0) (4 + 1 + 1)).isEmpty = true ∧
        rival_score_area (1 + 0 + 0) (4 + 1 + 1)
          (board_at low_push_board (1 + 0) (4 + 1)).player 8 3 [1] = false)) ∧
    ((∃ a ∈ calculate_possible_actions low_push_board Player.SQUARE 8 3 [1],
        a.action = ActionKind.push ∧ a.from_pos = (1, 4) ∧ a.to_pos = (1 + 0, 4 + 1)) →
      (calculate_possible_actions low_push_board Player.SQUARE 8 3 [1]).filter
          (fun a => decide (a.action = ActionKind.push ∧ a.from_pos = (1, 4) ∧
            a.to_pos = (1 + 0, 4 + 1)))
        = [{ action := ActionKind.push, from_pos := (1, 4), to_pos := (1 + 0, 4 + 1),
             pushed_to := some (1 + 0 + 0, 4 + 1 + 1) }])) :=
  ⟨⟨by decide, by decide, by decide, by decide, by decide, by decide, by decide, by decide,
      by decide⟩,
   stone_push_iff low_push_board Player.SQUARE 8 3 [1] 1 4 (0, 1) (by decide) (by decide)
     (by decide) (by decide) (by decide) (by decide) (by decide) (by decide) (by decide)⟩

/-! ## Termination of the river-flow traversal -/

/-- A scan given at least as many steps as cells are left before the grid ends returns. -/
theorem flow_scan_terminates (board : FastBoard) (moving_sx moving_sy : Int) (player : Player)
    (rows cols : Int) (score_cols : List Int) (dx dy : Int) (hdir : is_flow_step dx dy) :
    ∀ (fuel : Nat) (nx ny : Int) (st : FlowState), 0 < fuel →
      (within_board_limits nx ny rows cols = true →
        scan_distance dx dy rows cols nx ny < fuel) →
      ∃ st', flow_scan board moving_sx moving_sy player rows cols score_cols dx dy fuel nx ny
        st = some st' := by
  intro fuel
  induction fuel with
  | zero => intro _ _ _ h; exact absurd h (by decide)
  | succ n ih =>
    intro nx ny st _ hdist
    rw [flow_scan]
    by_cases hw : within_board_limits nx ny rows cols = true
    · have hd := hdist hw
      have hw' := (within_board_limits_iff nx ny rows cols).1 hw
      have hn : 0 < n := by
        unfold scan_distance at hd
        unfold is_flow_step at hdir
        rcases hdir with ⟨h1, h2⟩ | ⟨h1, h2⟩ | ⟨h1, h2⟩ | ⟨h1, h2⟩ <;> subst h1 <;> subst h2 <;>
          simp at hd <;> omega
      have hnext : within_board_limits (nx + dx) (ny + dy) rows cols = true →
          scan_distance dx dy rows cols (nx + dx) (ny + dy) < n := by
        intro _
        unfold scan_distance at hd ⊢
        unfold is_flow_step at hdir
        rcases hdir with ⟨h1, h2⟩ | ⟨h1, h2⟩ | ⟨h1, h2⟩ | ⟨h1, h2⟩ <;> subst h1 <;> subst h2 <;>
          simp at hd ⊢ <;> omega
      rw [if_pos hw]
      by_cases hr : rival_score_area nx ny player rows cols score_cols = true
      · rw [if_pos hr]; exact ⟨_, rfl⟩
      · rw [if_neg hr]
        by_cases hm : nx = moving_sx ∧ ny = moving_sy
        · rw [if_pos hm]; exact ih _ _ _ hn hnext
        · rw [if_neg hm]
          simp only
          by_cases he : (board_at board nx ny).isEmpty = true
          · rw [if_pos he]
            by_cases hv : (!(vec_get st.visited_dest (ny * cols + nx))) = true
            · rw [if_pos hv]; exact ih _ _ _ hn hnext
            · rw [if_neg hv]; exact ih _ _ _ hn hnext
          · rw [if_neg he]
            by_cases hs : (board_at board nx ny).side = Side.RIVER
            · rw [if_pos hs]
              by_cases hv : (!(vec_get st.visited_river (ny * cols + nx))) = true
              · rw [if_pos hv]; exact ⟨_, rfl⟩
              · rw [if_neg hv]; exact ⟨_, rfl⟩
            · rw [if_neg hs]; exact ⟨_, rfl⟩
    · rw [if_neg hw]; exact ⟨_, rfl⟩

/-- On the grid a scan has at most `max rows cols` cells left. -/
theorem scan_distance_le (dx dy rows cols nx ny : Int)
    (hw : within_board_limits nx ny rows cols = true) :
    scan_distance dx dy rows cols nx ny ≤ max rows cols := by
  rw [within_board_limits_iff] at hw
  have h1 := le_max_left rows cols
  have h2 := le_max_right rows cols
  unfold scan_distance
  split_ifs <;> omega

theorem count_false_set (v : List Bool) :
    ∀ i : Nat, i < v.length → v.getD i false = false →
      (v.set i true).count false + 1 = v.count false := by
  induction v with
  | nil => intro i h; simp at h
  | cons b v ih =>
    intro i h hv
    cases i with
    | zero =>
      simp only [List.getD_cons_zero] at hv
      subst hv
      simp
    | succ n =>
      simp only [List.getD_cons_succ] at hv
      have := ih n (by simpa using h) hv
      cases b <;> simp [List.set_cons_succ, List.count_cons] <;> omega

/-- The flat index of a grid cell is a valid index of the `visited` vectors. -/
theorem flat_index_range (rows cols nx ny : Int)
    (hw : within_board_limits nx ny rows cols = true) :
    0 ≤ ny * cols + nx ∧ (ny * cols + nx).toNat < (rows * cols).toNat := by
  rw [within_board_limits_iff] at hw
  obtain ⟨⟨h1, h2⟩, h3, h4⟩ := hw
  have h5 : 0 ≤ ny * cols := mul_nonneg h3 (by omega)
  have h6 : (ny + 1) * cols ≤ rows * cols := mul_le_mul_of_nonneg_right (by omega) (by omega)
  have h7 : (ny + 1) * cols = ny * cols + cols := by ring
  constructor
  · omega
  · omega

/-- Marking an unmarked grid cell lowers the number of unmarked cells by one. -/
theorem vec_mark_count (v : List Bool) (rows cols nx ny : Int)
    (hlen : v.length = (rows * cols).toNat)
    (hw : within_board_limits nx ny rows cols = true)
    (hv : vec_get v (ny * cols + nx) = false) :
    (vec_mark v (ny * cols + nx)).length = (rows * cols).toNat ∧
      (vec_mark v (ny * cols + nx)).count false + 1 = v.count false := by
  obtain ⟨h0, h1⟩ := flat_index_range rows cols nx ny hw
  unfold vec_get at hv
  unfold vec_mark
  rw [if_neg (by omega)] at hv ⊢
  exact ⟨by simpa using hlen, count_false_set v _ (by omega) hv⟩

/-- A scan keeps the length of `visited_river` and the quantity `flow_pending`. -/
theorem flow_scan_pending (board : FastBoard) (moving_sx moving_sy : Int) (player : Player)
    (rows cols : Int) (score_cols : List Int) (dx dy : Int) (fuel : Nat) (k : Nat)
    (nx ny : Int) (st st' : FlowState)
    (hst : st.visited_river.length = (rows * cols).toNat ∧ flow_pending st = k)
    (h : flow_scan board moving_sx moving_sy player rows cols score_cols dx dy fuel nx ny st
      = some st') :
    st'.visited_river.length = (rows * cols).toNat ∧ flow_pending st' = k := by
  refine flow_scan_invariant board moving_sx moving_sy player rows cols score_cols dx dy
    (fun s => s.visited_river.length = (rows * cols).toNat ∧ flow_pending s = k)
    ?_ ?_ fuel nx ny st st' hst h
  · intro s x y hs _ _ _ _ _
    exact hs
  · intro s x y hs hw _ _ _ _ hv
    obtain ⟨h1, h2⟩ := vec_mark_count s.visited_river rows cols x y hs.1 hw hv
    refine ⟨h1, ?_⟩
    have h3 := hs.2
    unfold flow_pending at h3 ⊢
    simp only [List.length_append, List.length_singleton]
    omega

theorem flow_directions_steps (cell : Piece) :
    is_flow_step (flow_directions cell).1.1 (flow_directions cell).1.2 ∧
      is_flow_step (flow_directions cell).2.1 (flow_directions cell).2.2 := by
  unfold flow_directions is_flow_step
  split_ifs <;> simp

/-- The outer loop given more iterations than `flow_pending` counts returns. -/
theorem flow_bfs_terminates (board : FastBoard) (start_rx start_ry moving_sx moving_sy : Int)
    (player : Player) (rows cols : Int) (score_cols : List Int) (river_push : Bool) :
    ∀ (fuel : Nat) (st : FlowState), st.visited_river.length = (rows * cols).toNat →
      flow_pending st < fuel →
      ∃ res, flow_bfs board start_rx start_ry moving_sx moving_sy player rows cols score_cols
        river_push ((max rows cols).toNat + 1) fuel st = some res := by
  intro fuel
  induction fuel with
  | zero => intro _ _ h; exact absurd h (by omega)
  | succ n ih =>
    intro st hlen hp
    rw [flow_bfs]
    cases hq : st.to_visit with
    | nil => exact ⟨_, rfl⟩
    | cons c rest =>
      obtain ⟨x, y⟩ := c
      simp only
      have hst0 : ({ st with to_visit := rest } : FlowState).visited_river.length
            = (rows * cols).toNat ∧
          flow_pending { st with to_visit := rest } = flow_pending st - 1 := by
        refine ⟨hlen, ?_⟩
        unfold flow_pending
        simp only [hq, List.length_cons]
        omega
      have hlt : flow_pending st - 1 < n := by
        have : 0 < flow_pending st := by
          unfold flow_pending
          simp only [hq, List.length_cons]
          omega
        omega
      have hscan : ∀ (dx dy : Int), is_flow_step dx dy → ∀ (s : FlowState),
          ∃ s', flow_scan board moving_sx moving_sy player rows cols score_cols dx dy
            ((max rows cols).toNat + 1) (x + dx) (y + dy) s = some s' := by
        intro dx dy hstep s
        apply flow_scan_terminates board moving_sx moving_sy player rows cols score_cols dx dy
          hstep _ _ _ _ (by omega)
        intro hw
        have := scan_distance_le dx dy rows cols (x + dx) (y + dy) hw
        have h0 : 0 ≤ max rows cols := by
          rw [within_board_limits_iff] at hw
          have := le_max_left rows cols
          omega
        push_cast
        omega
      generalize (if river_push = true ∧ x = start_rx ∧ y = start_ry then
          board_at board moving_sx moving_sy
        else board_at board x y) = cell
      by_cases hc : cell.isEmpty = true ∨ cell.side ≠ Side.RIVER
      · rw [if_pos hc]
        exact ih _ hst0.1 (by rw [hst0.2]; exact hlt)
      · rw [if_neg hc]
        obtain ⟨hd1, hd2⟩ := flow_directions_steps cell
        obtain ⟨s1, hs1⟩ := hscan _ _ hd1 { st with to_visit := rest }
        have hI1 := flow_scan_pending board moving_sx moving_sy player rows cols score_cols _ _
          _ _ _ _ _ _ hst0 hs1
        obtain ⟨s2, hs2⟩ := hscan _ _ hd2 s1
        have hI2 := flow_scan_pending board moving_sx moving_sy player rows cols score_cols _ _
          _ _ _ _ _ _ hI1 hs2
        simp only [hs1, hs2]
        exact ih _ hI2.1 (by rw [hI2.2]; exact hlt)

/-- The loops of `explore_river_network` end within the budgets of the embedding: the
traversal returns its result list. -/
theorem explore_river_network_terminates (board : FastBoard)
    (start_rx start_ry moving_sx moving_sy : Int) (player : Player) (rows cols : Int)
    (score_cols : List Int) (river_push : Bool) :
    explore_river_network_steps board start_rx start_ry moving_sx moving_sy player rows cols
        score_cols river_push ((max rows cols).toNat + 1) ((rows * cols).toNat + 2)
      = some (explore_river_network board start_rx start_ry moving_sx moving_sy player rows
          cols score_cols river_push) := by
  have hinit : (flow_init start_rx start_ry rows cols).visited_river.length
        = (rows * cols).toNat ∧
      flow_pending (flow_init start_rx start_ry rows cols) < (rows * cols).toNat + 2 := by
    unfold flow_init flow_pending vec_mark
    simp only [List.length_singleton]
    split_ifs
    · simp only [List.length_replicate, true_and]
      have := List.count_le_length false (List.replicate (rows * cols).toNat false)
      simp only [List.length_replicate] at this
      omega
    · simp only [List.length_set, List.length_replicate, true_and]
      have := List.count_le_length false
        ((List.replicate (rows * cols).toNat false).set (start_ry * cols + start_rx).toNat
          true)
      simp only [List.length_set, List.length_replicate] at this
      omega
  obtain ⟨res, hres⟩ := flow_bfs_terminates board start_rx start_ry moving_sx moving_sy player
    rows cols score_cols river_push _ _ hinit.1 hinit.2
  unfold explore_river_network explore_river_network_steps
  rw [hres]
  rfl

/-! ## Evaluator registry -/

/-- C16: `evaluate_board_state` fails with an invalid-argument error exactly when the
requested method name is not `"Final_Evaluation"`; for that name it returns the score of
the registered method for every board and player, and every river traversal that the
evaluation starts ends within its loop budgets. -/
theorem evaluate_board_state_error_iff (ev : TacticalEvaluator) (board : FastBoard)
    (player : Player) (rows cols : Int) (score_cols : List Int) (method : String) :
    ((∃ what, evaluate_board_state ev board player rows cols score_cols method
          = Except.error (EvalError.invalid_argument what)) ↔
        method ≠ "Final_Evaluation") ∧
      evaluate_board_state ev board player rows cols score_cols "Final_Evaluation"
        = Except.ok (Final_Evaluation ev board player rows cols score_cols) ∧
      ∀ (start_rx start_ry moving_sx moving_sy : Int) (p : Player) (river_push : Bool),
        explore_river_network_steps board start_rx start_ry moving_sx moving_sy p rows cols
            score_cols river_push ((max rows cols).toNat + 1) ((rows * cols).toNat + 2)
          = some (explore_river_network board start_rx start_ry moving_sx moving_sy p rows
              cols score_cols river_push) := by
  refine ⟨?_, ?_, ?_⟩
  · unfold evaluate_board_state heuristic_methods
    by_cases hm : method = "Final_Evaluation"
    · subst hm
      simp [List.lookup]
    · have hb : (method == "Final_Evaluation") = false := by simpa using hm
      simp only [List.lookup, hb]
      constructor
      · intro _; exact hm
      · intro _; exact ⟨_, rfl⟩
  · unfold evaluate_board_state heuristic_methods
    simp [List.lookup]
  · intro start_rx start_ry moving_sx moving_sy p river_push
    exact explore_river_network_terminates board start_rx start_ry moving_sx moving_sy p rows
      cols score_cols river_push

/-! ## Distance to the goal and the proximity and defense terms -/

/-- C21: for a scoring-column list with minimum `lo` and maximum `hi`,
`distance_to_own_scoring_area` is `|x - clamp(x, lo, hi)| + |y - target_row|`, and this is
the least Manhattan distance from `(x, y)` to a cell `(c, target_row)` with
`lo <= c <= hi`. -/
theorem distance_to_own_scoring_area_clamp (x y : Int) (player : Player) (rows cols : Int)
    (score_cols : List Int) (lo hi : Int) (hlo : lo ∈ score_cols)
    (hlo_min : ∀ v ∈ score_cols, lo ≤ v) (hhi : hi ∈ score_cols)
    (hhi_max : ∀ v ∈ score_cols, v ≤ hi) :
    distance_to_own_scoring_area x y player rows cols score_cols
        = |x - clamp x lo hi| + |y - get_target_row player rows| ∧
      (∀ c : Int, lo ≤ c → c ≤ hi →
        distance_to_own_scoring_area x y player rows cols score_cols
          ≤ |x - c| + |y - get_target_row player rows|) ∧
      ∃ c : Int, lo ≤ c ∧ c ≤ hi ∧
        distance_to_own_scoring_area x y player rows cols score_cols
          = |x - c| + |y - get_target_row player rows| := by
  have hne : score_cols ≠ [] := List.ne_nil_of_mem hlo
  have hmin : min_element score_cols = lo :=
    le_antisymm ((min_element_spec score_cols hne).2 lo hlo)
      (hlo_min _ (min_element_spec score_cols hne).1)
  have hmax : max_element score_cols = hi :=
    le_antisymm (hhi_max _ (max_element_spec score_cols hne).1)
      ((max_element_spec score_cols hne).2 hi hhi)
  have hle : lo ≤ hi := hlo_min hi hhi
  have hdist : distance_to_own_scoring_area x y player rows cols score_cols
      = |x - clamp x lo hi| + |y - get_target_row player rows| := by
    unfold distance_to_own_scoring_area
    simp only [hmin, hmax]
  rw [hdist]
  refine ⟨rfl, ?_, ?_⟩
  · intro c h1 h2
    unfold clamp
    split_ifs <;> rcases abs_cases (x - c) with ⟨e, _⟩ | ⟨e, _⟩ <;>
      first
      | (rcases abs_cases (x - lo) with ⟨e', _⟩ | ⟨e', _⟩ <;> omega)
      | (rcases abs_cases (x - hi) with ⟨e', _⟩ | ⟨e', _⟩ <;> omega)
      | (simp only [sub_self, abs_zero]; omega)
  · refine ⟨clamp x lo hi, ?_, ?_, rfl⟩
    · unfold clamp; split_ifs <;> omega
    · unfold clamp; split_ifs <;> omega

theorem distance_to_own_scoring_area_clamp_witness :
    ((1 : Int) ∈ ([1, 3] : List Int) ∧ (∀ v ∈ ([1, 3] : List Int), 1 ≤ v) ∧
      (3 : Int) ∈ ([1, 3] : List Int) ∧ (∀ v ∈ ([1, 3] : List Int), v ≤ 3)) ∧
    (distance_to_own_scoring_area 5 0 Player.CIRCLE 8 6 [1, 3]
        = |(5 : Int) - clamp 5 1 3| + |(0 : Int) - get_target_row Player.CIRCLE 8| ∧
      (∀ c : Int, 1 ≤ c → c ≤ 3 →
        distance_to_own_scoring_area 5 0 Player.CIRCLE 8 6 [1, 3]
          ≤ |5 - c| + |(0 : Int) - get_target_row Player.CIRCLE 8|) ∧
      ∃ c : Int, 1 ≤ c ∧ c ≤ 3 ∧
        distance_to_own_scoring_area 5 0 Player.CIRCLE 8 6 [1, 3]
          = |5 - c| + |(0 : Int) - get_target_row Player.CIRCLE 8|) :=
  ⟨⟨by decide, by decide, by decide, by decide⟩,
   distance_to_own_scoring_area_clamp 5 0 Player.CIRCLE 8 6 [1, 3] 1 3 (by decide)
     (by decide) (by decide) (by decide)⟩

/-- The two sums of `evaluate_top_pieces_proximity` are the sums of the contributions of the
cells. -/
theorem proximity_scores_eq_sum (board : FastBoard) (player : Player) (rows cols : Int)
    (score_cols : List Int) :
    proximity_scores board player rows cols score_cols
      = (((grid_cells rows cols).map
            (cell_contribution board player rows cols score_cols true)).sum,
         ((grid_cells rows cols).map
            (cell_contribution board player rows cols score_cols false)).sum) := by
  unfold proximity_scores
  have key : ∀ (l : List Cell) (acc : Int × Int),
      l.foldl (fun acc c =>
        let cell := board_at board c.1 c.2
        if cell.isEmpty then acc
        else
          let piece_owner := cell.player
          let dist := distance_to_own_scoring_area c.1 c.2 piece_owner rows cols score_cols
          let score_contribution := proximity_contribution cell.side dist
          if piece_owner = player then (acc.1 + score_contribution, acc.2)
          else (acc.1, acc.2 + score_contribution)) acc
        = (acc.1 + (l.map (cell_contribution board player rows cols score_cols true)).sum,
           acc.2 + (l.map (cell_contribution board player rows cols score_cols false)).sum) := by
    intro l
    induction l with
    | nil => intro acc; simp
    | cons c l ih =>
      intro acc
      rw [List.foldl_cons, ih]
      simp only [List.map_cons, List.sum_cons]
      by_cases he : (board_at board c.1 c.2).isEmpty = true
      · have e1 : ∀ b, cell_contribution board player rows cols score_cols b c = 0 := by
          intro b; unfold cell_contribution; rw [if_pos he]
        simp only [he, if_true, e1, zero_add]
      · have he' : (board_at board c.1 c.2).isEmpty = false := by simpa using he
        by_cases hp : (board_at board c.1 c.2).player = player
        · have e1 : cell_contribution board player rows cols score_cols true c
              = proximity_contribution (board_at board c.1 c.2).side
                  (distance_to_own_scoring_area c.1 c.2 (board_at board c.1 c.2).player rows
                    cols score_cols) := by
            unfold cell_contribution; simp [he, hp]
          have e2 : cell_contribution board player rows cols score_cols false c = 0 := by
            unfold cell_contribution; simp [he, hp]
          simp only [he', Bool.false_eq_true, if_false, hp, if_true, e1, e2, zero_add]
          refine Prod.ext ?_ ?_ <;> first | rfl | (simp only; ring)
        · have e1 : cell_contribution board player rows cols score_cols false c
              = proximity_contribution (board_at board c.1 c.2).side
                  (distance_to_own_scoring_area c.1 c.2 (board_at board c.1 c.2).player rows
                    cols score_cols) := by
            unfold cell_contribution; simp [he, hp]
          have e2 : cell_contribution board player rows cols score_cols true c = 0 := by
            unfold cell_contribution; simp [he, hp]
          simp only [he', Bool.false_eq_true, if_false, hp, e1, e2, zero_add]
          refine Prod.ext ?_ ?_ <;> first | rfl | (simp only; ring)
  rw [key]
  simp

/-- C27: the contribution of one piece to `evaluate_top_pieces_proximity` is a function of
its form and its distance `d` to its owner's goal, with the listed values; it never increases
when `d` increases, and a Stone at distance 0 scores more than a River at distance 0. -/
theorem proximity_contribution_values (board : FastBoard) (player : Player) (rows cols : Int)
    (score_cols : List Int) (friendly_weight opponent_weight : Dbl) :
    evaluate_top_pieces_proximity board player rows cols score_cols friendly_weight
        opponent_weight
      = weighted_sum friendly_weight opponent_weight
          ((grid_cells rows cols).map
            (cell_contribution board player rows cols score_cols true)).sum
          ((grid_cells rows cols).map
            (cell_contribution board player rows cols score_cols false)).sum ∧
    proximity_contribution Side.STONE 0 = 50000 ∧
    proximity_contribution Side.RIVER 0 = 20000 ∧
    (∀ side : Side, proximity_contribution side 1 = 2000 ∧
      proximity_contribution side 2 = 1000 ∧ proximity_contribution side 3 = 500) ∧
    (∀ (side : Side) (d : Int), 4 ≤ d → d ≤ 7 →
      proximity_contribution side d = (10 - d) * 10) ∧
    (∀ (side : Side) (d : Int), 8 ≤ d → proximity_contribution side d = 0) ∧
    (∀ (side : Side) (d1 d2 : Int), 0 ≤ d1 → d1 ≤ d2 →
      proximity_contribution side d2 ≤ proximity_contribution side d1) ∧
    proximity_contribution Side.RIVER 0 < proximity_contribution Side.STONE 0 := by
  refine ⟨?_, by decide, by decide, fun side => ⟨rfl, rfl, rfl⟩, ?_, ?_, ?_, by decide⟩
  · unfold evaluate_top_pieces_proximity
    rw [proximity_scores_eq_sum]
  · intro side d h1 h2
    unfold proximity_contribution
    rw [if_neg (by omega), if_neg (by omega), if_neg (by omega), if_neg (by omega),
      if_pos (by omega)]
  · intro side d h
    unfold proximity_contribution
    rw [if_neg (by omega), if_neg (by omega), if_neg (by omega), if_neg (by omega),
      if_neg (by omega)]
  · intro side d1 d2 h0 h
    unfold proximity_contribution
    cases side <;> split_ifs <;> omega

/-- C28: `penalty_for_blocked_score_zone` is -10000 times the number of listed own scoring
cells that hold a River of the player; it is never positive, and it is the same on two boards
whose own scoring cells agree on holding such a River (Stones, empty cells and the opponent's
pieces do not enter). -/
theorem penalty_for_blocked_score_zone_count (board : FastBoard) (player : Player)
    (rows cols : Int) (score_cols : List Int) :
    penalty_for_blocked_score_zone board player rows cols score_cols
        = -10000 * ((own_scoring_areas player rows cols score_cols).countP
            (holds_own_river board player) : Int) ∧
      penalty_for_blocked_score_zone board player rows cols score_cols ≤ 0 ∧
      ∀ other : FastBoard,
        (∀ c ∈ own_scoring_areas player rows cols score_cols,
          holds_own_river other player c = holds_own_river board player c) →
        penalty_for_blocked_score_zone other player rows cols score_cols
          = penalty_for_blocked_score_zone board player rows cols score_cols := by
  have key : ∀ (b : FastBoard) (l : List Cell) (acc : Int),
      l.foldl (fun penalty cell_coords =>
        let cell := board_at b cell_coords.1 cell_coords.2
        if !cell.isEmpty && decide (cell.player = player) && decide (cell.side = Side.RIVER)
        then penalty - 10000 else penalty) acc
        = acc - 10000 * (l.countP (holds_own_river b player) : Int) := by
    intro b l
    induction l with
    | nil => intro acc; simp
    | cons c l ih =>
      intro acc
      rw [List.foldl_cons, ih]
      by_cases h : holds_own_river b player c = true
      · rw [List.countP_cons_of_pos _ _ h]
        unfold holds_own_river at h
        simp only [h, if_true]
        push_cast
        ring
      · rw [List.countP_cons_of_neg _ _ h]
        unfold holds_own_river at h
        simp only [h, if_false]
        trivial
  have hval : ∀ b : FastBoard, penalty_for_blocked_score_zone b player rows cols score_cols
      = -10000 * ((own_scoring_areas player rows cols score_cols).countP
          (holds_own_river b player) : Int) := by
    intro b
    unfold penalty_for_blocked_score_zone
    rw [key]
    ring
  refine ⟨hval board, ?_, ?_⟩
  · rw [hval]
    have : (0 : Int) ≤ ((own_scoring_areas player rows cols score_cols).countP
        (holds_own_river board player) : Int) := Int.natCast_nonneg _
    omega
  · intro other hsame
    rw [hval, hval, List.countP_congr (fun c hc => by rw [hsame c hc])]

/-- The scan of `calculate_near_win_bonus` over the own scoring cells: the counter is the
number of listed cells holding a Stone of the player, and the recorded empty cell is either
the initial (-1, -1) or a listed cell that is empty. -/
theorem near_win_scan (board : FastBoard) (player : Player) (l : List Cell) :
    ∀ (acc : Int × Cell),
      (l.foldl (fun acc cell_coords =>
          let cell := board_at board cell_coords.1 cell_coords.2
          if cell.isEmpty then (acc.1, cell_coords)
          else if cell.player = player ∧ cell.side = Side.STONE then (acc.1 + 1, acc.2)
          else acc) acc).1 = acc.1 + (l.countP (holds_own_stone board player) : Int) ∧
      ((l.foldl (fun acc cell_coords =>
          let cell := board_at board cell_coords.1 cell_coords.2
          if cell.isEmpty then (acc.1, cell_coords)
          else if cell.player = player ∧ cell.side = Side.STONE then (acc.1 + 1, acc.2)
          else acc) acc).2 = acc.2 ∨
        ∃ c ∈ l, (board_at board c.1 c.2).isEmpty = true ∧
          (l.foldl (fun acc cell_coords =>
            let cell := board_at board cell_coords.1 cell_coords.2
            if cell.isEmpty then (acc.1, cell_coords)
            else if cell.player = player ∧ cell.side = Side.STONE then (acc.1 + 1, acc.2)
            else acc) acc).2 = c) := by
  induction l with
  | nil => intro acc; simp
  | cons c l ih =>
    intro acc
    rw [List.foldl_cons]
    by_cases he : (board_at board c.1 c.2).isEmpty = true
    · have hs : holds_own_stone board player c = false := by
        unfold holds_own_stone; simp [he]
      have hstep := ih (acc.1, c)
      simp only [he, if_true]
      rw [List.countP_cons_of_neg _ _ (by simp [hs])]
      refine ⟨hstep.1, ?_⟩
      rcases hstep.2 with h | ⟨c', hc', he', h⟩
      · exact Or.inr ⟨c, List.mem_cons_self _ _, he, h⟩
      · exact Or.inr ⟨c', List.mem_cons_of_mem _ hc', he', h⟩
    · have he' : (board_at board c.1 c.2).isEmpty = false := by simpa using he
      by_cases hst : (board_at board c.1 c.2).player = player ∧
          (board_at board c.1 c.2).side = Side.STONE
      · have hs : holds_own_stone board player c = true := by
          unfold holds_own_stone; simp [he', hst.1, hst.2]
        have hstep := ih (acc.1 + 1, acc.2)
        simp only [he', Bool.false_eq_true, if_false, hst, and_self, if_true]
        rw [List.countP_cons_of_pos _ _ hs]
        refine ⟨?_, ?_⟩
        · rw [hstep.1]; push_cast; ring
        · rcases hstep.2 with h | ⟨c', hc', hce, h⟩
          · exact Or.inl h
          · exact Or.inr ⟨c', List.mem_cons_of_mem _ hc', hce, h⟩
      · have hs : holds_own_stone board player c = false := by
          unfold holds_own_stone
          rw [not_and_or] at hst
          rcases hst with h | h <;> simp [h]
        have hstep := ih acc
        simp only [he', Bool.false_eq_true, if_false, hst]
        rw [List.countP_cons_of_neg _ _ (by simp [hs])]
        refine ⟨hstep.1, ?_⟩
        rcases hstep.2 with h | ⟨c', hc', hce, h⟩
        · exact Or.inl h
        · exact Or.inr ⟨c', List.mem_cons_of_mem _ hc', hce, h⟩

/-! ## Near-win bonus and river adjacency -/

/-- C30 as stated fails: on `two_gaps_board` (scoring columns 0..4) Square has three Stones
in its goal cells and two empty goal cells, (3,4) and (4,4), and the bonus is 4000, earned by
the Square Stone at (4,5) next to the empty goal cell listed last. -/
theorem near_win_bonus_two_gaps_counterexample :
    (own_scoring_areas Player.SQUARE 7 5 [0, 1, 2, 3, 4]).countP
        (holds_own_stone two_gaps_board Player.SQUARE) = 3 ∧
      (own_scoring_areas Player.SQUARE 7 5 [0, 1, 2, 3, 4]).countP
        (fun c => (board_at two_gaps_board c.1 c.2).isEmpty) = 2 ∧
      calculate_near_win_bonus two_gaps_board Player.SQUARE 7 5 [0, 1, 2, 3, 4] = 4000 := by
  decide

/-- C30 amended: `calculate_near_win_bonus` returns 0 unless at least 3 of the listed own
scoring cells hold a Stone of the player and at least one listed own scoring cell is
empty. -/
theorem near_win_bonus_needs_three_stones (board : FastBoard) (player : Player)
    (rows cols : Int) (score_cols : List Int)
    (hbonus : calculate_near_win_bonus board player rows cols score_cols ≠ 0) :
    3 ≤ (own_scoring_areas player rows cols score_cols).countP
        (holds_own_stone board player) ∧
      ∃ c ∈ own_scoring_areas player rows cols score_cols,
        (board_at board c.1 c.2).isEmpty = true := by
  obtain ⟨hcount, hcell⟩ := near_win_scan board player
    (own_scoring_areas player rows cols score_cols) ((0 : Int), ((-1, -1) : Cell))
  unfold calculate_near_win_bonus at hbonus
  simp only at hbonus
  by_cases hc : (List.foldl (fun acc cell_coords =>
      if (board_at board cell_coords.1 cell_coords.2).isEmpty = true then
        (acc.1, cell_coords)
      else if (board_at board cell_coords.1 cell_coords.2).player = player ∧
          (board_at board cell_coords.1 cell_coords.2).side = Side.STONE then
        (acc.1 + 1, acc.2)
      else acc) ((0 : Int), ((-1, -1) : Cell))
      (own_scoring_areas player rows cols score_cols)).1 < 3 ∨
    (List.foldl (fun acc cell_coords =>
      if (board_at board cell_coords.1 cell_coords.2).isEmpty = true then
        (acc.1, cell_coords)
      else if (board_at board cell_coords.1 cell_coords.2).player = player ∧
          (board_at board cell_coords.1 cell_coords.2).side = Side.STONE then
        (acc.1 + 1, acc.2)
      else acc) ((0 : Int), ((-1, -1) : Cell))
      (own_scoring_areas player rows cols score_cols)).2.1 = -1
  · rw [if_pos hc] at hbonus
    exact absurd rfl hbonus
  · rw [not_or] at hc
    obtain ⟨h3, hne⟩ := hc
    simp only at hcount hcell
    constructor
    · rw [hcount] at h3
      omega
    · rcases hcell with h | ⟨c, hc, he, -⟩
      · rw [h] at hne
        exact absurd rfl hne
      · exact ⟨c, hc, he⟩

theorem near_win_bonus_needs_three_stones_witness :
    calculate_near_win_bonus two_gaps_board Player.SQUARE 7 5 [0, 1, 2, 3, 4] ≠ 0 ∧
    (3 ≤ (own_scoring_areas Player.SQUARE 7 5 [0, 1, 2, 3, 4]).countP
        (holds_own_stone two_gaps_board Player.SQUARE) ∧
      ∃ c ∈ own_scoring_areas Player.SQUARE 7 5 [0, 1, 2, 3, 4],
        (board_at two_gaps_board c.1 c.2).isEmpty = true) :=
  ⟨by decide,
   near_win_bonus_needs_three_stones two_gaps_board Player.SQUARE 7 5 [0, 1, 2, 3, 4]
     (by decide)⟩

/-- A fold that adds at most one to each of two counters per element counts the elements
that pass the two tests. -/
theorem near_count_fold (f : NearCount → Cell → NearCount) (pf po : Cell → Bool)
    (hstep : ∀ acc d,
      (f acc d).friendly_stones_near = acc.friendly_stones_near + (if pf d then 1 else 0) ∧
      (f acc d).opponent_stones_near = acc.opponent_stones_near + (if po d then 1 else 0)) :
    ∀ (l : List Cell) (acc : NearCount),
      (l.foldl f acc).friendly_stones_near = acc.friendly_stones_near + (l.countP pf : Int) ∧
      (l.foldl f acc).opponent_stones_near
        = acc.opponent_stones_near + (l.countP po : Int) := by
  intro l
  induction l with
  | nil => intro acc; simp
  | cons d l ih =>
    intro acc
    rw [List.foldl_cons]
    obtain ⟨e1, e2⟩ := ih (f acc d)
    obtain ⟨s1, s2⟩ := hstep acc d
    rw [e1, e2, s1, s2]
    simp only [List.countP_cons]
    constructor
    · by_cases h : pf d = true
      · simp only [h, if_true]; push_cast; ring
      · simp only [h]; simp
    · by_cases h : po d = true
      · simp only [h, if_true]; push_cast; ring
      · simp only [h]; simp

/-- C29, what the code does: the two multipliers of a River cell in
`evaluate_river_system_potential` count the neighbour cells that pass `counts_as_near` and
hold a piece of the player, respectively of another owner, whatever the form of that piece:
Rivers are counted like Stones. -/
theorem count_near_counts_any_form (board : FastBoard) (x y : Int) (player : Player)
    (rows cols : Int) (score_cols : List Int) :
    (count_near board x y player rows cols score_cols).friendly_stones_near
        = (([(1, 0), (-1, 0), (0, 1), (0, -1)] : List Cell).countP (fun d =>
            counts_as_near board x y player rows cols score_cols d &&
              decide ((board_at board (x + d.1) (y + d.2)).player = player)) : Int) ∧
      (count_near board x y player rows cols score_cols).opponent_stones_near
        = (([(1, 0), (-1, 0), (0, 1), (0, -1)] : List Cell).countP (fun d =>
            counts_as_near board x y player rows cols score_cols d &&
              !decide ((board_at board (x + d.1) (y + d.2)).player = player)) : Int) := by
  have key : ∀ f : NearCount → Cell → NearCount,
      (∀ acc d,
        (f acc d).friendly_stones_near = acc.friendly_stones_near +
            (if (counts_as_near board x y player rows cols score_cols d &&
              decide ((board_at board (x + d.1) (y + d.2)).player = player)) = true
            then 1 else 0) ∧
        (f acc d).opponent_stones_near = acc.opponent_stones_near +
            (if (counts_as_near board x y player rows cols score_cols d &&
              !decide ((board_at board (x + d.1) (y + d.2)).player = player)) = true
            then 1 else 0)) →
      (([(1, 0), (-1, 0), (0, 1), (0, -1)] : List Cell).foldl f {}).friendly_stones_near
          = (([(1, 0), (-1, 0), (0, 1), (0, -1)] : List Cell).countP (fun d =>
              counts_as_near board x y player rows cols score_cols d &&
                decide ((board_at board (x + d.1) (y + d.2)).player = player)) : Int) ∧
        (([(1, 0), (-1, 0), (0, 1), (0, -1)] : List Cell).foldl f {}).opponent_stones_near
          = (([(1, 0), (-1, 0), (0, 1), (0, -1)] : List Cell).countP (fun d =>
              counts_as_near board x y player rows cols score_cols d &&
                !decide ((board_at board (x + d.1) (y + d.2)).player = player)) : Int) := by
    intro f hstep
    have h := near_count_fold f _ _ hstep ([(1, 0), (-1, 0), (0, 1), (0, -1)] : List Cell) {}
    simp only [zero_add] at h
    exact h
  unfold count_near
  apply key
  · intro acc d
    unfold counts_as_near
    by_cases c1 : within_board_limits (x + d.1) (y + d.2) rows cols = true
    · by_cases c2 : (is_player_scoring_slot x y player rows cols score_cols
          || rival_score_area x y player rows cols score_cols) = true
      · simp [c1, c2]
      · by_cases c3 : ((board_at board (x + d.1) (y + d.2)).isEmpty
            || is_player_scoring_slot (x + d.1) (y + d.2) player rows cols score_cols
            || rival_score_area (x + d.1) (y + d.2) player rows cols score_cols) = true
        · simp [c1, c2, c3]
        · by_cases hp : (board_at board (x + d.1) (y + d.2)).player = player
          · simp [c1, c2, c3, hp]
          · simp [c1, c2, c3, hp]
    · simp [c1]

/-- C29, failing input: on `river_pair_board` the only occupied neighbour of the River at
(0,5) is the River at (1,5) and the other way round, yet each has the friendly multiplier 1,
the two sums of `evaluate_river_system_potential` are (6, 0), and the result with the weights
1.2 and -2.6 is 7, not 0. -/
theorem river_neighbour_counts_counterexample :
    (board_at river_pair_board 0 5).side = Side.RIVER ∧
      (board_at river_pair_board 1 5).side = Side.RIVER ∧
      (count_near river_pair_board 0 5 Player.SQUARE 7 3 [1]).friendly_stones_near = 1 ∧
      (count_near river_pair_board 1 5 Player.SQUARE 7 3 [1]).friendly_stones_near = 1 ∧
      river_components river_pair_board Player.SQUARE 7 3 [1] = (6, 0) ∧
      evaluate_river_system_potential river_pair_board Player.SQUARE 7 3 [1] dbl_1_2
        dbl_neg_2_6 = 7 := by
  decide

/-! ## Fingerprints -/

theorem get_piece_index_same_layout (p q : Piece) (h : same_layout p q) :
    get_piece_index p = get_piece_index q := by
  obtain ⟨pp, ps, po⟩ := p
  obtain ⟨qp, qs, qo⟩ := q
  unfold same_layout Piece.isEmpty at h
  simp only at h
  obtain ⟨h1, h2, h3⟩ := h
  subst h1
  unfold get_piece_index Piece.isEmpty
  simp only
  by_cases he : pp = Player.NONE
  · simp [he]
  · have he' : decide (pp = Player.NONE) = false := by simpa using he
    have hs := h2 he'
    subst hs
    simp only [he', Bool.false_eq_true, if_false]
    by_cases hr : ps = Side.RIVER
    · have ho := h3 he' hr
      subst ho
      rfl
    · have hst : ps = Side.STONE := by
        cases ps with
        | STONE => rfl
        | RIVER => exact absurd rfl hr
      subst hst
      simp

/-- C22: for a fixed Zobrist table and the same side to move, two boards whose grid cells
agree on the owner, on the form of every non-empty cell and on the orientation of every River
have the same fingerprint; the form and orientation of empty cells and the orientation of
Stones do not enter. -/
theorem compute_hash_same_layout (ctx : SearchContext) (board other : FastBoard)
    (player : Player) (rows cols : Int)
    (h : ∀ x y : Int, within_board_limits x y rows cols = true →
      same_layout (board_at board x y) (board_at other x y)) :
    compute_hash ctx board player rows cols = compute_hash ctx other player rows cols := by
  have hfold : (int_range rows).foldl (fun h y =>
        (int_range cols).foldl (fun h' x =>
          h' ^^^ ctx.zobrist_table y.toNat x.toNat (get_piece_index (board_at board x y))) h) 0
      = (int_range rows).foldl (fun h y =>
        (int_range cols).foldl (fun h' x =>
          h' ^^^ ctx.zobrist_table y.toNat x.toNat (get_piece_index (board_at other x y))) h)
          0 := by
    apply List.foldl_ext
    intro a y hy
    apply List.foldl_ext
    intro b x hx
    rw [get_piece_index_same_layout _ _ (h x y ((within_board_limits_iff x y rows cols).2
      ⟨(mem_int_range cols x).1 hx, (mem_int_range rows y).1 hy⟩))]
  unfold compute_hash
  simp only [hfold]

theorem flow_board_variant_layout :
    ∀ x y : Int, within_board_limits x y 7 3 = true →
      same_layout (board_at flow_board x y) (board_at flow_board_variant x y) := by
  intro x y hin
  rw [within_board_limits_iff] at hin
  obtain ⟨⟨hx0, hx1⟩, hy0, hy1⟩ := hin
  interval_cases x <;> interval_cases y <;>
    exact ⟨by decide, by decide, by decide⟩

theorem compute_hash_same_layout_witness :
    (∀ x y : Int, within_board_limits x y 7 3 = true →
      same_layout (board_at flow_board x y) (board_at flow_board_variant x y)) ∧
    compute_hash square_agent flow_board Player.CIRCLE 7 3
      = compute_hash square_agent flow_board_variant Player.CIRCLE 7 3 :=
  ⟨flow_board_variant_layout,
   compute_hash_same_layout square_agent flow_board flow_board_variant Player.CIRCLE 7 3
     flow_board_variant_layout⟩

theorem xor_xor_cancel (a b k : Nat) : (a ^^^ k) ^^^ (b ^^^ k) = a ^^^ b := by
  rw [Nat.xor_assoc, Nat.xor_comm b k, ← Nat.xor_assoc k k b, Nat.xor_self, Nat.zero_xor]

theorem xor_xor_swap (a b k1 k2 : Nat) :
    (a ^^^ k1) ^^^ (b ^^^ k2) = a ^^^ b ^^^ k1 ^^^ k2 := by
  rw [Nat.xor_assoc a k1, ← Nat.xor_assoc k1 b k2, Nat.xor_comm k1 b, Nat.xor_assoc b k1 k2,
    ← Nat.xor_assoc a b, ← Nat.xor_assoc (a ^^^ b)]

/-- Two XOR folds over keys that agree on every element differ as their start values do. -/
theorem xor_fold_agree {α : Type} (k1 k2 : α → Nat) :
    ∀ (l : List α) (a b : Nat), (∀ c ∈ l, k1 c = k2 c) →
      l.foldl (fun h c => h ^^^ k1 c) a ^^^ l.foldl (fun h c => h ^^^ k2 c) b = a ^^^ b := by
  intro l
  induction l with
  | nil => intro a b _; rfl
  | cons c l ih =>
    intro a b h
    rw [List.foldl_cons, List.foldl_cons, ih _ _ (fun c' hc' => h c' (List.mem_cons_of_mem _ hc')),
      h c (List.mem_cons_self _ _), xor_xor_cancel]

/-- Two XOR folds over keys that agree on every element but `q` differ, from equal start
values, by the XOR of the two keys of `q`. -/
theorem xor_fold_single {α : Type} (k1 k2 : α → Nat) (q : α) :
    ∀ (l : List α) (a b : Nat), l.Nodup → q ∈ l → (∀ c ∈ l, c ≠ q → k1 c = k2 c) →
      l.foldl (fun h c => h ^^^ k1 c) a ^^^ l.foldl (fun h c => h ^^^ k2 c) b
        = a ^^^ b ^^^ k1 q ^^^ k2 q := by
  intro l
  induction l with
  | nil => intro a b _ hq; cases hq
  | cons c l ih =>
    intro a b hnd hq h
    rw [List.nodup_cons] at hnd
    rw [List.foldl_cons, List.foldl_cons]
    by_cases hc : c = q
    · subst hc
      rw [xor_fold_agree k1 k2 l _ _ (fun c' hc' =>
        h c' (List.mem_cons_of_mem _ hc') (fun e => hnd.1 (e ▸ hc'))), xor_xor_swap]
    · have hq' : q ∈ l := by
        rcases List.mem_cons.1 hq with e | e
        · exact absurd e.symm hc
        · exact e
      rw [ih _ _ hnd.2 hq' (fun c' hc' => h c' (List.mem_cons_of_mem _ hc')),
        h c (List.mem_cons_self _ _) hc, xor_xor_cancel]

theorem foldl_flatMap_eq {α β γ : Type} (f : γ → β → γ) (g : α → List β) :
    ∀ (l : List α) (init : γ),
      (l.flatMap g).foldl f init = l.foldl (fun acc a => (g a).foldl f acc) init := by
  intro l
  induction l with
  | nil => intro init; rfl
  | cons a l ih =>
    intro init
    rw [List.flatMap_cons, List.foldl_append, ih, List.foldl_cons]

/-- The board part of the fingerprint as one XOR fold over the grid cells. -/
theorem hash_fold_grid (key : Nat → Nat → Nat → Nat) (board : FastBoard) (rows cols : Int) :
    (int_range rows).foldl (fun h y =>
        (int_range cols).foldl (fun h' x =>
          h' ^^^ key y.toNat x.toNat (get_piece_index (board_at board x y))) h) 0
      = (grid_cells rows cols).foldl (fun h c =>
          h ^^^ key c.2.toNat c.1.toNat (get_piece_index (board_at board c.1 c.2))) 0 := by
  unfold grid_cells
  rw [foldl_flatMap_eq]
  apply List.foldl_ext
  intro a y _
  rw [List.foldl_map]

theorem get_piece_index_lt (p : Piece) : get_piece_index p < 7 := by
  unfold get_piece_index
  split_ifs <;> omega

theorem piece_states_index :
    ∀ p ∈ piece_states, ∀ q ∈ piece_states, p ≠ q → get_piece_index p ≠ get_piece_index q := by
  decide

/-- C23: two boards that differ only at the grid cell `(x, y)`, where they hold two different
piece states, have fingerprints (same side to move) whose XOR is the XOR of the two Zobrist
keys of the cell for these states; the fingerprints are different when the seven keys of
the cell are pairwise distinct. -/
theorem compute_hash_single_cell (ctx : SearchContext) (board other : FastBoard)
    (player : Player) (rows cols : Int) (x y : Int)
    (hin : within_board_limits x y rows cols = true)
    (hp : board_at board x y ∈ piece_states) (hq : board_at other x y ∈ piece_states)
    (hne : board_at board x y ≠ board_at other x y)
    (hsame : ∀ x' y' : Int, within_board_limits x' y' rows cols = true → (x', y') ≠ (x, y) →
      board_at other x' y' = board_at board x' y') :
    compute_hash ctx board player rows cols ^^^ compute_hash ctx other player rows cols
        = ctx.zobrist_table y.toNat x.toNat (get_piece_index (board_at board x y)) ^^^
          ctx.zobrist_table y.toNat x.toNat (get_piece_index (board_at other x y)) ∧
      ((∀ i < 7, ∀ j < 7, i ≠ j →
          ctx.zobrist_table y.toNat x.toNat i ≠ ctx.zobrist_table y.toNat x.toNat j) →
        compute_hash ctx board player rows cols ≠ compute_hash ctx other player rows cols) := by
  have hgrid := xor_fold_single
    (fun c : Cell => ctx.zobrist_table c.2.toNat c.1.toNat
      (get_piece_index (board_at board c.1 c.2)))
    (fun c : Cell => ctx.zobrist_table c.2.toNat c.1.toNat
      (get_piece_index (board_at other c.1 c.2)))
    (x, y) (grid_cells rows cols) 0 0 (nodup_grid_cells rows cols)
    ((mem_grid_cells rows cols (x, y)).2 hin)
    (fun c hc hcq => by
      simp only
      rw [hsame c.1 c.2 ((mem_grid_cells rows cols c).1 hc) hcq])
  simp only [Nat.xor_self, Nat.zero_xor] at hgrid
  have hxor : compute_hash ctx board player rows cols ^^^
      compute_hash ctx other player rows cols
      = ctx.zobrist_table y.toNat x.toNat (get_piece_index (board_at board x y)) ^^^
        ctx.zobrist_table y.toNat x.toNat (get_piece_index (board_at other x y)) := by
    unfold compute_hash
    simp only [hash_fold_grid]
    by_cases ht : player = ctx.opp_side_
    · rw [if_pos ht, if_pos ht, xor_xor_cancel]
      exact hgrid
    · rw [if_neg ht, if_neg ht]
      exact hgrid
  refine ⟨hxor, ?_⟩
  intro hkeys heq
  rw [heq, Nat.xor_self] at hxor
  have hk := Nat.xor_eq_zero.1 hxor.symm
  exact hkeys _ (get_piece_index_lt _) _ (get_piece_index_lt _)
    (piece_states_index _ hp _ hq hne) hk

theorem flow_board_extra_stone_same :
    ∀ x' y' : Int, within_board_limits x' y' 7 3 = true → (x', y') ≠ ((2, 0) : Cell) →
      board_at flow_board_extra_stone x' y' = board_at flow_board x' y' := by
  intro x y hin hne
  rw [within_board_limits_iff] at hin
  obtain ⟨⟨hx0, hx1⟩, hy0, hy1⟩ := hin
  interval_cases x <;> interval_cases y <;> first | exact absurd rfl hne | decide

theorem compute_hash_single_cell_witness :
    (within_board_limits 2 0 7 3 = true ∧ board_at flow_board 2 0 ∈ piece_states ∧
      board_at flow_board_extra_stone 2 0 ∈ piece_states ∧
      board_at flow_board 2 0 ≠ board_at flow_board_extra_stone 2 0 ∧
      ∀ x' y' : Int, within_board_limits x' y' 7 3 = true → (x', y') ≠ ((2, 0) : Cell) →
        board_at flow_board_extra_stone x' y' = board_at flow_board x' y') ∧
    (compute_hash square_agent flow_board Player.SQUARE 7 3 ^^^
        compute_hash square_agent flow_board_extra_stone Player.SQUARE 7 3
        = square_agent.zobrist_table (0 : Int).toNat (2 : Int).toNat
            (get_piece_index (board_at flow_board 2 0)) ^^^
          square_agent.zobrist_table (0 : Int).toNat (2 : Int).toNat
            (get_piece_index (board_at flow_board_extra_stone 2 0)) ∧
      ((∀ i < 7, ∀ j < 7, i ≠ j →
          square_agent.zobrist_table (0 : Int).toNat (2 : Int).toNat i
            ≠ square_agent.zobrist_table (0 : Int).toNat (2 : Int).toNat j) →
        compute_hash square_agent flow_board Player.SQUARE 7 3
          ≠ compute_hash square_agent flow_board_extra_stone Player.SQUARE 7 3)) :=
  ⟨⟨by decide, by decide, by decide, by decide, flow_board_extra_stone_same⟩,
   compute_hash_single_cell square_agent flow_board flow_board_extra_stone Player.SQUARE 7 3
     2 0 (by decide) (by decide) (by decide) (by decide) flow_board_extra_stone_same⟩

/-! ## Table lookup and stored flags -/

/-- C24: at a node whose fingerprint is not in the position history and for which the table
holds an Exact entry with stored depth at least the requested remaining depth,
`alpha_beta_search` returns the score of that entry for every `alpha` and `beta`, and returns
the table unchanged. -/
theorem alpha_beta_search_exact_hit (ctx : SearchContext) (rows cols : Int)
    (score_cols : List Int) (position_history : List Nat) (depth : Nat)
    (tt : TranspositionTable) (board_state : FastBoard) (alpha beta : Score)
    (current_player : Player) (e : TTEntry)
    (hfresh : compute_hash ctx board_state current_player rows cols ∉ position_history)
    (he : tt (compute_hash ctx board_state current_player rows cols) = some e)
    (hflag : e.flag = TTFlag.EXACT) (hdepth : depth ≤ e.depth) :
    alpha_beta_search ctx rows cols score_cols position_history depth tt board_state alpha
        beta current_player
      = (e.score, tt) := by
  have hprobe : tt_probe tt (compute_hash ctx board_state current_player rows cols) depth
      alpha beta = TTProbe.hit e.score := by
    unfold tt_probe
    rw [he]
    simp only [ge_iff_le, hdepth, if_true, hflag]
  have key : ∀ child_search, search_node ctx rows cols score_cols position_history
      child_search depth tt board_state alpha beta current_player = (e.score, tt) := by
    intro child_search
    unfold search_node
    simp only [if_neg hfresh, hprobe]
  cases depth with
  | zero => unfold alpha_beta_search; exact key _
  | succ d => unfold alpha_beta_search; exact key _

set_option maxRecDepth 1000000 in
theorem alpha_beta_search_exact_hit_witness :
    (compute_hash square_agent lone_stone_board Player.SQUARE 17 3 ∉ ([] : List Nat) ∧
      deeper_table (compute_hash square_agent lone_stone_board Player.SQUARE 17 3)
        = some { score := Score.val 12000, depth := 1, flag := TTFlag.EXACT } ∧
      (1 : Nat) ≤ 1) ∧
    alpha_beta_search square_agent 17 3 [1] [] 1 deeper_table lone_stone_board (Score.val 0)
        (Score.val 5) Player.SQUARE
      = (Score.val 12000, deeper_table) :=
  ⟨⟨List.not_mem_nil _, by decide!, le_refl 1⟩,
   alpha_beta_search_exact_hit square_agent 17 3 [1] [] 1 deeper_table lone_stone_board
     (Score.val 0) (Score.val 5) Player.SQUARE
     { score := Score.val 12000, depth := 1, flag := TTFlag.EXACT } (List.not_mem_nil _)
     (by decide!) rfl (le_refl 1)⟩

theorem Score.lt_irrefl (a : Score) : a.lt a = false := by
  cases a <;> simp [Score.lt]

/-- After the minimizing loop has handled at least one move, `min_score` is not below the
`beta` the loop leaves behind. -/
theorem min_loop_ge_beta (child_search : TranspositionTable → FastBoard → Score → Score →
      Player → Score × TranspositionTable)
    (board : FastBoard) (alpha : Score) (next_player : Player) :
    ∀ (l : List Move) (tt : TranspositionTable) (beta min_score : Score),
      (min_score.ge beta = true ∨ l ≠ []) →
      (min_loop child_search board alpha next_player l tt beta min_score).1.ge
        (min_loop child_search board alpha next_player l tt beta min_score).2.1 = true := by
  intro l
  induction l with
  | nil =>
    intro tt beta min_score h
    rcases h with h | h
    · simpa [min_loop] using h
    · exact absurd rfl h
  | cons move rest ih =>
    intro tt beta min_score _
    have hstep : ∀ m : Score, m.ge (score_min beta m) = true := by
      intro m
      unfold Score.ge score_min
      by_cases hlt : m.lt beta = true
      · rw [if_pos hlt, Score.lt_irrefl]; rfl
      · rw [if_neg hlt]
        simpa using hlt
    unfold min_loop
    simp only
    split_ifs
    · exact hstep _
    · exact ih _ _ _ (Or.inl (hstep _))

/-- C25, what the code does at a minimizing node: when `alpha_beta_search` expands a node at
which the opponent of the engine is to move, the entry it stores is tagged Upper if the
score is `<=` the original `alpha` and Lower otherwise; it is never tagged Exact, because the
flag test reads the `beta` that the loop has already lowered to the score. -/
theorem minimizing_node_stores_bound (ctx : SearchContext) (rows cols : Int)
    (score_cols : List Int) (position_history : List Nat) (depth : Nat)
    (tt : TranspositionTable) (board_state : FastBoard) (alpha beta alpha1 beta1 : Score)
    (current_player : Player)
    (hfresh : compute_hash ctx board_state current_player rows cols ∉ position_history)
    (hprobe : tt_probe tt (compute_hash ctx board_state current_player rows cols) (depth + 1)
      alpha beta = TTProbe.window alpha1 beta1)
    (hwin : is_win_state board_state rows cols score_cols = false)
    (hmoves : calculate_possible_actions board_state current_player rows cols score_cols ≠ [])
    (hmin : current_player ≠ ctx.side_) :
    (alpha_beta_search ctx rows cols score_cols position_history (depth + 1) tt board_state
        alpha beta current_player).2
        (compute_hash ctx board_state current_player rows cols)
      = some { score := (alpha_beta_search ctx rows cols score_cols position_history
                  (depth + 1) tt board_state alpha beta current_player).1,
               depth := depth + 1,
               flag := if (alpha_beta_search ctx rows cols score_cols position_history
                     (depth + 1) tt board_state alpha beta current_player).1.le alpha = true
                   then TTFlag.UPPER_BOUND else TTFlag.LOWER_BOUND } := by
  have hlist : (if depth + 1 > 1 ∧
        (calculate_possible_actions board_state current_player rows cols score_cols).length > 1
      then order_moves ctx board_state rows cols score_cols false
        (calculate_possible_actions board_state current_player rows cols score_cols)
      else calculate_possible_actions board_state current_player rows cols score_cols)
      ≠ [] := by
    obtain ⟨m, hm⟩ := List.exists_mem_of_ne_nil _ hmoves
    split_ifs
    · exact List.ne_nil_of_mem ((mem_order_moves ctx board_state rows cols score_cols false _
        m).2 hm)
    · exact hmoves
  have hleaf : ¬ (is_win_state board_state rows cols score_cols = true ∨ depth + 1 = 0) := by
    rw [hwin]
    simp
  have hdec : decide (current_player = ctx.side_) = false := by simpa using hmin
  unfold alpha_beta_search search_node
  simp only [if_neg hfresh, hprobe, if_neg hleaf, if_neg hmoves, hdec, Bool.false_eq_true,
    if_false]
  generalize (if depth + 1 > 1 ∧
        (calculate_possible_actions board_state current_player rows cols score_cols).length > 1
      then order_moves ctx board_state rows cols score_cols false
        (calculate_possible_actions board_state current_player rows cols score_cols)
      else calculate_possible_actions board_state current_player rows cols score_cols) = l
    at hlist ⊢
  have hge := min_loop_ge_beta
    (alpha_beta_search ctx rows cols score_cols position_history depth) board_state alpha1
    (opponent current_player) l tt beta1 Score.pos_inf (Or.inr hlist)
  simp only [hge, if_true, tt_store]

theorem minimizing_node_stores_bound_witness :
    (compute_hash square_agent flow_board Player.CIRCLE 7 3 ∉ ([] : List Nat) ∧
      tt_probe tt_empty (compute_hash square_agent flow_board Player.CIRCLE 7 3) (0 + 1)
        Score.neg_inf Score.pos_inf = TTProbe.window Score.neg_inf Score.pos_inf ∧
      is_win_state flow_board 7 3 [1] = false ∧
      calculate_possible_actions flow_board Player.CIRCLE 7 3 [1] ≠ [] ∧
      Player.CIRCLE ≠ square_agent.side_) ∧
    (alpha_beta_search square_agent 7 3 [1] [] (0 + 1) tt_empty flow_board Score.neg_inf
        Score.pos_inf Player.CIRCLE).2 (compute_hash square_agent flow_board Player.CIRCLE 7 3)
      = some { score := (alpha_beta_search square_agent 7 3 [1] [] (0 + 1) tt_empty
                  flow_board Score.neg_inf Score.pos_inf Player.CIRCLE).1,
               depth := 0 + 1,
               flag := if (alpha_beta_search square_agent 7 3 [1] [] (0 + 1) tt_empty
                     flow_board Score.neg_inf Score.pos_inf Player.CIRCLE).1.le Score.neg_inf
                     = true
                   then TTFlag.UPPER_BOUND else TTFlag.LOWER_BOUND } :=
  ⟨⟨List.not_mem_nil _, rfl, by decide, by decide, by decide⟩,
   minimizing_node_stores_bound square_agent 7 3 [1] [] 0 tt_empty flow_board Score.neg_inf
     Score.pos_inf Score.neg_inf Score.pos_inf Player.CIRCLE (List.not_mem_nil _) rfl
     (by decide) (by decide) (by decide)⟩

set_option maxRecDepth 1000000 in
/-- C25, failing input: `square_agent` searches `flow_board` with Circle to move, remaining
depth 1, the full window and the cleared table.  The node is expanded (six Circle actions),
its score -8672 lies strictly between the original `alpha` and `beta`, and the entry stored
for it is tagged Lower, not Exact. -/
theorem minimizing_node_flag_counterexample :
    (alpha_beta_search square_agent 7 3 [1] [] 1 tt_empty flow_board Score.neg_inf
        Score.pos_inf Player.CIRCLE).1 = Score.val (-8672) ∧
      Score.neg_inf.lt (Score.val (-8672)) = true ∧
      (Score.val (-8672)).lt Score.pos_inf = true ∧
      (alpha_beta_search square_agent 7 3 [1] [] 1 tt_empty flow_board Score.neg_inf
        Score.pos_inf Player.CIRCLE).2 (compute_hash square_agent flow_board Player.CIRCLE 7 3)
        = some { score := Score.val (-8672), depth := 1, flag := TTFlag.LOWER_BOUND } := by
  decide!

theorem Score.le_of_le_of_lt (a b c : Score) (h1 : a.le b = true) (h2 : b.lt c = true) :
    a.le c = true := by
  cases a <;> cases b <;> cases c <;> simp_all [Score.le, Score.lt]
  omega

theorem Score.le_antisymm (a b : Score) (h1 : a.le b = true) (h2 : b.le a = true) : a = b := by
  cases a <;> cases b <;> simp_all [Score.le, Score.lt]
  omega

theorem Score.le_refl (a : Score) : a.le a = true := by
  cases a <;> simp [Score.le, Score.lt]

/-- A node searched at remaining depth 0 with a table that holds under its fingerprint
nothing or an Exact entry with the node's static score: the search returns the depth-0
minimax value, and the table afterwards is the old one or the old one with such an Exact
entry stored. -/
theorem alpha_beta_search_zero (ctx : SearchContext) (rows cols : Int) (score_cols : List Int)
    (position_history : List Nat) (tt : TranspositionTable)
    (board_state : FastBoard) (alpha beta : Score) (current_player : Player)
    (htt : ∀ e, tt (compute_hash ctx board_state current_player rows cols) = some e →
      e.flag = TTFlag.EXACT ∧ e.score = static_score ctx board_state rows cols score_cols) :
    (alpha_beta_search ctx rows cols score_cols position_history 0 tt board_state alpha
        beta current_player).1
        = minimax_value ctx rows cols score_cols position_history 0 board_state
            current_player ∧
      ((alpha_beta_search ctx rows cols score_cols position_history 0 tt board_state alpha
          beta current_player).2 = tt ∨
        (alpha_beta_search ctx rows cols score_cols position_history 0 tt board_state alpha
          beta current_player).2
          = tt_store tt (compute_hash ctx board_state current_player rows cols)
              { score := static_score ctx board_state rows cols score_cols, depth := 0,
                flag := TTFlag.EXACT }) := by
  unfold alpha_beta_search search_node minimax_value
  by_cases hin : compute_hash ctx board_state current_player rows cols ∈ position_history
  · simp only [if_pos hin]
    exact ⟨trivial, Or.inl trivial⟩
  · simp only [if_neg hin]
    have hprobe : (∃ s, tt_probe tt (compute_hash ctx board_state current_player rows cols)
          0 alpha beta = TTProbe.hit s ∧
          s = static_score ctx board_state rows cols score_cols) ∨
        tt_probe tt (compute_hash ctx board_state current_player rows cols) 0 alpha beta
          = TTProbe.window alpha beta := by
      unfold tt_probe
      cases he : tt (compute_hash ctx board_state current_player rows cols) with
      | none => exact Or.inr rfl
      | some e =>
        obtain ⟨hf, hs⟩ := htt e he
        simp only [hf, if_true]
        rw [if_pos (Nat.zero_le _)]; exact Or.inl ⟨_, rfl, hs⟩
    rcases hprobe with ⟨s, hp, hs⟩ | hp
    · rw [hp]; exact ⟨hs, Or.inl rfl⟩
    · rw [hp]
      simp only [or_true, if_true]
      exact ⟨trivial, trivial⟩

/-- Searching a root successor at remaining depth 0 returns its depth-0 minimax value and
keeps the successors' table entries exact, when successors with the same fingerprint have
the same static score. -/
theorem successor_search_zero (ctx : SearchContext) (rows cols : Int) (score_cols : List Int)
    (position_history : List Nat) (board : FastBoard)
    (hkeys : ∀ a ∈ calculate_possible_actions board ctx.side_ rows cols score_cols,
      ∀ b ∈ calculate_possible_actions board ctx.side_ rows cols score_cols,
        compute_hash ctx (get_next_board_state board a) ctx.opp_side_ rows cols
            = compute_hash ctx (get_next_board_state board b) ctx.opp_side_ rows cols →
          static_score ctx (get_next_board_state board a) rows cols score_cols
            = static_score ctx (get_next_board_state board b) rows cols score_cols)
    (tt : TranspositionTable) (alpha beta : Score) (a : Move)
    (ha : a ∈ calculate_possible_actions board ctx.side_ rows cols score_cols)
    (htt : successor_entries_exact ctx rows cols score_cols board tt) :
    (alpha_beta_search ctx rows cols score_cols position_history 0 tt
        (get_next_board_state board a) alpha beta ctx.opp_side_).1
        = minimax_value ctx rows cols score_cols position_history 0
            (get_next_board_state board a) ctx.opp_side_ ∧
      successor_entries_exact ctx rows cols score_cols board
        (alpha_beta_search ctx rows cols score_cols position_history 0 tt
          (get_next_board_state board a) alpha beta ctx.opp_side_).2 := by
  obtain ⟨h1, h2⟩ := alpha_beta_search_zero ctx rows cols score_cols position_history tt
    (get_next_board_state board a) alpha beta ctx.opp_side_ (htt a ha)
  refine ⟨h1, ?_⟩
  rcases h2 with h2 | h2
  · rw [h2]; exact htt
  · rw [h2]
    intro b hb e he
    unfold tt_store at he
    by_cases hk : compute_hash ctx (get_next_board_state board b) ctx.opp_side_ rows cols
        = compute_hash ctx (get_next_board_state board a) ctx.opp_side_ rows cols
    · rw [if_pos hk] at he
      cases he
      exact ⟨rfl, hkeys a ha b hb hk.symm⟩
    · rw [if_neg hk] at he
      exact htt b hb e he

/-- The root loop when the search gives every legal move `a` the score `value a` whatever
the window, and no time check fails: the loop completes, and afterwards `top_score` is the
largest value and the tie list holds exactly the moves of that value. -/
theorem root_loop_ties (ctx : SearchContext) (rows cols : Int) (score_cols : List Int)
    (position_history : List Nat) (clock : Nat → Bool) (board : FastBoard) (depth : Nat)
    (value : Move → Score) (Inv : TranspositionTable → Prop)
    (hchild : ∀ a ∈ calculate_possible_actions board ctx.side_ rows cols score_cols,
      ∀ tt alpha, Inv tt →
        (alpha_beta_search ctx rows cols score_cols position_history (depth - 1) tt
          (get_next_board_state board a) alpha Score.pos_inf ctx.opp_side_).1 = value a ∧
        Inv (alpha_beta_search ctx rows cols score_cols position_history (depth - 1) tt
          (get_next_board_state board a) alpha Score.pos_inf ctx.opp_side_).2) :
    ∀ (moves seen : List Move) (st : RootLoopState),
      (∀ m ∈ moves, m ∈ calculate_possible_actions board ctx.side_ rows cols score_cols) →
      Inv st.tt → ties_are_best value seen st →
      (∀ j, j < moves.length → clock (st.tick + j) = false) →
      (root_loop ctx rows cols score_cols position_history clock board depth moves st).2
          = true ∧
        ties_are_best value (seen ++ moves)
          (root_loop ctx rows cols score_cols position_history clock board depth moves
            st).1 := by
  intro moves
  induction moves with
  | nil =>
    intro seen st _ _ hst _
    simp only [root_loop, List.append_nil]
    exact ⟨trivial, hst⟩
  | cons mv rest ih =>
    intro seen st hmem htt hst hclock
    have hmv := hmem mv (List.mem_cons_self _ _)
    have hrest : ∀ m ∈ rest, m ∈ calculate_possible_actions board ctx.side_ rows cols
        score_cols := fun m hm => hmem m (List.mem_cons_of_mem _ hm)
    obtain ⟨hscore, htt'⟩ := hchild mv hmv st.tt st.top_score htt
    have h0 : clock st.tick = false := by simpa using hclock 0 (by simp)
    obtain ⟨hs1, hs2, hs3, hs4⟩ := hst
    have hstep : ∃ st1 : RootLoopState,
        root_loop ctx rows cols score_cols position_history clock board depth (mv :: rest) st
          = (if clock st.tick then (st1, false)
             else root_loop ctx rows cols score_cols position_history clock board depth rest
               st1) ∧
        Inv st1.tt ∧ st1.tick = st.tick + 1 ∧ ties_are_best value (seen ++ [mv]) st1 := by
      refine ⟨_, by rw [root_loop], ?_, ?_, ?_⟩
      · split_ifs <;> exact htt'
      · split_ifs <;> rfl
      · rw [hscore]
        by_cases hlt : st.top_score.lt (value mv) = true
        · rw [if_pos hlt]
          refine ⟨by simp, fun _ => ⟨mv, by simp, rfl⟩, ?_, ?_⟩
          · intro m hm
            simp only [List.mem_append, List.mem_singleton] at hm
            rcases hm with hm | hm
            · exact Score.le_of_le_of_lt _ _ _ (hs3 m hm) hlt
            · rw [hm]; exact Score.le_refl _
          · intro m
            simp only [List.mem_append, List.mem_singleton]
            constructor
            · intro hm; rw [hm]; exact ⟨Or.inr rfl, rfl⟩
            · rintro ⟨hm | hm, hv⟩
              · exfalso
                have := hs3 m hm
                rw [hv] at this
                simp only [Score.le, hlt, Bool.not_true] at this
                exact Bool.false_ne_true this
              · exact hm
        · rw [if_neg hlt]
          have hle : (value mv).le st.top_score = true := by
            simp only [Score.le]
            simpa using hlt
          by_cases heq : value mv = st.top_score
          · rw [if_pos heq]
            refine ⟨by simp, fun _ => ⟨mv, by simp, heq⟩, ?_, ?_⟩
            · intro m hm
              simp only [List.mem_append, List.mem_singleton] at hm
              rcases hm with hm | hm
              · exact hs3 m hm
              · rw [hm]; exact hle
            · intro m
              simp only [List.mem_append, List.mem_singleton]
              constructor
              · rintro (hm | hm)
                · exact ⟨Or.inl ((hs4 m).1 hm).1, ((hs4 m).1 hm).2⟩
                · rw [hm]; exact ⟨Or.inr rfl, heq⟩
              · rintro ⟨hm | hm, hv⟩
                · exact Or.inl ((hs4 m).2 ⟨hm, hv⟩)
                · exact Or.inr hm
          · rw [if_neg heq]
            have hne : seen ≠ [] := by
              intro hnil
              have ht := hs1 hnil
              rw [ht] at hlt heq
              cases hv : value mv with
              | neg_inf => exact heq hv
              | val v => rw [hv] at hlt; exact hlt rfl
              | pos_inf => rw [hv] at hlt; exact hlt rfl
            obtain ⟨g, hg, hgv⟩ := hs2 hne
            refine ⟨by simp, fun _ => ⟨g, by simp [hg], hgv⟩, ?_, ?_⟩
            · intro m hm
              simp only [List.mem_append, List.mem_singleton] at hm
              rcases hm with hm | hm
              · exact hs3 m hm
              · rw [hm]; exact hle
            · intro m
              simp only [List.mem_append, List.mem_singleton]
              constructor
              · intro hm
                exact ⟨Or.inl ((hs4 m).1 hm).1, ((hs4 m).1 hm).2⟩
              · rintro ⟨hm | hm, hv⟩
                · exact (hs4 m).2 ⟨hm, hv⟩
                · rw [hm] at hv; exact absurd hv heq
    obtain ⟨st1, e1, i1, i2, i3⟩ := hstep
    rw [e1, h0]
    simp only [Bool.false_eq_true, if_false]
    have := ih (seen ++ [mv]) st1 hrest i1 i3 (by
      intro j hj
      rw [i2]
      have hj' := hclock (j + 1) (by simpa using hj)
      have : st.tick + 1 + j = st.tick + (j + 1) := by omega
      rw [this]; exact hj')
    simpa using this

set_option maxRecDepth 1000000 in
/-- C26 (counterexample): on `stone_duel_board` with the engine as Square, an empty history
and no time check failing, depth 2 completes and keeps the tie list
[`duel_step_up`, `duel_step_aside`].  Both are legal, but the depth-1 minimax value of the
child of `duel_step_up` is 2088 and that of the child of `duel_step_aside` is only 888: the
list holds an action whose value is not the maximum. -/
theorem tie_list_holds_worse_action_counterexample :
    (iterative_deepening square_agent 7 3 [1] [] (fun _ => false) stone_duel_board 2).2
        = SearchStop.all_depths_done ∧
      (iterative_deepening square_agent 7 3 [1] [] (fun _ => false) stone_duel_board
          2).1.best_action_list = [duel_step_up, duel_step_aside] ∧
      duel_step_up ∈ calculate_possible_actions stone_duel_board Player.SQUARE 7 3 [1] ∧
      duel_step_aside ∈ calculate_possible_actions stone_duel_board Player.SQUARE 7 3 [1] ∧
      minimax_value square_agent 7 3 [1] [] 1
          (get_next_board_state stone_duel_board duel_step_up) Player.CIRCLE
        = Score.val 2088 ∧
      minimax_value square_agent 7 3 [1] [] 1
          (get_next_board_state stone_duel_board duel_step_aside) Player.CIRCLE
        = Score.val 888 := by
  decide!

/-- C26 (amended): at depth 1 of `find_best_move`, which starts from the cleared table and
searches every child at remaining depth 0, when no time check of the iteration fails and
root children with the same fingerprint have the same static score, the iteration completes
and an action is in its tie list if and only if it is a legal root action whose child has
the largest depth-0 minimax value among the children of all legal root actions. -/
theorem depth_one_tie_list_is_best_set (ctx : SearchContext) (rows cols : Int)
    (score_cols : List Int) (position_history : List Nat) (clock : Nat → Bool)
    (board : FastBoard)
    (hkeys : ∀ a ∈ calculate_possible_actions board ctx.side_ rows cols score_cols,
      ∀ b ∈ calculate_possible_actions board ctx.side_ rows cols score_cols,
        compute_hash ctx (get_next_board_state board a) ctx.opp_side_ rows cols
            = compute_hash ctx (get_next_board_state board b) ctx.opp_side_ rows cols →
          static_score ctx (get_next_board_state board a) rows cols score_cols
            = static_score ctx (get_next_board_state board b) rows cols score_cols)
    (hclock : ∀ i, 1 ≤ i →
      i ≤ (calculate_possible_actions board ctx.side_ rows cols score_cols).length →
      clock i = false) :
    (run_depth ctx rows cols score_cols position_history clock board 1
        ⟨[], [], tt_empty, 0⟩).2 = true ∧
      ∀ m, m ∈ (run_depth ctx rows cols score_cols position_history clock board 1
            ⟨[], [], tt_empty, 0⟩).1.current_depth_best_moves ↔
        (m ∈ calculate_possible_actions board ctx.side_ rows cols score_cols ∧
          ∀ a ∈ calculate_possible_actions board ctx.side_ rows cols score_cols,
            (minimax_value ctx rows cols score_cols position_history 0
                (get_next_board_state board a) ctx.opp_side_).le
              (minimax_value ctx rows cols score_cols position_history 0
                (get_next_board_state board m) ctx.opp_side_) = true) := by
  have hloop := root_loop_ties ctx rows cols score_cols position_history clock board 1
    (fun a => minimax_value ctx rows cols score_cols position_history 0
      (get_next_board_state board a) ctx.opp_side_)
    (successor_entries_exact ctx rows cols score_cols board)
    (fun a ha tt alpha htt => successor_search_zero ctx rows cols score_cols position_history
      board hkeys tt alpha Score.pos_inf a ha htt)
    (calculate_possible_actions board ctx.side_ rows cols score_cols) []
    ⟨Score.neg_inf, [], [], tt_empty, 1⟩ (fun m hm => hm)
    (by intro a _ e he; simp [tt_empty] at he)
    ⟨fun _ => rfl, fun h => absurd rfl h, by simp, by simp⟩
    (by
      intro j hj
      exact hclock (1 + j) (by omega) (by omega))
  have hrun : run_depth ctx rows cols score_cols position_history clock board 1
        ⟨[], [], tt_empty, 0⟩
      = root_loop ctx rows cols score_cols position_history clock board 1
          (calculate_possible_actions board ctx.side_ rows cols score_cols)
          ⟨Score.neg_inf, [], [], tt_empty, 1⟩ := by
    unfold run_depth ordered_root_moves
    simp
  rw [hrun]
  obtain ⟨hdone, -, hsome, hle, hiff⟩ := hloop
  simp only [List.nil_append] at hsome hle hiff
  refine ⟨hdone, ?_⟩
  intro m
  rw [hiff m]
  constructor
  · rintro ⟨hm, hv⟩
    refine ⟨hm, ?_⟩
    intro a ha
    rw [hv]
    exact hle a ha
  · rintro ⟨hm, hmax⟩
    refine ⟨hm, ?_⟩
    obtain ⟨g, hg, hgv⟩ := hsome (List.ne_nil_of_mem hm)
    apply Score.le_antisymm
    · exact hle m hm
    · rw [← hgv]
      exact hmax g hg

set_option maxRecDepth 1000000 in
/-- C26 (amended), witness: the theorem at `stone_duel_board` with the engine as Square, an
empty history and a clock that never fails. -/
theorem depth_one_tie_list_is_best_set_witness :
    (run_depth square_agent 7 3 [1] [] (fun _ => false) stone_duel_board 1
        ⟨[], [], tt_empty, 0⟩).2 = true ∧
      ∀ m, m ∈ (run_depth square_agent 7 3 [1] [] (fun _ => false) stone_duel_board 1
            ⟨[], [], tt_empty, 0⟩).1.current_depth_best_moves ↔
        (m ∈ calculate_possible_actions stone_duel_board square_agent.side_ 7 3 [1] ∧
          ∀ a ∈ calculate_possible_actions stone_duel_board square_agent.side_ 7 3 [1],
            (minimax_value square_agent 7 3 [1] [] 0
                (get_next_board_state stone_duel_board a) square_agent.opp_side_).le
              (minimax_value square_agent 7 3 [1] [] 0
                (get_next_board_state stone_duel_board m) square_agent.opp_side_) = true) :=
  depth_one_tie_list_is_best_set square_agent 7 3 [1] [] (fun _ => false) stone_duel_board
    (by decide!) (fun _ _ _ => rfl)

/-! ## Destinations of the river-flow traversal -/

/-- Marking an index keeps the marked indices marked. -/
theorem vec_get_mark_of_get (v : List Bool) (i j : Int) (h : vec_get v j = true) :
    vec_get (vec_mark v i) j = true := by
  unfold vec_get at h ⊢
  unfold vec_mark
  by_cases hj : j < 0
  · rw [if_pos hj] at h; exact absurd h (by decide)
  · rw [if_neg hj] at h ⊢
    by_cases hi : i < 0
    · rw [if_pos hi]; exact h
    · rw [if_neg hi]
      rw [List.getD_eq_getElem?_getD] at h ⊢
      rw [List.getElem?_set]
      by_cases he : i.toNat = j.toNat
      · rw [if_pos he]
        by_cases hl : i.toNat < v.length
        · rw [if_pos hl]; rfl
        · rw [if_neg hl]
          rw [List.getElem?_eq_none (by omega)] at h
          exact absurd h (by decide)
      · rw [if_neg he]; exact h

/-- A marked index of the vector reads as marked. -/
theorem vec_get_mark_self (v : List Bool) (i : Int) (h0 : 0 ≤ i) (h1 : i.toNat < v.length) :
    vec_get (vec_mark v i) i = true := by
  unfold vec_get vec_mark
  rw [if_neg (by omega), if_neg (by omega), List.getD_eq_getElem?_getD, List.getElem?_set,
    if_pos rfl, if_pos h1]
  rfl

theorem vec_mark_length (v : List Bool) (i : Int) : (vec_mark v i).length = v.length := by
  unfold vec_mark
  split_ifs
  · rfl
  · simp

/-- The destinations a returning traversal has recorded are pairwise different: each
recorded cell is marked in `visited_dest`, and only unmarked cells are recorded. -/
theorem flow_result_nodup (board : FastBoard) (start_rx start_ry moving_sx moving_sy : Int)
    (player : Player) (rows cols : Int) (score_cols : List Int) (river_push : Bool)
    (scan_fuel fuel : Nat) (res : List Cell)
    (h : flow_bfs board start_rx start_ry moving_sx moving_sy player rows cols score_cols
      river_push scan_fuel fuel (flow_init start_rx start_ry rows cols) = some res) :
    res.Nodup := by
  obtain ⟨st', hI, -, hr⟩ := flow_bfs_invariant board start_rx start_ry moving_sx moving_sy
    player rows cols score_cols river_push scan_fuel
    (fun st => st.visited_dest.length = (rows * cols).toNat ∧ st.result.Nodup ∧
      ∀ d ∈ st.result, vec_get st.visited_dest (d.2 * cols + d.1) = true)
    (fun st c rest h _ => h)
    (fun dx dy nx ny st st' hst hs =>
      flow_scan_invariant board moving_sx moving_sy player rows cols score_cols dx dy
        (fun st => st.visited_dest.length = (rows * cols).toNat ∧ st.result.Nodup ∧
          ∀ d ∈ st.result, vec_get st.visited_dest (d.2 * cols + d.1) = true)
        (fun st nx ny hI h1 _ _ _ h5 => by
          obtain ⟨hlen, hnd, hmark⟩ := hI
          obtain ⟨i0, i1⟩ := flat_index_range rows cols nx ny h1
          refine ⟨by simpa [vec_mark_length] using hlen, ?_, ?_⟩
          · rw [List.nodup_append]
            refine ⟨hnd, List.nodup_singleton _, ?_⟩
            intro a ha hb
            simp only [List.mem_singleton] at hb
            subst hb
            have := hmark _ ha
            simp only at this
            rw [h5] at this
            exact absurd this (by decide)
          · intro d hd
            simp only [List.mem_append, List.mem_singleton] at hd
            rcases hd with hd | hd
            · exact vec_get_mark_of_get _ _ _ (hmark d hd)
            · subst hd
              exact vec_get_mark_self _ _ i0 (by rw [hlen]; exact i1))
        (fun st nx ny hI _ _ _ _ _ _ => hI)
        _ nx ny st st' hst hs)
    fuel _ res (by simp [flow_init]) h
  rw [← hr]
  exact hI.2.1

/-- C33: the destination list returned by `explore_river_network` contains no coordinate
pair twice, whatever the board and the other inputs. -/
theorem explore_river_network_nodup (board : FastBoard)
    (start_rx start_ry moving_sx moving_sy : Int) (player : Player) (rows cols : Int)
    (score_cols : List Int) (river_push : Bool) :
    (explore_river_network board start_rx start_ry moving_sx moving_sy player rows cols
      score_cols river_push).Nodup := by
  have h := explore_river_network_terminates board start_rx start_ry moving_sx moving_sy
    player rows cols score_cols river_push
  unfold explore_river_network_steps at h
  exact flow_result_nodup board start_rx start_ry moving_sx moving_sy player rows cols
    score_cols river_push _ _ _ h

/-! ## Completeness of a scan of the river-flow traversal -/

/-- Grid cells with the same flat index are the same cell. -/
theorem flat_index_inj (rows cols x y x' y' : Int)
    (h : within_board_limits x y rows cols = true)
    (h' : within_board_limits x' y' rows cols = true)
    (he : y * cols + x = y' * cols + x') : x = x' ∧ y = y' := by
  rw [within_board_limits_iff] at h h'
  obtain ⟨⟨a1, a2⟩, a3, a4⟩ := h
  obtain ⟨⟨b1, b2⟩, b3, b4⟩ := h'
  have hy : y = y' := by
    by_contra hne
    rcases lt_or_gt_of_ne hne with hl | hl
    · have h1 : (y + 1) * cols ≤ y' * cols :=
        mul_le_mul_of_nonneg_right (by omega) (by omega)
      have h2 : (y + 1) * cols = y * cols + cols := by ring
      omega
    · have h1 : (y' + 1) * cols ≤ y * cols :=
        mul_le_mul_of_nonneg_right (by omega) (by omega)
      have h2 : (y' + 1) * cols = y' * cols + cols := by ring
      omega
  subst hy
  exact ⟨by omega, rfl⟩

/-- An index that reads as marked after a mark was marked before or is the marked one. -/
theorem vec_get_mark_cases (v : List Bool) (i j : Int) (hi : 0 ≤ i) (hj : 0 ≤ j)
    (h : vec_get (vec_mark v i) j = true) : vec_get v j = true ∨ i = j := by
  unfold vec_get at h ⊢
  unfold vec_mark at h
  rw [if_neg (by omega), if_neg (by omega), List.getD_eq_getElem?_getD,
    List.getElem?_set] at h
  rw [if_neg (by omega), List.getD_eq_getElem?_getD]
  by_cases he : i.toNat = j.toNat
  · right; omega
  · rw [if_neg he] at h; exact Or.inl h

theorem marked_are_recorded_step (rows cols : Int) (st : FlowState) (nx ny : Int)
    (hw : within_board_limits nx ny rows cols = true) (h : marked_are_recorded rows cols st) :
    marked_are_recorded rows cols
      { st with result := st.result ++ [(nx, ny)],
                visited_dest := vec_mark st.visited_dest (ny * cols + nx) } := by
  intro c hc hm
  simp only at hm
  simp only [List.mem_append, List.mem_singleton]
  obtain ⟨i0, -⟩ := flat_index_range rows cols nx ny hw
  obtain ⟨j0, -⟩ := flat_index_range rows cols c.1 c.2 hc
  rcases vec_get_mark_cases _ _ _ i0 j0 hm with h1 | h1
  · exact Or.inl (h c hc h1)
  · right
    obtain ⟨e1, e2⟩ := flat_index_inj rows cols nx ny c.1 c.2 hw hc h1
    exact Prod.ext e1.symm e2.symm

/-- A scan keeps `marked_are_recorded` and the destinations recorded before it. -/
theorem flow_scan_keeps (board : FastBoard) (moving_sx moving_sy : Int) (player : Player)
    (rows cols : Int) (score_cols : List Int) (dx dy : Int) (fuel : Nat) (nx ny : Int)
    (st st' : FlowState)
    (h : flow_scan board moving_sx moving_sy player rows cols score_cols dx dy fuel nx ny st
      = some st') :
    (marked_are_recorded rows cols st → marked_are_recorded rows cols st') ∧
      ∀ c ∈ st.result, c ∈ st'.result := by
  constructor
  · intro hJ
    exact flow_scan_invariant board moving_sx moving_sy player rows cols score_cols dx dy
      (marked_are_recorded rows cols)
      (fun s x y hs hw _ _ _ _ => marked_are_recorded_step rows cols s x y hw hs)
      (fun s x y hs _ _ _ _ _ _ => hs) fuel nx ny st st' hJ h
  · intro c hc
    exact flow_scan_invariant board moving_sx moving_sy player rows cols score_cols dx dy
      (fun s => c ∈ s.result)
      (fun s x y hs _ _ _ _ _ => by simp only [List.mem_append]; exact Or.inl hs)
      (fun s x y hs _ _ _ _ _ _ => hs) fuel nx ny st st' hc h

/-- The queue loop keeps the destinations recorded before it. -/
theorem flow_bfs_keeps (board : FastBoard) (start_rx start_ry moving_sx moving_sy : Int)
    (player : Player) (rows cols : Int) (score_cols : List Int) (river_push : Bool)
    (scan_fuel fuel : Nat) (st : FlowState) (res : List Cell)
    (h : flow_bfs board start_rx start_ry moving_sx moving_sy player rows cols score_cols
      river_push scan_fuel fuel st = some res) :
    ∀ c ∈ st.result, c ∈ res := by
  intro c hc
  obtain ⟨st', hI, -, hr⟩ := flow_bfs_invariant board start_rx start_ry moving_sx moving_sy
    player rows cols score_cols river_push scan_fuel (fun s => c ∈ s.result)
    (fun s _ _ hs _ => hs)
    (fun dx dy nx ny s s' hs hscan =>
      (flow_scan_keeps board moving_sx moving_sy player rows cols score_cols dx dy scan_fuel
        nx ny s s' hscan).2 c hs)
    fuel st res hc h
  rw [← hr]; exact hI

/-- A returning scan that starts on a run of `k` cells which are in bounds, not rival
scoring cells, not the mover's origin and empty has recorded all of them. -/
theorem flow_scan_covers (board : FastBoard) (moving_sx moving_sy : Int) (player : Player)
    (rows cols : Int) (score_cols : List Int) (dx dy : Int) :
    ∀ (k fuel : Nat) (nx ny : Int) (st st' : FlowState),
      marked_are_recorded rows cols st →
      (∀ i : Nat, i < k →
        flow_dest_ok board player rows cols score_cols (nx + i * dx, ny + i * dy) ∧
          ¬ (nx + i * dx = moving_sx ∧ ny + i * dy = moving_sy)) →
      flow_scan board moving_sx moving_sy player rows cols score_cols dx dy fuel nx ny st
        = some st' →
      ∀ i : Nat, i < k → (nx + i * dx, ny + i * dy) ∈ st'.result := by
  intro k
  induction k with
  | zero => intro _ _ _ _ _ _ _ _ i hi; exact absurd hi (by omega)
  | succ k ih =>
    intro fuel nx ny st st' hJ hcells h
    cases fuel with
    | zero => simp [flow_scan] at h
    | succ n =>
      obtain ⟨⟨h1, h4, h2⟩, h3⟩ := hcells 0 (by omega)
      simp only [Nat.cast_zero, zero_mul, add_zero] at h1 h2 h3 h4
      simp only [flow_scan] at h
      rw [if_pos h1, h2] at h
      simp only [Bool.false_eq_true, if_false] at h
      rw [if_neg h3, h4] at h
      simp only [if_true] at h
      have hrest : ∀ i : Nat, i < k →
          flow_dest_ok board player rows cols score_cols
              (nx + dx + i * dx, ny + dy + i * dy) ∧
            ¬ (nx + dx + i * dx = moving_sx ∧ ny + dy + i * dy = moving_sy) := by
        intro i hi
        have := hcells (i + 1) (by omega)
        have e1 : nx + ((i + 1 : Nat) : Int) * dx = nx + dx + i * dx := by push_cast; ring
        have e2 : ny + ((i + 1 : Nat) : Int) * dy = ny + dy + i * dy := by push_cast; ring
        rw [e1, e2] at this
        exact this
      have hfirst : ∀ s : FlowState, marked_are_recorded rows cols s →
          (nx, ny) ∈ s.result →
          flow_scan board moving_sx moving_sy player rows cols score_cols dx dy n (nx + dx)
            (ny + dy) s = some st' →
          ∀ i : Nat, i < k + 1 → (nx + i * dx, ny + i * dy) ∈ st'.result := by
        intro s hs hmem hscan i hi
        cases i with
        | zero =>
          simp only [Nat.cast_zero, zero_mul, add_zero]
          exact (flow_scan_keeps board moving_sx moving_sy player rows cols score_cols dx dy
            n _ _ s st' hscan).2 _ hmem
        | succ j =>
          have := ih n (nx + dx) (ny + dy) s st' hs hrest hscan j (by omega)
          have e1 : nx + ((j + 1 : Nat) : Int) * dx = nx + dx + j * dx := by push_cast; ring
          have e2 : ny + ((j + 1 : Nat) : Int) * dy = ny + dy + j * dy := by push_cast; ring
          rw [e1, e2]
          exact this
      cases h5 : vec_get st.visited_dest (ny * cols + nx) with
      | true =>
        rw [h5] at h
        simp only [Bool.not_true, Bool.false_eq_true, if_false] at h
        exact hfirst st hJ (hJ (nx, ny) h1 h5) h
      | false =>
        rw [h5] at h
        simp only [Bool.not_false, if_true] at h
        exact hfirst _ (marked_are_recorded_step rows cols st nx ny h1 hJ) (by simp) h

/-- The first round of the queue loop when the start cell holds a River and the push flag is
off: the two scans of the start cell return, and the rest of the loop runs on the state they
leave. -/
theorem flow_bfs_first_round (board : FastBoard) (start_rx start_ry moving_sx moving_sy : Int)
    (player : Player) (rows cols : Int) (score_cols : List Int) (scan_fuel fuel : Nat)
    (res : List Cell)
    (hempty : (board_at board start_rx start_ry).isEmpty = false)
    (hside : (board_at board start_rx start_ry).side = Side.RIVER)
    (h : flow_bfs board start_rx start_ry moving_sx moving_sy player rows cols score_cols
      false scan_fuel (fuel + 1) (flow_init start_rx start_ry rows cols) = some res) :
    ∃ st1 st2 : FlowState,
      flow_scan board moving_sx moving_sy player rows cols score_cols
          (flow_directions (board_at board start_rx start_ry)).1.1
          (flow_directions (board_at board start_rx start_ry)).1.2 scan_fuel
          (start_rx + (flow_directions (board_at board start_rx start_ry)).1.1)
          (start_ry + (flow_directions (board_at board start_rx start_ry)).1.2)
          { flow_init start_rx start_ry rows cols with to_visit := [] } = some st1 ∧
      flow_scan board moving_sx moving_sy player rows cols score_cols
          (flow_directions (board_at board start_rx start_ry)).2.1
          (flow_directions (board_at board start_rx start_ry)).2.2 scan_fuel
          (start_rx + (flow_directions (board_at board start_rx start_ry)).2.1)
          (start_ry + (flow_directions (board_at board start_rx start_ry)).2.2) st1
        = some st2 ∧
      flow_bfs board start_rx start_ry moving_sx moving_sy player rows cols score_cols
        false scan_fuel fuel st2 = some res := by
  rw [flow_bfs] at h
  have hq : (flow_init start_rx start_ry rows cols).to_visit = [(start_rx, start_ry)] := rfl
  simp only [hq, Bool.false_eq_true, false_and, if_false] at h
  rw [if_neg (by simp [hempty, hside])] at h
  split at h
  · cases h
  · rename_i st1 hs1
    split at h
    · cases h
    · rename_i st2 hs2
      exact ⟨st1, st2, hs1, hs2, h⟩

theorem marked_are_recorded_init (start_rx start_ry rows cols : Int) :
    marked_are_recorded rows cols
      { flow_init start_rx start_ry rows cols with to_visit := [] } := by
  intro c _ hm
  exfalso
  simp only [flow_init, vec_get] at hm
  split_ifs at hm
  rw [List.getD_eq_getElem?_getD] at hm
  by_cases hl : (c.2 * cols + c.1).toNat < (rows * cols).toNat
  · rw [List.getElem?_replicate, if_pos hl] at hm
    exact absurd hm (by decide)
  · rw [List.getElem?_replicate, if_neg hl] at hm
    exact absurd hm (by decide)

/-- C34: when the start cell holds a River and the push flag is off, and in one of the two
flow directions `d` of that River the cells `start + d, ..., start + k * d` are all in
bounds, empty, not rival scoring cells of the given player and not the mover's origin, every
one of these `k` cells is in the result of `explore_river_network`. -/
theorem straight_scan_complete (board : FastBoard)
    (start_rx start_ry moving_sx moving_sy : Int) (player : Player) (rows cols : Int)
    (score_cols : List Int) (d : Cell) (k : Nat)
    (hempty : (board_at board start_rx start_ry).isEmpty = false)
    (hside : (board_at board start_rx start_ry).side = Side.RIVER)
    (hd : d = (flow_directions (board_at board start_rx start_ry)).1 ∨
      d = (flow_directions (board_at board start_rx start_ry)).2)
    (hcells : ∀ i : Nat, 1 ≤ i → i ≤ k →
      within_board_limits (start_rx + i * d.1) (start_ry + i * d.2) rows cols = true ∧
      (board_at board (start_rx + i * d.1) (start_ry + i * d.2)).isEmpty = true ∧
      rival_score_area (start_rx + i * d.1) (start_ry + i * d.2) player rows cols score_cols
        = false ∧
      (start_rx + i * d.1, start_ry + i * d.2) ≠ (moving_sx, moving_sy)) :
    ∀ i : Nat, 1 ≤ i → i ≤ k →
      (start_rx + i * d.1, start_ry + i * d.2) ∈
        explore_river_network board start_rx start_ry moving_sx moving_sy player rows cols
          score_cols false := by
  have hterm := explore_river_network_terminates board start_rx start_ry moving_sx moving_sy
    player rows cols score_cols false
  unfold explore_river_network_steps at hterm
  obtain ⟨st1, st2, hs1, hs2, hrest⟩ := flow_bfs_first_round board start_rx start_ry
    moving_sx moving_sy player rows cols score_cols _ _ _ hempty hside hterm
  have hJ0 := marked_are_recorded_init start_rx start_ry rows cols
  have hrun : ∀ i : Nat, i < k →
      flow_dest_ok board player rows cols score_cols
          (start_rx + d.1 + i * d.1, start_ry + d.2 + i * d.2) ∧
        ¬ (start_rx + d.1 + i * d.1 = moving_sx ∧ start_ry + d.2 + i * d.2 = moving_sy) := by
    intro i hi
    obtain ⟨c1, c2, c3, c4⟩ := hcells (i + 1) (by omega) (by omega)
    have e1 : start_rx + ((i + 1 : Nat) : Int) * d.1 = start_rx + d.1 + i * d.1 := by
      push_cast; ring
    have e2 : start_ry + ((i + 1 : Nat) : Int) * d.2 = start_ry + d.2 + i * d.2 := by
      push_cast; ring
    rw [e1, e2] at c1 c2 c3 c4
    exact ⟨⟨c1, c2, c3⟩, fun hh => c4 (Prod.ext hh.1 hh.2)⟩
  intro i hi1 hik
  obtain ⟨j, rfl⟩ : ∃ j : Nat, i = j + 1 := ⟨i - 1, by omega⟩
  have e1 : start_rx + ((j + 1 : Nat) : Int) * d.1 = start_rx + d.1 + j * d.1 := by
    push_cast; ring
  have e2 : start_ry + ((j + 1 : Nat) : Int) * d.2 = start_ry + d.2 + j * d.2 := by
    push_cast; ring
  rw [e1, e2]
  apply flow_bfs_keeps board start_rx start_ry moving_sx moving_sy player rows cols
    score_cols false _ _ st2 _ hrest
  rcases hd with hd | hd
  · subst hd
    apply (flow_scan_keeps board moving_sx moving_sy player rows cols score_cols _ _ _ _ _
      st1 st2 hs2).2
    exact flow_scan_covers board moving_sx moving_sy player rows cols score_cols _ _ k _ _ _
      _ st1 hJ0 hrun hs1 j (by omega)
  · subst hd
    have hJ1 := (flow_scan_keeps board moving_sx moving_sy player rows cols score_cols _ _ _
      _ _ _ st1 hs1).1 hJ0
    exact flow_scan_covers board moving_sx moving_sy player rows cols score_cols _ _ k _ _ _
      st1 st2 hJ1 hrun hs2 j (by omega)

/-- C34, instance: on `flow_board` the vertical River at (0,1), entered by the Stone at
(0,0), reaches the three empty cells (0,2), (0,3) and (0,4) below it. -/
theorem straight_scan_complete_witness :
    ((board_at flow_board 0 1).isEmpty = false ∧
      (board_at flow_board 0 1).side = Side.RIVER ∧
      ((0, 1) : Cell) = (flow_directions (board_at flow_board 0 1)).1) ∧
    ∀ i : Nat, 1 ≤ i → i ≤ 3 →
      ((0 : Int) + i * ((0, 1) : Cell).1, (1 : Int) + i * ((0, 1) : Cell).2) ∈
        explore_river_network flow_board 0 1 0 0 Player.SQUARE 7 3 [1] false :=
  ⟨⟨by decide, by decide, by decide⟩,
   straight_scan_complete flow_board 0 1 0 0 Player.SQUARE 7 3 [1] (0, 1) 3 (by decide)
    (by decide) (Or.inl (by decide))
    (by intro i h1 h2; interval_cases i <;> decide)⟩

/-! ## The mover's origin -/

/-- A returning scan that stands on the mover's origin, when the origin is in bounds and not
a rival scoring cell, has recorded the cell behind the origin if that cell is a legal
destination. -/
theorem flow_scan_through_origin (board : FastBoard) (moving_sx moving_sy : Int)
    (player : Player) (rows cols : Int) (score_cols : List Int) (dx dy : Int) (fuel : Nat)
    (st st' : FlowState) (hstep : is_flow_step dx dy)
    (hJ : marked_are_recorded rows cols st)
    (hin : within_board_limits moving_sx moving_sy rows cols = true)
    (hnr : rival_score_area moving_sx moving_sy player rows cols score_cols = false)
    (hnext : flow_dest_ok board player rows cols score_cols (moving_sx + dx, moving_sy + dy))
    (h : flow_scan board moving_sx moving_sy player rows cols score_cols dx dy fuel moving_sx
      moving_sy st = some st') :
    (moving_sx + dx, moving_sy + dy) ∈ st'.result := by
  cases fuel with
  | zero => simp [flow_scan] at h
  | succ n =>
    simp only [flow_scan] at h
    rw [if_pos hin, hnr] at h
    simp only [Bool.false_eq_true, if_false, and_self, if_true] at h
    have hne : ¬ (moving_sx + dx = moving_sx ∧ moving_sy + dy = moving_sy) := by
      unfold is_flow_step at hstep
      omega
    have := flow_scan_covers board moving_sx moving_sy player rows cols score_cols dx dy 1 n
      (moving_sx + dx) (moving_sy + dy) st st' hJ
      (by
        intro i hi
        obtain rfl : i = 0 := by omega
        simp only [Nat.cast_zero, zero_mul, add_zero]
        exact ⟨hnext, hne⟩)
      h 0 (by omega)
    simpa using this

/-- The mover's origin is never a destination of `explore_river_network`. -/
theorem flow_result_skips_origin (board : FastBoard)
    (start_rx start_ry moving_sx moving_sy : Int) (player : Player) (rows cols : Int)
    (score_cols : List Int) (river_push : Bool) (scan_fuel fuel : Nat) (res : List Cell)
    (h : flow_bfs board start_rx start_ry moving_sx moving_sy player rows cols score_cols
      river_push scan_fuel fuel (flow_init start_rx start_ry rows cols) = some res) :
    (moving_sx, moving_sy) ∉ res := by
  obtain ⟨st', hI, -, hr⟩ := flow_bfs_invariant board start_rx start_ry moving_sx moving_sy
    player rows cols score_cols river_push scan_fuel
    (fun st => (moving_sx, moving_sy) ∉ st.result)
    (fun st c rest h _ => h)
    (fun dx dy nx ny st st' hst hs =>
      flow_scan_invariant board moving_sx moving_sy player rows cols score_cols dx dy
        (fun st => (moving_sx, moving_sy) ∉ st.result)
        (fun st nx ny hI _ _ h3 _ _ => by
          simp only [List.mem_append, List.mem_singleton, not_or]
          refine ⟨hI, ?_⟩
          intro he
          exact h3 ⟨(Prod.mk.inj he).1.symm, (Prod.mk.inj he).2.symm⟩)
        (fun st nx ny hI _ _ _ _ _ _ => hI)
        _ nx ny st st' hst hs)
    fuel _ res (by simp [flow_init]) h
  rw [← hr]
  exact hI

/-- C35 as stated fails: on `rival_origin_board` the River at (0,2) flows to the right, the
mover's origin (1,2) is the next cell in that direction and the cell (2,2) behind it is in
bounds, empty and not a rival scoring cell of Square, yet the traversal returns no
destination: the origin is a rival scoring cell of Square, and the scan stops there. -/
theorem flow_stops_at_rival_origin_counterexample :
    (board_at rival_origin_board 0 2).isEmpty = false ∧
      (board_at rival_origin_board 0 2).side = Side.RIVER ∧
      (flow_directions (board_at rival_origin_board 0 2)).1 = (1, 0) ∧
      within_board_limits 2 2 7 3 = true ∧
      (board_at rival_origin_board 2 2).isEmpty = true ∧
      rival_score_area 2 2 Player.SQUARE 7 3 [1] = false ∧
      rival_score_area 1 2 Player.SQUARE 7 3 [1] = true ∧
      explore_river_network rival_origin_board 0 2 1 2 Player.SQUARE 7 3 [1] false = [] := by
  decide

/-- C35 amended: the mover's origin is never in the result of `explore_river_network`; and
when the push flag is off, the start cell holds a River, the mover's origin is the cell
`start + d` in a flow direction `d` of that River, the origin is in bounds and not a rival
scoring cell of the given player, and the cell `start + 2 d` is in bounds, empty and not a
rival scoring cell, then `start + 2 d` is in the result, whatever the origin cell holds. -/
theorem flow_passes_through_origin (board : FastBoard)
    (start_rx start_ry moving_sx moving_sy : Int) (player : Player) (rows cols : Int)
    (score_cols : List Int) (d : Cell) :
    (∀ river_push : Bool, (moving_sx, moving_sy) ∉
      explore_river_network board start_rx start_ry moving_sx moving_sy player rows cols
        score_cols river_push) ∧
    ((board_at board start_rx start_ry).isEmpty = false →
      (board_at board start_rx start_ry).side = Side.RIVER →
      (d = (flow_directions (board_at board start_rx start_ry)).1 ∨
        d = (flow_directions (board_at board start_rx start_ry)).2) →
      (moving_sx, moving_sy) = (start_rx + d.1, start_ry + d.2) →
      within_board_limits moving_sx moving_sy rows cols = true →
      rival_score_area moving_sx moving_sy player rows cols score_cols = false →
      within_board_limits (start_rx + 2 * d.1) (start_ry + 2 * d.2) rows cols = true →
      (board_at board (start_rx + 2 * d.1) (start_ry + 2 * d.2)).isEmpty = true →
      rival_score_area (start_rx + 2 * d.1) (start_ry + 2 * d.2) player rows cols score_cols
        = false →
      (start_rx + 2 * d.1, start_ry + 2 * d.2) ∈
        explore_river_network board start_rx start_ry moving_sx moving_sy player rows cols
          score_cols false) := by
  constructor
  · intro river_push
    have hterm := explore_river_network_terminates board start_rx start_ry moving_sx
      moving_sy player rows cols score_cols river_push
    unfold explore_river_network_steps at hterm
    exact flow_result_skips_origin board start_rx start_ry moving_sx moving_sy player rows
      cols score_cols river_push _ _ _ hterm
  · intro hempty hside hd horigin hin hnr h1 h2 h3
    have hterm := explore_river_network_terminates board start_rx start_ry moving_sx
      moving_sy player rows cols score_cols false
    unfold explore_river_network_steps at hterm
    obtain ⟨st1, st2, hs1, hs2, hrest⟩ := flow_bfs_first_round board start_rx start_ry
      moving_sx moving_sy player rows cols score_cols _ _ _ hempty hside hterm
    have hJ0 := marked_are_recorded_init start_rx start_ry rows cols
    have hJ1 := (flow_scan_keeps board moving_sx moving_sy player rows cols score_cols _ _ _
      _ _ _ st1 hs1).1 hJ0
    obtain ⟨hd1, hd2⟩ := flow_directions_steps (board_at board start_rx start_ry)
    have ex : start_rx + 2 * d.1 = moving_sx + d.1 := by
      have := (Prod.mk.inj horigin).1; omega
    have ey : start_ry + 2 * d.2 = moving_sy + d.2 := by
      have := (Prod.mk.inj horigin).2; omega
    rw [ex, ey] at h1 h2 h3 ⊢
    apply flow_bfs_keeps board start_rx start_ry moving_sx moving_sy player rows cols
      score_cols false _ _ st2 _ hrest
    rcases hd with hd | hd
    · subst hd
      rw [← (Prod.mk.inj horigin).1, ← (Prod.mk.inj horigin).2] at hs1
      apply (flow_scan_keeps board moving_sx moving_sy player rows cols score_cols _ _ _ _ _
        st1 st2 hs2).2
      exact flow_scan_through_origin board moving_sx moving_sy player rows cols score_cols _
        _ _ _ st1 hd1 hJ0 hin hnr ⟨h1, h2, h3⟩ hs1
    · subst hd
      rw [← (Prod.mk.inj horigin).1, ← (Prod.mk.inj horigin).2] at hs2
      exact flow_scan_through_origin board moving_sx moving_sy player rows cols score_cols _
        _ _ st1 st2 hd2 hJ1 hin hnr ⟨h1, h2, h3⟩ hs2

/-- C35 amended, instance: on `bypass_board` the River at (2,3) flows to the left through
the cell (1,3) of the moving Stone and reaches the empty cell (0,3). -/
theorem flow_passes_through_origin_witness :
    ((board_at bypass_board 2 3).isEmpty = false ∧
      (board_at bypass_board 2 3).side = Side.RIVER ∧
      ((-1, 0) : Cell) = (flow_directions (board_at bypass_board 2 3)).2 ∧
      (board_at bypass_board 1 3).isEmpty = false) ∧
    ((2 : Int) + 2 * ((-1, 0) : Cell).1, (3 : Int) + 2 * ((-1, 0) : Cell).2) ∈
      explore_river_network bypass_board 2 3 1 3 Player.SQUARE 7 3 [1] false :=
  ⟨⟨by decide, by decide, by decide, by decide⟩,
   (flow_passes_through_origin bypass_board 2 3 1 3 Player.SQUARE 7 3 [1] (-1, 0)).2
    (by decide) (by decide) (Or.inr (by decide)) (by decide) (by decide) (by decide)
    (by decide) (by decide) (by decide)⟩

/-! ## The traversal as a total function -/

/-- A scan that returns with some budget returns the same state with any larger one. -/
theorem flow_scan_more_fuel (board : FastBoard) (moving_sx moving_sy : Int) (player : Player)
    (rows cols : Int) (score_cols : List Int) (dx dy : Int) (extra : Nat) :
    ∀ (fuel : Nat) (nx ny : Int) (st st' : FlowState),
      flow_scan board moving_sx moving_sy player rows cols score_cols dx dy fuel nx ny st
        = some st' →
      flow_scan board moving_sx moving_sy player rows cols score_cols dx dy (fuel + extra)
        nx ny st = some st' := by
  intro fuel
  induction fuel with
  | zero => intro nx ny st st' h; simp [flow_scan] at h
  | succ n ih =>
    intro nx ny st st' h
    have e : n + 1 + extra = (n + extra) + 1 := by omega
    rw [e]
    simp only [flow_scan] at h ⊢
    split_ifs at h ⊢ <;> first | exact h | exact ih _ _ _ _ h

/-- The queue loop that returns with some budgets returns the same list with any larger
ones. -/
theorem flow_bfs_more_fuel (board : FastBoard) (start_rx start_ry moving_sx moving_sy : Int)
    (player : Player) (rows cols : Int) (score_cols : List Int) (river_push : Bool)
    (scan_fuel e1 e2 : Nat) :
    ∀ (fuel : Nat) (st : FlowState) (res : List Cell),
      flow_bfs board start_rx start_ry moving_sx moving_sy player rows cols score_cols
        river_push scan_fuel fuel st = some res →
      flow_bfs board start_rx start_ry moving_sx moving_sy player rows cols score_cols
        river_push (scan_fuel + e1) (fuel + e2) st = some res := by
  intro fuel
  induction fuel with
  | zero => intro st res h; simp [flow_bfs] at h
  | succ n ih =>
    intro st res h
    have e : n + 1 + e2 = (n + e2) + 1 := by omega
    rw [e]
    unfold flow_bfs at h ⊢
    split at h
    · exact h
    · rename_i x y rest hq
      simp only at h ⊢
      generalize (if river_push = true ∧ x = start_rx ∧ y = start_ry then
          board_at board moving_sx moving_sy else board_at board x y) = cell at h ⊢
      by_cases hE : cell.isEmpty = true ∨ cell.side ≠ Side.RIVER
      · rw [if_pos hE] at h ⊢; exact ih _ _ h
      · rw [if_neg hE] at h ⊢
        split at h
        · cases h
        · rename_i st1 hs1
          rw [flow_scan_more_fuel board moving_sx moving_sy player rows cols score_cols _ _ e1
            _ _ _ _ _ hs1]
          simp only
          split at h
          · cases h
          · rename_i st2 hs2
            rw [flow_scan_more_fuel board moving_sx moving_sy player rows cols score_cols _ _
              e1 _ _ _ _ _ hs2]
            exact ih _ _ h

/-- C40: on every board, for a grid of `rows` x `cols` cells and an in-bounds start cell,
`explore_river_network` terminates: the queue loop pops at most `rows * cols` cells (each
cell is enqueued at most once) and every scan leaves the grid after at most `max rows cols`
steps, so the loops return within these budgets, and with any larger budgets they return the
same list, the value of the function. -/
theorem explore_river_network_total (board : FastBoard)
    (start_rx start_ry moving_sx moving_sy : Int) (player : Player) (rows cols : Int)
    (score_cols : List Int) (river_push : Bool) (i j : Nat)
    (hstart : within_board_limits start_rx start_ry rows cols = true) :
    explore_river_network_steps board start_rx start_ry moving_sx moving_sy player rows cols
        score_cols river_push ((max rows cols).toNat + 1 + i) ((rows * cols).toNat + 1 + j)
      = some (explore_river_network board start_rx start_ry moving_sx moving_sy player rows
          cols score_cols river_push) := by
  have hinit : (flow_init start_rx start_ry rows cols).visited_river.length
        = (rows * cols).toNat ∧
      flow_pending (flow_init start_rx start_ry rows cols) < (rows * cols).toNat + 1 := by
    have hv : vec_get (List.replicate (rows * cols).toNat false)
        (start_ry * cols + start_rx) = false := by
      unfold vec_get
      split_ifs
      · rfl
      · rw [List.getD_eq_getElem?_getD, List.getElem?_replicate]
        split_ifs <;> rfl
    obtain ⟨h1, h2⟩ := vec_mark_count (List.replicate (rows * cols).toNat false) rows cols
      start_rx start_ry (by simp) hstart hv
    unfold flow_init flow_pending
    simp only [List.length_singleton]
    refine ⟨h1, ?_⟩
    have := List.count_le_length false (List.replicate (rows * cols).toNat false)
    simp only [List.length_replicate] at this
    omega
  obtain ⟨res, hres⟩ := flow_bfs_terminates board start_rx start_ry moving_sx moving_sy player
    rows cols score_cols river_push _ _ hinit.1 hinit.2
  have hbig := flow_bfs_more_fuel board start_rx start_ry moving_sx moving_sy player rows cols
    score_cols river_push _ 0 1 _ _ _ hres
  have hval : explore_river_network board start_rx start_ry moving_sx moving_sy player rows
      cols score_cols river_push = res := by
    unfold explore_river_network explore_river_network_steps
    rw [show (rows * cols).toNat + 2 = (rows * cols).toNat + 1 + 1 from rfl,
      show (max rows cols).toNat + 1 = (max rows cols).toNat + 1 + 0 from rfl, hbig]
    rfl
  rw [hval]
  unfold explore_river_network_steps
  exact flow_bfs_more_fuel board start_rx start_ry moving_sx moving_sy player rows cols
    score_cols river_push _ i j _ _ _ hres

/-- C40, instance: the traversal from the River at (0,1) of `flow_board`, run with the
budgets 7 + 1 and 21 + 1 of the 7 x 3 grid. -/
theorem explore_river_network_total_witness :
    within_board_limits 0 1 7 3 = true ∧
      explore_river_network_steps flow_board 0 1 0 0 Player.SQUARE 7 3 [1] false
          ((max (7 : Int) 3).toNat + 1 + 0) (((7 : Int) * 3).toNat + 1 + 0)
        = some (explore_river_network flow_board 0 1 0 0 Player.SQUARE 7 3 [1] false) :=
  ⟨by decide, explore_river_network_total flow_board 0 1 0 0 Player.SQUARE 7 3 [1] false 0 0
    (by decide)⟩

/-! ## Transformations and the flow-safety test -/

/-- The flow-safety test of `get_actions_for_piece` accepts every result of
`explore_river_network` computed for the same player and geometry: no destination is a rival
scoring cell. -/
theorem flow_is_safe_explore (board : FastBoard) (start_rx start_ry moving_sx moving_sy : Int)
    (player : Player) (rows cols : Int) (score_cols : List Int) (river_push : Bool) :
    flow_is_safe
      (explore_river_network board start_rx start_ry moving_sx moving_sy player rows cols
        score_cols river_push) player rows cols score_cols = true := by
  unfold flow_is_safe
  rw [List.all_eq_true]
  intro d hd
  have := (explore_river_network_dest_ok board start_rx start_ry moving_sx moving_sy player
    rows cols score_cols river_push d hd).2.2
  rw [this]
  rfl

/-- C37: the flow-safety test on transformations never rejects.  The test is true for every
board and cell, and for every grid cell that holds a piece of the acting player
`calculate_possible_actions` contains both Flips (to horizontal and to vertical) when the
piece is a Stone, and the Flip to Stone and the Rotate when it is a River. -/
theorem transformations_always_generated (board : FastBoard) (player : Player)
    (rows cols : Int) (score_cols : List Int) (x y : Int)
    (hin : within_board_limits x y rows cols = true)
    (hpiece : (board_at board x y).isEmpty = false)
    (hown : (board_at board x y).player = player) :
    (∀ (temp_board : FastBoard),
      flow_is_safe (explore_river_network temp_board x y x y player rows cols score_cols false)
        player rows cols score_cols = true) ∧
    ((board_at board x y).side = Side.STONE →
      ({ action := ActionKind.flip, from_pos := (x, y), to_pos := (x, y),
         orientation := some Orientation.HORIZONTAL } : Move) ∈
        calculate_possible_actions board player rows cols score_cols ∧
      ({ action := ActionKind.flip, from_pos := (x, y), to_pos := (x, y),
         orientation := some Orientation.VERTICAL } : Move) ∈
        calculate_possible_actions board player rows cols score_cols) ∧
    ((board_at board x y).side = Side.RIVER →
      ({ action := ActionKind.flip, from_pos := (x, y), to_pos := (x, y) } : Move) ∈
        calculate_possible_actions board player rows cols score_cols ∧
      ({ action := ActionKind.rotate, from_pos := (x, y), to_pos := (x, y) } : Move) ∈
        calculate_possible_actions board player rows cols score_cols) := by
  rw [within_board_limits_iff] at hin
  have hmem : ∀ a : Move, a ∈ transformation_actions board x y player rows cols score_cols →
      a ∈ calculate_possible_actions board player rows cols score_cols := by
    intro a ha
    rw [mem_calculate_possible_actions]
    refine ⟨y, (mem_int_range rows y).2 hin.2, x, (mem_int_range cols x).2 hin.1, hpiece,
      hown, ?_⟩
    rw [mem_get_actions_for_piece]
    exact Or.inl ha
  refine ⟨fun temp_board => flow_is_safe_explore _ _ _ _ _ _ _ _ _ _, ?_, ?_⟩
  · intro hs
    constructor <;> apply hmem <;> unfold transformation_actions <;>
      simp only [hs, if_true, flow_is_safe_explore] <;> simp
  · intro hs
    have hns : ¬ (board_at board x y).side = Side.STONE := by rw [hs]; decide
    constructor <;> apply hmem <;> unfold transformation_actions <;>
      simp only [hns, if_false, flow_is_safe_explore] <;> simp

/-- C37, instance: on `flow_board` with Square to move, both Flips of the Stone at (0,0) are
generated. -/
theorem transformations_always_generated_witness :
    (within_board_limits 0 0 7 3 = true ∧ (board_at flow_board 0 0).isEmpty = false ∧
      (board_at flow_board 0 0).player = Player.SQUARE ∧
      (board_at flow_board 0 0).side = Side.STONE) ∧
    (({ action := ActionKind.flip, from_pos := (0, 0), to_pos := (0, 0),
        orientation := some Orientation.HORIZONTAL } : Move) ∈
        calculate_possible_actions flow_board Player.SQUARE 7 3 [1] ∧
      ({ action := ActionKind.flip, from_pos := (0, 0), to_pos := (0, 0),
         orientation := some Orientation.VERTICAL } : Move) ∈
        calculate_possible_actions flow_board Player.SQUARE 7 3 [1]) :=
  ⟨⟨by decide, by decide, by decide, by decide⟩,
   (transformations_always_generated flow_board Player.SQUARE 7 3 [1] 0 0 (by decide)
    (by decide) (by decide)).2.1 (by decide)⟩

/-! ## Multiplicity of the generated actions -/

/-- An element that only one index of a duplicate-free list can produce occurs in the
concatenation as often as in the list of that index at most. -/
theorem count_flatMap_le {α β : Type} [DecidableEq β] (a : β) (f : α → List β) (x0 : α)
    (b : Nat) :
    ∀ (l : List α), l.Nodup → (∀ x ∈ l, x ≠ x0 → a ∉ f x) → (f x0).count a ≤ b →
      (l.flatMap f).count a ≤ b := by
  intro l
  induction l with
  | nil => intro _ _ _; simp
  | cons x l ih =>
    intro hnd hother hx0
    rw [List.flatMap_cons, List.count_append]
    rw [List.nodup_cons] at hnd
    by_cases hx : x = x0
    · subst hx
      have hz : (l.flatMap f).count a = 0 := by
        rw [List.count_eq_zero]
        intro hmem
        rw [List.mem_flatMap] at hmem
        obtain ⟨z, hz, haz⟩ := hmem
        exact hother z (List.mem_cons_of_mem _ hz) (fun e => hnd.1 (e ▸ hz)) haz
      omega
    · have hz : (f x).count a = 0 :=
        List.count_eq_zero.2 (hother x (List.mem_cons_self _ _) hx)
      have := ih hnd.2 (fun z hz => hother z (List.mem_cons_of_mem _ hz)) hx0
      omega

theorem transformation_actions_nodup (board : FastBoard) (x y : Int) (player : Player)
    (rows cols : Int) (score_cols : List Int) :
    (transformation_actions board x y player rows cols score_cols).Nodup := by
  unfold transformation_actions
  simp only [flow_is_safe_explore, if_true]
  split_ifs <;> simp

/-- The actions emitted for one piece in one direction are pairwise different. -/
theorem displacement_actions_nodup (board : FastBoard) (x y : Int) (player : Player)
    (rows cols : Int) (score_cols : List Int) (dir : Cell) :
    (displacement_actions board x y player rows cols score_cols dir).Nodup := by
  have hflow : ∀ (sx sy mx my : Int) (p : Player) (push : Bool),
      (explore_river_network board sx sy mx my p rows cols score_cols push).Nodup := by
    intro sx sy mx my p push
    have h := explore_river_network_terminates board sx sy mx my p rows cols score_cols push
    unfold explore_river_network_steps at h
    exact flow_result_nodup board sx sy mx my p rows cols score_cols push _ _ _ h
  unfold displacement_actions calculate_river_push_paths
  simp only
  split_ifs
  · exact List.nodup_nil
  · exact List.nodup_singleton _
  · apply List.Nodup.map _ (hflow _ _ _ _ _ _)
    intro d1 d2 h
    simpa using h
  · exact List.nodup_singleton _
  · exact List.nodup_nil
  · apply List.Nodup.map _ (hflow _ _ _ _ _ _)
    intro d1 d2 h
    simpa using h

/-- C36 as stated fails: on `bypass_board` with Square to move the Move of the Stone from
(1,3) to (0,3) is in the list twice, once through the River on its right, whose flow passes
through the Stone's own cell, and once as the step to the empty neighbour on its left. -/
theorem duplicate_move_counterexample :
    (calculate_possible_actions bypass_board Player.SQUARE 7 3 [1]).count bypass_move = 2 ∧
      bypass_move ∈ displacement_actions bypass_board 1 3 Player.SQUARE 7 3 [1] (1, 0) ∧
      bypass_move ∈ displacement_actions bypass_board 1 3 Player.SQUARE 7 3 [1] (-1, 0) := by
  decide

/-- C36 amended: an action that is not a Move occurs in the list of
`calculate_possible_actions` at most once; a Move occurs at most four times, because the
actions emitted for one piece in one of the four directions are pairwise different. -/
theorem generated_action_multiplicity (board : FastBoard) (player : Player) (rows cols : Int)
    (score_cols : List Int) (a : Move) :
    (a.action ≠ ActionKind.move →
      (calculate_possible_actions board player rows cols score_cols).count a ≤ 1) ∧
    (calculate_possible_actions board player rows cols score_cols).count a ≤ 4 ∧
    ∀ (x y : Int) (dir : Cell),
      (displacement_actions board x y player rows cols score_cols dir).Nodup := by
  have hdisp := displacement_actions_nodup board
  -- the multiplicity among the actions of one piece
  have hpiece : ∀ x y : Int,
      (a.action ≠ ActionKind.move →
        (get_actions_for_piece board x y player rows cols score_cols).count a ≤ 1) ∧
      (get_actions_for_piece board x y player rows cols score_cols).count a ≤ 4 := by
    intro x y
    unfold get_actions_for_piece
    rw [List.count_append]
    have ht := List.nodup_iff_count_le_one.1
      (transformation_actions_nodup board x y player rows cols score_cols) a
    have hd : ∀ dir : Cell,
        (displacement_actions board x y player rows cols score_cols dir).count a ≤ 1 :=
      fun dir => List.nodup_iff_count_le_one.1 (hdisp x y player rows cols score_cols dir) a
    by_cases hk : a.action = ActionKind.flip ∨ a.action = ActionKind.rotate
    · -- a transformation: no direction emits it
      have hz : (DIRECTIONS.flatMap
          (displacement_actions board x y player rows cols score_cols)).count a = 0 := by
        rw [List.count_eq_zero]
        intro hmem
        rw [List.mem_flatMap] at hmem
        obtain ⟨dir, -, hmem⟩ := hmem
        have := (displacement_actions_spec board x y player rows cols score_cols dir a hmem).2
        rcases this with ⟨h1, -⟩ | ⟨h1, -⟩ <;> rcases hk with hk | hk <;> rw [h1] at hk <;>
          cases hk
      omega
    · -- not a transformation
      have hz : (transformation_actions board x y player rows cols score_cols).count a
          = 0 := by
        rw [List.count_eq_zero]
        intro hmem
        exact hk (transformation_actions_kind board x y player rows cols score_cols a hmem).1
      have h4 : (DIRECTIONS.flatMap
          (displacement_actions board x y player rows cols score_cols)).count a ≤ 4 := by
        have h1 := hd (0, 1)
        have h2 := hd (0, -1)
        have h3 := hd (1, 0)
        have h5 := hd (-1, 0)
        simp only [DIRECTIONS, List.flatMap_cons, List.flatMap_nil, List.count_append,
          List.count_nil]
        omega
      refine ⟨?_, by omega⟩
      intro hnm
      have h1 : (DIRECTIONS.flatMap
          (displacement_actions board x y player rows cols score_cols)).count a ≤ 1 := by
        apply count_flatMap_le a _ (a.to_pos.1 - x, a.to_pos.2 - y) 1 DIRECTIONS
          (by decide) _ (hd _)
        intro dir _ hne hmem
        have := (displacement_actions_spec board x y player rows cols score_cols dir a hmem).2
        rcases this with ⟨h1, -⟩ | ⟨-, h2, -⟩
        · exact hnm h1
        · apply hne
          rw [h2]
          exact Prod.ext (by simp) (by simp)
      omega
  -- every action of a cell has that cell as its source
  have hsrc : ∀ (x y : Int) (m : Move),
      m ∈ get_actions_for_piece board x y player rows cols score_cols →
      m.from_pos = (x, y) := by
    intro x y m hm
    rw [mem_get_actions_for_piece] at hm
    rcases hm with hm | ⟨dir, -, hm⟩
    · exact (transformation_actions_kind board x y player rows cols score_cols m hm).2.1
    · exact (displacement_actions_spec board x y player rows cols score_cols dir m hm).1
  have hgrid : ∀ b : Nat,
      (∀ x y : Int,
        (get_actions_for_piece board x y player rows cols score_cols).count a ≤ b) →
      (calculate_possible_actions board player rows cols score_cols).count a ≤ b := by
    intro b hb
    unfold calculate_possible_actions
    apply count_flatMap_le a _ a.from_pos.2 b (int_range rows) (nodup_int_range rows)
    · intro y _ hne hmem
      rw [List.mem_flatMap] at hmem
      obtain ⟨x, -, hmem⟩ := hmem
      simp only at hmem
      split_ifs at hmem
      · exact hne (by rw [hsrc x y a hmem])
      · simp at hmem
    · apply count_flatMap_le a _ a.from_pos.1 b (int_range cols) (nodup_int_range cols)
      · intro x _ hne hmem
        simp only at hmem
        split_ifs at hmem
        · exact hne (by rw [hsrc x _ a hmem])
        · simp at hmem
      · simp only
        split_ifs
        · exact hb _ _
        · simp
  exact ⟨fun hnm => hgrid 1 (fun x y => (hpiece x y).1 hnm),
    hgrid 4 (fun x y => (hpiece x y).2), fun x y dir => hdisp x y player rows cols score_cols dir⟩

/-- C36 amended, instance: the Flip to horizontal of the Stone of `bypass_board` is not a
Move and occurs in the list once. -/
theorem generated_action_multiplicity_witness :
    ({ action := ActionKind.flip, from_pos := (1, 3), to_pos := (1, 3),
       orientation := some Orientation.HORIZONTAL } : Move).action ≠ ActionKind.move ∧
    (calculate_possible_actions bypass_board Player.SQUARE 7 3 [1]).count
      ({ action := ActionKind.flip, from_pos := (1, 3), to_pos := (1, 3),
         orientation := some Orientation.HORIZONTAL } : Move) ≤ 1 :=
  ⟨by decide,
   (generated_action_multiplicity bypass_board Player.SQUARE 7 3 [1] _).1 (by decide)⟩

/-! ## Piece conservation -/

/-- Two tests that agree on a duplicate-free list except at one member. -/
theorem countP_change_one {α : Type} (q : α) (f g : α → Bool) :
    ∀ l : List α, l.Nodup → q ∈ l → (∀ c ∈ l, c ≠ q → f c = g c) →
      l.countP f + (if g q = true then 1 else 0) = l.countP g + (if f q = true then 1 else 0) := by
  intro l
  induction l with
  | nil => intro _ h _; simp at h
  | cons c l ih =>
    intro hnd hq hagree
    rw [List.nodup_cons] at hnd
    by_cases hc : c = q
    · subst hc
      have hrest : l.countP f = l.countP g := by
        apply List.countP_congr
        intro z hz
        rw [hagree z (List.mem_cons_of_mem _ hz) (fun e => hnd.1 (e ▸ hz))]
      simp only [List.countP_cons, hrest]
      omega
    · have hq' : q ∈ l := by
        rcases List.mem_cons.1 hq with h | h
        · exact absurd h.symm hc
        · exact h
      have := ih hnd.2 hq' (fun z hz => hagree z (List.mem_cons_of_mem _ hz))
      have hfc := hagree c (List.mem_cons_self _ _) hc
      simp only [List.countP_cons, hfc]
      omega

/-- Writing a piece into a grid cell changes the count of an owner by the difference between
the written piece and the replaced one. -/
theorem count_pieces_set (board : FastBoard) (rows cols : Int) (x y : Int) (pc : Piece)
    (owner : Player) (hshape : board_shape board rows cols)
    (hin : within_board_limits x y rows cols = true) :
    count_pieces (board_set board x y pc) rows cols owner
        + (if (board_at board x y).player = owner then 1 else 0)
      = count_pieces board rows cols owner + (if pc.player = owner then 1 else 0) := by
  have h := countP_change_one ((x, y) : Cell)
    (fun c => decide ((board_at (board_set board x y pc) c.1 c.2).player = owner))
    (fun c => decide ((board_at board c.1 c.2).player = owner))
    (grid_cells rows cols) (nodup_grid_cells rows cols)
    ((mem_grid_cells rows cols (x, y)).2 hin)
    (by
      intro c _ hne
      show decide ((board_at (board_set board x y pc) c.1 c.2).player = owner)
        = decide ((board_at board c.1 c.2).player = owner)
      rw [board_at_set_other board x y c.1 c.2 pc (fun e => hne (Prod.ext e.1 e.2))])
  simp only [board_at_set_same board rows cols x y pc hshape hin, decide_eq_true_eq] at h
  unfold count_pieces
  exact h

/-- C38: on a board of `rows` x `cols` cells every action returned by
`calculate_possible_actions` leads to a board with the same number of pieces of every owner,
so with the same number of Square pieces and of Circle pieces: no generated action
overwrites or removes a piece. -/
theorem generated_actions_conserve_pieces (board : FastBoard) (player : Player)
    (rows cols : Int) (score_cols : List Int) (a : Move)
    (hshape : board_shape board rows cols)
    (ha : a ∈ calculate_possible_actions board player rows cols score_cols) :
    ∀ owner : Player,
      count_pieces (get_next_board_state board a) rows cols owner
        = count_pieces board rows cols owner := by
  intro owner
  rw [mem_calculate_possible_actions] at ha
  obtain ⟨y, hy, x, hx, hne, -, ha⟩ := ha
  have hin : within_board_limits x y rows cols = true :=
    (within_board_limits_iff x y rows cols).2
      ⟨(mem_int_range cols x).1 hx, (mem_int_range rows y).1 hy⟩
  have hempty : ∀ p : Piece, p.isEmpty = true → p.player = Player.NONE := by
    intro p hp; simpa [Piece.isEmpty] using hp
  have hnone : ({} : Piece).player = Player.NONE := rfl
  rw [mem_get_actions_for_piece] at ha
  rcases ha with ha | ⟨dir, hdir, ha⟩
  · -- Flip and Rotate keep the owner of the cell
    obtain ⟨hk, hfrom, -, -⟩ :=
      transformation_actions_kind board x y player rows cols score_cols a ha
    have hf1 : a.from_pos.1 = x := by rw [hfrom]
    have hf2 : a.from_pos.2 = y := by rw [hfrom]
    rcases hk with hk | hk
    · rw [get_next_board_state_flip_eq board a hk, hf1, hf2]
      split_ifs
      · have := count_pieces_set board rows cols x y
          { player := (board_at board x y).player, side := Side.RIVER,
            orientation :=
              match a.orientation with
              | some s => if s = Orientation.HORIZONTAL then Orientation.HORIZONTAL
                          else Orientation.VERTICAL
              | none => Orientation.HORIZONTAL } owner hshape hin
        simp only at this
        omega
      · have := count_pieces_set board rows cols x y
          { player := (board_at board x y).player, side := Side.STONE,
            orientation := Orientation.NONE } owner hshape hin
        simp only at this
        omega
    · rw [get_next_board_state_rotate_eq board a hk, hf1, hf2]
      have := count_pieces_set board rows cols x y
        { player := (board_at board x y).player, side := (board_at board x y).side,
          orientation :=
            if (board_at board x y).orientation = Orientation.HORIZONTAL then
              Orientation.VERTICAL
            else Orientation.HORIZONTAL } owner hshape hin
      simp only at this
      omega
  · obtain ⟨hfrom, hcase⟩ :=
      displacement_actions_spec board x y player rows cols score_cols dir a ha
    have hf1 : a.from_pos.1 = x := by rw [hfrom]
    have hf2 : a.from_pos.2 = y := by rw [hfrom]
    rcases hcase with ⟨hk, -, hto_in, hto_empty, -⟩ | ⟨hk, hto, hto_in, -, hto_full, -, pt, hpt,
      hpt_in, hpt_empty, -⟩
    · -- Move: the destination was empty
      have hne_to : ¬ (x = a.to_pos.1 ∧ y = a.to_pos.2) := by
        rintro ⟨e1, e2⟩
        rw [← e1, ← e2, hne] at hto_empty
        exact absurd hto_empty (by decide)
      have h1 := count_pieces_set board rows cols a.to_pos.1 a.to_pos.2 (board_at board x y)
        owner hshape hto_in
      have h2 := count_pieces_set (board_set board a.to_pos.1 a.to_pos.2 (board_at board x y))
        rows cols x y {} owner (board_set_shape board rows cols _ _ _ hshape) hin
      rw [board_at_set_other board a.to_pos.1 a.to_pos.2 x y _ hne_to] at h2
      rw [hempty _ hto_empty] at h1
      rw [hnone] at h2
      have hnext : get_next_board_state board a
          = board_set (board_set board a.to_pos.1 a.to_pos.2 (board_at board x y)) x y {} := by
        unfold get_next_board_state
        simp only [hk, hf1, hf2]
      rw [hnext]
      omega
    · -- Push: the cell behind the pushed piece was empty
      have hto1 : a.to_pos.1 = x + dir.1 := by rw [hto]
      have hto2 : a.to_pos.2 = y + dir.2 := by rw [hto]
      have hne_to : ¬ (x = a.to_pos.1 ∧ y = a.to_pos.2) := by
        rw [hto1, hto2]
        unfold DIRECTIONS at hdir
        simp only [List.mem_cons, List.mem_singleton, List.not_mem_nil, or_false] at hdir
        rcases hdir with rfl | rfl | rfl | rfl <;> simp
      have hne_pt_to : ¬ (a.to_pos.1 = pt.1 ∧ a.to_pos.2 = pt.2) := by
        rintro ⟨e1, e2⟩
        rw [e1, e2, hpt_empty] at hto_full
        exact absurd hto_full (by decide)
      have hne_pt : ¬ (x = pt.1 ∧ y = pt.2) := by
        rintro ⟨e1, e2⟩
        rw [← e1, ← e2, hne] at hpt_empty
        exact absurd hpt_empty (by decide)
      have hnext : get_next_board_state board a
          = board_set
              (board_set
                (board_set board pt.1 pt.2 (board_at board a.to_pos.1 a.to_pos.2))
                a.to_pos.1 a.to_pos.2
                (board_at (board_set board pt.1 pt.2 (board_at board a.to_pos.1 a.to_pos.2))
                  x y)) x y {} := by
        unfold get_next_board_state
        simp only [hk, hf1, hf2, hpt]
      rw [hnext]
      have hs1 := board_set_shape board rows cols pt.1 pt.2
        (board_at board a.to_pos.1 a.to_pos.2) hshape
      have h1 := count_pieces_set board rows cols pt.1 pt.2
        (board_at board a.to_pos.1 a.to_pos.2) owner hshape hpt_in
      have h2 := count_pieces_set _ rows cols a.to_pos.1 a.to_pos.2
        (board_at (board_set board pt.1 pt.2 (board_at board a.to_pos.1 a.to_pos.2)) x y)
        owner hs1 hto_in
      have h3 := count_pieces_set _ rows cols x y {} owner
        (board_set_shape _ rows cols a.to_pos.1 a.to_pos.2
          (board_at (board_set board pt.1 pt.2 (board_at board a.to_pos.1 a.to_pos.2)) x y)
          hs1) hin
      rw [board_at_set_other _ a.to_pos.1 a.to_pos.2 x y _ hne_to] at h3
      rw [board_at_set_other board pt.1 pt.2 x y _ hne_pt] at h2 h3 ⊢
      rw [board_at_set_other board pt.1 pt.2 a.to_pos.1 a.to_pos.2 _ hne_pt_to] at h2
      rw [hempty _ hpt_empty] at h1
      rw [hnone] at h3
      omega

/-- C38, instance: the Move of the Stone of `flow_board` from (0,0) to (1,0). -/
theorem generated_actions_conserve_pieces_witness :
    (board_shape flow_board 7 3 ∧
      first_move ∈ calculate_possible_actions flow_board Player.SQUARE 7 3 [1]) ∧
    ∀ owner : Player,
      count_pieces (get_next_board_state flow_board first_move) 7 3 owner
        = count_pieces flow_board 7 3 owner :=
  ⟨⟨flow_board_shape, by decide⟩,
   generated_actions_conserve_pieces flow_board Player.SQUARE 7 3 [1] first_move
    flow_board_shape (by decide)⟩

/-! ## Bounds of the near-win bonus -/

/-- The loop of `calculate_near_win_bonus` over the adjacent positions, for an empty goal
cell `g`: no bonus is negative, and none exceeds `B - D`, because a cell that holds a piece
is not the empty cell `g` and so is at distance 1 at least. -/
theorem near_win_fold_bounds (board : FastBoard) (player : Player) (g : Cell) (B D : Int)
    (hD : 0 ≤ D) (hBD : D ≤ B) (hg : (board_at board g.1 g.2).isEmpty = true)
    (l : List Cell) :
    0 ≤ l.foldl (fun best_bonus adj_pos =>
        if ((board_at board adj_pos.1 adj_pos.2).isEmpty
            || decide ((board_at board adj_pos.1 adj_pos.2).player ≠ player)) = true then
          best_bonus
        else max best_bonus (max 0 (B - (|g.1 - adj_pos.1| + |g.2 - adj_pos.2|) * D))) 0 ∧
      l.foldl (fun best_bonus adj_pos =>
        if ((board_at board adj_pos.1 adj_pos.2).isEmpty
            || decide ((board_at board adj_pos.1 adj_pos.2).player ≠ player)) = true then
          best_bonus
        else max best_bonus (max 0 (B - (|g.1 - adj_pos.1| + |g.2 - adj_pos.2|) * D))) 0
        ≤ B - D := by
  apply foldl_invariant _ (fun b : Int => 0 ≤ b ∧ b ≤ B - D) l 0 ⟨le_refl _, by omega⟩
  intro adj _ b hb
  dsimp only
  split_ifs with hc
  · exact hb
  · simp only [Bool.or_eq_true, decide_eq_true_eq, not_or, Bool.not_eq_true] at hc
    have hne : g ≠ adj := by
      intro e
      rw [e, hc.1] at hg
      exact absurd hg (by decide)
    have hdist : 1 ≤ |g.1 - adj.1| + |g.2 - adj.2| := by
      by_contra hlt
      have h1 := abs_nonneg (g.1 - adj.1)
      have h2 := abs_nonneg (g.2 - adj.2)
      have e1 : |g.1 - adj.1| = 0 := by omega
      have e2 : |g.2 - adj.2| = 0 := by omega
      rw [abs_eq_zero] at e1 e2
      exact hne (Prod.ext (by omega) (by omega))
    have hmul : D ≤ (|g.1 - adj.1| + |g.2 - adj.2|) * D := by
      have := mul_le_mul_of_nonneg_right hdist hD
      simpa using this
    refine ⟨le_max_of_le_left hb.1, max_le hb.2 (max_le (by omega) (by omega))⟩

/-- The goal cells of a player and the positions next to the player's scoring zone are
different cells: their Manhattan distance is 1 at least. -/
theorem adjacent_is_off_goal (player : Player) (rows cols : Int) (score_cols : List Int) :
    ∀ g ∈ own_scoring_areas player rows cols score_cols,
      ∀ adj ∈ get_adjacent_to_scoring_zone player rows cols score_cols,
        1 ≤ |g.1 - adj.1| + |g.2 - adj.2| := by
  intro g hg adj hadj
  unfold own_scoring_areas at hg
  simp only [List.mem_map] at hg
  obtain ⟨col, hcol, rfl⟩ := hg
  have hne : score_cols ≠ [] := List.ne_nil_of_mem hcol
  have hlo := (min_element_spec score_cols hne).2 col hcol
  have hhi := (max_element_spec score_cols hne).2 col hcol
  unfold get_adjacent_to_scoring_zone at hadj
  simp only [List.mem_append] at hadj
  rcases hadj with ((hadj | hadj) | hadj) | hadj
  · split_ifs at hadj
    · rw [List.mem_map] at hadj
      obtain ⟨x, -, rfl⟩ := hadj
      dsimp only
      have h1 := abs_nonneg (col - x)
      rcases abs_cases (get_target_row player rows - (get_target_row player rows - 1))
        with ⟨e, _⟩ | ⟨e, _⟩ <;> omega
    · simp at hadj
  · split_ifs at hadj
    · rw [List.mem_map] at hadj
      obtain ⟨x, -, rfl⟩ := hadj
      dsimp only
      have h1 := abs_nonneg (col - x)
      rcases abs_cases (get_target_row player rows - (get_target_row player rows + 1))
        with ⟨e, _⟩ | ⟨e, _⟩ <;> omega
    · simp at hadj
  · split_ifs at hadj
    · simp only [List.mem_singleton] at hadj
      subst hadj
      dsimp only
      have h2 := abs_nonneg (get_target_row player rows - get_target_row player rows)
      rcases abs_cases (col - (min_element score_cols - 1)) with ⟨e, _⟩ | ⟨e, _⟩ <;> omega
    · simp at hadj
  · split_ifs at hadj
    · simp only [List.mem_singleton] at hadj
      subst hadj
      dsimp only
      have h2 := abs_nonneg (get_target_row player rows - get_target_row player rows)
      rcases abs_cases (col - (max_element score_cols + 1)) with ⟨e, _⟩ | ⟨e, _⟩ <;> omega
    · simp at hadj

/-- C39: for every board and geometry `calculate_near_win_bonus` lies between 0 and
`BASE_VALUE - DECAY` of the size tier, that is 8500 for `rows >= 17`, 5800 for
`15 <= rows < 17` and 4000 for `rows < 15`; and every position adjacent to the scoring zone
is at Manhattan distance 1 at least from every goal cell of the player. -/
theorem near_win_bonus_bounds (board : FastBoard) (player : Player) (rows cols : Int)
    (score_cols : List Int) :
    0 ≤ calculate_near_win_bonus board player rows cols score_cols ∧
      calculate_near_win_bonus board player rows cols score_cols
        ≤ (if rows ≥ 17 then 8500 else if rows ≥ 15 then 5800 else 4000) ∧
      ∀ g ∈ own_scoring_areas player rows cols score_cols,
        ∀ adj ∈ get_adjacent_to_scoring_zone player rows cols score_cols,
          1 ≤ |g.1 - adj.1| + |g.2 - adj.2| := by
  have hbound : 0 ≤ calculate_near_win_bonus board player rows cols score_cols ∧
      calculate_near_win_bonus board player rows cols score_cols
        ≤ (if rows ≥ 17 then 8500 else if rows ≥ 15 then 5800 else 4000) := by
    obtain ⟨-, hcell⟩ := near_win_scan board player
      (own_scoring_areas player rows cols score_cols) ((0 : Int), ((-1, -1) : Cell))
    have key : ∀ (P : Prop) [Decidable P] (X T : Int), 0 ≤ T → (¬ P → 0 ≤ X ∧ X ≤ T) →
        0 ≤ (if P then 0 else X) ∧ (if P then 0 else X) ≤ T := by
      intro P _ X T hT h
      split_ifs with hp
      · exact ⟨le_refl _, hT⟩
      · exact h hp
    unfold calculate_near_win_bonus
    simp only at hcell ⊢
    apply key
    · split_ifs <;> omega
    · intro hc
      rw [not_or] at hc
      rcases hcell with h | ⟨c, -, he, heq⟩
      · rw [h] at hc
        exact absurd rfl hc.2
      · rw [heq]
        have hfold := near_win_fold_bounds board player c
          (if rows ≥ 17 then 10000 else if rows ≥ 15 then 7000 else 5000)
          (if rows ≥ 17 then 1500 else if rows ≥ 15 then 1200 else 1000)
          (by split_ifs <;> omega) (by split_ifs <;> omega) he
          (get_adjacent_to_scoring_zone player rows cols score_cols)
        refine ⟨hfold.1, le_trans hfold.2 ?_⟩
        split_ifs <;> omega
  exact ⟨hbound.1, hbound.2, adjacent_is_off_goal player rows cols score_cols⟩

/-! ## Configured evaluator weights -/

set_option maxRecDepth 1000000 in
/-- C31 as stated fails: an evaluator whose weights were set to 6.0 and -2.4 evaluates the
7-row board `flow_board` with the multipliers 1.2 and -2.6 of the small tier, as the
evaluator with the constructor's weights 1.0 and -2.3 does, and the two scores are equal,
although the attack-proximity term computed with 6.0 and -2.4 differs from the one computed
with 1.2 and -2.6. -/
theorem configured_weights_unused_counterexample :
    local_weights (update_evaluation_weights default_evaluator dbl_6_0 dbl_neg_2_4) 7
        = (dbl_1_2, dbl_neg_2_6) ∧
      (update_evaluation_weights default_evaluator dbl_6_0 dbl_neg_2_4).friendly_component_weight
        ≠ default_evaluator.friendly_component_weight ∧
      Final_Evaluation (update_evaluation_weights default_evaluator dbl_6_0 dbl_neg_2_4)
          flow_board Player.SQUARE 7 3 [1]
        = Final_Evaluation default_evaluator flow_board Player.SQUARE 7 3 [1] ∧
      evaluate_top_pieces_proximity flow_board Player.SQUARE 7 3 [1] dbl_6_0 dbl_neg_2_4
        ≠ evaluate_top_pieces_proximity flow_board Player.SQUARE 7 3 [1] dbl_1_2
            dbl_neg_2_6 := by
  decide!

/-- C31 amended: `Final_Evaluation` passes the multipliers set through
`update_evaluation_weights` to the attack-proximity and river-network terms only on boards
with `rows >= 17`.  For `15 <= rows < 17` it passes 1.0 and -2.4 and for `rows < 15` it
passes 1.2 and -2.6, so on a board with fewer than 17 rows every two evaluators give the
same score. -/
theorem final_evaluation_weights_by_tier (ev : TacticalEvaluator)
    (friendly_weight opponent_weight : Dbl) (board : FastBoard) (player : Player)
    (rows cols : Int) (score_cols : List Int) :
    (17 ≤ rows →
      Final_Evaluation (update_evaluation_weights ev friendly_weight opponent_weight) board
          player rows cols score_cols
        = combine_scores rows
            (evaluate_top_pieces_proximity board player rows cols score_cols friendly_weight
              opponent_weight)
            (evaluate_river_system_potential board player rows cols score_cols friendly_weight
              opponent_weight)
            (penalty_for_blocked_score_zone board player rows cols score_cols)
            (evaluate_river_highway_potential board player rows cols score_cols)
            (calculate_near_win_bonus board player rows cols score_cols)) ∧
    (15 ≤ rows → rows < 17 →
      Final_Evaluation (update_evaluation_weights ev friendly_weight opponent_weight) board
          player rows cols score_cols
        = combine_scores rows
            (evaluate_top_pieces_proximity board player rows cols score_cols dbl_1_0
              dbl_neg_2_4)
            (evaluate_river_system_potential board player rows cols score_cols dbl_1_0
              dbl_neg_2_4)
            (penalty_for_blocked_score_zone board player rows cols score_cols)
            (evaluate_river_highway_potential board player rows cols score_cols)
            (calculate_near_win_bonus board player rows cols score_cols)) ∧
    (rows < 15 →
      Final_Evaluation (update_evaluation_weights ev friendly_weight opponent_weight) board
          player rows cols score_cols
        = combine_scores rows
            (evaluate_top_pieces_proximity board player rows cols score_cols dbl_1_2
              dbl_neg_2_6)
            (evaluate_river_system_potential board player rows cols score_cols dbl_1_2
              dbl_neg_2_6)
            (penalty_for_blocked_score_zone board player rows cols score_cols)
            (evaluate_river_highway_potential board player rows cols score_cols)
            (calculate_near_win_bonus board player rows cols score_cols)) ∧
    (rows < 17 → ∀ other : TacticalEvaluator,
      Final_Evaluation other board player rows cols score_cols
        = Final_Evaluation (update_evaluation_weights ev friendly_weight opponent_weight)
            board player rows cols score_cols) := by
  refine ⟨?_, ?_, ?_, ?_⟩
  · intro h
    unfold Final_Evaluation local_weights update_evaluation_weights
    simp only [ge_iff_le, h, if_true]
  · intro h1 h2
    unfold Final_Evaluation local_weights
    simp only [ge_iff_le, h1, not_le.2 h2, if_true, if_false]
  · intro h
    have h1 : ¬ 17 ≤ rows := by omega
    have h2 : ¬ 15 ≤ rows := by omega
    unfold Final_Evaluation local_weights
    simp only [ge_iff_le, h1, h2, if_false]
  · intro h other
    have h1 : ¬ 17 ≤ rows := by omega
    unfold Final_Evaluation local_weights
    simp only [ge_iff_le, h1, if_false]

set_option maxRecDepth 1000000 in
/-- C31 amended, instance: on the 17-row board `lone_stone_board` the evaluator with the
weights 6.0 and -2.4 and the evaluator with the constructor's weights give different scores,
the first being the combination of the terms computed with 6.0 and -2.4. -/
theorem final_evaluation_weights_by_tier_witness :
    Final_Evaluation (update_evaluation_weights default_evaluator dbl_6_0 dbl_neg_2_4)
        lone_stone_board Player.SQUARE 17 3 [1]
      = combine_scores 17
          (evaluate_top_pieces_proximity lone_stone_board Player.SQUARE 17 3 [1] dbl_6_0
            dbl_neg_2_4)
          (evaluate_river_system_potential lone_stone_board Player.SQUARE 17 3 [1] dbl_6_0
            dbl_neg_2_4)
          (penalty_for_blocked_score_zone lone_stone_board Player.SQUARE 17 3 [1])
          (evaluate_river_highway_potential lone_stone_board Player.SQUARE 17 3 [1])
          (calculate_near_win_bonus lone_stone_board Player.SQUARE 17 3 [1]) ∧
    Final_Evaluation (update_evaluation_weights default_evaluator dbl_6_0 dbl_neg_2_4)
        lone_stone_board Player.SQUARE 17 3 [1]
      ≠ Final_Evaluation default_evaluator lone_stone_board Player.SQUARE 17 3 [1] :=
  ⟨(final_evaluation_weights_by_tier default_evaluator dbl_6_0 dbl_neg_2_4 lone_stone_board
      Player.SQUARE 17 3 [1]).1 (by decide), by decide!⟩

/-! ## Fingerprints across calls of `choose` -/

set_option maxRecDepth 1000000 in
/-- C32, failing input: a fresh Square agent is asked for a move on `flow_board` twice, and
the two calls draw different Zobrist keys (`mixing_keys`, then `counting_keys`).  The first
call leaves one fingerprint in `position_history`; the fingerprint the second call computes
for the same board and side is a different number and is not in that history, so the search
of the second call does not score the position as a repetition (it would with the keys of
the first call), and after the second call the history holds the position twice. -/
theorem redrawn_keys_counterexample :
    (choose fresh_square_agent mixing_keys 4096 flow_board 7 3 [1] (fun _ => false)
        0).2.position_history
      = [compute_hash (new_search_manager fresh_square_agent mixing_keys 4096) flow_board
          Player.SQUARE 7 3] ∧
    compute_hash
        (new_search_manager
          (choose fresh_square_agent mixing_keys 4096 flow_board 7 3 [1] (fun _ => false) 0).2
          counting_keys 4096) flow_board Player.SQUARE 7 3
      ∉ (choose fresh_square_agent mixing_keys 4096 flow_board 7 3 [1] (fun _ => false)
          0).2.position_history ∧
    (alpha_beta_search
        (new_search_manager
          (choose fresh_square_agent mixing_keys 4096 flow_board 7 3 [1] (fun _ => false) 0).2
          counting_keys 4096) 7 3 [1]
        (choose fresh_square_agent mixing_keys 4096 flow_board 7 3 [1] (fun _ => false)
          0).2.position_history
        0 tt_empty flow_board Score.neg_inf Score.pos_inf Player.SQUARE).1
      ≠ Score.val (-500000000) ∧
    (alpha_beta_search
        (new_search_manager
          (choose fresh_square_agent mixing_keys 4096 flow_board 7 3 [1] (fun _ => false) 0).2
          mixing_keys 4096) 7 3 [1]
        (choose fresh_square_agent mixing_keys 4096 flow_board 7 3 [1] (fun _ => false)
          0).2.position_history
        0 tt_empty flow_board Score.neg_inf Score.pos_inf Player.SQUARE).1
      = Score.val (-500000000) ∧
    (choose
        (choose fresh_square_agent mixing_keys 4096 flow_board 7 3 [1] (fun _ => false) 0).2
        counting_keys 4096 flow_board 7 3 [1] (fun _ => false) 0).2.position_history.length
      = 2 := by
  decide!

/-- C32, what the code does: the fingerprint `choose` inserts is computed with the keys
drawn in that call.  When a later call draws a table that differs from the earlier one in
the key of one grid cell for the piece state the board holds there (and agrees in the keys
of the other cells for the states they hold), the fingerprint the later call computes for
the same board and side is not the one the earlier call inserted: unless it was in the
history before, it is not in the history. -/
theorem choose_fingerprint_follows_drawn_keys (agent : StudentAgent)
    (earlier_table later_table : Nat → Nat → Nat → Nat) (zobrist_turn_key : Nat)
    (board : FastBoard) (rows cols : Int) (score_cols : List Int) (clock : Nat → Bool)
    (draw : Nat) (x y : Int)
    (hin : within_board_limits x y rows cols = true)
    (hkey : earlier_table y.toNat x.toNat (get_piece_index (board_at board x y))
      ≠ later_table y.toNat x.toNat (get_piece_index (board_at board x y)))
    (hrest : ∀ c ∈ grid_cells rows cols, c ≠ (x, y) →
      earlier_table c.2.toNat c.1.toNat (get_piece_index (board_at board c.1 c.2))
        = later_table c.2.toNat c.1.toNat (get_piece_index (board_at board c.1 c.2)))
    (hold : compute_hash (new_search_manager agent later_table zobrist_turn_key) board
      agent.side_ rows cols ∉ agent.position_history) :
    compute_hash (new_search_manager agent earlier_table zobrist_turn_key) board agent.side_
        rows cols
      ∈ (choose agent earlier_table zobrist_turn_key board rows cols score_cols clock
          draw).2.position_history ∧
    compute_hash
        (new_search_manager
          (choose agent earlier_table zobrist_turn_key board rows cols score_cols clock draw).2
          later_table zobrist_turn_key) board agent.side_ rows cols
      ∉ (choose agent earlier_table zobrist_turn_key board rows cols score_cols clock
          draw).2.position_history := by
  have hgrid := xor_fold_single
    (fun c : Cell => earlier_table c.2.toNat c.1.toNat
      (get_piece_index (board_at board c.1 c.2)))
    (fun c : Cell => later_table c.2.toNat c.1.toNat
      (get_piece_index (board_at board c.1 c.2)))
    (x, y) (grid_cells rows cols) 0 0 (nodup_grid_cells rows cols)
    ((mem_grid_cells rows cols (x, y)).2 hin) hrest
  simp only [Nat.xor_self, Nat.zero_xor] at hgrid
  have hne : compute_hash (new_search_manager agent earlier_table zobrist_turn_key) board
        agent.side_ rows cols
      ≠ compute_hash (new_search_manager agent later_table zobrist_turn_key) board
        agent.side_ rows cols := by
    intro heq
    have hxor : compute_hash (new_search_manager agent earlier_table zobrist_turn_key) board
          agent.side_ rows cols ^^^
        compute_hash (new_search_manager agent later_table zobrist_turn_key) board
          agent.side_ rows cols
        = earlier_table y.toNat x.toNat (get_piece_index (board_at board x y)) ^^^
          later_table y.toNat x.toNat (get_piece_index (board_at board x y)) := by
      unfold compute_hash
      simp only [hash_fold_grid]
      have hside : (new_search_manager agent earlier_table zobrist_turn_key).opp_side_
          = (new_search_manager agent later_table zobrist_turn_key).opp_side_ := rfl
      by_cases ht : agent.side_
          = (new_search_manager agent earlier_table zobrist_turn_key).opp_side_
      · rw [if_pos ht, if_pos (hside ▸ ht)]
        exact (xor_xor_cancel _ _ _).trans hgrid
      · rw [if_neg ht, if_neg (hside ▸ ht)]
        exact hgrid
    rw [heq, Nat.xor_self] at hxor
    exact hkey (Nat.xor_eq_zero.1 hxor.symm)
  have hhist : (choose agent earlier_table zobrist_turn_key board rows cols score_cols clock
        draw).2.position_history
      = agent.position_history.insert
          (compute_hash (new_search_manager agent earlier_table zobrist_turn_key) board
            agent.side_ rows cols) := rfl
  have hmgr : new_search_manager
        (choose agent earlier_table zobrist_turn_key board rows cols score_cols clock draw).2
        later_table zobrist_turn_key
      = new_search_manager agent later_table zobrist_turn_key := rfl
  rw [hhist, hmgr]
  constructor
  · exact List.mem_insert_self _ _
  · rw [List.mem_insert_iff, not_or]
    exact ⟨fun e => hne e.symm, hold⟩

theorem redrawn_keys_agree :
    ∀ c ∈ grid_cells 7 3, c ≠ ((0, 0) : Cell) →
      mixing_keys c.2.toNat c.1.toNat (get_piece_index (board_at flow_board c.1 c.2))
        = redrawn_keys c.2.toNat c.1.toNat (get_piece_index (board_at flow_board c.1 c.2)) := by
  intro c hc hne
  rw [mem_grid_cells, within_board_limits_iff] at hc
  have h : ¬ (c.2.toNat = 0 ∧ c.1.toNat = 0 ∧
      get_piece_index (board_at flow_board c.1 c.2) = 1) := by
    rintro ⟨h1, h2, -⟩
    exact hne (Prod.ext (by omega) (by omega))
  unfold redrawn_keys
  rw [if_neg h]

/-- C32, instance: a fresh Square agent on `flow_board`, when the later call redraws the key
of the cell (0,0) for the Square Stone standing there. -/
theorem choose_fingerprint_follows_drawn_keys_witness :
    (within_board_limits 0 0 7 3 = true ∧
      mixing_keys (0 : Int).toNat (0 : Int).toNat (get_piece_index (board_at flow_board 0 0))
        ≠ redrawn_keys (0 : Int).toNat (0 : Int).toNat
            (get_piece_index (board_at flow_board 0 0))) ∧
    (compute_hash (new_search_manager fresh_square_agent mixing_keys 4096) flow_board
        fresh_square_agent.side_ 7 3
      ∈ (choose fresh_square_agent mixing_keys 4096 flow_board 7 3 [1] (fun _ => false)
          0).2.position_history ∧
    compute_hash
        (new_search_manager
          (choose fresh_square_agent mixing_keys 4096 flow_board 7 3 [1] (fun _ => false) 0).2
          redrawn_keys 4096) flow_board fresh_square_agent.side_ 7 3
      ∉ (choose fresh_square_agent mixing_keys 4096 flow_board 7 3 [1] (fun _ => false)
          0).2.position_history) :=
  ⟨⟨by decide, by decide⟩,
   choose_fingerprint_follows_drawn_keys fresh_square_agent mixing_keys redrawn_keys 4096
    flow_board 7 3 [1] (fun _ => false) 0 0 0 (by decide) (by decide) redrawn_keys_agree
    (by simp [fresh_square_agent])⟩

/-! ## Soundness of the transposition table

`alpha_beta_search` is a fail-soft alpha-beta search: the score it returns for a node of
minimax value `v` in the window `(alpha, beta)` is an upper bound of `v` if it is at or
below `alpha`, a lower bound if it is at or above `beta`, and `v` itself otherwise.  The
entries it stores are sound in the same sense, and a lookup that finds a sound entry of the
depth it needs keeps that property. -/

theorem Score.lt_iff (a b : Score) :
    a.lt b = true ↔ (a.tag < b.tag ∨ (a.tag = b.tag ∧ a.num < b.num)) := by
  cases a <;> cases b <;> simp [Score.lt, Score.tag, Score.num]

theorem Score.le_iff (a b : Score) :
    a.le b = true ↔ ¬ (b.tag < a.tag ∨ (b.tag = a.tag ∧ b.num < a.num)) := by
  cases a <;> cases b <;> simp [Score.le, Score.lt, Score.tag, Score.num]

theorem Score.ge_iff (a b : Score) :
    a.ge b = true ↔ ¬ (a.tag < b.tag ∨ (a.tag = b.tag ∧ a.num < b.num)) := by
  cases a <;> cases b <;> simp [Score.ge, Score.lt, Score.tag, Score.num]

theorem Score.eq_iff (a b : Score) : a = b ↔ (a.tag = b.tag ∧ a.num = b.num) := by
  cases a <;> cases b <;> simp [Score.tag, Score.num]

theorem score_max_cases (a b : Score) :
    (a.lt b = true ∧ score_max a b = b) ∨ (¬ a.lt b = true ∧ score_max a b = a) := by
  unfold score_max
  by_cases h : a.lt b = true
  · exact Or.inl ⟨h, by rw [if_pos h]⟩
  · exact Or.inr ⟨h, by rw [if_neg h]⟩

theorem score_min_cases (a b : Score) :
    (b.lt a = true ∧ score_min a b = b) ∨ (¬ b.lt a = true ∧ score_min a b = a) := by
  unfold score_min
  by_cases h : b.lt a = true
  · exact Or.inl ⟨h, by rw [if_pos h]⟩
  · exact Or.inr ⟨h, by rw [if_neg h]⟩

/-- The value itself fits every window. -/
theorem score_fits_self (v alpha beta : Score) : score_fits v v alpha beta := by
  refine ⟨fun _ => ?_, fun _ => ?_, fun _ _ => rfl⟩ <;>
    (simp only [Score.le_iff]; omega)

theorem Score.tag_neg_inf : Score.neg_inf.tag = 0 := rfl

theorem Score.tag_pos_inf : Score.pos_inf.tag = 2 := rfl

theorem Score.tag_val (v : Int) : (Score.val v).tag = 1 := rfl

theorem Score.num_neg_inf : Score.neg_inf.num = 0 := rfl

theorem Score.num_pos_inf : Score.pos_inf.num = 0 := rfl

theorem Score.num_val (v : Int) : (Score.val v).num = v := rfl

theorem Score.tag_range (s : Score) :
    (s.tag = 0 ∧ s.num = 0) ∨ s.tag = 1 ∨ (s.tag = 2 ∧ s.num = 0) := by
  cases s <;> simp [Score.tag, Score.num]

/-- With the full window only the value fits. -/
theorem score_fits_full (r v : Score) (h : score_fits r v Score.neg_inf Score.pos_inf) :
    r = v := by
  obtain ⟨h1, h2, h3⟩ := h
  simp only [Score.le_iff, Score.lt_iff, Score.eq_iff, Score.tag_neg_inf, Score.tag_pos_inf,
    Score.num_neg_inf, Score.num_pos_inf] at h1 h2 h3 ⊢
  have t0 := Score.tag_range r
  have t1 := Score.tag_range v
  omega
theorem minimax_value_of_history (ctx : SearchContext) (rows cols : Int)
    (score_cols : List Int) (position_history : List Nat) (n : Nat) (b : FastBoard)
    (p : Player) (h : compute_hash ctx b p rows cols ∈ position_history) :
    minimax_value ctx rows cols score_cols position_history n b p
      = Score.val (-500000000) := by
  cases n <;> simp only [minimax_value, if_pos h]

theorem minimax_value_of_leaf (ctx : SearchContext) (rows cols : Int)
    (score_cols : List Int) (position_history : List Nat) (n : Nat) (b : FastBoard)
    (p : Player) (h : compute_hash ctx b p rows cols ∉ position_history)
    (hleaf : (is_win_state b rows cols score_cols = true ∨ n = 0) ∨
      calculate_possible_actions b p rows cols score_cols = []) :
    minimax_value ctx rows cols score_cols position_history n b p
      = static_score ctx b rows cols score_cols := by
  cases n with
  | zero => simp only [minimax_value, if_neg h]
  | succ k =>
    simp only [minimax_value, if_neg h]
    by_cases hw : is_win_state b rows cols score_cols = true
    · rw [if_pos hw]
    · rw [if_neg hw]
      rcases hleaf with (hw' | hk) | hnone
      · exact absurd hw' hw
      · exact absurd hk (by omega)
      · rw [if_pos hnone]

theorem minimax_value_of_node (ctx : SearchContext) (rows cols : Int)
    (score_cols : List Int) (position_history : List Nat) (k : Nat) (b : FastBoard)
    (p : Player) (h : compute_hash ctx b p rows cols ∉ position_history)
    (hw : ¬ is_win_state b rows cols score_cols = true)
    (hsome : calculate_possible_actions b p rows cols score_cols ≠ []) :
    minimax_value ctx rows cols score_cols position_history (k + 1) b p
      = if p = ctx.side_ then
          ((calculate_possible_actions b p rows cols score_cols).map (fun m =>
            minimax_value ctx rows cols score_cols position_history k
              (get_next_board_state b m) (opponent p))).foldl score_max Score.neg_inf
        else
          ((calculate_possible_actions b p rows cols score_cols).map (fun m =>
            minimax_value ctx rows cols score_cols position_history k
              (get_next_board_state b m) (opponent p))).foldl score_min Score.pos_inf := by
  simp only [minimax_value, if_neg h, if_neg hw, if_neg hsome]

/-- A running maximum is at least its start value and every element, and at most every
common upper bound of them. -/
theorem foldl_score_max_spec (l : List Score) :
    ∀ init : Score,
      init.le (l.foldl score_max init) = true ∧
      (∀ x ∈ l, x.le (l.foldl score_max init) = true) ∧
      ∀ r : Score, init.le r = true → (∀ x ∈ l, x.le r = true) →
        (l.foldl score_max init).le r = true := by
  induction l with
  | nil =>
    intro init
    refine ⟨?_, fun x hx => absurd hx (List.not_mem_nil x), fun r h _ => h⟩
    simp only [List.foldl_nil, Score.le_iff]; omega
  | cons c l ih =>
    intro init
    obtain ⟨i1, i2, i3⟩ := ih (score_max init c)
    simp only [List.foldl_cons]
    have hc : init.le (score_max init c) = true ∧ c.le (score_max init c) = true := by
      rcases score_max_cases init c with ⟨h, e⟩ | ⟨h, e⟩ <;> rw [e] <;>
        simp only [Score.lt_iff, Score.le_iff] at h ⊢ <;> omega
    refine ⟨?_, ?_, ?_⟩
    · have := hc.1
      simp only [Score.le_iff] at this i1 ⊢; omega
    · intro x hx
      rcases List.mem_cons.1 hx with rfl | hx
      · have := hc.2
        simp only [Score.le_iff] at this i1 ⊢; omega
      · exact i2 x hx
    · intro r hr hall
      apply i3 r _ (fun x hx => hall x (List.mem_cons_of_mem _ hx))
      have h1 := hall c (List.mem_cons_self _ _)
      rcases score_max_cases init c with ⟨h, e⟩ | ⟨h, e⟩ <;> rw [e]
      · exact h1
      · exact hr

/-- A running minimum is at most its start value and every element, and at least every
common lower bound of them. -/
theorem foldl_score_min_spec (l : List Score) :
    ∀ init : Score,
      (l.foldl score_min init).le init = true ∧
      (∀ x ∈ l, (l.foldl score_min init).le x = true) ∧
      ∀ r : Score, r.le init = true → (∀ x ∈ l, r.le x = true) →
        r.le (l.foldl score_min init) = true := by
  induction l with
  | nil =>
    intro init
    refine ⟨?_, fun x hx => absurd hx (List.not_mem_nil x), fun r h _ => h⟩
    simp only [List.foldl_nil, Score.le_iff]; omega
  | cons c l ih =>
    intro init
    obtain ⟨i1, i2, i3⟩ := ih (score_min init c)
    simp only [List.foldl_cons]
    have hc : (score_min init c).le init = true ∧ (score_min init c).le c = true := by
      rcases score_min_cases init c with ⟨h, e⟩ | ⟨h, e⟩ <;> rw [e] <;>
        simp only [Score.lt_iff, Score.le_iff] at h ⊢ <;> omega
    refine ⟨?_, ?_, ?_⟩
    · have := hc.1
      simp only [Score.le_iff] at this i1 ⊢; omega
    · intro x hx
      rcases List.mem_cons.1 hx with rfl | hx
      · have := hc.2
        simp only [Score.le_iff] at this i1 ⊢; omega
      · exact i2 x hx
    · intro r hr hall
      apply i3 r _ (fun x hx => hall x (List.mem_cons_of_mem _ hx))
      have h1 := hall c (List.mem_cons_self _ _)
      rcases score_min_cases init c with ⟨h, e⟩ | ⟨h, e⟩ <;> rw [e]
      · exact h1
      · exact hr

/-- The table lookup on an entry that is not deeper than needed and, at the needed depth,
sound for the value `v` of the node: a hit fits `v`, and a narrowed window is a proper
window inside the old one in which every score that fits `v` fits `v` in the old one. -/
theorem tt_probe_sound (tt : TranspositionTable) (hash n : Nat) (alpha beta v : Score)
    (hwin : alpha.lt beta = true)
    (hentry : ∀ e, tt hash = some e → e.depth ≤ n ∧ (e.depth = n → entry_sound e v)) :
    (∃ s, tt_probe tt hash n alpha beta = TTProbe.hit s ∧ score_fits s v alpha beta) ∨
    (∃ alpha1 beta1, tt_probe tt hash n alpha beta = TTProbe.window alpha1 beta1 ∧
      alpha1.lt beta1 = true ∧ beta1.le beta = true ∧
      ∀ r, score_fits r v alpha1 beta1 → score_fits r v alpha beta) := by
  have hsame : ∃ alpha1 beta1, TTProbe.window alpha beta = TTProbe.window alpha1 beta1 ∧
      alpha1.lt beta1 = true ∧ beta1.le beta = true ∧
      ∀ r, score_fits r v alpha1 beta1 → score_fits r v alpha beta :=
    ⟨alpha, beta, rfl, hwin, by simp only [Score.le_iff]; omega, fun r h => h⟩
  unfold tt_probe
  cases he : tt hash with
  | none => exact Or.inr hsame
  | some e =>
    obtain ⟨hle, hsound⟩ := hentry e he
    simp only
    by_cases hd : e.depth ≥ n
    · rw [if_pos hd]
      have hs := hsound (by omega)
      unfold entry_sound at hs
      cases hf : e.flag with
      | EXACT =>
        rw [hf] at hs
        simp only at hs
        simp only [if_true]
        exact Or.inl ⟨_, rfl, hs ▸ score_fits_self _ _ _⟩
      | LOWER_BOUND =>
        rw [hf] at hs
        simp only at hs
        simp only [if_true, reduceCtorEq, if_false]
        by_cases hcut : (score_max alpha e.score).ge beta = true
        · rw [if_pos hcut]
          left
          refine ⟨_, rfl, ?_⟩
          unfold score_fits
          rcases score_max_cases alpha e.score with ⟨h, e1⟩ | ⟨h, e1⟩ <;> rw [e1] at hcut <;>
            simp only [Score.lt_iff, Score.le_iff, Score.ge_iff, Score.eq_iff]
              at h hcut hs hwin ⊢ <;> omega
        · rw [if_neg hcut]
          right
          refine ⟨_, _, rfl, ?_, ?_, ?_⟩
          · simp only [Score.lt_iff, Score.ge_iff] at hcut ⊢; omega
          · simp only [Score.le_iff]; omega
          · intro r hr
            unfold score_fits at hr ⊢
            rcases score_max_cases alpha e.score with ⟨h, e1⟩ | ⟨h, e1⟩ <;>
              rw [e1] at hr hcut <;>
              simp only [Score.lt_iff, Score.le_iff, Score.ge_iff, Score.eq_iff]
                at h hcut hs hwin hr ⊢ <;> omega
      | UPPER_BOUND =>
        rw [hf] at hs
        simp only at hs
        simp only [if_true, reduceCtorEq, if_false]
        by_cases hcut : alpha.ge (score_min beta e.score) = true
        · rw [if_pos hcut]
          left
          refine ⟨_, rfl, ?_⟩
          unfold score_fits
          rcases score_min_cases beta e.score with ⟨h, e1⟩ | ⟨h, e1⟩ <;> rw [e1] at hcut <;>
            simp only [Score.lt_iff, Score.le_iff, Score.ge_iff, Score.eq_iff]
              at h hcut hs hwin ⊢ <;> omega
        · rw [if_neg hcut]
          right
          refine ⟨_, _, rfl, ?_, ?_, ?_⟩
          · simp only [Score.lt_iff, Score.ge_iff] at hcut ⊢; omega
          · rcases score_min_cases beta e.score with ⟨h, e1⟩ | ⟨h, e1⟩ <;> rw [e1] <;>
              simp only [Score.lt_iff, Score.le_iff] at h ⊢ <;> omega
          · intro r hr
            unfold score_fits at hr ⊢
            rcases score_min_cases beta e.score with ⟨h, e1⟩ | ⟨h, e1⟩ <;>
              rw [e1] at hr hcut <;>
              simp only [Score.lt_iff, Score.le_iff, Score.ge_iff, Score.eq_iff]
                at h hcut hs hwin hr ⊢ <;> omega
    · rw [if_neg hd]
      exact Or.inr hsame
theorem nodes_fit_store (ctx : SearchContext) (rows cols : Int) (score_cols : List Int)
    (position_history : List Nat) (N : FastBoard → Player → Nat → Prop)
    (tt : TranspositionTable)
    (hsep : nodes_separate ctx rows cols score_cols position_history N)
    (b : FastBoard) (p : Player) (n : Nat) (hN : N b p n) (e : TTEntry) (hdepth : e.depth = n)
    (hsound : entry_sound e (minimax_value ctx rows cols score_cols position_history n b p))
    (hfit : nodes_fit ctx rows cols score_cols position_history N tt) :
    nodes_fit ctx rows cols score_cols position_history N
      (tt_store tt (compute_hash ctx b p rows cols) e) := by
  intro b' p' n' hN' e' he'
  unfold tt_store at he'
  by_cases hk : compute_hash ctx b' p' rows cols = compute_hash ctx b p rows cols
  · rw [if_pos hk] at he'
    cases he'
    obtain ⟨hn, hv⟩ := hsep b' p' n' b p n hN' hN hk
    subst hn
    rw [hv]
    exact ⟨by omega, fun _ => hsound⟩
  · rw [if_neg hk] at he'
    exact hfit b' p' n' hN' e' he'

theorem score_max_val (x y : Int) :
    score_max (Score.val x) (Score.val y) = Score.val (max x y) := by
  unfold score_max
  simp only [Score.lt, decide_eq_true_eq]
  split_ifs with h
  · rw [max_eq_right (le_of_lt h)]
  · rw [max_eq_left (not_lt.1 h)]

theorem score_min_val (x y : Int) :
    score_min (Score.val x) (Score.val y) = Score.val (min x y) := by
  unfold score_min
  simp only [Score.lt, decide_eq_true_eq]
  split_ifs with h
  · rw [min_eq_right (le_of_lt h)]
  · rw [min_eq_left (not_lt.1 h)]

theorem score_max_neg_inf_left (s : Score) : score_max Score.neg_inf s = s := by
  cases s <;> rfl

theorem score_max_neg_inf_right (s : Score) : score_max s Score.neg_inf = s := by
  cases s <;> rfl

theorem score_max_pos_inf_left (s : Score) : score_max Score.pos_inf s = Score.pos_inf := by
  cases s <;> rfl

theorem score_max_pos_inf_right (s : Score) : score_max s Score.pos_inf = Score.pos_inf := by
  cases s <;> rfl

theorem score_min_neg_inf_left (s : Score) : score_min Score.neg_inf s = Score.neg_inf := by
  cases s <;> rfl

theorem score_min_neg_inf_right (s : Score) : score_min s Score.neg_inf = Score.neg_inf := by
  cases s <;> rfl

theorem score_min_pos_inf_left (s : Score) : score_min Score.pos_inf s = s := by
  cases s <;> rfl

theorem score_min_pos_inf_right (s : Score) : score_min s Score.pos_inf = s := by
  cases s <;> rfl

/-- One round of the maximizing loop that ends it: the new maximum is not below `beta`,
and it is a lower bound of the value `c` of the child just searched. -/
theorem max_step_break (alpha0 mx beta r c : Score)
    (h2 : (score_max alpha0 mx).lt beta = true)
    (h3 : (score_max (score_max alpha0 mx) (score_max mx r)).ge beta = true)
    (hfit : score_fits r c (score_max alpha0 mx) beta) :
    ¬ (score_max mx r).lt beta = true ∧ (score_max mx r).le c = true := by
  unfold score_fits at hfit
  cases alpha0 <;> cases mx <;> cases beta <;> cases r <;> cases c <;>
    simp only [score_max_val, score_max_neg_inf_left, score_max_neg_inf_right,
      score_max_pos_inf_left, score_max_pos_inf_right, Score.lt, Score.le, Score.ge,
      Score.val.injEq, reduceCtorEq] at * <;>
    simp at * <;> omega
theorem Score.le_trans (a b c : Score) (h1 : a.le b = true) (h2 : b.le c = true) :
    a.le c = true := by
  cases a <;> cases b <;> cases c <;> simp only [Score.lt, Score.le] at * <;> simp at *
  omega

theorem Score.not_le_of_lt (a b : Score) (h : a.lt b = true) : ¬ b.le a = true := by
  cases a <;> cases b <;> simp only [Score.lt, Score.le] at * <;> simp at *
  omega

/-- One round of the maximizing loop that does not end it. -/
theorem max_step_continue (alpha0 mx beta r c : Score)
    (h2 : (score_max alpha0 mx).lt beta = true)
    (h3 : ¬ (score_max (score_max alpha0 mx) (score_max mx r)).ge beta = true)
    (hfit : score_fits r c (score_max alpha0 mx) beta) :
    (score_max (score_max alpha0 mx) (score_max mx r)).lt beta = true ∧
      c.le (score_max mx r) = true ∧ mx.le (score_max mx r) = true ∧
      score_max (score_max alpha0 mx) (score_max mx r) = score_max alpha0 (score_max mx r) ∧
      ((score_max mx r).le alpha0 = true ∨ (score_max mx r = mx ∧ ¬ mx.le alpha0 = true) ∨
        score_max mx r = c) := by
  unfold score_fits at hfit
  cases alpha0 <;> cases mx <;> cases beta <;> cases r <;> cases c <;>
    simp only [score_max_val, score_max_neg_inf_left, score_max_neg_inf_right,
      score_max_pos_inf_left, score_max_pos_inf_right, Score.lt, Score.le, Score.ge,
      Score.val.injEq, reduceCtorEq] at * <;>
    simp at * <;> omega

/-- One round of the minimizing loop that ends it. -/
theorem min_step_break (beta0 mn alpha r c : Score)
    (h2 : alpha.lt (score_min beta0 mn) = true)
    (h3 : (score_min (score_min beta0 mn) (score_min mn r)).le alpha = true)
    (hfit : score_fits r c alpha (score_min beta0 mn)) :
    ¬ alpha.lt (score_min mn r) = true ∧ c.le (score_min mn r) = true ∧
      score_min (score_min beta0 mn) (score_min mn r) = score_min beta0 (score_min mn r) := by
  unfold score_fits at hfit
  cases beta0 <;> cases mn <;> cases alpha <;> cases r <;> cases c <;>
    simp only [score_min_val, score_min_neg_inf_left, score_min_neg_inf_right,
      score_min_pos_inf_left, score_min_pos_inf_right, Score.lt, Score.le, Score.ge,
      Score.val.injEq, reduceCtorEq] at * <;>
    simp at * <;> omega

/-- One round of the minimizing loop that does not end it. -/
theorem min_step_continue (beta0 mn alpha r c : Score)
    (h2 : alpha.lt (score_min beta0 mn) = true)
    (h3 : ¬ (score_min (score_min beta0 mn) (score_min mn r)).le alpha = true)
    (hfit : score_fits r c alpha (score_min beta0 mn)) :
    alpha.lt (score_min (score_min beta0 mn) (score_min mn r)) = true ∧
      (score_min mn r).le c = true ∧ (score_min mn r).le mn = true ∧
      score_min (score_min beta0 mn) (score_min mn r) = score_min beta0 (score_min mn r) ∧
      (beta0.le (score_min mn r) = true ∨ (score_min mn r = mn ∧ ¬ beta0.le mn = true) ∨
        score_min mn r = c) := by
  unfold score_fits at hfit
  cases beta0 <;> cases mn <;> cases alpha <;> cases r <;> cases c <;>
    simp only [score_min_val, score_min_neg_inf_left, score_min_neg_inf_right,
      score_min_pos_inf_left, score_min_pos_inf_right, Score.lt, Score.le, Score.ge,
      Score.val.injEq, reduceCtorEq] at * <;>
    simp at * <;> omega

/-- The maximizing loop of `alpha_beta_search` when every child search returns a score that
fits the value `cv` of the child and keeps the table condition `G`: the loop keeps `G`; if
it returns a score below `beta`, no child is worth more; and if it returns a score above
the `alpha` it started from, some child is worth at least that score. -/
theorem max_loop_sound (child_search : TranspositionTable → FastBoard → Score → Score →
      Player → Score × TranspositionTable)
    (board : FastBoard) (beta : Score) (next_player : Player)
    (G : TranspositionTable → Prop) (cv : Move → Score) (L : Move → Prop) (alpha0 : Score)
    (hcs : ∀ m, L m → ∀ tt a, G tt → a.lt beta = true →
      score_fits (child_search tt (get_next_board_state board m) a beta next_player).1 (cv m)
        a beta ∧
      G (child_search tt (get_next_board_state board m) a beta next_player).2) :
    ∀ (moves done : List Move) (tt : TranspositionTable) (mx : Score),
      (∀ m ∈ moves, L m) → G tt → (score_max alpha0 mx).lt beta = true →
      (∀ m ∈ done, (cv m).le mx = true) →
      (mx.le alpha0 = true ∨ ∃ m ∈ done, cv m = mx) →
      G (max_loop child_search board beta next_player moves tt (score_max alpha0 mx) mx).2.2 ∧
      ((max_loop child_search board beta next_player moves tt (score_max alpha0 mx) mx).1.lt
          beta = true →
        ∀ m ∈ done ++ moves,
          (cv m).le (max_loop child_search board beta next_player moves tt
            (score_max alpha0 mx) mx).1 = true) ∧
      (alpha0.lt (max_loop child_search board beta next_player moves tt
          (score_max alpha0 mx) mx).1 = true →
        ∃ m ∈ done ++ moves,
          (max_loop child_search board beta next_player moves tt (score_max alpha0 mx) mx).1.le
            (cv m) = true) := by
  intro moves
  induction moves with
  | nil =>
    intro done tt mx _ hG _ h1 h3
    simp only [max_loop, List.append_nil]
    refine ⟨hG, fun _ => h1, ?_⟩
    intro hlt
    rcases h3 with h3 | ⟨m, hm, e⟩
    · exact absurd h3 (Score.not_le_of_lt _ _ hlt)
    · exact ⟨m, hm, by rw [e]; exact Score.le_refl _⟩
  | cons mv rest ih =>
    intro done tt mx hL hG hwin h1 h3
    obtain ⟨hfit, hG'⟩ := hcs mv (hL mv (List.mem_cons_self _ _)) tt _ hG hwin
    simp only [max_loop]
    by_cases hbreak : (score_max (score_max alpha0 mx)
        (score_max mx (child_search tt (get_next_board_state board mv) (score_max alpha0 mx)
          beta next_player).1)).ge beta = true
    · rw [if_pos hbreak]
      obtain ⟨b1, b2⟩ := max_step_break alpha0 mx beta _ (cv mv) hwin hbreak hfit
      refine ⟨hG', fun hlt => absurd hlt b1, fun _ => ⟨mv, by simp, b2⟩⟩
    · rw [if_neg hbreak]
      obtain ⟨c1, c2, c3, c4, c5⟩ := max_step_continue alpha0 mx beta _ (cv mv) hwin hbreak hfit
      rw [c4] at c1 ⊢
      have hnext := ih (done ++ [mv]) _ _ (fun m hm => hL m (List.mem_cons_of_mem _ hm)) hG' c1
        (by
          intro m hm
          rcases List.mem_append.1 hm with hm | hm
          · exact Score.le_trans _ _ _ (h1 m hm) c3
          · rw [List.mem_singleton.1 hm]; exact c2)
        (by
          rcases c5 with c5 | ⟨c5, c6⟩ | c5
          · exact Or.inl c5
          · rcases h3 with h3 | ⟨m, hm, e⟩
            · exact absurd h3 c6
            · exact Or.inr ⟨m, List.mem_append_left _ hm, by rw [e, c5]⟩
          · exact Or.inr ⟨mv, by simp, c5.symm⟩)
      simpa only [List.append_assoc, List.singleton_append] using hnext

/-- The minimizing loop of `alpha_beta_search` when every child search returns a score that
fits the value `cv` of the child and keeps the table condition `G`: the loop keeps `G`; if
it returns a score above `alpha`, no child is worth less; if it returns a score below the
`beta` it started from, some child is worth at most that score; and the `beta` it leaves is
the smaller of the `beta` it started from and the returned score. -/
theorem min_loop_sound (child_search : TranspositionTable → FastBoard → Score → Score →
      Player → Score × TranspositionTable)
    (board : FastBoard) (alpha : Score) (next_player : Player)
    (G : TranspositionTable → Prop) (cv : Move → Score) (L : Move → Prop) (beta0 : Score)
    (hcs : ∀ m, L m → ∀ tt b, G tt → alpha.lt b = true →
      score_fits (child_search tt (get_next_board_state board m) alpha b next_player).1
        (cv m) alpha b ∧
      G (child_search tt (get_next_board_state board m) alpha b next_player).2) :
    ∀ (moves done : List Move) (tt : TranspositionTable) (mn : Score),
      (∀ m ∈ moves, L m) → G tt → alpha.lt (score_min beta0 mn) = true →
      (∀ m ∈ done, mn.le (cv m) = true) →
      (beta0.le mn = true ∨ ∃ m ∈ done, cv m = mn) →
      G (min_loop child_search board alpha next_player moves tt (score_min beta0 mn) mn).2.2 ∧
      (alpha.lt (min_loop child_search board alpha next_player moves tt (score_min beta0 mn)
          mn).1 = true →
        ∀ m ∈ done ++ moves,
          (min_loop child_search board alpha next_player moves tt (score_min beta0 mn)
            mn).1.le (cv m) = true) ∧
      ((min_loop child_search board alpha next_player moves tt (score_min beta0 mn) mn).1.lt
          beta0 = true →
        ∃ m ∈ done ++ moves,
          (cv m).le (min_loop child_search board alpha next_player moves tt
            (score_min beta0 mn) mn).1 = true) ∧
      (min_loop child_search board alpha next_player moves tt (score_min beta0 mn) mn).2.1
        = score_min beta0
            (min_loop child_search board alpha next_player moves tt (score_min beta0 mn)
              mn).1 := by
  intro moves
  induction moves with
  | nil =>
    intro done tt mn _ hG _ h1 h3
    simp only [min_loop, List.append_nil]
    refine ⟨hG, fun _ => h1, ?_, trivial⟩
    intro hlt
    rcases h3 with h3 | ⟨m, hm, e⟩
    · exact absurd h3 (Score.not_le_of_lt _ _ hlt)
    · exact ⟨m, hm, by rw [e]; exact Score.le_refl _⟩
  | cons mv rest ih =>
    intro done tt mn hL hG hwin h1 h3
    obtain ⟨hfit, hG'⟩ := hcs mv (hL mv (List.mem_cons_self _ _)) tt _ hG hwin
    simp only [min_loop]
    by_cases hbreak : (score_min (score_min beta0 mn)
        (score_min mn (child_search tt (get_next_board_state board mv) alpha
          (score_min beta0 mn) next_player).1)).le alpha = true
    · rw [if_pos hbreak]
      obtain ⟨b1, b2, b3⟩ := min_step_break beta0 mn alpha _ (cv mv) hwin hbreak hfit
      exact ⟨hG', fun hlt => absurd hlt b1, fun _ => ⟨mv, by simp, b2⟩, b3⟩
    · rw [if_neg hbreak]
      obtain ⟨c1, c2, c3, c4, c5⟩ := min_step_continue beta0 mn alpha _ (cv mv) hwin hbreak hfit
      rw [c4] at c1 ⊢
      have hnext := ih (done ++ [mv]) _ _ (fun m hm => hL m (List.mem_cons_of_mem _ hm)) hG' c1
        (by
          intro m hm
          rcases List.mem_append.1 hm with hm | hm
          · exact Score.le_trans _ _ _ c3 (h1 m hm)
          · rw [List.mem_singleton.1 hm]; exact c2)
        (by
          rcases c5 with c5 | ⟨c5, c6⟩ | c5
          · exact Or.inl c5
          · rcases h3 with h3 | ⟨m, hm, e⟩
            · exact absurd h3 c6
            · exact Or.inr ⟨m, List.mem_append_left _ hm, by rw [e, c5]⟩
          · exact Or.inr ⟨mv, by simp, c5.symm⟩)
      simpa only [List.append_assoc, List.singleton_append] using hnext
/-- A returned score fits a window when it bounds the value from above whenever it is below
`beta` and from below whenever it is above `alpha`. -/
theorem window_fits (r v alpha beta : Score) (hw : alpha.lt beta = true)
    (hup : r.lt beta = true → v.le r = true) (hlow : alpha.lt r = true → r.le v = true) :
    score_fits r v alpha beta := by
  unfold score_fits
  cases r <;> cases v <;> cases alpha <;> cases beta <;>
    simp only [Score.lt, Score.le, Score.ge, Score.val.injEq, reduceCtorEq] at * <;>
    simp at * <;> omega

/-- The entry a maximizing node stores is sound: `alpha` is the bound the node was called
with, `beta1` the upper bound after the lookup. -/
theorem entry_sound_max (r v alpha beta alpha1 beta1 : Score) (n : Nat)
    (h1 : score_fits r v alpha1 beta1) (h : score_fits r v alpha beta)
    (hb : beta1.le beta = true) :
    entry_sound
      { score := r, depth := n,
        flag := if r.le alpha = true then TTFlag.UPPER_BOUND
          else if r.ge beta1 = true then TTFlag.LOWER_BOUND else TTFlag.EXACT } v := by
  unfold score_fits at h1 h
  by_cases c1 : r.le alpha = true
  · simp only [entry_sound, if_pos c1]
    exact h.1 c1
  · by_cases c2 : r.ge beta1 = true
    · simp only [entry_sound, if_neg c1, if_pos c2]
      apply h1.2.1
      cases r <;> cases beta1 <;> simp only [Score.lt, Score.le, Score.ge] at * <;> simp at *
      omega
    · simp only [entry_sound, if_neg c1, if_neg c2]
      apply h.2.2
      · cases r <;> cases alpha <;> simp only [Score.lt, Score.le, Score.ge] at * <;>
          simp at *
        omega
      · clear h1 h c1
        cases r <;> cases beta1 <;> cases beta <;>
          simp only [Score.lt, Score.le, Score.ge] at * <;> simp at *
        omega

/-- The entry a minimizing node stores is sound: `alpha` is the bound the node was called
with, and the `beta` the flag is computed from is the one the loop has lowered to at most
the returned score. -/
theorem entry_sound_min (r v alpha beta beta1 : Score) (n : Nat)
    (h : score_fits r v alpha beta) :
    entry_sound
      { score := r, depth := n,
        flag := if r.le alpha = true then TTFlag.UPPER_BOUND
          else if r.ge (score_min beta1 r) = true then TTFlag.LOWER_BOUND
          else TTFlag.EXACT } v := by
  unfold score_fits at h
  by_cases c1 : r.le alpha = true
  · simp only [entry_sound, if_pos c1]
    exact h.1 c1
  · have c2 : r.ge (score_min beta1 r) = true := by
      cases r <;> cases beta1 <;>
        simp only [score_min_val, score_min_neg_inf_left, score_min_neg_inf_right,
          score_min_pos_inf_left, score_min_pos_inf_right, Score.lt, Score.le, Score.ge] <;>
        simp
    simp only [entry_sound, if_neg c1, if_pos c2]
    clear c2
    cases r <;> cases v <;> cases alpha <;> cases beta <;>
      simp only [Score.lt, Score.le, Score.ge, Score.val.injEq, reduceCtorEq] at * <;>
      simp at * <;> omega

/-- The body of `alpha_beta_search` at a node of a set `N` of positions with remaining
depths, when fingerprints tell the nodes of `N` apart, `N` holds the successors of its
nodes, the table fits `N`, and the recursive call is sound on the nodes of `N` one level
down: the returned score fits the minimax value of the node in the window of the call, and
the table after the call fits `N` again. -/
theorem search_node_sound (ctx : SearchContext) (rows cols : Int) (score_cols : List Int)
    (position_history : List Nat)
    (child_search : TranspositionTable → FastBoard → Score → Score → Player →
      Score × TranspositionTable)
    (N : FastBoard → Player → Nat → Prop) (n : Nat)
    (hsep : nodes_separate ctx rows cols score_cols position_history N)
    (hclosed : nodes_closed rows cols score_cols N)
    (hchild : ∀ k, n = k + 1 → ∀ b p tt alpha beta, N b p k →
      nodes_fit ctx rows cols score_cols position_history N tt → alpha.lt beta = true →
      score_fits (child_search tt b alpha beta p).1
          (minimax_value ctx rows cols score_cols position_history k b p) alpha beta ∧
        nodes_fit ctx rows cols score_cols position_history N (child_search tt b alpha beta p).2)
    (b : FastBoard) (p : Player) (tt : TranspositionTable) (alpha beta : Score)
    (hN : N b p n) (hfit : nodes_fit ctx rows cols score_cols position_history N tt)
    (hwin : alpha.lt beta = true) :
    score_fits
        (search_node ctx rows cols score_cols position_history child_search n tt b alpha beta
          p).1
        (minimax_value ctx rows cols score_cols position_history n b p) alpha beta ∧
      nodes_fit ctx rows cols score_cols position_history N
        (search_node ctx rows cols score_cols position_history child_search n tt b alpha beta
          p).2 := by
  unfold search_node
  simp only
  by_cases hh : compute_hash ctx b p rows cols ∈ position_history
  · rw [if_pos hh, minimax_value_of_history ctx rows cols score_cols position_history n b p hh]
    exact ⟨score_fits_self _ _ _, hfit⟩
  rw [if_neg hh]
  rcases tt_probe_sound tt (compute_hash ctx b p rows cols) n alpha beta
      (minimax_value ctx rows cols score_cols position_history n b p) hwin
      (hfit b p n hN) with ⟨s, hp, hs⟩ | ⟨a1, b1, hp, hw1, hb1, hweak⟩
  · rw [hp]
    exact ⟨hs, hfit⟩
  rw [hp]
  simp only
  by_cases hleaf : is_win_state b rows cols score_cols = true ∨ n = 0
  · rw [if_pos hleaf]
    have hv := minimax_value_of_leaf ctx rows cols score_cols position_history n b p hh
      (Or.inl hleaf)
    refine ⟨by rw [hv]; exact score_fits_self _ _ _, ?_⟩
    exact nodes_fit_store ctx rows cols score_cols position_history N tt hsep b p n hN _ rfl
      (by rw [hv]; rfl) hfit
  rw [if_neg hleaf]
  by_cases hmoves : calculate_possible_actions b p rows cols score_cols = []
  · rw [if_pos hmoves]
    have hv := minimax_value_of_leaf ctx rows cols score_cols position_history n b p hh
      (Or.inr hmoves)
    refine ⟨by rw [hv]; exact score_fits_self _ _ _, ?_⟩
    exact nodes_fit_store ctx rows cols score_cols position_history N tt hsep b p n hN _ rfl
      (by rw [hv]; rfl) hfit
  rw [if_neg hmoves]
  obtain ⟨k, hk⟩ : ∃ k, n = k + 1 := by
    cases n with
    | zero => exact absurd (Or.inr rfl) hleaf
    | succ k => exact ⟨k, rfl⟩
  have hchild1 := hchild k hk
  subst hk
  have hv := minimax_value_of_node ctx rows cols score_cols position_history k b p hh
    (fun h => hleaf (Or.inl h)) hmoves
  have hmem : ∀ m,
      m ∈ (if k + 1 > 1 ∧ (calculate_possible_actions b p rows cols score_cols).length > 1 then
          order_moves ctx b rows cols score_cols (decide (p = ctx.side_))
            (calculate_possible_actions b p rows cols score_cols)
        else calculate_possible_actions b p rows cols score_cols) ↔
      m ∈ calculate_possible_actions b p rows cols score_cols := by
    intro m
    split
    · exact mem_order_moves _ _ _ _ _ _ _ _
    · exact Iff.rfl
  have hcs : ∀ m, m ∈ calculate_possible_actions b p rows cols score_cols →
      ∀ tt1 a c, nodes_fit ctx rows cols score_cols position_history N tt1 →
        a.lt c = true →
        score_fits (child_search tt1 (get_next_board_state b m) a c (opponent p)).1
            (minimax_value ctx rows cols score_cols position_history k
              (get_next_board_state b m) (opponent p)) a c ∧
          nodes_fit ctx rows cols score_cols position_history N
            (child_search tt1 (get_next_board_state b m) a c (opponent p)).2 :=
    fun m hm tt1 a c hG ha =>
      hchild1 (get_next_board_state b m) (opponent p) tt1 a c (hclosed b p k hN m hm) hG ha
  by_cases hp1 : p = ctx.side_
  · rw [if_pos hp1] at hv
    simp only [hp1, decide_True, if_true] at hmem ⊢
    rw [← hp1] at hmem ⊢
    generalize (if k + 1 > 1 ∧ (calculate_possible_actions b p rows cols score_cols).length > 1
      then order_moves ctx b rows cols score_cols true
        (calculate_possible_actions b p rows cols score_cols)
      else calculate_possible_actions b p rows cols score_cols) = moves at hmem ⊢
    have hloop := max_loop_sound child_search b b1 (opponent p)
      (nodes_fit ctx rows cols score_cols position_history N)
      (fun m => minimax_value ctx rows cols score_cols position_history k
        (get_next_board_state b m) (opponent p))
      (fun m => m ∈ calculate_possible_actions b p rows cols score_cols) a1
      (fun m hm tt1 a hG ha => hcs m hm tt1 a b1 hG ha)
      moves [] tt Score.neg_inf (fun m hm => (hmem m).1 hm) hfit
      (by rw [score_max_neg_inf_right]; exact hw1)
      (fun m hm => absurd hm (List.not_mem_nil m))
      (Or.inl (by cases a1 <;> rfl))
    rw [score_max_neg_inf_right] at hloop
    simp only [List.nil_append] at hloop
    generalize max_loop child_search b b1 (opponent p) moves tt a1 Score.neg_inf = res
      at hloop ⊢
    obtain ⟨hG, hD1, hD2⟩ := hloop
    have hfit1 : score_fits res.1
        (minimax_value ctx rows cols score_cols position_history (k + 1) b p) a1 b1 := by
      apply window_fits _ _ _ _ hw1
      · intro hlt
        rw [hv]
        refine (foldl_score_max_spec _ Score.neg_inf).2.2 res.1 (by cases res.1 <;> rfl) ?_
        intro x hx
        obtain ⟨m, hm, rfl⟩ := List.mem_map.1 hx
        exact hD1 hlt m ((hmem m).2 hm)
      · intro hlt
        obtain ⟨m, hm, hle⟩ := hD2 hlt
        rw [hv]
        exact Score.le_trans _ _ _ hle
          ((foldl_score_max_spec _ Score.neg_inf).2.1 _
            (List.mem_map.2 ⟨m, (hmem m).1 hm, rfl⟩))
    exact ⟨hweak _ hfit1,
      nodes_fit_store ctx rows cols score_cols position_history N _ hsep b p (k + 1) hN _ rfl
        (entry_sound_max _ _ alpha beta a1 b1 (k + 1) hfit1 (hweak _ hfit1) hb1) hG⟩
  · rw [if_neg hp1] at hv
    simp only [hp1, decide_False, Bool.false_eq_true, if_false] at hmem ⊢
    generalize (if k + 1 > 1 ∧ (calculate_possible_actions b p rows cols score_cols).length > 1
      then order_moves ctx b rows cols score_cols false
        (calculate_possible_actions b p rows cols score_cols)
      else calculate_possible_actions b p rows cols score_cols) = moves at hmem ⊢
    have hloop := min_loop_sound child_search b a1 (opponent p)
      (nodes_fit ctx rows cols score_cols position_history N)
      (fun m => minimax_value ctx rows cols score_cols position_history k
        (get_next_board_state b m) (opponent p))
      (fun m => m ∈ calculate_possible_actions b p rows cols score_cols) b1
      (fun m hm tt1 c hG hc => hcs m hm tt1 a1 c hG hc)
      moves [] tt Score.pos_inf (fun m hm => (hmem m).1 hm) hfit
      (by rw [score_min_pos_inf_right]; exact hw1)
      (fun m hm => absurd hm (List.not_mem_nil m))
      (Or.inl (by cases b1 <;> rfl))
    rw [score_min_pos_inf_right] at hloop
    simp only [List.nil_append] at hloop
    generalize min_loop child_search b a1 (opponent p) moves tt b1 Score.pos_inf = res
      at hloop ⊢
    obtain ⟨hG, hE1, hE2, hE3⟩ := hloop
    have hfit1 : score_fits res.1
        (minimax_value ctx rows cols score_cols position_history (k + 1) b p) a1 b1 := by
      apply window_fits _ _ _ _ hw1
      · intro hlt
        obtain ⟨m, hm, hle⟩ := hE2 hlt
        rw [hv]
        exact Score.le_trans _ _ _
          ((foldl_score_min_spec _ Score.pos_inf).2.1 _
            (List.mem_map.2 ⟨m, (hmem m).1 hm, rfl⟩)) hle
      · intro hlt
        rw [hv]
        refine (foldl_score_min_spec _ Score.pos_inf).2.2 res.1 (by cases res.1 <;> rfl) ?_
        intro x hx
        obtain ⟨m, hm, rfl⟩ := List.mem_map.1 hx
        exact hE1 hlt m ((hmem m).2 hm)
    rw [hE3]
    exact ⟨hweak _ hfit1,
      nodes_fit_store ctx rows cols score_cols position_history N _ hsep b p (k + 1) hN _ rfl
        (entry_sound_min _ _ alpha beta b1 (k + 1) (hweak _ hfit1)) hG⟩
/-- `alpha_beta_search` is sound on every set `N` of nodes that fingerprints tell apart and
that holds the successors of its nodes: called at a node of `N` with a table that fits `N`
and a non-empty window, it returns a score that fits the minimax value of the node, and the
table after the call fits `N` again. -/
theorem alpha_beta_search_sound (ctx : SearchContext) (rows cols : Int) (score_cols : List Int)
    (position_history : List Nat) (N : FastBoard → Player → Nat → Prop)
    (hsep : nodes_separate ctx rows cols score_cols position_history N)
    (hclosed : nodes_closed rows cols score_cols N) :
    ∀ (n : Nat) (b : FastBoard) (p : Player) (tt : TranspositionTable) (alpha beta : Score),
      N b p n → nodes_fit ctx rows cols score_cols position_history N tt →
      alpha.lt beta = true →
      score_fits
          (alpha_beta_search ctx rows cols score_cols position_history n tt b alpha beta p).1
          (minimax_value ctx rows cols score_cols position_history n b p) alpha beta ∧
        nodes_fit ctx rows cols score_cols position_history N
          (alpha_beta_search ctx rows cols score_cols position_history n tt b alpha beta
            p).2 := by
  intro n
  induction n with
  | zero =>
    intro b p tt alpha beta hN hfit hwin
    unfold alpha_beta_search
    exact search_node_sound ctx rows cols score_cols position_history _ N 0 hsep hclosed
      (fun k hk => absurd hk (by omega)) b p tt alpha beta hN hfit hwin
  | succ d ih =>
    intro b p tt alpha beta hN hfit hwin
    unfold alpha_beta_search
    refine search_node_sound ctx rows cols score_cols position_history _ N (d + 1) hsep
      hclosed ?_ b p tt alpha beta hN hfit hwin
    intro k hk
    have hkd : d = k := by omega
    subst hkd
    intro b1 p1 tt1 a1 c1 hN1 hfit1 hwin1
    exact ih b1 p1 tt1 a1 c1 hN1 hfit1 hwin1

/-- The root of a tree is one of its nodes. -/
theorem tree_nodes_root (rows cols : Int) (score_cols : List Int) (depth : Nat)
    (board_state : FastBoard) (current_player : Player) :
    (board_state, current_player, depth) ∈
      tree_nodes rows cols score_cols depth board_state current_player := by
  cases depth <;> simp [tree_nodes]

/-- The nodes of a tree hold the successors of each of them. -/
theorem tree_nodes_closed (rows cols : Int) (score_cols : List Int) :
    ∀ (depth : Nat) (board_state : FastBoard) (current_player : Player),
      nodes_closed rows cols score_cols
        (fun b p n => (b, p, n) ∈
          tree_nodes rows cols score_cols depth board_state current_player) := by
  intro depth
  induction depth with
  | zero =>
    intro board_state current_player b p n hN
    simp [tree_nodes] at hN
  | succ d ih =>
    intro board_state current_player b p n hN m hm
    simp only [tree_nodes, List.mem_cons, List.mem_flatMap] at hN ⊢
    rcases hN with hN | ⟨m1, hm1, hN⟩
    · simp only [Prod.mk.injEq] at hN
      obtain ⟨hb, hp, hn⟩ := hN
      have hnd : n = d := by omega
      subst hb hp hnd
      exact Or.inr ⟨m, hm, tree_nodes_root _ _ _ _ _ _⟩
    · exact Or.inr ⟨m1, hm1, ih _ _ b p n hN m hm⟩

/-- The empty table fits every tree. -/
theorem table_fits_empty (ctx : SearchContext) (rows cols : Int) (score_cols : List Int)
    (position_history : List Nat) (depth : Nat) (board_state : FastBoard)
    (current_player : Player) :
    table_fits ctx rows cols score_cols position_history depth board_state current_player
      tt_empty := by
  intro a _ e he
  simp [tt_empty] at he

/-- Fingerprints tell the nodes of a tree apart when no two of its nodes share one. -/
theorem fingerprints_separate_of_nodup (ctx : SearchContext) (rows cols : Int)
    (score_cols : List Int) (position_history : List Nat) (depth : Nat)
    (board_state : FastBoard) (current_player : Player)
    (h : ((tree_nodes rows cols score_cols depth board_state current_player).map
      (fun a => compute_hash ctx a.1 a.2.1 rows cols)).Nodup) :
    fingerprints_separate ctx rows cols score_cols position_history depth board_state
      current_player := by
  intro a ha b hb hab
  have e : a = b := List.inj_on_of_nodup_map h ha hb hab
  subst e
  exact ⟨rfl, rfl⟩

/-- Calls of `alpha_beta_search` at nodes of `N` with non-empty windows keep a table that
fits `N` fitting. -/
theorem table_after_calls_fits (ctx : SearchContext) (rows cols : Int) (score_cols : List Int)
    (position_history : List Nat) (N : FastBoard → Player → Nat → Prop)
    (hsep : nodes_separate ctx rows cols score_cols position_history N)
    (hclosed : nodes_closed rows cols score_cols N) :
    ∀ (calls : List SearchCall) (tt : TranspositionTable),
      (∀ c ∈ calls, N c.board_state c.current_player c.depth ∧ c.alpha.lt c.beta = true) →
      nodes_fit ctx rows cols score_cols position_history N tt →
      nodes_fit ctx rows cols score_cols position_history N
        (table_after_calls ctx rows cols score_cols position_history calls tt) := by
  intro calls
  induction calls with
  | nil =>
    intro tt _ hfit
    exact hfit
  | cons c rest ih =>
    intro tt hcalls hfit
    obtain ⟨hN, hwin⟩ := hcalls c (List.mem_cons_self _ _)
    unfold table_after_calls
    exact ih _ (fun c1 h1 => hcalls c1 (List.mem_cons_of_mem _ h1))
      (alpha_beta_search_sound ctx rows cols score_cols position_history N hsep hclosed
        c.depth c.board_state c.current_player tt c.alpha c.beta hN hfit hwin).2

/-- C4 amended: let fingerprints tell the nodes of the depth-`depth` tree below a position
apart (nodes with the same fingerprint are reached at the same remaining depth and have the
same minimax value), let the table `tt` fit that tree (an entry under the fingerprint of a
node has at most the remaining depth of the node and, at exactly that depth, is a sound
Exact, Lower or Upper score; the cleared table does), and let `calls` be earlier calls of
`alpha_beta_search` at nodes of the tree with non-empty windows.  Then on the table these
calls have left, `alpha_beta_search` with the full window returns at every node of the tree
the same value as a fresh search of the node started with an empty table, namely the
depth-limited minimax value of the node, and the table it leaves fits the tree again. -/
theorem alpha_beta_search_table_sound (ctx : SearchContext) (rows cols : Int)
    (score_cols : List Int) (position_history : List Nat) (depth : Nat)
    (board_state : FastBoard) (current_player : Player) (tt : TranspositionTable)
    (calls : List SearchCall) (b : FastBoard) (p : Player) (n : Nat)
    (hsep : fingerprints_separate ctx rows cols score_cols position_history depth board_state
      current_player)
    (hfit : table_fits ctx rows cols score_cols position_history depth board_state
      current_player tt)
    (hcalls : ∀ c ∈ calls,
      (c.board_state, c.current_player, c.depth) ∈
          tree_nodes rows cols score_cols depth board_state current_player ∧
        c.alpha.lt c.beta = true)
    (hnode : (b, p, n) ∈ tree_nodes rows cols score_cols depth board_state current_player) :
    (alpha_beta_search ctx rows cols score_cols position_history n
        (table_after_calls ctx rows cols score_cols position_history calls tt) b
        Score.neg_inf Score.pos_inf p).1
      = (alpha_beta_search ctx rows cols score_cols position_history n tt_empty b
          Score.neg_inf Score.pos_inf p).1 ∧
    (alpha_beta_search ctx rows cols score_cols position_history n
        (table_after_calls ctx rows cols score_cols position_history calls tt) b
        Score.neg_inf Score.pos_inf p).1
      = minimax_value ctx rows cols score_cols position_history n b p ∧
    table_fits ctx rows cols score_cols position_history depth board_state current_player
      (alpha_beta_search ctx rows cols score_cols position_history n
        (table_after_calls ctx rows cols score_cols position_history calls tt) b
        Score.neg_inf Score.pos_inf p).2 := by
  have hsep1 : nodes_separate ctx rows cols score_cols position_history
      (fun b p n => (b, p, n) ∈
        tree_nodes rows cols score_cols depth board_state current_player) :=
    fun b1 p1 n1 b2 p2 n2 h1 h2 he => hsep (b1, p1, n1) h1 (b2, p2, n2) h2 he
  have hclosed := tree_nodes_closed rows cols score_cols depth board_state current_player
  have hmain := alpha_beta_search_sound ctx rows cols score_cols position_history _ hsep1
    hclosed n b p
  have hfit1 := table_after_calls_fits ctx rows cols score_cols position_history _ hsep1
    hclosed calls tt hcalls (fun b1 p1 n1 h1 => hfit (b1, p1, n1) h1)
  have h1 := hmain (table_after_calls ctx rows cols score_cols position_history calls tt)
    Score.neg_inf Score.pos_inf hnode hfit1 rfl
  have h2 := hmain tt_empty Score.neg_inf Score.pos_inf hnode
    (fun b1 p1 n1 h1 =>
      table_fits_empty ctx rows cols score_cols position_history depth board_state
        current_player (b1, p1, n1) h1) rfl
  have e1 := score_fits_full _ _ h1.1
  have e2 := score_fits_full _ _ h2.1
  exact ⟨e1.trans e2.symm, e1, fun a ha => h1.2 a.1 a.2.1 a.2.2 ha⟩

set_option maxRecDepth 1000000 in
/-- C4 amended, witness: the theorem at the root of the depth-1 tree below `lone_stone_board`,
started from the cleared table, with one earlier call: a depth-1 search of the root with
the window (0, 1).  The seven nodes of the tree have seven fingerprints; the earlier call
is cut off at the first successor and leaves the Lower bound 6500 of depth 1 under the
fingerprint of the root, which the lookup of the full-window search reads and raises
`alpha` to. -/
theorem alpha_beta_search_table_sound_witness :
    (fingerprints_separate square_agent 17 3 [1] [] 1 lone_stone_board Player.SQUARE ∧
      table_fits square_agent 17 3 [1] [] 1 lone_stone_board Player.SQUARE tt_empty ∧
      (∀ c ∈ [SearchCall.mk lone_stone_board 1 (Score.val 0) (Score.val 1) Player.SQUARE],
        (c.board_state, c.current_player, c.depth) ∈
            tree_nodes 17 3 [1] 1 lone_stone_board Player.SQUARE ∧
          c.alpha.lt c.beta = true) ∧
      (lone_stone_board, Player.SQUARE, 1) ∈
        tree_nodes 17 3 [1] 1 lone_stone_board Player.SQUARE ∧
      table_after_calls square_agent 17 3 [1] []
          [SearchCall.mk lone_stone_board 1 (Score.val 0) (Score.val 1) Player.SQUARE]
          tt_empty (compute_hash square_agent lone_stone_board Player.SQUARE 17 3)
        = some { score := Score.val 6500, depth := 1, flag := TTFlag.LOWER_BOUND }) ∧
    ((alpha_beta_search square_agent 17 3 [1] [] 1
        (table_after_calls square_agent 17 3 [1] []
          [SearchCall.mk lone_stone_board 1 (Score.val 0) (Score.val 1) Player.SQUARE]
          tt_empty) lone_stone_board Score.neg_inf Score.pos_inf Player.SQUARE).1
      = (alpha_beta_search square_agent 17 3 [1] [] 1 tt_empty lone_stone_board
          Score.neg_inf Score.pos_inf Player.SQUARE).1 ∧
    (alpha_beta_search square_agent 17 3 [1] [] 1
        (table_after_calls square_agent 17 3 [1] []
          [SearchCall.mk lone_stone_board 1 (Score.val 0) (Score.val 1) Player.SQUARE]
          tt_empty) lone_stone_board Score.neg_inf Score.pos_inf Player.SQUARE).1
      = minimax_value square_agent 17 3 [1] [] 1 lone_stone_board Player.SQUARE ∧
    table_fits square_agent 17 3 [1] [] 1 lone_stone_board Player.SQUARE
      (alpha_beta_search square_agent 17 3 [1] [] 1
        (table_after_calls square_agent 17 3 [1] []
          [SearchCall.mk lone_stone_board 1 (Score.val 0) (Score.val 1) Player.SQUARE]
          tt_empty) lone_stone_board Score.neg_inf Score.pos_inf Player.SQUARE).2) :=
  have hsep : fingerprints_separate square_agent 17 3 [1] [] 1 lone_stone_board
      Player.SQUARE :=
    fingerprints_separate_of_nodup square_agent 17 3 [1] [] 1 lone_stone_board Player.SQUARE
      (by decide!)
  have hnode : (lone_stone_board, Player.SQUARE, 1) ∈
      tree_nodes 17 3 [1] 1 lone_stone_board Player.SQUARE :=
    tree_nodes_root 17 3 [1] 1 lone_stone_board Player.SQUARE
  have hfit : table_fits square_agent 17 3 [1] [] 1 lone_stone_board Player.SQUARE
      tt_empty :=
    table_fits_empty square_agent 17 3 [1] [] 1 lone_stone_board Player.SQUARE
  have hcalls : ∀ c ∈ [SearchCall.mk lone_stone_board 1 (Score.val 0) (Score.val 1)
        Player.SQUARE],
      (c.board_state, c.current_player, c.depth) ∈
          tree_nodes 17 3 [1] 1 lone_stone_board Player.SQUARE ∧
        c.alpha.lt c.beta = true := by
    intro c hc
    rw [List.mem_singleton.1 hc]
    exact ⟨hnode, by decide⟩
  ⟨⟨hsep, hfit, hcalls, hnode, by decide!⟩,
    alpha_beta_search_table_sound square_agent 17 3 [1] [] 1 lone_stone_board Player.SQUARE
      tt_empty [SearchCall.mk lone_stone_board 1 (Score.val 0) (Score.val 1) Player.SQUARE]
      lone_stone_board Player.SQUARE 1 hsep hfit hcalls hnode⟩

end StonesRivers
